import Mathlib

/-!
# VelocyPack: a shallow embedding of the hash, the Slice accessors and the JSON parser

Machine integers are natural numbers; 64-bit wrap-around is written `% 2 ^ 64`
where the C++ code can overflow. Memory is a list of cells, and a byte load
truncates the cell to 8 bits.
-/

namespace Velocypack

/-! ## Memory -/

/-- A region of memory, one list element per byte. -/
abbrev Bytes := List Nat

/-- Load of a `uint8_t` through a pointer: `p[i]`. -/
def byteAt (mem : Bytes) (i : Nat) : Nat := mem.getD i 0 % 256

/-- Load of a `uint64_t` through a `uint64_t const*` (little-endian host), as in `*pos++`. -/
def loadWord64 (mem : Bytes) (off : Nat) : Nat :=
  byteAt mem off + byteAt mem (off + 1) <<< 8 + byteAt mem (off + 2) <<< 16
    + byteAt mem (off + 3) <<< 24 + byteAt mem (off + 4) <<< 32 + byteAt mem (off + 5) <<< 40
    + byteAt mem (off + 6) <<< 48 + byteAt mem (off + 7) <<< 56

/-! ## fasthash.cpp -/

/-- The multiplier `m` of `fasthash64` and `fasthash64x3`. -/
def fasthashM : Nat := 0x880355f21e6d1965

/-- Compression function `mix` of fasthash.cpp. -/
def mix (h : Nat) : Nat :=
  let h1 := h ^^^ (h >>> 23)
  let h2 := (h1 * 0x2127599bf4325c37) % 2 ^ 64
  h2 ^^^ (h2 >>> 47)

/-- One round of the block loop: `h ^= mix(v); h *= m;`. -/
def hashRound (h v : Nat) : Nat := ((h ^^^ mix v) * fasthashM) % 2 ^ 64

/-- The loop `while (pos != end)` of `fasthash64`: `n` is the number of words left
before `end`, `pos` the byte offset of the cursor. -/
def fasthashLoop (buf : Bytes) : Nat → Nat → Nat → Nat
  | 0, _, h => h
  | n + 1, pos, h => fasthashLoop buf n (pos + 8) (hashRound h (loadWord64 buf pos))

/-- The value `v` built by the fall-through `switch (len & 7)`; `pos2` is the byte offset
of the first tail byte and `r = len & 7`. -/
def fasthashTail (buf : Bytes) (pos2 r : Nat) : Nat :=
  let v := 0
  let v := if 7 ≤ r then v ^^^ (byteAt buf (pos2 + 6) <<< 48) else v
  let v := if 6 ≤ r then v ^^^ (byteAt buf (pos2 + 5) <<< 40) else v
  let v := if 5 ≤ r then v ^^^ (byteAt buf (pos2 + 4) <<< 32) else v
  let v := if 4 ≤ r then v ^^^ (byteAt buf (pos2 + 3) <<< 24) else v
  let v := if 3 ≤ r then v ^^^ (byteAt buf (pos2 + 2) <<< 16) else v
  let v := if 2 ≤ r then v ^^^ (byteAt buf (pos2 + 1) <<< 8) else v
  if 1 ≤ r then v ^^^ byteAt buf pos2 else v

/-- The function `fasthash64(buf, len, seed)`. -/
def fasthash64 (buf : Bytes) (len seed : Nat) : Nat :=
  let h := seed ^^^ ((len * fasthashM) % 2 ^ 64)
  let h := fasthashLoop buf (len / 8) 0 h
  let pos2 := 8 * (len / 8)
  let r := len &&& 7
  let h := if 1 ≤ r then hashRound h (fasthashTail buf pos2 r) else h
  mix h

/-- The three accumulators `h[0], h[1], h[2]` of `fasthash64x3`. -/
structure Hash3 where
  h0 : Nat
  h1 : Nat
  h2 : Nat
deriving DecidableEq, Repr

/-- One round of the fused loop: the three `h[k] ^= mix(v)` followed by the three `h[k] *= m`. -/
def hashRound3 (h : Hash3) (v : Nat) : Hash3 :=
  let a0 := h.h0 ^^^ mix v
  let a1 := h.h1 ^^^ mix v
  let a2 := h.h2 ^^^ mix v
  ⟨(a0 * fasthashM) % 2 ^ 64, (a1 * fasthashM) % 2 ^ 64, (a2 * fasthashM) % 2 ^ 64⟩

/-- The loop `while (pos != end)` of `fasthash64x3`. -/
def fasthashLoop3 (buf : Bytes) : Nat → Nat → Hash3 → Hash3
  | 0, _, h => h
  | n + 1, pos, h => fasthashLoop3 buf n (pos + 8) (hashRound3 h (loadWord64 buf pos))

/-- The function `fasthash64x3(buf, len, seeds, h)`; `seeds k` is `seeds[k]`, the result is
the final content of `h[0..2]`. -/
def fasthash64x3 (buf : Bytes) (len : Nat) (seeds : Nat → Nat) : Hash3 :=
  let h : Hash3 := ⟨seeds 0 ^^^ ((len * fasthashM) % 2 ^ 64),
                    seeds 1 ^^^ ((len * fasthashM) % 2 ^ 64),
                    seeds 2 ^^^ ((len * fasthashM) % 2 ^ 64)⟩
  let h := fasthashLoop3 buf (len / 8) 0 h
  let pos2 := 8 * (len / 8)
  let r := len &&& 7
  let h := if 1 ≤ r then hashRound3 h (fasthashTail buf pos2 r) else h
  ⟨mix h.h0, mix h.h1, mix h.h2⟩

/-! ### The hash as the specification words it -/

/-- The mixer as the specification writes it:
`let a = (h XOR (h >> 23)) * 0x2127599bf4325c37 in a XOR (a >> 47)`. -/
def specMix (h : Nat) : Nat :=
  let a := ((h ^^^ (h >>> 23)) * 0x2127599bf4325c37) % 2 ^ 64
  a ^^^ (a >>> 47)

/-- The value of a block of bytes read as a little-endian unsigned integer. -/
def specLittleEndian : List Nat → Nat
  | [] => 0
  | b :: bs => b + 256 * specLittleEndian bs

/-- The tail value of the specification: the OR over the remaining bytes `k` of
`byte_k << 8k`. -/
def specTailOr (bs : List Nat) : Nat :=
  (List.range bs.length).foldl (fun acc k => acc ||| (bs.getD k 0 <<< (8 * k))) 0

/-- The reference fold of the specification over a byte sequence. -/
def specFasthash64 (bytes : List Nat) (seed : Nat) : Nat :=
  let len := bytes.length
  let m := 0x880355f21e6d1965
  let blocks := (List.range (len / 8)).map (fun i => specLittleEndian ((bytes.drop (8 * i)).take 8))
  let h := blocks.foldl (fun h v => ((h ^^^ specMix v) * m) % 2 ^ 64) (seed ^^^ ((len * m) % 2 ^ 64))
  let h := if len % 8 ≠ 0 then ((h ^^^ specMix (specTailOr (bytes.drop (8 * (len / 8))))) * m) % 2 ^ 64
           else h
  specMix h

/-! ## Errors and value types -/

/-- The kinds of `Exception` raised by the library. -/
inductive Error where
  | ParseError
  | InvalidUtf8Sequence
  | UnexpectedControlCharacter
  | NumberOutOfRange
  | InvalidValueType
  | IndexOutOfBounds
  | NoJsonEquivalent
  | NeedAttributeTranslator
  | BuilderKeyMustBeString
  | InternalError
deriving DecidableEq, Repr

deriving instance DecidableEq for Except

/-- The enumeration `ValueType`. -/
inductive ValueType where
  | None | Illegal | Null | Bool | Array | Object | Double | UTCDate | External
  | MinKey | MaxKey | Int | UInt | SmallInt | String | Binary | BCD | Custom
deriving DecidableEq, Repr

/-! ## Slice.cpp: the tables -/

/-- The table `Slice::TypeMap[256]`. -/
def TypeMap : List ValueType := [
  ValueType.None, ValueType.Array, ValueType.Array, ValueType.Array, ValueType.Array, ValueType.Array, ValueType.Array, ValueType.Array,
  ValueType.Array, ValueType.Array, ValueType.Object, ValueType.Object, ValueType.Object, ValueType.Object, ValueType.Object, ValueType.None,
  ValueType.None, ValueType.None, ValueType.None, ValueType.Array, ValueType.Object, ValueType.None, ValueType.None, ValueType.Illegal,
  ValueType.Null, ValueType.Bool, ValueType.Bool, ValueType.Double, ValueType.UTCDate, ValueType.External, ValueType.MinKey, ValueType.MaxKey,
  ValueType.Int, ValueType.Int, ValueType.Int, ValueType.Int, ValueType.Int, ValueType.Int, ValueType.Int, ValueType.Int,
  ValueType.UInt, ValueType.UInt, ValueType.UInt, ValueType.UInt, ValueType.UInt, ValueType.UInt, ValueType.UInt, ValueType.UInt,
  ValueType.SmallInt, ValueType.SmallInt, ValueType.SmallInt, ValueType.SmallInt, ValueType.SmallInt, ValueType.SmallInt, ValueType.SmallInt, ValueType.SmallInt,
  ValueType.SmallInt, ValueType.SmallInt, ValueType.SmallInt, ValueType.SmallInt, ValueType.SmallInt, ValueType.SmallInt, ValueType.SmallInt, ValueType.SmallInt,
  ValueType.String, ValueType.String, ValueType.String, ValueType.String, ValueType.String, ValueType.String, ValueType.String, ValueType.String,
  ValueType.String, ValueType.String, ValueType.String, ValueType.String, ValueType.String, ValueType.String, ValueType.String, ValueType.String,
  ValueType.String, ValueType.String, ValueType.String, ValueType.String, ValueType.String, ValueType.String, ValueType.String, ValueType.String,
  ValueType.String, ValueType.String, ValueType.String, ValueType.String, ValueType.String, ValueType.String, ValueType.String, ValueType.String,
  ValueType.String, ValueType.String, ValueType.String, ValueType.String, ValueType.String, ValueType.String, ValueType.String, ValueType.String,
  ValueType.String, ValueType.String, ValueType.String, ValueType.String, ValueType.String, ValueType.String, ValueType.String, ValueType.String,
  ValueType.String, ValueType.String, ValueType.String, ValueType.String, ValueType.String, ValueType.String, ValueType.String, ValueType.String,
  ValueType.String, ValueType.String, ValueType.String, ValueType.String, ValueType.String, ValueType.String, ValueType.String, ValueType.String,
  ValueType.String, ValueType.String, ValueType.String, ValueType.String, ValueType.String, ValueType.String, ValueType.String, ValueType.String,
  ValueType.String, ValueType.String, ValueType.String, ValueType.String, ValueType.String, ValueType.String, ValueType.String, ValueType.String,
  ValueType.String, ValueType.String, ValueType.String, ValueType.String, ValueType.String, ValueType.String, ValueType.String, ValueType.String,
  ValueType.String, ValueType.String, ValueType.String, ValueType.String, ValueType.String, ValueType.String, ValueType.String, ValueType.String,
  ValueType.String, ValueType.String, ValueType.String, ValueType.String, ValueType.String, ValueType.String, ValueType.String, ValueType.String,
  ValueType.String, ValueType.String, ValueType.String, ValueType.String, ValueType.String, ValueType.String, ValueType.String, ValueType.String,
  ValueType.String, ValueType.String, ValueType.String, ValueType.String, ValueType.String, ValueType.String, ValueType.String, ValueType.String,
  ValueType.String, ValueType.String, ValueType.String, ValueType.String, ValueType.String, ValueType.String, ValueType.String, ValueType.String,
  ValueType.Binary, ValueType.Binary, ValueType.Binary, ValueType.Binary, ValueType.Binary, ValueType.Binary, ValueType.Binary, ValueType.Binary,
  ValueType.BCD, ValueType.BCD, ValueType.BCD, ValueType.BCD, ValueType.BCD, ValueType.BCD, ValueType.BCD, ValueType.BCD,
  ValueType.BCD, ValueType.BCD, ValueType.BCD, ValueType.BCD, ValueType.BCD, ValueType.BCD, ValueType.BCD, ValueType.BCD,
  ValueType.None, ValueType.None, ValueType.None, ValueType.None, ValueType.None, ValueType.None, ValueType.None, ValueType.None,
  ValueType.None, ValueType.None, ValueType.None, ValueType.None, ValueType.None, ValueType.None, ValueType.None, ValueType.None,
  ValueType.None, ValueType.None, ValueType.None, ValueType.None, ValueType.None, ValueType.None, ValueType.None, ValueType.None,
  ValueType.Custom, ValueType.Custom, ValueType.Custom, ValueType.Custom, ValueType.Custom, ValueType.Custom, ValueType.Custom, ValueType.Custom,
  ValueType.Custom, ValueType.Custom, ValueType.Custom, ValueType.Custom, ValueType.Custom, ValueType.Custom, ValueType.Custom, ValueType.Custom]

/-- The table `Slice::WidthMap[32]`; the entries after the sixteenth are zero-initialised. -/
def WidthMap : List Nat :=
  [0, 1, 1, 2, 4, 8, 1, 2, 4, 8, 1, 1, 2, 4, 8, 0] ++ List.replicate 16 0

/-- The table `Slice::FirstSubMap[32]`; the entries after the sixteenth are zero-initialised. -/
def FirstSubMap : List Nat :=
  [0, 1, 2, 3, 5, 9, 3, 5, 9, 9, 1, 5, 9, 9, 9, 0] ++ List.replicate 16 0

/-- The table `Slice::seedTable[3 * 256]`. -/
def seedTable : List Nat := [
  0x5a27472f1245a7ff, 0xeddaba64abf7395c, 0xcf8be3d0165b6f7a,
  0x79a2b28300dbe918, 0x277a445ce1007835, 0x3108190bb5e267de,
  0x61d7646736301350, 0xf421c6a52cc91b5d, 0x513bd42e53f01d5f,
  0xdeb7eae6408f6e87, 0x1d4604aed518d37b, 0x7d622a7930857b90,
  0x617486cf7811a9fa, 0x23d5c4544470595d, 0xb1196ad9361214dc,
  0x136f45b1f41ebd00, 0x6851b305831a45fc, 0x361db6a9779cb8dd,
  0x445e61691dbd5f60, 0x58d26ccd4d5aa6d2, 0x2c4abfaf6c6f40f1,
  0x99e8efb38ba3d04a, 0x9be88ea64fe8e750, 0x787b18142547cd55,
  0x85b0fc78c2e0bbac, 0x999caedfbaceafd8, 0xfe4385126a295417,
  0xeca3ecf77d9b7177, 0xd9f075d1bdae54bc, 0xab1f8f295481a4d6,
  0xef698d125466958e, 0xde8f107ac167eb79, 0x38dd60a797b80385,
  0x4c18b0d685f7bcf3, 0x3e860d6520f67392, 0xb8b533204efac130,
  0x841c44d8f7ce1701, 0xf71743a79c27282c, 0x1eef1b9edcf4f3a9,
  0xe4f0e6f627cccd2d, 0x6f4e8e19a6165a18, 0x60b33a63f392a46d,
  0x4121407ba59517d2, 0x64d9a2eac5c32071, 0x82a6efcc45d140b6,
  0x32fec00d34900c1b, 0x27d7ebfac6683882, 0xcb51b9206334138a,
  0xcdd6a4bf530b5757, 0x69dd7ec6236b7631, 0xac4224d692e117be,
  0x205b8d1f22751b10, 0xb068b38419052d8b, 0x169150a6c274e83e,
  0xbafd63cb54934243, 0x7c6891341b63c54e, 0x2a18f6916d102d98,
  0xf0c70eaa7536a39c, 0xbc74e924a78d7f0e, 0x6934198e95a3e549,
  0xfba84e6892d142a2, 0x384998f977ce7bf2, 0xe7e84ec15d2b5cb5,
  0xb4ba0909973c4ffd, 0x434b6868d7a1681b, 0x03a79309f3b163ef,
  0x4b080fea59fb7c76, 0xf86778965ec1a145, 0x7ccf7627d1e4f2b2,
  0x0a3d9a8a41298dae, 0x0e2b9b4a04997ce8, 0xdc434f5a6dc6861e,
  0xb270d3f9474a5b2d, 0x20f38b3d1904e5ae, 0x3ef3b1e9442a57e9,
  0x266a435d0c922dca, 0x753795d113b256e3, 0xbff434e2cf784ee9,
  0xb6d5164c96e7dc16, 0x430550d0d36c6300, 0xf36ab6fe7064efb5,
  0x07ec0ee830a1767c, 0x8a7a2cb95e34aaf2, 0x4eb0bcb33b0026b1,
  0x5e93428876dc5447, 0xd26438b1b2c4100f, 0xe3efed064b3aed46,
  0x18ba837598564c9b, 0x298024ccddd732b0, 0x11f5c594b49a6ca1,
  0x32ad47c782bb1d50, 0x5fff0c820f39b8f2, 0x755e477122565959,
  0xc8ae37f097d89cb8, 0xb24d1824b4f7ad71, 0x70053e9e0e59bc99,
  0x978c2bddc6bb741b, 0x602fad016df0a808, 0x804dca176b26292a,
  0x58251c008c7edf13, 0x0d17fceba691fd99, 0x8649a5e5cefb105b,
  0xc250595118d043dd, 0x312e9ddf798898c4, 0x5c2e38b5da45a719,
  0x2f0caaa2eeba1987, 0xa659235bc88e7101, 0x2b87f4449854d19d,
  0xd6d731fea26ded84, 0x3434c9a782f5d594, 0x154d6d9b515c1f5f,
  0x6db75059ca2630ef, 0x006ada5b46225ee9, 0x2a54fd59effa748b,
  0x91d2b78084536596, 0xf5f0f75e29cfc444, 0x3a862dfef2d0f286,
  0xec7b96e618bae21e, 0xbd0d63a1c1a98640, 0xfa77f2cb3db0de55,
  0x38293f6e834bc43d, 0x3a8b18b53a18363c, 0x8ad6cec289eeb313,
  0xd66192a47340fde8, 0xe8dc652ca9e0fd59, 0x944e86c2efe1646c,
  0x6f36dddadf6968d2, 0x131d797efd3fc44b, 0x2d47a6e4651d0b4b,
  0x7c5f630746dcc751, 0x77c19f43f7215063, 0x915d10c49752c481,
  0xa66ce8ec129aa339, 0x8479c8d59f5e44f5, 0x2674be9d1ccadb7a,
  0xec882c352d8f2019, 0xa28d1d33176e3ffc, 0x18175217054f43d0,
  0x1b3563f8c9d3aced, 0x7682fab75ba851fa, 0xc0d7b587f1574b49,
  0xcb8038cf0014f1d2, 0xac55ec88be788814, 0x0cb97a80028fe419,
  0x93a1e201e43c6674, 0xc9d71afddf74c30e, 0x0cd6c1f02c4e2e92,
  0x9523a254031101eb, 0x9c9f38f7bc597fc3, 0x4897bc8323323b7d,
  0xc9ea57f06f8202ce, 0x69cc4c0b02fa87ba, 0x606bdaa4b3ec9e08,
  0xed818257521cf215, 0xa8bbb5aa1deeb855, 0xa55a2102317c9ba9,
  0xd8e71eaf9f7d9fef, 0xaa6ef7175d0834c8, 0xe9bb38b5649541e6,
  0xf3a5c4bd1fefdf73, 0x07d348d3c1b339f3, 0x8186a7368c806656,
  0x916ae69e876e6c9f, 0xe18fbe8b5c1f707e, 0x364374da37c8014d,
  0xb82c3ee48e5172e9, 0x852e32079aa36c71, 0x5c40aa309192c94a,
  0x9157a8c505a1533f, 0x2570c06d4e2c7612, 0x3ebdfaac4943a92a,
  0xb1bf61f0ad96867e, 0xfe15d42582b16b16, 0x7e90acc417b18f8e,
  0x5622f26c274e9786, 0xebd547297577b88d, 0xd5ddc97d946f1be0,
  0xb2ef7645383abb58, 0xea1fdac5e10a40e6, 0x5a0195e5bda4819d,
  0x2739a68b77c133a3, 0x7d2012d920dcf157, 0x8f18323850a86f89,
  0x94d6536dd8250f76, 0xaba3659c04fdbf69, 0x3b5fa402e23d6993,
  0xb332d492b8a3b744, 0x48fb322f51460fdc, 0x7782f6bfd626fe57,
  0x57bffbc650ead523, 0xb91b97552b743f92, 0xd1ed60463dba78a4,
  0x57be08fa077b5844, 0xc6408e53e49bf582, 0xfc99cd4727d1df42,
  0xed38fa5e878c55b3, 0x5432ea023a69f99e, 0xc4468438dfc5a4dc,
  0x8e2d5e9fb6b758bf, 0xeb3073d58bce0c1e, 0x6b344610343ba385,
  0x61872e368bd81e31, 0x20e3c2507a8c3937, 0x5eba081e398b3522,
  0x3809ce85e9cc335e, 0x28c4c1d5f7c969c1, 0xcac0c3640edc467c,
  0xcb5795570c17d10f, 0xd475ab2d98cc766f, 0xd7dd8a5590b06c1c,
  0x862e4760c5658ab0, 0xee1c6e257623301f, 0xc53273caee86a8ca,
  0xc13c3e545722f1c4, 0x1ff3d041a0edce58, 0xf575213cae7e174c,
  0xce4c2a02ce1653c3, 0xc469e895e6146acf, 0xebf0fb1681cd9df2,
  0x9c5fec6439be1172, 0xd875737276fa0abd, 0xdeb4a99dcfb05822,
  0x333c355cc8283847, 0x35e7dd40e613e562, 0x3aa1da4f7875cf19,
  0x17f63a1172c70444, 0xeda465021b019797, 0x14b97c19251fc771,
  0x39a090f35940abbe, 0xce3bc2fe92efe9b7, 0xd992ce418042096f,
  0x67c54ee86e34282f, 0x7a4e847828da25fa, 0x1f655ea252209742,
  0x91a5658f089785ad, 0x984c38d5fe57a342, 0x794e4ce36aefacb7,
  0x6e7dd01f458d58cb, 0x8e895e43f557ac9f, 0x1f8384ed848bb4bd,
  0x887f8be841cd1cf2, 0x856e4d742088fe21, 0x5207f2ec7e447848,
  0x4b9e035a0c8d8857, 0x8577d02d8ecd7369, 0xe4d7e132feda262e,
  0x71b57dec609904ea, 0x0ea370024c688347, 0x057ce443de4bc1f5,
  0x497664b61852b3e4, 0xc945acce54c1522a, 0x41efe14d607a2735,
  0x99eb1b2e7d2b4a63, 0x42bbc6a9e3144dc8, 0x89c50aa4dd8b191a,
  0xda3596dbb12ab19b, 0xcd63c08eecf62a54, 0xa127127f2a6f0b68,
  0x0c5806c83642e502, 0xd91125073f399b83, 0x6dab93e5556db41c,
  0x01be658e1468934e, 0x2ec10fb37eb91d61, 0x8d37bca1386e0596,
  0x6f2c32ce30188cb7, 0x8be0324e1598c434, 0xc1444fe2962d6d03,
  0xfc704bf248d36fc3, 0x2389b5caf9b0bcf1, 0x490cc951e85f40c5,
  0x7015b39bcace294f, 0xd52680b1be873dc9, 0xbe5ef2c48387d585,
  0x19f7bc62ec77b8f0, 0x5442a9d23fea40b2, 0xe9461b9f76d4e108,
  0x7e9d8ebf5d1eb82b, 0x9ef231f5c2fd2bec, 0x5c5af47c5f82ddb5,
  0xec5f087bcde51440, 0x043d4a27b8412a75, 0x580917928a2466bd,
  0xf33c0ed06e0139c1, 0xdb9ff7b227bfcf2d, 0x31a0f5a71dc4aa95,
  0x4914bcf22c0423d0, 0xfa0b69358570660c, 0x4ab1fc945643957e,
  0x1141ce9421579e8d, 0xd2246801dca72a0b, 0xa507eeee73017fab,
  0x94a1ace2998caa8b, 0xf93c67d8b7ca9aa1, 0x87d0c3809945d595,
  0xfd1f69b11042adf6, 0xfd8a5ae4c7f60149, 0x67911cb6f3a34b73,
  0xedff8d114a9203ae, 0x682255c5b74b269c, 0x28522f58145979ce,
  0xd032f4032cccc828, 0xad72b2b499a2bf72, 0x277ac1311604d728,
  0x5301d1409e452ef3, 0x6f32572a776cc9d2, 0x9d3e5a1fda84e1d8,
  0x197dd52929b11c10, 0x3ffd34533bee649d, 0x8ad833b329d7dff2,
  0x79da2dd924830781, 0xcc3a599d4da08754, 0x5eb52caf67542ea1,
  0xf6277e794b846f0f, 0x904237ec32c91246, 0xea4f1d5b3b1773e0,
  0x8a29f992af20eb71, 0xd9cf68298fcc0e61, 0xcdd577b1eaebe80c,
  0xe02982d620c99a1d, 0x86b11ab12022a12f, 0xc8eff85ee5c7ef08,
  0x786fd4c3ebd9638e, 0xa288d5a1f7ccf351, 0xe28acd934460c5d5,
  0x430e4e4010db365c, 0x3ed1c5c46081ed62, 0xb897e70dceda5deb,
  0x862085cc97732225, 0x4c60478f131a75eb, 0x58646bca91d4efe8,
  0xb7789478e82bc09b, 0x51512191afa1b60b, 0x7297e1dfc4b4d413,
  0xd99ea6c8a0159374, 0x64792685e5c8a923, 0xa0e3e7bb537df62c,
  0xa674472eefb97e34, 0x368edf4e6076772f, 0x1a3c9fea0f2c3fa9,
  0x331917e5909b2449, 0x4d58a50e2078b171, 0xd56cf470daa27fb1,
  0x1422e07ab6b64bd9, 0xa996ae07205f6ba3, 0x041856b8ebf9732f,
  0xc88a3f95f0229975, 0x16324350d4682b38, 0xb5fab3f3a6ae5bb6,
  0x2e0a2dfbd9790e8f, 0xb84122813cfb80a7, 0x7000ce215d63d283,
  0x9597ca4f19ee6d16, 0xffb7a7fc02adaa00, 0xc7ec49a63779dc3b,
  0x2f799a3a2041d37e, 0x0e77b8863b07e357, 0x5be99ef924cc0624,
  0x1d1864e355290865, 0x948ceec6c3a3260d, 0x925cf040ea95d691,
  0x0350bb5d022f0167, 0x05729d3ef356bab1, 0x439d1a5689f0c458,
  0x20b9aa23ccffd493, 0xe76eb4621f8bb2cf, 0x238e99a1d8ed6224,
  0x798befaef2cebdc4, 0xe918d95d5a38da87, 0x26d1c5d6e08ba92d,
  0x765f3ca0a3e2d96e, 0xdeb3084db17cda2d, 0x543b027d2904bb91,
  0x4de434d7ef09f7e5, 0x02684bdcba8a03d4, 0x1128f8d98ea6a5ac,
  0xf23d7ee683edc6f9, 0x507751c96d55f33d, 0xc94b040f4f41d111,
  0xc36c739dc9f57408, 0x1c89448eff462f11, 0xb763592b1df2360d,
  0xb1b97339bd51eb98, 0x936fd25f45c76a90, 0x826ae0e4ffbbf408,
  0x41a51c2ec9c702d8, 0x75dcf228ff301d28, 0xf0ead5fdd2cd3dd1,
  0xeeb1e73489231354, 0x450d1aefbdcd10cc, 0xaa0f93e937db794a,
  0xfc1e82155262885c, 0x617d9b30097890cd, 0xb5dd7db8677499a3,
  0x66ab34927a5207d4, 0x9e7480158361eea7, 0xc8871c8264316ee7,
  0x228ec9f0938959c8, 0xe70f8be8a6b2d886, 0x61fbdc65dd0c60fb,
  0x70fcb9162dbe77bd, 0x837620f299f5a4ac, 0xb24826d7bf88c1c9,
  0xf0cacd80f141590d, 0xc897afc534861ad0, 0x4b897250f1646680,
  0xef1f8d9be9861c4f, 0x5bd8cf73531c20fa, 0x9721ff044a430818,
  0x8a2efe6045e7632b, 0x58bf9c8053cdef13, 0x6985fc9c9d5bc7cd,
  0x55be707aa1a731ee, 0x03a0fa11137860e7, 0xb5f7f733354b9bac,
  0xbe46778e622cc706, 0xc20f6557e65b3c01, 0xe992f662a93c94f8,
  0xa0841aab50073d0c, 0x6f86ef625899c632, 0x4154b558a40ee3bd,
  0x93f47d0fe2d936ae, 0x4f341bc52f35f164, 0x367d35d1b87c204d,
  0x368b66a0465d4eee, 0x67af26879390d210, 0xa4fef44883979974,
  0x59faf40ef3c85ebc, 0x8566fdea0b73be80, 0x998e7d4afc91045b,
  0x70ab5ae7c60f9109, 0xcb51988c8990bdef, 0x86bc70737c4f5916,
  0x9447fd9f2952f349, 0x49da95da0ce81735, 0xdd24231710ab869f,
  0x3e294837ab307e23, 0x473aeea20958d1a6, 0x5142fc93b20ffe2b,
  0x1a04e04cf643cffb, 0x901b7059ff2e0d27, 0x0d6f1d7ac988828a,
  0x5f583d312bccadfd, 0x9b5c46671d6b27cc, 0xeaa4836c9c447b88,
  0x773a697841a10910, 0x79d14ac4465c19d7, 0x3a9690e07c54afe7,
  0x69ee9028f7f6cd0f, 0x90968edf2dd96311, 0x82c739a73b027102,
  0x1549bf67db5f751d, 0x7dd6f71ae0cddccf, 0x7fdbacae8d958fb5,
  0x2ebd8712f03c07b4, 0x06d36e2cc08e5a33, 0x2a876251df697a53,
  0x99dfaee249ec02a1, 0x1c67725a026ac286, 0x95cd4535f788bec1,
  0xd8dfaba469bc54a1, 0xd36f140fc587240f, 0xd4ab9b76aeec842d,
  0xefd39c76fbba830e, 0x923624cd43bc9fc5, 0xf6325533e5655924,
  0xc208ca880327d5e7, 0xf751e52d243ee000, 0xe687c12b3ddd206b,
  0x7a171de8fd99c8a6, 0xc8dc5e38851e23f0, 0xb67b48f00de977c4,
  0x198caa8c8f88c59c, 0xbdc2483df34c6e07, 0x12546ac3b807baf8,
  0x5153c5b4f97126e5, 0xf3ecfbb3990e33f8, 0xe73105b9ab9c009f,
  0x9727a49bc9449db0, 0x391f77580ab133f2, 0x0eb01a4b6e5b789e,
  0xa5147fec1b43ce6e, 0x87cbdb601008323e, 0x179832561cf06683,
  0xf6df1fe607bc47b2, 0x682d6c88c5c5cfff, 0xa458ce2e1b38add3,
  0xdfc1fb1038093a92, 0x0d9ceaaaca389f06, 0x3f581f185597be3c,
  0xbf36458f6d7f5388, 0xdff3811b1cbfa3a5, 0xf4be7ad281dd0c3c,
  0xd479b96a8f8d99e6, 0x5be5479bab93dd5a, 0x0910d2f10e35e6ed,
  0xa5dc9cdba32d2d7a, 0xb74019f2fcad20bf, 0xcb56cbae8f51d9c3,
  0x7f5c4107d630c174, 0xe0e5f52b2c055da7, 0xf17acc5d0d9744b9,
  0x3f99f4e0bf7fcdd0, 0x07b8f56d6e66aa98, 0x3e2703622b5b3acf,
  0x4abd73907501112e, 0x0fa64fccdf835172, 0xc60af557f99c31c0,
  0x847b8690b7059da5, 0x439f377336ca6c2b, 0x985e520644386a6e,
  0x2f61a9166a6bba00, 0x0f5a0f97ee76baa3, 0x979b61c6bc83c5e6,
  0x9d28865f7ab96faa, 0x19a7750c2b104e0b, 0x330b2550592e80a2,
  0xb89d432933e6fe7a, 0x2e9f32cda0137f88, 0xab1e62ddd23e77b3,
  0x1f77b4d6f62173fa, 0x863e1aa2afa79cd3, 0xd6017169c4c1942b,
  0x74887a1a2c729917, 0xec265d4f23e02c2c, 0xdc3b5f748f3f3423,
  0xc7dfe87aa1e02a4f, 0x83271f06d4baa0c2, 0xfa183ad6005748d5,
  0xa3e04662bec0585d, 0x830008fc1e07652b, 0x8cb3dbba04dcc452,
  0x713363e3d79875e6, 0xe5966abb931f27b6, 0x80ae7eeb92188abc,
  0x5c13ec0dc1482247, 0xe952ef5f2cc9f24d, 0x71bc90a5f3825060,
  0xe7604f555e5e82af, 0xd4a9236ba8cffa56, 0xdd514705032174cb,
  0x8a64b12e846ef793, 0x5198cdeae41e1be8, 0x4f5310eb8b33cfae,
  0x01fa045ad33767be, 0x8881e77d982d2055, 0x8ba499404c6c5723,
  0x784640b95020b8b2, 0x8e6f5a8c5cd6764e, 0x8b312b0867b1afd8,
  0xd9dde65224d5532c, 0x58b510d2deb29c3c, 0xd05544eb8c9b73cb,
  0x475952834bfc777e, 0xc6e654aecf5fc5bd, 0x3ea747e63e723652,
  0xe9df2d3e971a2eac, 0x28ddc0cb1d495929, 0xe777de2235a831f4,
  0x50ddf18b70552027, 0xa2667c384a5f33de, 0x622e462aa17a724b,
  0x344095be42d0ec71, 0xe3599a0ebba82156, 0xc14840b95798481c,
  0x839e0bf89ccd5de5, 0x1f172ff5031a1872, 0xa415048fccf7d037,
  0x7cec12f82df05cb0, 0x9e63d1dce3fc803f, 0x8e42d5823887d01f,
  0xdbb9c557c85d4ce4, 0xcfab43b0e28f4809, 0x9085f6c81f9686be,
  0x7ee0a3abae2ffa32, 0x8c6c9cf13bcd0d91, 0x3c488cfd30e710f8,
  0x41a220d99bd26069, 0x671ca7dc90214783, 0xc7db19f80ac0f648,
  0x93e5bc785c928cdd, 0x0d56e6d1caf4d243, 0x603506884c1adf09,
  0x436a15a927e39c6b, 0x55893d31e306fe2e, 0xe232c843426f9bf1,
  0x8d3d12107ffb10bc, 0x922535aaa27c8b18, 0x5ae07caf50e9c305,
  0x456d83016c62566c, 0x0724924193117ada, 0x80e5bb7cc2ef825b,
  0x041e9dcfc0cf0641, 0xb12cbab8e2c31b6f, 0x5164888e4eb8c322,
  0x26c1d591ed1718ac, 0xe517a0508b1baa99, 0x152968c3b8e51239,
  0xacc0598f02fe29b9, 0x9cd7c2f313151e98, 0x3a436ac49347a424,
  0xf5f527d089263edb, 0x11f5e17f5db2b3f7, 0xfb00e6ba85f763b7,
  0xce993c7af9906aba, 0xebe6864a4ba2c507, 0x651837e53cbe37dd,
  0xd654b6ccdf25d5b6, 0xd314a7e16adb8c92, 0x3fbec4356c844b37,
  0x4c8dfd27a864f74e, 0x644360ccf75880f6, 0x8c15381536a041d6,
  0x556ee714a2bf3d81, 0x81d65409d71d01d9, 0x45d16bdc453cd52a,
  0xcb145f3ab68d33fb, 0x4b30ed5e1c8ce9f6, 0x0d6388a92f4abd30,
  0xbe78c16f7d142d3d, 0xb60b48868c376587, 0xbb2ef7561ab22b9b,
  0x1257a03e96d0e149, 0x3ee914b5adf92cbc, 0xe676a93ce9b79585,
  0xd4bd0a7c21e9344a, 0x2563151a557838c2, 0x688374a72563843f,
  0x90ca643d85b2ad6c, 0x96480743b4c5ec86, 0x483ee5cb6f7f34e4,
  0xa21effb5bf1b9276, 0xb05ec6bb3b6bea97, 0xf54874350deb330d,
  0x50c772c0e17e7b8f, 0x74fa555684319d03, 0xb29f81f7afe4df8b,
  0x0d179ce00887463b, 0x4ada3e8aff51a904, 0x0c409efade365f3c,
  0x3e4b2e10cd122801, 0x6b2243a103368ca3, 0xcfa31fbbdcd1ab40,
  0x9a6a5d1a7e0e5ba0, 0x8f8efdf697ec92da, 0x9f28398e828e001e,
  0xcc31af216577f0b3, 0xbd4ff49d5ada2d73, 0xcb233ef73ff53972,
  0x7a875767d2b9f9e2, 0xa1967d88722eba15, 0x96a01373d011aefc,
  0xd2db66519403b7c8, 0x7bce0ff02cf4fa3c, 0xf2c7467fc40ab866,
  0x0355fda03b2c5bbf, 0x04af0f72322b4662, 0xe585e4009469c2be,
  0xbcef119df6a5d0f7, 0xacb3411273397a2b, 0x382ad14453da2e6b,
  0xb0a0b08482cd5ab4, 0xe9a4942b9b694132, 0x30db634fd81de4d2,
  0x427741041cddd89b, 0x1849aa7b3684b143, 0xe93b7dbedd24ba37,
  0x2abb194b1501ebf0, 0xd0fa24fdbd0e9dff, 0x5807dcce871c004b,
  0x8b9fc3efe303752a, 0x5eb0ab8de36b908a, 0x76b8f19b7d83be69,
  0xa455e16c04da7d05, 0xb0f12e7ab6d1a31a, 0x1f785b7bc1f40170,
  0x5ef07235bcce6282, 0xabd58f78df9d7423, 0x16c128b093d65cf3,
  0x73deacedb38ba2e8, 0x0ecb6e9898876990, 0x6c9d6798e1f81b44,
  0xe5ce240a4b44fd88, 0x5fe280fba7b25814, 0xb11be175c6ecea70,
  0xbb9dd23ec2e25aa2, 0xfb4c6a1665b34063, 0xec12f95432839fd4,
  0xea0d08884c358a58, 0x1d73f94c42a355ef, 0x74ad10d4f3dffa76,
  0xfdd401216aad06da, 0xbc25f93de7b622d1, 0xc255ccb5887d556d,
  0x80060ed75dc747ae, 0xe93b702c41092e5c, 0x4fb89581787f87ed,
  0x5574b03993ae5836, 0xfe8f2cc99334784b, 0x0c9ae00e059a009a,
  0x6e3a112325c4dcad, 0x11026925a76da665, 0xe17eeb8afbeb6d01,
  0x2627bdbf09246a31, 0x33b87d5b6a4e3def, 0x84c6c0d6b7d48b9d,
  0xf2638b1a4cfa9445, 0xa643ffbb228a5954, 0x0a6cb7c5ed495945,
  0xed428a36770b993b, 0xac9cb3d4c8ef14ba, 0x7e50692853b41cdc,
  0x272d4ed1d692621b, 0x4c8381a8ff0f443e, 0xc2a9779c2d293de2,
  0x2c622d1de53aee3e, 0x000e31bf55d591d0, 0x2e3b2a1e8db96bca,
  0xf09157f9592433da, 0xbda6003dd1c19936, 0xa909670cda376744,
  0x198cf3207f06944c, 0xfcd67fb0f99cbf03, 0x5f631f44616502a3,
  0xcce9b2c803934d8e, 0xa00ef5999ddb325f, 0x687d7e71ac01fd32,
  0xcbe0ea6220ad87d3, 0xfc098055fbfa6291, 0x6b7de440c87ede5a,
  0xe48cf4e0ddfae66d, 0x395c5a5a5c03265d, 0xe2db49b5fbe0e6a0,
  0x21b6055ecfd21589, 0xc24333ffc476af48, 0x952099055475e0d6,
  0xd2951a8698be2105, 0xfe7ded32e21dc03e, 0x1d3f405e0567c8b5,
  0x03bfb29fb1f9f04a, 0xa545a1ba497949fc, 0x070bb7fd63739cea,
  0x6812587192bfa044, 0x0da87456d0f1c15a, 0xba0c969c4e8f14b4,
  0xfa821aa6ec641383, 0x07e4a3f4e3d8ce08, 0x92f66f26a9c0289c,
  0x78b680045238f8c6, 0xc30d47d4d5fa4b75, 0x4afc8d4b26e4fb36,
  0x6942c31ccc456b88, 0x34be37ddeb2fd33c, 0x22b6b33e8e25631b,
  0x0862ece62fbdc7bc, 0x0e242c065106daa8, 0xb878e8d3170f75e9,
  0x456ec7add8ef6cd5, 0xfd6b5da413587ffc, 0xc72ed7f012623ed0,
  0xffcdacf9b1573ae9, 0x0590ea296523d71a, 0x6a45638451ca45a8,
  0x8cd8fad4be1bc5e7, 0x4fa5c223ce9a528d, 0xa4c5aac14d7fe68d,
  0x73ce2a42f0a0ed5f, 0x74967ffc0460c902, 0x3c36e00e8d2d2ef5]

/-! ## Slice -/

/-- A Slice is a pointer `_start` into a region of memory. -/
structure Slice where
  mem : Bytes
  start : Nat
deriving DecidableEq, Repr

namespace Slice

/-- The byte `_start[i]`. -/
def byte (s : Slice) (i : Nat) : Nat := byteAt s.mem (s.start + i)

/-- The head byte `head()`. -/
def head (s : Slice) : Nat := s.byte 0

/-- The slice `Slice(_start + off)`. -/
def offset (s : Slice) (off : Nat) : Slice := ⟨s.mem, s.start + off⟩

/-- The type `type()`, read from `TypeMap`. -/
def type (s : Slice) : ValueType := TypeMap.getD s.head ValueType.None

def isObject (s : Slice) : Bool := s.type == ValueType.Object
def isArray (s : Slice) : Bool := s.type == ValueType.Array
def isString (s : Slice) : Bool := s.type == ValueType.String
def isSmallInt (s : Slice) : Bool := s.type == ValueType.SmallInt
def isUInt (s : Slice) : Bool := s.type == ValueType.UInt

end Slice

/-- The slice `Slice()` / `noneSlice()`: it points at a static byte 0x00. -/
def noneSlice : Slice := ⟨[0x00], 0⟩

/-- Modelled from the spec: `readInteger<T>(p, w)` of velocypack-common.h, which reads the
`w` bytes at `p` "as W-byte little-endian unsigned". -/
def readInteger (mem : Bytes) : Nat → Nat → Nat
  | _, 0 => 0
  | off, w + 1 => byteAt mem off + 256 * readInteger mem (off + 1) w

/-- Modelled from the spec: `toInt64` of velocypack-common.h, the two's-complement reading of
a 64-bit pattern as `int64_t`. -/
def toInt64 (v : Nat) : Int := if v < 2 ^ 63 then (v : Int) else (v : Int) - 2 ^ 64

/-- Modelled from the spec: `toUInt64` of velocypack-common.h, the 64-bit pattern of an
`int64_t`. -/
def toUInt64 (v : Int) : Nat := (v % 2 ^ 64).toNat

/-- The constant `INT64_MAX`. -/
def INT64_MAX : Nat := 2 ^ 63 - 1

/-- The constant `INT64_MIN`. -/
def INT64_MIN : Int := -(2 ^ 63)

/-- Subtraction of two `ValueLength` (uint64_t) values, which wraps around. -/
def sub64 (a b : Nat) : Nat := (a + (2 ^ 64 - b % 2 ^ 64)) % 2 ^ 64

/-- Multiplication of two `ValueLength` (uint64_t) values, which wraps around. -/
def mul64 (a b : Nat) : Nat := (a * b) % 2 ^ 64

/-- Modelled from the spec: `indexEntrySize(h)` of Slice.h, the width W of the length field
"drawn from the width table". -/
def indexEntrySize (h : Nat) : Nat := WidthMap.getD h 0

/-- Modelled from the spec: `fastModulo32Bit` of velocypack-common.h,
`fastMod32(x, n) = ((x & 0xFFFF_FFFF) * n) >> 32`. -/
def fastModulo32Bit (x n : Nat) : Nat := (((x &&& 0xFFFFFFFF) * n) % 2 ^ 64) >>> 32

namespace Slice

/-! ### The numeric getters -/

mutual

/-- The function `Slice::getInt()`; the first argument bounds the depth of the calls between the three
getters. -/
def getIntF : Nat → Slice → Except Error Int
  | 0, _ => .error .InternalError
  | fuel + 1, s =>
    let h := s.head
    if 0x20 ≤ h ∧ h ≤ 0x27 then
      let v := readInteger s.mem (s.start + 1) (h - 0x1f)
      if h = 0x27 then
        .ok (toInt64 v)
      else
        let vv : Int := toInt64 v
        let shift : Int := (1 : Int) * 2 ^ ((h - 0x1f) * 8 - 1)
        .ok (if vv < shift then vv else vv - shift * 2)
    else if 0x28 ≤ h ∧ h ≤ 0x2f then
      match getUIntF fuel s with
      | .error e => .error e
      | .ok v => if v > INT64_MAX then .error .NumberOutOfRange else .ok (toInt64 v)
    else if 0x30 ≤ h ∧ h ≤ 0x3f then
      getSmallIntF fuel s
    else
      .error .InvalidValueType

/-- The function `Slice::getUInt()`. -/
def getUIntF : Nat → Slice → Except Error Nat
  | 0, _ => .error .InternalError
  | fuel + 1, s =>
    let h := s.head
    if 0x28 ≤ h ∧ h ≤ 0x2f then
      .ok (readInteger s.mem (s.start + 1) (h - 0x27))
    else if 0x20 ≤ h ∧ h ≤ 0x27 then
      match getIntF fuel s with
      | .error e => .error e
      | .ok v => if v < 0 then .error .NumberOutOfRange else .ok (toUInt64 v)
    else if 0x30 ≤ h ∧ h ≤ 0x39 then
      .ok (h - 0x30)
    else if 0x3a ≤ h ∧ h ≤ 0x3f then
      .error .NumberOutOfRange
    else
      .error .InvalidValueType

/-- The function `Slice::getSmallInt()`. -/
def getSmallIntF : Nat → Slice → Except Error Int
  | 0, _ => .error .InternalError
  | fuel + 1, s =>
    let h := s.head
    if 0x30 ≤ h ∧ h ≤ 0x39 then
      .ok ((h : Int) - 0x30)
    else if 0x3a ≤ h ∧ h ≤ 0x3f then
      .ok ((h : Int) - 0x3a - 6)
    else if (0x20 ≤ h ∧ h ≤ 0x27) ∨ (0x28 ≤ h ∧ h ≤ 0x2f) then
      getIntF fuel s
    else
      .error .InvalidValueType

end

/-- The getter `getInt()`: the calls between the getters nest at most three deep. -/
def getInt (s : Slice) : Except Error Int := getIntF 3 s

/-- The getter `getUInt()`. -/
def getUInt (s : Slice) : Except Error Nat := getUIntF 3 s

/-- The getter `getSmallInt()`. -/
def getSmallInt (s : Slice) : Except Error Int := getSmallIntF 3 s

end Slice

/-! ### The numeric encodings as the specification words them -/

/-- The bytes `off .. off + n - 1` of a region of memory, each loaded as a `uint8_t`. -/
def bytesFrom (buf : Bytes) : Nat → Nat → List Nat
  | _, 0 => []
  | off, n + 1 => byteAt buf off :: bytesFrom buf (off + 1) n

/-- The value of a `w`-byte signed payload with unsigned reading `u`: "sign-extended"
two's complement. -/
def specSignExtend (w u : Nat) : Int :=
  if u < 2 ^ (8 * w - 1) then (u : Int) else (u : Int) - 2 ^ (8 * w)

/-- The mathematical value of a numeric encoding, by the head-byte taxonomy: `0x20..0x27`
signed Int of width head-0x1f, `0x28..0x2f` unsigned UInt of width head-0x27, `0x30..0x39`
SmallInt 0..9, `0x3a..0x3f` SmallInt head-0x3a-6. -/
def specNumericValue (s : Slice) : Int :=
  let h := s.head
  if 0x20 ≤ h ∧ h ≤ 0x27 then
    specSignExtend (h - 0x1f) (specLittleEndian (bytesFrom s.mem (s.start + 1) (h - 0x1f)))
  else if 0x28 ≤ h ∧ h ≤ 0x2f then
    (specLittleEndian (bytesFrom s.mem (s.start + 1) (h - 0x27)) : Nat)
  else if 0x30 ≤ h ∧ h ≤ 0x39 then
    (h : Int) - 0x30
  else
    (h : Int) - 0x3a - 6

/-! ### Strings, keys and sizes -/

/-- The libc function `memcmp(a + ao, b + bo, n)`: the sign of the first difference of two
runs of unsigned bytes. -/
def memcmp (a : Bytes) (ao : Nat) (b : Bytes) (bo : Nat) : Nat → Int
  | 0 => 0
  | n + 1 =>
    if byteAt a ao < byteAt b bo then -1
    else if byteAt b bo < byteAt a ao then 1
    else memcmp a (ao + 1) b (bo + 1) n

/-- The loop of `readVariableValueLength`: `src` holds the bytes in the order in which the
loop visits them, `p` is the shift and `len` the value so far. A byte outside the memory
reads as 0 and ends the loop. -/
def readVariableValueLengthLoop : List Nat → Nat → Nat → Nat
  | [], _, len => len
  | v :: rest, p, len =>
    let len1 := (len + (((v % 256) &&& 0x7f) <<< p)) % 2 ^ 64
    if (v % 256) &&& 0x80 ≠ 0 then readVariableValueLengthLoop rest (p + 7) len1 else len1

/-- Modelled from the spec: `readVariableValueLength<reverse>(source)` of velocypack-common.h,
the varint of compact containers: "7-bit groups with high bit = continuation; forward for
total-length, reverse for nItems". -/
def readVariableValueLength (reverse : Bool) (mem : Bytes) (off : Nat) : Nat :=
  if reverse then readVariableValueLengthLoop (mem.take (off + 1)).reverse 0 0
  else readVariableValueLengthLoop (mem.drop off) 0 0

/-- The loop of `getVariableValueLength`: one more byte for every 7 bits beyond the first. -/
def getVariableValueLengthLoop : Nat → Nat → Nat → Nat
  | 0, _, len => len
  | fuel + 1, value, len =>
    if 0x80 ≤ value then getVariableValueLengthLoop fuel (value >>> 7) (len + 1) else len

/-- Modelled from the spec: `getVariableValueLength(value)` of velocypack-common.h, the "size
of the total-length varint" of a 64-bit value (at most 10 bytes). -/
def getVariableValueLength (value : Nat) : Nat := getVariableValueLengthLoop 10 value 1

namespace Slice

/-- Modelled from the spec: `byteSize()` of Slice.h. "Scalars: determined by head. Short
string: 1 + (head-0x40). Long string: 9 + u64 length. Binary: 1 + W + readUInt(W).
Array/object with index table: readUInt(W) starting at offset 1. Compact: read varint at
offset 1." The spec gives no size for BCD and Custom values. -/
def byteSize (s : Slice) : Option Nat :=
  let h := s.head
  match s.type with
  | ValueType.None | ValueType.Illegal | ValueType.Null | ValueType.Bool
  | ValueType.MinKey | ValueType.MaxKey | ValueType.SmallInt => some 1
  | ValueType.Double | ValueType.UTCDate | ValueType.External => some 9
  | ValueType.Int => some (1 + (h - 0x1f))
  | ValueType.UInt => some (1 + (h - 0x27))
  | ValueType.String =>
    if h = 0xbf then some (9 + readInteger s.mem (s.start + 1) 8) else some (1 + (h - 0x40))
  | ValueType.Binary => some (1 + (h - 0xbf) + readInteger s.mem (s.start + 1) (h - 0xbf))
  | ValueType.Array | ValueType.Object =>
    if h = 0x01 ∨ h = 0x0a then some 1
    else if h = 0x13 ∨ h = 0x14 then some (readVariableValueLength false s.mem (s.start + 1))
    else some (readInteger s.mem (s.start + 1) (indexEntrySize h))
  | ValueType.BCD | ValueType.Custom => none

/-- The slice `Slice(_start + byteSize())` that follows a value; a value without a size rule
is reported as an internal error. -/
def next (s : Slice) : Except Error Slice :=
  match s.byteSize with
  | some n => .ok (s.offset n)
  | none => .error .InternalError

/-- Modelled from the spec: `getString(length)` of Slice.h: "short string points at start+1;
long string at start+9 with u64 length", `InvalidValueType` on another type. The result is
the offset of the payload in the memory of the slice, and its length. -/
def getString (s : Slice) : Except Error (Nat × Nat) :=
  let h := s.head
  if 0x40 ≤ h ∧ h ≤ 0xbe then .ok (s.start + 1, h - 0x40)
  else if h = 0xbf then .ok (s.start + 9, readInteger s.mem (s.start + 1) 8)
  else .error .InvalidValueType

/-- The function `Slice::getUIntUnchecked()`. -/
def getUIntUnchecked (s : Slice) : Nat :=
  let h := s.head
  if 0x28 ≤ h ∧ h ≤ 0x2f then readInteger s.mem (s.start + 1) (h - 0x27)
  else if 0x30 ≤ h ∧ h ≤ 0x39 then h - 0x30
  else 0

/-- The function `Slice::translateUnchecked()`; `t` is `attributeTranslator->translate`, which
returns no slice for an unknown id. -/
def translateUnchecked (t : Nat → Option Slice) (s : Slice) : Slice :=
  match t s.getUIntUnchecked with
  | some r => r
  | none => noneSlice

/-- The function `Slice::makeKey()`; `tr` is `Options::Defaults.attributeTranslator`, absent
when it is `nullptr`. -/
def makeKey (tr : Option (Nat → Option Slice)) (s : Slice) : Except Error Slice :=
  if s.isString then .ok s
  else if s.isSmallInt || s.isUInt then
    match tr with
    | none => .error .NeedAttributeTranslator
    | some t => .ok (translateUnchecked t s)
  else .error .InvalidValueType

/-- The function `Slice::isEqualString(attribute)`. -/
def isEqualString (s : Slice) (attr : Bytes) : Except Error Bool :=
  match s.getString with
  | .error e => .error e
  | .ok (k, keyLength) =>
    if keyLength ≠ attr.length then .ok false
    else .ok (memcmp s.mem k attr 0 attr.length == 0)

/-! ### Compact containers -/

/-- The body of the loop of `Slice::getNthOffsetFromCompact`: step over the value at `offset`
and, in an Object (head 0x14), over the value that follows it. -/
def compactStep (s : Slice) (offset : Nat) : Except Error Nat :=
  match (s.offset offset).byteSize with
  | none => .error .InternalError
  | some n1 =>
    let offset1 := offset + n1
    if s.head = 0x14 then
      match (s.offset offset1).byteSize with
      | none => .error .InternalError
      | some n2 => .ok (offset1 + n2)
    else .ok offset1

/-- The loop `while (current != index)` of `Slice::getNthOffsetFromCompact`; the first
argument is `index - current`. -/
def compactWalk (s : Slice) : Nat → Nat → Except Error Nat
  | 0, offset => .ok offset
  | k + 1, offset =>
    match s.compactStep offset with
    | .error e => .error e
    | .ok offset1 => compactWalk s k offset1

/-- The function `Slice::getNthOffsetFromCompact(index)`. -/
def getNthOffsetFromCompact (s : Slice) (index : Nat) : Except Error Nat :=
  let e := readVariableValueLength false s.mem (s.start + 1)
  let n := readVariableValueLength true s.mem (s.start + e - 1)
  if index ≥ n then .error .IndexOutOfBounds
  else compactWalk s index (1 + getVariableValueLength e)

/-! ### Object lookup -/

/-- Modelled from the spec: the `ObjectIterator` of Iterator.h on a compact Object, as
`Slice::getFromCompactObject` drives it: "linear-scan the compact object", walking forward
over each key and its value by their `byteSize`. `n` is the number of pairs not yet visited,
`off` the offset of the current key. -/
def compactObjectScan (tr : Option (Nat → Option Slice)) (s : Slice) (attr : Bytes) :
    Nat → Nat → Except Error Slice
  | 0, _ => .ok noneSlice
  | n + 1, off =>
    let key := s.offset off
    match key.makeKey tr with
    | .error e => .error e
    | .ok k =>
      match k.isEqualString attr with
      | .error e => .error e
      | .ok true => key.next
      | .ok false =>
        if n = 0 then .ok noneSlice
        else
          match s.compactStep off with
          | .error e => .error e
          | .ok off1 => compactObjectScan tr s attr n off1

/-- Modelled from the spec: `length()` of Slice.h on a compact container, "for compact =
trailing reverse-varint". -/
def compactLength (s : Slice) : Nat :=
  let e := readVariableValueLength false s.mem (s.start + 1)
  readVariableValueLength true s.mem (s.start + e - 1)

/-- The function `Slice::getFromCompactObject(attribute)`. The iterator starts at the first
key, behind the head byte and the total-length varint. -/
def getFromCompactObject (tr : Option (Nat → Option Slice)) (s : Slice) (attr : Bytes) :
    Except Error Slice :=
  let e := readVariableValueLength false s.mem (s.start + 1)
  compactObjectScan tr s attr s.compactLength (1 + getVariableValueLength e)

/-- One probe of `Slice::get` (the block after each `pos[k] = ...` line): read the table
entry at `htBase + pos * offsetSize`; when it is not 0 compare the key found there with the
attr. The result is the value slice on a match, and nothing otherwise. -/
def probe (tr : Option (Nat → Option Slice)) (s : Slice) (attr : Bytes)
    (htBase offsetSize pos : Nat) : Except Error (Option Slice) :=
  let offset := readInteger s.mem (s.start + htBase + pos * offsetSize) offsetSize
  if offset ≠ 0 then
    let e := s.offset offset
    match e.makeKey tr with
    | .error err => .error err
    | .ok k =>
      match k.getString with
      | .error err => .error err
      | .ok (st, stLength) =>
        if attr.length = stLength ∧ memcmp attr 0 k.mem st stLength = 0 then
          match e.next with
          | .error err => .error err
          | .ok v => .ok (some v)
        else .ok none
  else .ok none

/-- The header fields read by `Slice::get` for a cuckoo-hashed Object: the number of slots,
the base of the hash table and the seed index. -/
structure CuckooHeader where
  nrSlots : Nat
  htBase : Nat
  seed : Nat
deriving DecidableEq, Repr

/-- The header decoding of `Slice::get` (lines 603-616). -/
def cuckooHeader (s : Slice) : CuckooHeader :=
  let h := s.head
  let offsetSize := indexEntrySize h
  let e := readInteger s.mem (s.start + 1) offsetSize
  if offsetSize < 4 then
    let nrSlots := readInteger s.mem (s.start + 1 + 2 * offsetSize) offsetSize
    ⟨nrSlots, sub64 e (mul64 nrSlots offsetSize), s.byte (1 + 3 * offsetSize)⟩
  else
    let nrSlots := readInteger s.mem (s.start + e - 1 - offsetSize) offsetSize
    ⟨nrSlots,
     sub64 (sub64 (sub64 e (mul64 nrSlots offsetSize)) 1) (if offsetSize = 4 then 8 else 16),
     s.byte (e - 1)⟩

/-- The slot position `small ? fastModulo32Bit(hash, nrSlots) : hash % nrSlots`. -/
def slotPos (nrSlots hash : Nat) : Nat :=
  if nrSlots ≤ 0x1000000 then fastModulo32Bit hash nrSlots else hash % nrSlots

/-- The function `Slice::get(attribute)`. -/
def get (tr : Option (Nat → Option Slice)) (s : Slice) (attr : Bytes) :
    Except Error Slice :=
  if !s.isObject then .error .InvalidValueType
  else
    let h := s.head
    if h = 0x0a then .ok noneSlice
    else if h = 0x14 then s.getFromCompactObject tr attr
    else
      let offsetSize := indexEntrySize h
      let hd := s.cuckooHeader
      let pos := fasthash64x3 attr attr.length
        (fun k => seedTable.getD (3 * hd.seed + k) 0)
      let pos0 := slotPos hd.nrSlots pos.h0
      match s.probe tr attr hd.htBase offsetSize pos0 with
      | .error err => .error err
      | .ok (some v) => .ok v
      | .ok none =>
        let pos1 := slotPos hd.nrSlots pos.h1
        match s.probe tr attr hd.htBase offsetSize pos1 with
        | .error err => .error err
        | .ok (some v) => .ok v
        | .ok none =>
          -- `pos[2]` is computed, the table entry is read at `pos[1]`
          let _pos2 := slotPos hd.nrSlots pos.h2
          match s.probe tr attr hd.htBase offsetSize pos1 with
          | .error err => .error err
          | .ok (some v) => .ok v
          | .ok none => .ok noneSlice

end Slice

/-! ### Objects as the specification words them -/

/-- The payload bytes of a String slice (no bytes for another type). -/
def stringPayload (k : Slice) : List Nat :=
  match k.getString with
  | .ok (st, len) => bytesFrom k.mem st len
  | .error _ => []

/-- The W-byte entry of slot `p` of the hash table of a cuckoo-hashed Object. -/
def slotEntry (s : Slice) (p : Nat) : Nat :=
  readInteger s.mem (s.start + s.cuckooHeader.htBase + p * indexEntrySize s.head)
    (indexEntrySize s.head)

/-- A cuckoo-hashed Object (head 0x0b, W = 1) with the single pair "a" : 1. Its bytes are the
head, byteLen 12, one item, four slots, seed 0, the key `41 61`, the value `31`, and the hash
table `00 05 00 00`: the offset 5 of the pair is stored in slot 1, the third candidate slot
of the key "a". -/
def thirdSlotObject : Slice :=
  ⟨[0x0b, 0x0c, 0x01, 0x04, 0x00, 0x41, 0x61, 0x31, 0x00, 0x05, 0x00, 0x00], 0⟩

/-! ## Parser.cpp -/

/-- The table `Base64DecodeTable[128]`. -/
def Base64DecodeTable : List Nat := [
  255, 255, 255, 255, 255, 255, 255, 255, 255, 255, 255, 255, 255, 255, 255, 255,
  255, 255, 255, 255, 255, 255, 255, 255, 255, 255, 255, 255, 255, 255, 255, 255,
  255, 255, 255, 255, 255, 255, 255, 255, 255, 255, 255,  62, 255,  62, 255,  63,
  52,  53,  54,  55,  56,  57,  58,  59,  60,  61, 255, 255,   0, 255, 255, 255,
  255,   0,   1,   2,   3,   4,   5,   6,   7,   8,   9,  10,  11,  12,  13,  14,
  15,  16,  17,  18,  19,  20,  21,  22,  23,  24,  25, 255, 255, 255, 255,  63,
  255,  26,  27,  28,  29,  30,  31,  32,  33,  34,  35,  36,  37,  38,  39,  40,
  41,  42,  43,  44,  45,  46,  47,  48,  49,  50,  51, 255, 255, 255, 255, 255]

/-- A `double` value, kept symbolic: the floating-point operations of the parser are recorded,
not evaluated. -/
inductive DoubleExpr where
  /-- The `doubleValue` of a `ParsedNumber` whose digits have the given integer value. -/
  | ofDigits (value : Nat)
  /-- The conversion `static_cast<double>(intValue)`. -/
  | ofUInt (v : Nat)
  /-- The result of `scanDigitsFractional` on the given digits. -/
  | fraction (digits : List Nat)
  | neg (d : DoubleExpr)
  | add (a b : DoubleExpr)
  | sub (a b : DoubleExpr)
  | mul (a b : DoubleExpr)
  /-- The value `pow(10, e)`. -/
  | pow10 (e : DoubleExpr)
  /-- The value `atof(text)`. -/
  | atof (text : Bytes)
deriving DecidableEq, Repr

/-- A call of an operation of the `Builder` whose bytes are produced outside the parser. -/
inductive BuilderCall where
  | addUInt (v : Nat)
  | addInt (v : Int)
  | addDouble (d : DoubleExpr)
  | addUTCDate (v : Int)
  | addArray
  | addObject
  | close
  | reportAdd
  | cleanupAdd
  | removeLast
  | addNull
  | addBool (v : Bool)
  /-- The store `_b->_keyWritten = v`. -/
  | keyWritten (v : Bool)
deriving DecidableEq, Repr

/-- The `Builder` as the parser sees it: `buf` is `_start[0 .. _pos)`, so that `_pos` is
`buf.length`; `calls` lists the Builder operations invoked so far, oldest first. -/
structure Builder where
  buf : Bytes
  calls : List BuilderCall
deriving DecidableEq, Repr

namespace Builder

/-- The position `_pos`. -/
def pos (b : Builder) : Nat := b.buf.length

/-- The statement `_start[_pos++] = x` for a `uint8_t` store. -/
def push (b : Builder) (x : Nat) : Builder := { b with buf := b.buf ++ [x % 256] }

/-- The statement `_start[i] = x` for `i < _pos`. -/
def store (b : Builder) (i x : Nat) : Builder := { b with buf := b.buf.set i (x % 256) }

/-- The statement `_pos -= n`. -/
def rewind (b : Builder) (n : Nat) : Builder := { b with buf := b.buf.take (b.buf.length - n) }

/-- A call of a Builder operation. -/
def call (b : Builder) (c : BuilderCall) : Builder := { b with calls := b.calls ++ [c] }

/-- The loop `do { vSize++; _start[_pos++] = v & 0xff; v >>= 8; } while (v != 0)` of
`appendUInt`, with the bytes written so far. -/
def appendUIntLoop : Nat → Nat → List Nat → List Nat
  | 0, _, acc => acc
  | fuel + 1, v, acc =>
    let acc1 := acc ++ [v &&& 0xff]
    if v >>> 8 ≠ 0 then appendUIntLoop fuel (v >>> 8) acc1 else acc1

/-- Modelled from the spec: `Builder::appendUInt(value, head)`, which appends the head byte
`head + w` followed by the value in `w` little-endian bytes, `w` in 1..8 being the smallest
width that holds the value (Binary: "payload-length field width = head-0xbf"). -/
def appendUInt (b : Builder) (v base : Nat) : Builder :=
  let bytes := appendUIntLoop 8 (v % 2 ^ 64) []
  { b with buf := b.buf ++ ((base + bytes.length) % 256 :: bytes) }

end Builder

/-- Modelled from the spec: the values of the setting `unsupportedTypeBehavior`, which is one
of "{NullifyUnsupportedType, ConvertUnsupportedType, FailOnUnsupportedType}". -/
inductive UnsupportedTypeBehavior where
  | NullifyUnsupportedType
  | ConvertUnsupportedType
  | FailOnUnsupportedType
deriving DecidableEq, Repr

/-- The options read by the parser and by the dumper. -/
structure Options where
  validateUtf8Strings : Bool := false
  keepTopLevelOpen : Bool := false
  unsupportedTypeBehavior : UnsupportedTypeBehavior :=
    UnsupportedTypeBehavior.FailOnUnsupportedType
  /-- The call `attributeExcludeHandler->shouldExclude(key, nesting)`; absent when the
  pointer is `nullptr`. -/
  attributeExcludeHandler : Option (Slice → Nat → Bool) := none
  /-- The call `attributeTranslator->translate(p, keyLength)` on the bytes of a key, which
  returns no slice for an unknown key; absent when the pointer is `nullptr`. -/
  attributeTranslator : Option (Bytes → Option Slice) := none

/-- The state of a `Parser`: the input `_start[0 .. _size)`, the cursor `_pos`, the Builder
`*_b` and the nesting depth `_nesting`. -/
structure Parser where
  input : Bytes
  pos : Nat
  b : Builder
  nesting : Nat
deriving DecidableEq, Repr

/-- An exception leaving a parser function, with the state in which it was thrown. -/
structure Failure where
  error : Error
  state : Parser
deriving DecidableEq, Repr

namespace Parser

/-- The size `_size` of the input. -/
def size (p : Parser) : Nat := p.input.length

/-- The exception `throw Exception(e, ...)`. -/
def fail {α : Type} (p : Parser) (e : Error) : Except Failure α := .error ⟨e, p⟩

/-- Modelled from the spec: `consume()` of Parser.h: the next input byte, with the cursor moved
past it, or nothing (the C++ result -1) at the end of the input. -/
def consume (p : Parser) : Option Nat × Parser :=
  if p.pos ≥ p.size then (none, p) else (some (byteAt p.input p.pos), { p with pos := p.pos + 1 })

/-- Modelled from the spec: `unconsume()` of Parser.h, `--_pos`. -/
def unconsume (p : Parser) : Parser := { p with pos := p.pos - 1 }

/-- Modelled from the spec: `getOneOrThrow(msg)` of Parser.h: `consume()`, with a `ParseError`
at the end of the input. -/
def getOneOrThrow (p : Parser) : Except Failure (Nat × Parser) :=
  match p.consume with
  | (none, p1) => p1.fail .ParseError
  | (some c, p1) => .ok (c, p1)

/-! ### Numbers -/

/-- The fields of `ParsedNumber` that `parseNumber` reads. `digitsValue` is the integer value
of the digits scanned; it stands for `doubleValue` once the value no longer fits `intValue`. -/
structure ParsedNumber where
  intValue : Nat := 0
  digitsValue : Nat := 0
  isInteger : Bool := true
deriving DecidableEq, Repr

namespace ParsedNumber

/-- The field `doubleValue`. -/
def doubleValue (n : ParsedNumber) : DoubleExpr := DoubleExpr.ofDigits n.digitsValue

/-- Modelled from the spec: `ParsedNumber::addDigit`: the digits are collected in the 64-bit
`intValue` as long as the value stays "<= 2^64-1", and in `doubleValue` from then on; a
`doubleValue` that is NaN or infinite is rejected ("Reject `NaN`/`±∞` (→ `NumberOutOfRange`)"),
which is the result `none`. `finite d` tells whether the double `d` is neither NaN nor
infinite. -/
def addDigit (finite : DoubleExpr → Bool) (n : ParsedNumber) (d : Nat) : Option ParsedNumber :=
  if n.isInteger ∧ n.intValue * 10 + d < 2 ^ 64 then
    some { intValue := n.intValue * 10 + d, digitsValue := n.digitsValue * 10 + d,
           isInteger := true }
  else
    let n1 : ParsedNumber :=
      { intValue := n.intValue, digitsValue := n.digitsValue * 10 + d, isInteger := false }
    if finite n1.doubleValue then some n1 else none

/-- Modelled from the spec: `ParsedNumber::asDouble()`. -/
def asDouble (n : ParsedNumber) : DoubleExpr :=
  if n.isInteger then DoubleExpr.ofUInt n.intValue else n.doubleValue

end ParsedNumber

/-- Modelled from the spec: `scanDigits(value)` of Parser.h: "collecting ... integer digits":
consume bytes while they are decimal digits and add them to `value`; a digit that `addDigit`
rejects raises `NumberOutOfRange`. The first argument bounds the number of bytes read. -/
def scanDigits (finite : DoubleExpr → Bool) :
    Nat → Parser → ParsedNumber → Except Failure (Parser × ParsedNumber)
  | 0, p, n => .ok (p, n)
  | fuel + 1, p, n =>
    match p.consume with
    | (none, p1) => .ok (p1, n)
    | (some i, p1) =>
      if i < 0x30 ∨ i > 0x39 then .ok (p1.unconsume, n)
      else
        match n.addDigit finite (i - 0x30) with
        | none => p1.fail .NumberOutOfRange
        | some n1 => scanDigits finite fuel p1 n1

/-- Modelled from the spec: `scanDigitsFractional()` of Parser.h: consume the digits of the
"optional fractional part"; the second component lists the digits read. -/
def scanDigitsFractional : Nat → Parser → List Nat → Parser × List Nat
  | 0, p, ds => (p, ds)
  | fuel + 1, p, ds =>
    match p.consume with
    | (none, p1) => (p1, ds)
    | (some i, p1) =>
      if i < 0x30 ∨ i > 0x39 then (p1.unconsume, ds)
      else scanDigitsFractional fuel p1 (ds ++ [i - 0x30])

/-- The Builder call `_b->op(...)` made by the parser. -/
def emit (p : Parser) (c : BuilderCall) : Parser := { p with b := p.b.call c }

/-- The emission of `Parser::parseNumber()` for a token without fraction and exponent
(lines 164-181). -/
def parseNumberInteger (negative : Bool) (numberValue : ParsedNumber) (p : Parser) :
    Except Failure Parser :=
  if !numberValue.isInteger then
    if negative then .ok (p.emit (.addDouble (.neg numberValue.doubleValue)))
    else .ok (p.emit (.addDouble numberValue.doubleValue))
  else if negative then
    if numberValue.intValue ≤ INT64_MAX then
      .ok (p.emit (.addInt (-(toInt64 numberValue.intValue))))
    else if numberValue.intValue = toUInt64 INT64_MIN then
      .ok (p.emit (.addInt INT64_MIN))
    else
      .ok (p.emit (.addDouble (.neg (.ofUInt numberValue.intValue))))
  else
    .ok (p.emit (.addUInt numberValue.intValue))

/-- The end of `Parser::parseNumber()` behind an exponent marker `e` or `E` (lines 218-241);
`finite d` tells whether the double `d` is neither NaN nor infinite. -/
def parseNumberExponent (finite : DoubleExpr → Bool) (startPos : Nat)
    (fractionalPart : DoubleExpr) (p : Parser) : Except Failure Parser :=
  match p.getOneOrThrow with
  | .error f => .error f
  | .ok (i, p1) =>
    let afterSign : Except Failure (Nat × Parser × Bool) :=
      if i = 0x2b ∨ i = 0x2d then
        match p1.getOneOrThrow with
        | .error f => .error f
        | .ok (i1, p2) => .ok (i1, p2, decide (i = 0x2d))
      else .ok (i, p1, false)
    match afterSign with
    | .error f => .error f
    | .ok (i1, p2, negative) =>
      if i1 < 0x30 ∨ i1 > 0x39 then p2.fail .ParseError
      else
        match scanDigits finite (p2.size + 1) p2.unconsume {} with
        | .error f => .error f
        | .ok (p3, exponent) =>
          let scaled :=
            if negative then DoubleExpr.mul fractionalPart (.pow10 (.neg exponent.asDouble))
            else DoubleExpr.mul fractionalPart (.pow10 exponent.asDouble)
          if !finite scaled then p3.fail .NumberOutOfRange
          else .ok (p3.emit (.addDouble (.atof (p3.input.drop startPos))))

/-- The part of `Parser::parseNumber()` from `if (i != 'e' && i != 'E')` on (lines 210-241);
`i` is the byte consumed last. -/
def parseNumberRest (finite : DoubleExpr → Bool) (startPos : Nat)
    (fractionalPart : DoubleExpr) (i : Nat) (p : Parser) : Except Failure Parser :=
  if i ≠ 0x65 ∧ i ≠ 0x45 then
    .ok (p.unconsume.emit (.addDouble (.atof (p.input.drop startPos))))
  else parseNumberExponent finite startPos fractionalPart p

/-- The part of `Parser::parseNumber()` behind the integer digits (lines 159-241). -/
def parseNumberAfterDigits (finite : DoubleExpr → Bool) (startPos : Nat) (negative : Bool)
    (numberValue : ParsedNumber) (p : Parser) : Except Failure Parser :=
  match p.consume with
  | (none, p1) =>
    parseNumberInteger negative numberValue p1
  | (some i, p1) =>
    if i ≠ 0x2e ∧ i ≠ 0x65 ∧ i ≠ 0x45 then
      parseNumberInteger negative numberValue p1.unconsume
    else if i = 0x2e then
      match p1.getOneOrThrow with
      | .error f => .error f
      | .ok (k, p2) =>
        if k < 0x30 ∨ k > 0x39 then p2.fail .ParseError
        else
          let (p3, ds) := scanDigitsFractional (p2.size + 1) p2.unconsume []
          let fractionalPart :=
            if negative then DoubleExpr.sub (.neg numberValue.asDouble) (.fraction ds)
            else DoubleExpr.add numberValue.asDouble (.fraction ds)
          match p3.consume with
          | (none, p4) => .ok (p4.emit (.addDouble fractionalPart))
          | (some k1, p4) => parseNumberRest finite startPos fractionalPart k1 p4
    else
      let fractionalPart :=
        if negative then DoubleExpr.neg numberValue.asDouble else numberValue.asDouble
      parseNumberRest finite startPos fractionalPart i p1

/-- The function `Parser::parseNumber()`. -/
def parseNumber (finite : DoubleExpr → Bool) (p : Parser) : Except Failure Parser :=
  let startPos := p.pos
  let numberValue : ParsedNumber := {}
  match p.consume with
  | (none, p0) => p0.fail .ParseError
  | (some i0, p0) =>
    let afterSign : Except Failure (Nat × Parser × Bool) :=
      if i0 = 0x2d then
        match p0.getOneOrThrow with
        | .error f => .error f
        | .ok (i, p1) => .ok (i, p1, true)
      else .ok (i0, p0, false)
    match afterSign with
    | .error f => .error f
    | .ok (i, p1, negative) =>
      if i < 0x30 ∨ i > 0x39 then p1.fail .ParseError
      else
        let scanned : Except Failure (Parser × ParsedNumber) :=
          if i ≠ 0x30 then scanDigits finite (p1.size + 1) p1.unconsume numberValue
          else .ok (p1, numberValue)
        match scanned with
        | .error f => .error f
        | .ok (p2, numberValue) => parseNumberAfterDigits finite startPos negative numberValue p2

/-! ### Strings -/

/-- A byte that the bulk copy accepts: no quote, no backslash, no control byte and, in the
validating variant, no byte with the high bit set. -/
def isCopyable (validate : Bool) (c : Nat) : Bool :=
  c != 0x22 && c != 0x5c && decide (0x20 ≤ c) && (!validate || decide (c < 0x80))

/-- Modelled from the spec: the count returned by `JSONStringCopy` and
`JSONStringCopyCheckUtf8` of asm-functions.h, which copy "runs of regular characters until a
quote, backslash, control byte, or (in the validating variant) an invalid UTF-8 lead is seen":
the length of the longest prefix of acceptable bytes of `src`, at most `limit`. -/
def JSONStringCopyCount (validate : Bool) : List Nat → Nat → Nat
  | [], _ => 0
  | _, 0 => 0
  | c :: rest, limit + 1 =>
    if isCopyable validate (c % 256) then 1 + JSONStringCopyCount validate rest limit else 0

/-- The bulk-copy step at the head of the loop of `parseString` (lines 259-276). -/
def bulkCopy (opts : Options) (p : Parser) : Parser :=
  let remainder := p.size - p.pos
  if remainder ≥ 16 then
    let count := JSONStringCopyCount opts.validateUtf8Strings (p.input.drop p.pos) (remainder - 15)
    { p with pos := p.pos + count,
             b := { p.b with buf := p.b.buf ++ bytesFrom p.input p.pos count } }
  else p

/-- The promotion to the long form (lines 279-283): `memmove` of the payload from `base + 1`
to `base + 9`, and `_pos += 8`. The eight bytes at `base + 1` keep their old content. -/
def promote (p : Parser) (base : Nat) : Parser :=
  { p with b := { p.b with buf := p.b.buf.take (base + 9) ++ p.b.buf.drop (base + 1) } }

/-- The loop `for (i = 1; i <= 8; i++) { _start[base + i] = len & 0xff; len >>= 8; }`; the
first argument counts the bytes still to store. -/
def storeLength (base : Nat) : Nat → Nat → Nat → Builder → Builder
  | 0, _, _, b => b
  | k + 1, i, len, b => storeLength base k (i + 1) (len >>> 8) (b.store (base + i) (len &&& 0xff))

/-- The closing-quote case (lines 286-300): write the header of the finished String. -/
def finishString (large : Bool) (base : Nat) (p : Parser) : Parser :=
  if !large then
    let len := p.b.pos - (base + 1)
    { p with b := p.b.store base (0x40 + len % 256) }
  else
    let len := p.b.pos - (base + 9)
    { p with b := storeLength base 8 1 len (p.b.store base 0xbf) }

/-- The Builder store `_b->_start[_b->_pos++] = x` made by the parser. -/
def put (p : Parser) (x : Nat) : Parser := { p with b := p.b.push x }

/-- The loop over the four hex digits of a `\uXXXX` escape (lines 341-358); the first argument
counts the digits still to read, `v` is the value so far. -/
def parseHex : Nat → Nat → Parser → Except Failure (Nat × Parser)
  | 0, v, p => .ok (v, p)
  | k + 1, v, p =>
    match p.consume with
    | (none, p1) => p1.fail .ParseError
    | (some i, p1) =>
      if 0x30 ≤ i ∧ i ≤ 0x39 then parseHex k (((v <<< 4) + i - 0x30) % 2 ^ 32) p1
      else if 0x61 ≤ i ∧ i ≤ 0x66 then parseHex k (((v <<< 4) + i - 0x61 + 10) % 2 ^ 32) p1
      else if 0x41 ≤ i ∧ i ≤ 0x46 then parseHex k (((v <<< 4) + i - 0x41 + 10) % 2 ^ 32) p1
      else p1.fail .ParseError

/-- The case `'u'` of the escape switch (lines 340-391), behind the hex digits: emit the code
unit `v`. The result is the new value of `highSurrogate` and the new state. -/
def emitUnicode (v highSurrogate : Nat) (p : Parser) : Nat × Parser :=
  if v < 0x80 then
    (0, p.put v)
  else if v < 0x800 then
    (0, (p.put (0xc0 + (v >>> 6))).put (0x80 + (v &&& 0x3f)))
  else if v ≥ 0xdc00 ∧ v < 0xe000 ∧ highSurrogate ≠ 0 then
    let v1 := (0x10000 + ((highSurrogate - 0xd800) <<< 10) + v - 0xdc00) % 2 ^ 32
    let p1 : Parser := { p with b := p.b.rewind 3 }
    (0, (((p1.put (0xf0 + (v1 >>> 18))).put (0x80 + ((v1 >>> 12) &&& 0x3f))).put
          (0x80 + ((v1 >>> 6) &&& 0x3f))).put (0x80 + (v1 &&& 0x3f)))
  else
    let hs := if v ≥ 0xd800 ∧ v < 0xdc00 then v else 0
    (hs, ((p.put (0xe0 + (v >>> 12))).put (0x80 + ((v >>> 6) &&& 0x3f))).put (0x80 + (v &&& 0x3f)))

/-- The escape switch of `parseString` (lines 307-394); `i` is the byte behind the backslash.
The result is the new value of `highSurrogate` and the new state. -/
def parseEscape (i highSurrogate : Nat) (p : Parser) : Except Failure (Nat × Parser) :=
  if i = 0x22 ∨ i = 0x2f ∨ i = 0x5c then .ok (0, p.put i)
  else if i = 0x62 then .ok (0, p.put 0x08)
  else if i = 0x66 then .ok (0, p.put 0x0c)
  else if i = 0x6e then .ok (0, p.put 0x0a)
  else if i = 0x72 then .ok (0, p.put 0x0d)
  else if i = 0x74 then .ok (0, p.put 0x09)
  else if i = 0x75 then
    match parseHex 4 0 p with
    | .error f => .error f
    | .ok (v, p1) => .ok (emitUnicode v highSurrogate p1)
  else p.fail .ParseError

/-- The loop over the continuation bytes of a UTF-8 sequence (lines 432-438). -/
def parseFollow : Nat → Parser → Except Failure Parser
  | 0, p => .ok p
  | k + 1, p =>
    match p.getOneOrThrow with
    | .error f => .error f
    | .ok (i, p1) =>
      if i &&& 0xc0 ≠ 0x80 then p1.fail .InvalidUtf8Sequence
      else parseFollow k (p1.put i)

/-- The default case of the switch of `parseString` (lines 396-442): a byte that is neither
the closing quote nor a backslash. -/
def parseRawByte (opts : Options) (i : Nat) (p : Parser) : Except Failure Parser :=
  if i &&& 0x80 = 0 then
    if i < 0x20 then p.fail .UnexpectedControlCharacter
    else .ok (p.put i)
  else if !opts.validateUtf8Strings then
    .ok (p.put i)
  else if i &&& 0xe0 = 0x80 then p.fail .InvalidUtf8Sequence
  else if i &&& 0xe0 = 0xc0 then parseFollow 1 (p.put i)
  else if i &&& 0xf0 = 0xe0 then parseFollow 2 (p.put i)
  else if i &&& 0xf8 = 0xf0 then parseFollow 3 (p.put i)
  else p.fail .InvalidUtf8Sequence

/-- The loop `while (true)` of `Parser::parseString()`. Every turn consumes a byte of the
input or throws; the first argument bounds the number of turns. -/
def parseStringLoop (opts : Options) (base : Nat) :
    Nat → Bool → Nat → Parser → Except Failure Parser
  | 0, _, _, p => p.fail .InternalError
  | fuel + 1, large, highSurrogate, p =>
    let p1 := bulkCopy opts p
    match p1.getOneOrThrow with
    | .error f => .error f
    | .ok (i, p2) =>
      let promoted := !large && decide (p2.b.pos - (base + 1) > 126)
      let large1 := large || promoted
      let p3 := if promoted then p2.promote base else p2
      if i = 0x22 then .ok (finishString large1 base p3)
      else if i = 0x5c then
        match p3.consume with
        | (none, p4) => p4.fail .ParseError
        | (some i1, p4) =>
          match parseEscape i1 highSurrogate p4 with
          | .error f => .error f
          | .ok (hs, p5) => parseStringLoop opts base fuel large1 hs p5
      else
        match parseRawByte opts i p3 with
        | .error f => .error f
        | .ok p4 => parseStringLoop opts base fuel large1 0 p4

/-- The function `Parser::parseString()`, called behind the opening quote. -/
def parseString (opts : Options) (p : Parser) : Except Failure Parser :=
  let base := p.b.pos
  parseStringLoop opts base (p.size - p.pos + 1) false 0 (p.put 0x40)

end Parser

/-! ### The VJSON parser -/

namespace VJsonParser

open Parser

/-- The libc call `memchr(_start + _pos, c, _size - _pos)`: the offset of the first byte `c`
at or behind `pos`; `src` holds the bytes from `pos` on. -/
def memchr (c : Nat) : List Nat → Nat → Option Nat
  | [], _ => none
  | x :: rest, pos => if x % 256 = c then some pos else memchr c rest (pos + 1)

/-- The loop `while (remainder > 0 && _start[_pos + remainder - 1] == '=') --remainder`. -/
def skipPadding (input : Bytes) (pos : Nat) : Nat → Nat
  | 0 => 0
  | r + 1 => if byteAt input (pos + r) = 0x3d then skipPadding input pos r else r + 1

/-- The lookup `(c <= 'z') ? Base64DecodeTable[c] : 0xff`. -/
def decodeChar (c : Nat) : Nat := if c ≤ 0x7a then Base64DecodeTable.getD c 0 else 0xff

/-- The loop `do { ... } while (true)` of `parseBase64` (lines 682-714): `off` is the offset
of `p` in the input, and the first argument bounds the number of turns. -/
def base64Loop : Nat → Parser → Nat → Nat → Except Failure Parser
  | 0, p, _, _ => p.fail .InternalError
  | fuel + 1, p, off, remainder =>
    let b0 := decodeChar (byteAt p.input off)
    let b1 := if remainder > 1 then decodeChar (byteAt p.input (off + 1)) else 0xff
    let b2 := if remainder > 2 then decodeChar (byteAt p.input (off + 2)) else 0xff
    let b3 := if remainder > 3 then decodeChar (byteAt p.input (off + 3)) else 0xff
    let step : Except Failure Parser :=
      if b1 ≠ 0xff then
        let p1 := p.put (((b0 &&& 0x3f) <<< 2) + ((b1 &&& 0x30) >>> 4))
        if b2 ≠ 0xff then
          let p2 := p1.put (((b1 &&& 0x0f) <<< 4) + ((b2 &&& 0x3c) >>> 2))
          if b3 ≠ 0xff then
            .ok (p2.put (((b2 &&& 0x03) <<< 6) + ((b3 &&& 0x3f) >>> 0)))
          else if remainder > 3 then p2.fail .ParseError
          else .ok p2
        else if remainder > 2 then p1.fail .ParseError
        else .ok p1
      else p.fail .ParseError
    match step with
    | .error f => .error f
    | .ok p1 =>
      if remainder ≤ 4 then .ok p1
      else base64Loop fuel p1 (off + 4) (remainder - 4)

/-- The function `VJsonParser::parseBase64()`. -/
def parseBase64 (p : Parser) : Except Failure Parser :=
  match memchr 0x22 (p.input.drop p.pos) p.pos with
  | none => p.fail .ParseError
  | some e =>
    let length := e - p.pos
    let remainder := skipPadding p.input p.pos length
    let decodedLength := 3 * remainder / 4
    let p1 : Parser := { p with b := p.b.appendUInt decodedLength 0xbf }
    if length = 0 then .ok p1
    else
      match base64Loop (remainder / 4 + 1) p1 p1.pos remainder with
      | .error f => .error f
      | .ok p2 => .ok { p2 with pos := p2.pos + length }

/-- The function `VJsonParser::parseUTCDate()`. `parseDate text` is the result of `date::parse`
with the formats `%FT%TZ` and `%FT%T%Ez`, in milliseconds since the epoch; when both formats
fail the stream raises its own failure, which is no `Exception` of the library. -/
def parseUTCDate (parseDate : Bytes → Option Int) (p : Parser) : Except Failure Parser :=
  match memchr 0x22 (p.input.drop p.pos) p.pos with
  | none => p.fail .ParseError
  | some e =>
    let length := e - p.pos
    match parseDate (bytesFrom p.input p.pos length) with
    | none => p.fail .InternalError
    | some ms => .ok { (p.emit (.addUTCDate ms)) with pos := p.pos + length }

/-- The function `VJsonParser::parseString()`, called behind the opening quote. -/
def parseString (opts : Options) (parseDate : Bytes → Option Int) (p : Parser) :
    Except Failure Parser :=
  if p.size - p.pos < 2 then p.fail .ParseError
  else
    let type := byteAt p.input p.pos
    if byteAt p.input (p.pos + 1) ≠ 0x3a then p.fail .ParseError
    else if type = 0x73 then
      Parser.parseString opts { p with pos := p.pos + 2 }
    else if type = 0x62 then
      match parseBase64 { p with pos := p.pos + 2 } with
      | .error f => .error f
      | .ok p1 => .ok p1.consume.2
    else if type = 0x64 then
      match parseUTCDate parseDate { p with pos := p.pos + 2 } with
      | .error f => .error f
      | .ok p1 => .ok p1.consume.2
    else p.fail .ParseError

end VJsonParser

/-! ### JSON tokens as the specification words them -/

/-- The value of a sequence of decimal digits, most significant first. -/
def specDecimal (ds : List Nat) : Nat := ds.foldl (fun a d => a * 10 + d) 0

/-- The ASCII bytes of a sequence of decimal digits. -/
def digitBytes (ds : List Nat) : Bytes := ds.map (fun d => d + 0x30)

/-- The invariant of a `ParsedNumber` while digits are added: `intValue` holds the value of
the digits exactly as long as `isInteger` is set, and the value has left the 64-bit range
once it is cleared. -/
def Parser.ParsedNumber.Good (n : Parser.ParsedNumber) : Prop :=
  (n.isInteger = true → n.intValue = n.digitsValue ∧ n.digitsValue < 2 ^ 64)
    ∧ (n.isInteger = false → 2 ^ 64 ≤ n.digitsValue)

/-- The first `n` bytes of the little-endian representation of `v`. -/
def littleEndianBytes : Nat → Nat → List Nat
  | 0, _ => []
  | n + 1, v => v % 256 :: littleEndianBytes n (v / 256)

/-- The bytes of a String value with payload `P`, by the head-byte taxonomy: the short form
`0x40 + L` for a payload of L <= 126 bytes, the long form `0xbf` with the length as an 8-byte
little-endian integer from 127 bytes on. -/
def specStringBytes (P : List Nat) : List Nat :=
  if P.length ≤ 126 then (0x40 + P.length) :: P
  else 0xbf :: (littleEndianBytes 8 P.length ++ P)

/-- The invariant of the Builder buffer during `Parser::parseString`: the bytes before `base`
are untouched; behind them lie the header byte, the eight reserved bytes once the string is
`large`, and the payload, which holds at least the three bytes of a pending high surrogate
and at least 127 bytes once the string is `large`. -/
def StringInv (old : Bytes) (large : Bool) (highSurrogate : Nat) (buf : Bytes) : Prop :=
  buf.take old.length = old
    ∧ old.length + 1 + (if large then 8 else 0) + (if highSurrogate ≠ 0 then 3 else 0) ≤ buf.length
    ∧ (large = true → old.length + 9 + 127 ≤ buf.length)

/-- The value of a hexadecimal digit, upper or lower case. -/
def hexDigitValue (c : Nat) : Option Nat :=
  if 0x30 ≤ c ∧ c ≤ 0x39 then some (c - 0x30)
  else if 0x61 ≤ c ∧ c ≤ 0x66 then some (c - 0x61 + 10)
  else if 0x41 ≤ c ∧ c ≤ 0x46 then some (c - 0x41 + 10)
  else none

/-- The 16-bit value written by four hexadecimal digits. -/
def specHex4 (cs : List Nat) : Option Nat :=
  match cs with
  | [a, b, c, d] =>
    match hexDigitValue a, hexDigitValue b, hexDigitValue c, hexDigitValue d with
    | some va, some vb, some vc, some vd => some (((va * 16 + vb) * 16 + vc) * 16 + vd)
    | _, _, _, _ => none
  | _ => none

/-- The standard UTF-8 encoding of a code point. -/
def specUtf8 (cp : Nat) : List Nat :=
  if cp < 0x80 then [cp]
  else if cp < 0x800 then [0xc0 + cp / 0x40, 0x80 + cp % 0x40]
  else if cp < 0x10000 then [0xe0 + cp / 0x1000, 0x80 + cp / 0x40 % 0x40, 0x80 + cp % 0x40]
  else [0xf0 + cp / 0x40000, 0x80 + cp / 0x1000 % 0x40, 0x80 + cp / 0x40 % 0x40,
        0x80 + cp % 0x40]

/-- The code point of a surrogate pair. -/
def specSurrogatePair (h l : Nat) : Nat := 0x10000 + (h - 0xd800) * 0x400 + (l - 0xdc00)

/-- The character of a 6-bit value in the base64 alphabet `+/`, or in the alphabet `-_` when
`urlSafe` is set. -/
def base64Char (urlSafe : Bool) (v : Nat) : Nat :=
  if v < 26 then 0x41 + v
  else if v < 52 then 0x61 + (v - 26)
  else if v < 62 then 0x30 + (v - 52)
  else if v = 62 then (if urlSafe then 0x2d else 0x2b)
  else (if urlSafe then 0x5f else 0x2f)

/-- The padded base64 encoding of a sequence of bytes. -/
def specBase64 (urlSafe : Bool) : List Nat → List Nat
  | a :: b :: c :: rest =>
    base64Char urlSafe (a / 4) :: base64Char urlSafe (a % 4 * 16 + b / 16)
      :: base64Char urlSafe (b % 16 * 4 + c / 64) :: base64Char urlSafe (c % 64)
      :: specBase64 urlSafe rest
  | [a, b] =>
    [base64Char urlSafe (a / 4), base64Char urlSafe (a % 4 * 16 + b / 16),
     base64Char urlSafe (b % 16 * 4), 0x3d]
  | [a] => [base64Char urlSafe (a / 4), base64Char urlSafe (a % 4 * 16), 0x3d, 0x3d]
  | [] => []

/-- The number of characters of the padded base64 encoding of `B` that are no padding. -/
def specBase64Chars (B : List Nat) : Nat :=
  4 * (B.length / 3) + (if B.length % 3 = 0 then 0 else B.length % 3 + 1)

/-! ### Access by position -/

namespace Slice

/-- Modelled from the spec: `findDataOffset(head)` of Slice.h, the offset of the first
sub-value of an Array or Object, which the specification gives as `firstSubOffset(h)`, the
entry of the table `head → firstSubOffset`. -/
def findDataOffset (h : Nat) : Nat := FirstSubMap.getD h 0

/-- The values that `Slice::getNthOffset` computes before it compares the index: the offset
of the data (0 when it is not computed yet), the number `n` of items or slots, and the base
of the index table. -/
structure NthHeader where
  dataOffset : Nat
  n : Nat
  ieBase : Nat
deriving DecidableEq, Repr

/-- The block "find the number of items or number of slots" of `Slice::getNthOffset` (lines
805-835) for a head other than 0x01, 0x0a, 0x13, 0x14. The first element of an Array without
index table must have a size to divide by: a value without a size rule, and the division by
a size of 0, which has no result in the source, are reported as an internal error. -/
def nthHeader (s : Slice) : Except Error NthHeader :=
  let h := s.head
  let offsetSize := indexEntrySize h
  let e := readInteger s.mem (s.start + 1) offsetSize
  if h ≤ 0x05 then
    let dataOffset := findDataOffset h
    match (s.offset dataOffset).byteSize with
    | none => .error .InternalError
    | some bs =>
      if bs = 0 then .error .InternalError
      else .ok ⟨dataOffset, sub64 e dataOffset / bs, 0⟩
  else if h ≤ 0x09 then
    if offsetSize < 8 then
      let n := readInteger s.mem (s.start + 1 + offsetSize) offsetSize
      .ok ⟨0, n, sub64 e (mul64 n offsetSize)⟩
    else
      let n := readInteger s.mem (s.start + e - offsetSize) offsetSize
      .ok ⟨0, n, sub64 (sub64 e (mul64 n offsetSize)) 8⟩
  else
    if offsetSize < 4 then
      let n := readInteger s.mem (s.start + 1 + 2 * offsetSize) offsetSize
      .ok ⟨0, n, sub64 e (mul64 n offsetSize)⟩
    else
      let n := readInteger s.mem (s.start + e - 1 - offsetSize) offsetSize
      .ok ⟨0, n,
        sub64 (sub64 (sub64 e (mul64 n offsetSize)) 1) (if offsetSize = 4 then 8 else 16)⟩

/-- The function `Slice::getNthOffset(index)`. The assertions of the source are not part of
the release build and are not modelled. -/
def getNthOffset (s : Slice) (index : Nat) : Except Error Nat :=
  let h := s.head
  if h = 0x13 ∨ h = 0x14 then s.getNthOffsetFromCompact index
  else if h = 0x01 ∨ h = 0x0a then .error .IndexOutOfBounds
  else
    let offsetSize := indexEntrySize h
    match s.nthHeader with
    | .error err => .error err
    | .ok hd =>
      if index ≥ hd.n then .error .IndexOutOfBounds
      else if h ≤ 0x05 ∨ hd.n = 1 then
        let dataOffset := if hd.dataOffset = 0 then findDataOffset h else hd.dataOffset
        match (s.offset dataOffset).byteSize with
        | none => .error .InternalError
        | some bs => .ok ((dataOffset + mul64 index bs) % 2 ^ 64)
      else .ok (readInteger s.mem (s.start + hd.ieBase + index * offsetSize) offsetSize)

/-- The function `Slice::getNth(index)`. -/
def getNth (s : Slice) (index : Nat) : Except Error Slice :=
  match s.getNthOffset index with
  | .error err => .error err
  | .ok off => .ok (s.offset off)

/-- The function `Slice::getNthKey(index, translate)`. -/
def getNthKey (tr : Option (Nat → Option Slice)) (s : Slice) (index : Nat)
    (translate : Bool) : Except Error Slice :=
  match s.getNthOffset index with
  | .error err => .error err
  | .ok off =>
    let k := s.offset off
    if translate then k.makeKey tr else .ok k

/-- The loop `while (current != index)` of `Slice::getNthOffsetFromCompact` with its counter
`current`, run for at most `fuel` evaluations of the loop condition; there is no result when
the fuel runs out. -/
def compactLoop (s : Slice) (index : Nat) : Nat → Nat → Nat → Option (Except Error Nat)
  | 0, _, _ => none
  | fuel + 1, current, offset =>
    if current ≠ index then
      match s.compactStep offset with
      | .error e => some (.error e)
      | .ok offset1 => compactLoop s index fuel (current + 1) offset1
    else some (.ok offset)

/-! ### Comparison -/

/-- The function `Slice::equals(other)`. `checkOverflow` converts a `ValueLength` to `size_t`,
which changes nothing on a 64-bit platform. A value without a size rule is reported as an
internal error. -/
def equals (s other : Slice) : Except Error Bool :=
  if s.head ≠ other.head then .ok false
  else
    match s.byteSize with
    | none => .error .InternalError
    | some size =>
      match other.byteSize with
      | none => .error .InternalError
      | some size2 =>
        if size ≠ size2 then .ok false
        else .ok (memcmp s.mem s.start other.mem other.start size == 0)

/-- The function `Slice::compareString(attribute)`. -/
def compareString (s : Slice) (attr : Bytes) : Except Error Int :=
  match s.getString with
  | .error e => .error e
  | .ok (k, keyLength) =>
    let attributeLength := attr.length
    let compareLength := min keyLength attributeLength
    let res := memcmp s.mem k attr 0 compareLength
    if res = 0 ∧ keyLength ≠ attributeLength then
      .ok (if keyLength > attributeLength then 1 else -1)
    else .ok res

end Slice

/-! ### Arrays and comparisons as the specification words them -/

/-- The number of elements of an Array, by its head: none in the empty Array 0x01;
`(byteLen - firstSubOffset) / byteSize(firstElement)` for an Array without index table, when
the first element lies inside the array and has a size other than 0; the field `nItems` of
an Array with index table, at offset 1+W for W in {1,2,4} and in the last 8 bytes for W = 8;
the trailing reverse varint of a compact Array. -/
def specArrayLength (s : Slice) : Option Nat :=
  let h := s.head
  let W := indexEntrySize h
  let byteLen := readInteger s.mem (s.start + 1) W
  if h = 0x01 then some 0
  else if 0x02 ≤ h ∧ h ≤ 0x05 then
    match (s.offset (FirstSubMap.getD h 0)).byteSize with
    | none => none
    | some bs =>
      if bs = 0 ∨ byteLen < FirstSubMap.getD h 0 then none
      else some ((byteLen - FirstSubMap.getD h 0) / bs)
  else if 0x06 ≤ h ∧ h ≤ 0x08 then some (readInteger s.mem (s.start + 1 + W) W)
  else if h = 0x09 then some (readInteger s.mem (s.start + byteLen - 8) 8)
  else if h = 0x13 then some s.compactLength
  else none

/-- The start of the index table of an Array with index table holding `n` elements:
`byteLen - n*W` for W in {1,2,4} and `byteLen - n*8 - 8` for W = 8. -/
def specIndexTableBase (s : Slice) (n : Nat) : Nat :=
  let W := indexEntrySize s.head
  let byteLen := readInteger s.mem (s.start + 1) W
  if W = 8 then byteLen - n * 8 - 8 else byteLen - n * W

/-- The offset stored in the `i`-th W-byte little-endian entry of the index table. -/
def specIndexEntry (s : Slice) (n i : Nat) : Nat :=
  let W := indexEntrySize s.head
  specLittleEndian (bytesFrom s.mem (s.start + specIndexTableBase s n + i * W) W)

/-- The sign of the lexicographic comparison of two sequences of unsigned bytes; a sequence
that is a strict prefix of the other is ordered before it. -/
def specLexSign : List Nat → List Nat → Int
  | [], [] => 0
  | [], _ :: _ => -1
  | _ :: _, [] => 1
  | a :: as, b :: bs => if a < b then -1 else if b < a then 1 else specLexSign as bs

/-- The Array without index table `02 05 31 32 33`: the SmallInts 1, 2, 3. -/
def smallIntArray : Slice := ⟨[0x02, 0x05, 0x31, 0x32, 0x33], 0⟩

/-- A cuckoo-hashed Object (head 0x0b, W = 1) holding the two pairs "a" : 1 and "b" : 2 in
this order. Its bytes are the head, byteLen 15, two items, four slots, seed 0, the pairs
`41 61 31` at offset 5 and `41 62 32` at offset 8, and the hash table `00 08 00 05`: "a" is
stored in slot 3, its first candidate slot, and "b" in slot 1, its second candidate slot. -/
def twoPairObject : Slice :=
  ⟨[0x0b, 0x0f, 0x02, 0x04, 0x00, 0x41, 0x61, 0x31, 0x41, 0x62, 0x32, 0x00, 0x08, 0x00, 0x05], 0⟩

/-! ### The normalized hash -/

/-- The object representation of a `uint64_t` or `double` with the bit pattern `v`: its 8
bytes in little-endian order, as `fasthash64(&v, sizeof(v), seed)` reads them. -/
def wordBytes (v : Nat) : Bytes := (List.range 8).map (fun k => (v >>> (8 * k)) % 256)

/-- The members of Slice.h and Iterator.h that `Slice::normalizedHash` calls and that are
not part of the sources, as parameters: `length()`, the elements that an `ArrayIterator`
yields, the pairs (key, value) that an `ObjectIterator` yields, both in the order of the
iteration, and the bit pattern of the double `getNumericValue<double>()`. -/
structure SliceApi where
  length : Slice → Nat
  arrayItems : Slice → List Slice
  objectPairs : Slice → List (Slice × Slice)
  numericDouble : Slice → Nat

namespace Slice

/-- Modelled from the spec: `isNumber()` of Slice.h; the numbers are the integers (Int, UInt,
SmallInt), "hashed as their double upcast", and the Double. -/
def isNumber (s : Slice) : Bool :=
  s.type == ValueType.Int || s.type == ValueType.UInt || s.type == ValueType.SmallInt
    || s.type == ValueType.Double

/-- Modelled from the spec: `hash(seed)` of Slice.h, the "raw-bytes hash" of a value:
fasthash64 over the `byteSize()` bytes of the value. A value without a size rule has no
hash. -/
def hash (s : Slice) (seed : Nat) : Option Nat :=
  match s.byteSize with
  | none => none
  | some n => some (fasthash64 (s.mem.drop s.start) n seed)

/-- The function `Slice::normalizedHash(seed)`. The recursion into the members of an Array or
Object is bounded by `fuel`, the nesting depth that is followed; there is no result when the
fuel runs out or a value has no size rule. -/
def normalizedHashF (api : SliceApi) : Nat → Slice → Nat → Option Nat
  | 0, _, _ => none
  | fuel + 1, s, seed =>
    if s.isNumber then
      some (fasthash64 (wordBytes (api.numericDouble s)) 8 seed)
    else if s.isArray then
      let n := api.length s ^^^ 0xba5bedf00d
      (api.arrayItems s).foldlM (fun value it =>
        match normalizedHashF api fuel it value with
        | none => none
        | some h => some (value ^^^ h)) (fasthash64 (wordBytes n) 8 seed)
    else if s.isObject then
      let n := api.length s ^^^ 0xf00ba44ba5
      let seed2 := fasthash64 (wordBytes n) 8 seed
      (api.objectPairs s).foldlM (fun value it =>
        match normalizedHashF api fuel it.1 seed2 with
        | none => none
        | some hk =>
          match normalizedHashF api fuel it.2 seed2 with
          | none => none
          | some hv => some ((value ^^^ hk) ^^^ hv)) seed2
    else s.hash seed

end Slice

/-- The XOR of a list of hash values. -/
def specXorAll : List Nat → Nat
  | [] => 0
  | h :: rest => h ^^^ specXorAll rest

/-- The compact Object `14 09 41 61 31 41 62 32 02`: the pairs "a" : 1 and "b" : 2. -/
def compactObjectAB : Slice := ⟨[0x14, 0x09, 0x41, 0x61, 0x31, 0x41, 0x62, 0x32, 0x02], 0⟩

/-- The compact Object `14 09 41 62 32 41 61 31 02`: the pairs "b" : 2 and "a" : 1. -/
def compactObjectBA : Slice := ⟨[0x14, 0x09, 0x41, 0x62, 0x32, 0x41, 0x61, 0x31, 0x02], 0⟩

/-- The accessors on the two compact Objects above: two pairs each, at the offsets 2 and 5,
and the doubles 1.0 and 2.0 of the SmallInts 1 and 2. -/
def examplePairsApi : SliceApi where
  length := fun s => s.compactLength
  arrayItems := fun _ => []
  objectPairs := fun s => [(s.offset 2, s.offset 4), (s.offset 5, s.offset 7)]
  numericDouble := fun s => if s.head = 0x31 then 0x3ff0000000000000 else 0x4000000000000000

/-! ### UTF-8 sequences as the specification words them -/

/-- The number of bytes that have to follow a lead byte with the high bit set: 1 after
0xC0..0xDF, 2 after 0xE0..0xEF, 3 after 0xF0..0xF7; no number for a byte that cannot lead a
sequence (0x80..0xBF, a lone continuation byte, and 0xF8..0xFF). -/
def specUtf8Follow (i : Nat) : Option Nat :=
  if 0xc0 ≤ i ∧ i ≤ 0xdf then some 1
  else if 0xe0 ≤ i ∧ i ≤ 0xef then some 2
  else if 0xf0 ≤ i ∧ i ≤ 0xf7 then some 3
  else none

/-- A byte of the form 10xxxxxx. -/
def specContinuation (c : Nat) : Prop := 0x80 ≤ c ∧ c ≤ 0xbf

instance (c : Nat) : Decidable (specContinuation c) := by
  unfold specContinuation
  infer_instance

/-! ### JSON values -/

/-- The parts of a parser object that `parseJson` and `parseInternal` use and that are not
part of the sources: the options, the test `finite` of a double for `parseNumber`, the
virtual method `parseString()` of the class of the parser, and two views of the Builder:
the head byte `_b->_start[_b->_stack.back()]` of the innermost open container (absent when
`_b->_stack` is empty) and the flag `_b->_keyWritten`. -/
structure ParseEnv where
  options : Options
  finite : DoubleExpr → Bool
  parseString : Parser → Except Failure Parser
  openContainer : Builder → Option Nat
  keyWritten : Builder → Bool

namespace Parser

/-- Modelled from the spec: `isWhiteSpace(c)` of Parser.h: "Whitespace is
`{0x20, 0x09, 0x0a, 0x0d}`". -/
def isWhiteSpace (c : Nat) : Bool := c == 0x20 || c == 0x09 || c == 0x0a || c == 0x0d

/-- Modelled from the spec: the count returned by `JSONSkipWhiteSpace` of asm-functions.h,
which "accelerates whitespace runs": the length of the longest prefix of whitespace bytes of
`src`, at most `limit`. -/
def JSONSkipWhiteSpaceCount : List Nat → Nat → Nat
  | [], _ => 0
  | _, 0 => 0
  | c :: rest, limit + 1 =>
    if isWhiteSpace (c % 256) then 1 + JSONSkipWhiteSpaceCount rest limit else 0

/-- The cursor step `++_pos`. -/
def advance (p : Parser) : Parser := { p with pos := p.pos + 1 }

/-- The loop `do { ... } while (_pos < _size)` at the end of `Parser::skipWhiteSpace`, and the
`throw` behind it; `src` holds the bytes from the cursor on, of which there is at least one
when the loop is entered. -/
def skipWhiteSpaceLoop : List Nat → Parser → Except Failure (Nat × Parser)
  | [], p => p.fail .ParseError
  | c :: rest, p =>
    if !isWhiteSpace (c % 256) then .ok (c % 256, p) else skipWhiteSpaceLoop rest p.advance

/-- The function `Parser::skipWhiteSpace(err)`: the first byte that is no whitespace, which
is not consumed. -/
def skipWhiteSpace (p : Parser) : Except Failure (Nat × Parser) :=
  if p.pos ≥ p.size then p.fail .ParseError
  else
    let c := byteAt p.input p.pos
    if !isWhiteSpace c then .ok (c, p)
    else
      let next : Option (Except Failure (Nat × Parser)) :=
        if c = 0x20 then
          if p.pos + 1 ≥ p.size then some (Parser.fail { p with pos := p.pos + 1 } .ParseError)
          else
            let c1 := byteAt p.input (p.pos + 1)
            if !isWhiteSpace c1 then some (.ok (c1, { p with pos := p.pos + 1 })) else none
        else none
      match next with
      | some r => r
      | none =>
        let remaining := p.size - p.pos
        let p1 : Parser :=
          if remaining ≥ 16 then
            { p with pos := p.pos + JSONSkipWhiteSpaceCount (p.input.drop p.pos) (remaining - 15) }
          else p
        skipWhiteSpaceLoop (p1.input.drop p1.pos) p1

/-- Modelled from the spec: `parseTrue()`, `parseFalse()`, `parseNull()` of Parser.h:
"`true`, `false`, `null` each consume the fixed suffix; mismatch → `ParseError`"; the bytes
of `suffix` are consumed one by one up to the first mismatch, and the Builder operation `c`
is called behind the last one. -/
def parseLiteral (c : BuilderCall) : List Nat → Parser → Except Failure Parser
  | [], p => .ok (p.emit c)
  | x :: rest, p =>
    match p.consume with
    | (none, p1) => p1.fail .ParseError
    | (some i, p1) => if i ≠ x then p1.fail .ParseError else parseLiteral c rest p1

/-- Modelled from the spec: `increaseNesting()` of Parser.h, `++_nesting`. -/
def increaseNesting (p : Parser) : Parser := { p with nesting := p.nesting + 1 }

/-- Modelled from the spec: `decreaseNesting()` of Parser.h, `--_nesting`. -/
def decreaseNesting (p : Parser) : Parser := { p with nesting := p.nesting - 1 }

/-- The handling of a parsed attribute name in `Parser::parseObject` (lines 512-536):
`lastPos` is the Builder position in front of the key. The result tells whether the
attribute is excluded. -/
def translateKey (opts : Options) (lastPos : Nat) (p : Parser) :
    Except Failure (Bool × Parser) :=
  let key : Slice := ⟨p.b.buf, lastPos⟩
  let excludeAttribute :=
    match opts.attributeExcludeHandler with
    | none => false
    | some shouldExclude => shouldExclude key p.nesting
  if !excludeAttribute then
    match opts.attributeTranslator with
    | none => .ok (excludeAttribute, p)
    | some translate =>
      if key.isString then
        match key.getString with
        | .error e => p.fail e
        | .ok (k, keyLength) =>
          match translate (bytesFrom key.mem k keyLength) with
          | none => .ok (excludeAttribute, p)
          | some translated =>
            let p1 : Parser := { p with b := { p.b with buf := p.b.buf.take lastPos } }
            match translated.getUInt with
            | .error e => p1.fail e
            | .ok v => .ok (excludeAttribute, p1.emit (.addUInt v))
      else .ok (excludeAttribute, p)
  else .ok (excludeAttribute, p)

mutual

/-- The function `Parser::parseJson()`. The first argument bounds the depth of the calls and
the number of turns of the loops; there is no result when it runs out. -/
def parseJsonF (env : ParseEnv) : Nat → Parser → Option (Except Failure Parser)
  | 0, _ => none
  | fuel + 1, p =>
    match p.skipWhiteSpace with
    | .error f => some (.error f)
    | .ok (_, p1) =>
      match p1.consume with
      | (none, p2) => some (.ok p2)
      | (some i, p2) =>
        if i = 0x7b then parseObjectF env fuel p2
        else if i = 0x5b then parseArrayF env fuel p2
        else if i = 0x74 then some (parseLiteral (.addBool true) [0x72, 0x75, 0x65] p2)
        else if i = 0x66 then some (parseLiteral (.addBool false) [0x61, 0x6c, 0x73, 0x65] p2)
        else if i = 0x6e then some (parseLiteral .addNull [0x75, 0x6c, 0x6c] p2)
        else if i = 0x22 then some (env.parseString p2)
        else some (parseNumber env.finite p2.unconsume)

/-- The function `Parser::parseArray()`, called behind the opening bracket. -/
def parseArrayF (env : ParseEnv) : Nat → Parser → Option (Except Failure Parser)
  | 0, _ => none
  | fuel + 1, p =>
    match (p.emit .addArray).skipWhiteSpace with
    | .error f => some (.error f)
    | .ok (i, p1) =>
      if i = 0x5d then some (.ok (p1.advance.emit .close))
      else parseArrayLoopF env fuel p1.increaseNesting

/-- The loop `while (true)` of `Parser::parseArray()`. -/
def parseArrayLoopF (env : ParseEnv) : Nat → Parser → Option (Except Failure Parser)
  | 0, _ => none
  | fuel + 1, p =>
    match parseJsonF env fuel (p.emit .reportAdd) with
    | none => none
    | some (.error f) => some (.error f)
    | some (.ok p1) =>
      match p1.skipWhiteSpace with
      | .error f => some (.error f)
      | .ok (i, p2) =>
        if i = 0x5d then some (.ok (p2.advance.emit .close).decreaseNesting)
        else if i ≠ 0x2c then some (p2.fail .ParseError)
        else parseArrayLoopF env fuel p2.advance

/-- The function `Parser::parseObject()`, called behind the opening brace. -/
def parseObjectF (env : ParseEnv) : Nat → Parser → Option (Except Failure Parser)
  | 0, _ => none
  | fuel + 1, p =>
    match (p.emit .addObject).skipWhiteSpace with
    | .error f => some (.error f)
    | .ok (i, p1) =>
      if i = 0x7d then
        let p2 := p1.consume.2
        if p2.nesting ≠ 0 ∨ !env.options.keepTopLevelOpen then some (.ok (p2.emit .close))
        else some (.ok p2)
      else parseObjectLoopF env fuel i p1.increaseNesting

/-- The loop `while (true)` of `Parser::parseObject()`; `i` is the byte at the cursor. -/
def parseObjectLoopF (env : ParseEnv) : Nat → Nat → Parser → Option (Except Failure Parser)
  | 0, _, _ => none
  | fuel + 1, i, p =>
    if i ≠ 0x22 then some (p.fail .ParseError)
    else
      let p1 := p.advance.emit .reportAdd
      let lastPos := p1.b.pos
      match Parser.parseString env.options p1 with
      | .error f => some (.error f)
      | .ok p2 =>
        match translateKey env.options lastPos p2 with
        | .error f => some (.error f)
        | .ok (excludeAttribute, p3) =>
          match p3.skipWhiteSpace with
          | .error f => some (.error f)
          | .ok (i1, p4) =>
            if i1 ≠ 0x3a then some (p4.fail .ParseError)
            else
              match parseJsonF env fuel p4.advance with
              | none => none
              | some (.error f) => some (.error f)
              | some (.ok p5) =>
                let p6 := if excludeAttribute then p5.emit .removeLast else p5
                match p6.skipWhiteSpace with
                | .error f => some (.error f)
                | .ok (i2, p7) =>
                  if i2 = 0x7d then
                    let p8 := p7.advance
                    let p9 :=
                      if p8.nesting ≠ 1 ∨ !env.options.keepTopLevelOpen then p8.emit .close
                      else p8
                    some (.ok p9.decreaseNesting)
                  else if i2 ≠ 0x2c then some (p7.fail .ParseError)
                  else
                    match p7.advance.skipWhiteSpace with
                    | .error f => some (.error f)
                    | .ok (i3, p10) => parseObjectLoopF env fuel i3 p10

end

/-- The function `Parser::parseJson()`, with the bound on the calls and loops that the bytes
that are left allow for. -/
def parseJson (env : ParseEnv) (p : Parser) : Option (Except Failure Parser) :=
  parseJsonF env (3 * (p.size - p.pos) + 2) p

/-- The check at the head of the loop of `Parser::parseInternal` (lines 67-82); the result
holds the flag `haveReported`. -/
def beginValue (env : ParseEnv) (p : Parser) : Except Failure (Bool × Parser) :=
  match env.openContainer p.b with
  | none => .ok (false, p)
  | some h =>
    if h = 0x0b ∨ h = 0x14 then
      if !env.keyWritten p.b then p.fail .BuilderKeyMustBeString
      else .ok (false, p.emit (.keyWritten false))
    else .ok (true, p.emit .reportAdd)

/-- The loop `while (_pos < _size && isWhiteSpace(_start[_pos])) ++_pos` of
`Parser::parseInternal`; `src` holds the bytes from the cursor on. -/
def skipTrailing : List Nat → Parser → Parser
  | [], p => p
  | c :: rest, p => if isWhiteSpace (c % 256) then skipTrailing rest p.advance else p

/-- The loop `do { ... } while (multi && _pos < _size)` of `Parser::parseInternal`; `nr` counts
the values parsed. The first argument bounds the number of turns. -/
def parseInternalLoop (env : ParseEnv) (multi : Bool) :
    Nat → Nat → Parser → Option (Except Failure (Nat × Parser))
  | 0, _, _ => none
  | fuel + 1, nr, p =>
    match beginValue env p with
    | .error f => some (.error f)
    | .ok (haveReported, p1) =>
      match parseJson env p1 with
      | none => none
      | some (.error f) =>
        if haveReported then some (.error ⟨f.error, f.state.emit .cleanupAdd⟩)
        else some (.error f)
      | some (.ok p2) =>
        let nr1 := nr + 1
        let p3 := skipTrailing (p2.input.drop p2.pos) p2
        if !multi ∧ p3.pos ≠ p3.size then some (Parser.fail p3.consume.2 .ParseError)
        else if multi ∧ p3.pos < p3.size then parseInternalLoop env multi fuel nr1 p3
        else some (.ok (nr1, p3))

/-- The skip "over optional BOM" of `Parser::parseInternal` (lines 59-63). -/
def skipBOM (p : Parser) : Parser :=
  if p.size ≥ 3 ∧ byteAt p.input 0 = 0xef ∧ byteAt p.input 1 = 0xbb ∧ byteAt p.input 2 = 0xbf
  then { p with pos := p.pos + 3 } else p

/-- The function `Parser::parseInternal(multi)`: the number of values parsed, and the final
state of the parser. -/
def parseInternal (env : ParseEnv) (multi : Bool) (p : Parser) :
    Option (Except Failure (Nat × Parser)) :=
  parseInternalLoop env multi (p.size + 1) 0 (skipBOM p)

end Parser

/-! ### The top level of a JSON text as the specification words it -/

/-- The bytes of the input from the cursor on are all whitespace. -/
def specOnlyWhiteSpace (p : Parser) : Prop :=
  ∀ k, p.pos ≤ k → k < p.size → Parser.isWhiteSpace (byteAt p.input k) = true

/-- One top-level value: the check of the Builder passes in the state `p`, `parseJson` reads
one JSON value behind optional whitespace, and `q` is the state behind the whitespace that
follows the value. -/
def specTopLevelValue (env : ParseEnv) (p q : Parser) : Prop :=
  ∃ r p1 p2, Parser.beginValue env p = .ok (r, p1) ∧ Parser.parseJson env p1 = some (.ok p2)
    ∧ q.input = p.input ∧ q.b = p2.b ∧ q.nesting = p2.nesting ∧ p2.pos ≤ q.pos
    ∧ (∀ k, p2.pos ≤ k → k < q.pos → Parser.isWhiteSpace (byteAt p.input k) = true)
    ∧ (q.pos < q.size → Parser.isWhiteSpace (byteAt p.input q.pos) = false)

/-- The states between `n` top-level values read one after the other, the first in the state
`p`, each but the last followed by further input, the last ending in the state `q`. -/
def specTopLevelValues (env : ParseEnv) : Nat → Parser → Parser → Prop
  | 0, _, _ => False
  | 1, p, q => specTopLevelValue env p q
  | n + 2, p, q =>
    ∃ m, specTopLevelValue env p m ∧ m.pos < m.size ∧ specTopLevelValues env (n + 1) m q

/-- The virtual method `parseString()` of the parser object keeps the input and does not move
the cursor back. -/
def StringFrame (env : ParseEnv) : Prop :=
  ∀ q q', env.parseString q = .ok q' → q'.input = q.input ∧ q.pos ≤ q'.pos

/-- A parser object with the default options whose Builder has an open Object (head 0x0b) in
which no key is written yet. -/
def waitingForKeyEnv : ParseEnv where
  options := {}
  finite := fun _ => true
  parseString := Parser.parseString {}
  openContainer := fun _ => some 0x0b
  keyWritten := fun _ => false

/-- A parser object with the default options and a Builder without open containers. -/
def plainEnv : ParseEnv where
  options := {}
  finite := fun _ => true
  parseString := Parser.parseString {}
  openContainer := fun _ => none
  keyWritten := fun _ => false

/-! ## Dumper.h -/

/-- The state of a `Dumper` that `handleUnsupportedType` uses: the options, and the bytes
written to the sink `*_sink` so far. -/
structure Dumper where
  options : Options
  sink : Bytes

/-- An exception leaving a function of the dumper, with the state in which it was thrown. -/
structure DumpFailure where
  error : Error
  state : Dumper

/-- The bytes of a string literal of the source, which holds ASCII characters only. -/
def literalBytes (s : String) : Bytes := s.toList.map Char.toNat

namespace Dumper

/-- The call `_sink->append(...)`. -/
def append (d : Dumper) (bytes : Bytes) : Dumper := { d with sink := d.sink ++ bytes }

/-- The function `Dumper::handleUnsupportedType(slice)`; `typeName` is `Slice::typeName()`.
The byte 0x22 is the quote that opens and closes the literals of the source. -/
def handleUnsupportedType (typeName : Slice → Bytes) (d : Dumper) (slice : Slice) :
    Except DumpFailure Dumper :=
  if d.options.unsupportedTypeBehavior = UnsupportedTypeBehavior.NullifyUnsupportedType then
    .ok (d.append (literalBytes "null"))
  else if d.options.unsupportedTypeBehavior
      = UnsupportedTypeBehavior.ConvertUnsupportedType then
    .ok (d.append ((0x22 :: literalBytes "(non-representable type ") ++ typeName slice
      ++ (literalBytes ")" ++ [0x22])))
  else .error ⟨.NoJsonEquivalent, d⟩

end Dumper

/-! ### Parser objects of the examples -/

/-- A parser object with `validateUtf8Strings = true` and a Builder without open
containers. -/
def validatingEnv : ParseEnv where
  options := { validateUtf8Strings := true }
  finite := fun _ => true
  parseString := Parser.parseString { validateUtf8Strings := true }
  openContainer := fun _ => none
  keyWritten := fun _ => false

/-- A parser object with `keepTopLevelOpen = true` and a Builder without open containers. -/
def keepOpenEnv : ParseEnv where
  options := { keepTopLevelOpen := true }
  finite := fun _ => true
  parseString := Parser.parseString { keepTopLevelOpen := true }
  openContainer := fun _ => none
  keyWritten := fun _ => false

/-- A parser object with the default options whose Builder has an open Array (head 0x06), to
which the top-level values are appended. -/
def openArrayEnv : ParseEnv where
  options := {}
  finite := fun _ => true
  parseString := Parser.parseString {}
  openContainer := fun _ => some 0x06
  keyWritten := fun _ => false

/-! ### Strings as the specification words them -/

/-- The input holds no control byte (a byte below 0x20) at the positions `a .. b - 1`. -/
def specNoControl (input : Bytes) (a b : Nat) : Prop :=
  ∀ k, a ≤ k → k < b → 0x20 ≤ byteAt input k

/-! ### One string in two inputs -/

namespace Parser

/-- The state `q` of a parser, seen from a parser whose input `input` holds the bytes of
`q.input` from the offset `d` on: the cursor is counted from the start of `input`, the
Builder and the nesting depth are the same. -/
def relocate (input : Bytes) (d : Nat) (q : Parser) : Parser :=
  ⟨input, d + q.pos, q.b, q.nesting⟩

/-- The result of a parser function on the bytes of `q.input`, seen from a parser whose input
`input` holds these bytes from the offset `d` on: the same error or the same success, in the
relocated state. -/
def relocateResult (input : Bytes) (d : Nat) : Except Failure Parser → Except Failure Parser
  | .ok q => .ok (q.relocate input d)
  | .error f => .error ⟨f.error, f.state.relocate input d⟩

end Parser

/-! ### Number tokens as the specification words them -/

/-- A decimal digit `0` .. `9`. -/
def specDigit (c : Nat) : Prop := 0x30 ≤ c ∧ c ≤ 0x39

instance (c : Nat) : Decidable (specDigit c) := by
  unfold specDigit
  exact inferInstance

/-- A number token with a leading zero stands at the cursor: `0`, optionally behind `-`,
immediately followed by another digit. The result is the position of that digit and the
Builder call that emits the zero. -/
def specLeadingZero (p : Parser) : Option (Nat × BuilderCall) :=
  if byteAt p.input p.pos = 0x30 ∧ p.pos + 1 < p.size
      ∧ specDigit (byteAt p.input (p.pos + 1)) then
    some (p.pos + 1, .addUInt 0)
  else if byteAt p.input p.pos = 0x2d ∧ byteAt p.input (p.pos + 1) = 0x30
      ∧ p.pos + 2 < p.size ∧ specDigit (byteAt p.input (p.pos + 2)) then
    some (p.pos + 2, .addInt 0)
  else none

/-! ### The members of a container as the specification words them -/

/-- The next byte of the input that is no whitespace, as `skipWhiteSpace` finds it; nothing at
the end of the input. -/
def Parser.nextByte (p : Parser) : Option Nat :=
  match p.skipWhiteSpace with
  | .ok (c, _) => some c
  | .error _ => none

/-- The loop of `parseArray`, entered in the state `p` in front of an element, has read the
element with the bound `fuel` on its depth, and `c` is the next byte that is no whitespace,
found in the state `q`. -/
def specElementParsed (env : ParseEnv) (fuel : Nat) (p q : Parser) (c : Nat) : Prop :=
  ∃ p1, Parser.parseJsonF env fuel (p.emit .reportAdd) = some (.ok p1)
    ∧ p1.skipWhiteSpace = .ok (c, q)

/-- The loop of `parseObject`, entered in the state `p` at the opening quote of a key, has
read the key and `k` is the next byte that is no whitespace, found in the state `q`;
`excluded` tells whether the handler excludes the attribute. -/
def specKeyParsed (env : ParseEnv) (p q : Parser) (excluded : Bool) (k : Option Nat) : Prop :=
  ∃ p2, Parser.parseString env.options (p.advance.emit .reportAdd) = .ok p2
    ∧ Parser.translateKey env.options (p.advance.emit .reportAdd).b.pos p2 = .ok (excluded, q)
    ∧ q.nextByte = k

/-- The loop of `parseObject`, entered in the state `p` at the opening quote of a key, has
read the key, the colon and the value, the latter with the bound `fuel` on its depth, and `c`
is the next byte that is no whitespace, found in the state `q`. -/
def specMemberParsed (env : ParseEnv) (fuel : Nat) (p q : Parser) (c : Nat) : Prop :=
  ∃ excluded p3 p4 p5, specKeyParsed env p p3 excluded (some 0x3a)
    ∧ p3.skipWhiteSpace = .ok (0x3a, p4)
    ∧ Parser.parseJsonF env fuel p4.advance = some (.ok p5)
    ∧ (if excluded then p5.emit .removeLast else p5).skipWhiteSpace = .ok (c, q)

/-! ### The head-byte taxonomy as the specification words it -/

/-- The type that the head-byte taxonomy names for a head byte: None for 0x00, 0x0f..0x12 and
0x15..0x16, Array for 0x01..0x09 and 0x13, Object for 0x0a..0x0e and 0x14, Illegal for 0x17,
Null for 0x18, Bool for 0x19..0x1a, Double for 0x1b, UTCDate for 0x1c, External for 0x1d,
MinKey for 0x1e, MaxKey for 0x1f, Int for 0x20..0x27, UInt for 0x28..0x2f, SmallInt for
0x30..0x3f, String for 0x40..0xbf, Binary for 0xc0..0xc7, BCD for 0xc8..0xd7 and Custom for
0xf0..0xff. The taxonomy names no type for the heads 0xd8..0xef. -/
def specHeadType (h : Nat) : Option ValueType :=
  if h = 0x00 ∨ (0x0f ≤ h ∧ h ≤ 0x12) ∨ (0x15 ≤ h ∧ h ≤ 0x16) then some ValueType.None
  else if (0x01 ≤ h ∧ h ≤ 0x09) ∨ h = 0x13 then some ValueType.Array
  else if (0x0a ≤ h ∧ h ≤ 0x0e) ∨ h = 0x14 then some ValueType.Object
  else if h = 0x17 then some ValueType.Illegal
  else if h = 0x18 then some ValueType.Null
  else if 0x19 ≤ h ∧ h ≤ 0x1a then some ValueType.Bool
  else if h = 0x1b then some ValueType.Double
  else if h = 0x1c then some ValueType.UTCDate
  else if h = 0x1d then some ValueType.External
  else if h = 0x1e then some ValueType.MinKey
  else if h = 0x1f then some ValueType.MaxKey
  else if 0x20 ≤ h ∧ h ≤ 0x27 then some ValueType.Int
  else if 0x28 ≤ h ∧ h ≤ 0x2f then some ValueType.UInt
  else if 0x30 ≤ h ∧ h ≤ 0x3f then some ValueType.SmallInt
  else if 0x40 ≤ h ∧ h ≤ 0xbf then some ValueType.String
  else if 0xc0 ≤ h ∧ h ≤ 0xc7 then some ValueType.Binary
  else if 0xc8 ≤ h ∧ h ≤ 0xd7 then some ValueType.BCD
  else if 0xf0 ≤ h ∧ h ≤ 0xff then some ValueType.Custom
  else none

/-! ### Escapes as the specification words them -/

/-- The byte that a two-character escape appends: `\"`, `\\`, `\/`, `\b`, `\f`, `\n`, `\r`,
`\t` append 0x22, 0x5c, 0x2f, 0x08, 0x0c, 0x0a, 0x0d, 0x09; `c` is the character behind the
backslash. -/
def specSimpleEscape (c : Nat) : Option Nat :=
  if c = 0x22 then some 0x22
  else if c = 0x5c then some 0x5c
  else if c = 0x2f then some 0x2f
  else if c = 0x62 then some 0x08
  else if c = 0x66 then some 0x0c
  else if c = 0x6e then some 0x0a
  else if c = 0x72 then some 0x0d
  else if c = 0x74 then some 0x09
  else none

/-! ### The base64 alphabets as the specification words them -/

/-- The value of a character in the two supported alphabets: 'A'..'Z' are 0..25, 'a'..'z'
are 26..51, '0'..'9' are 52..61, '+' and '-' are 62, '/' and '_' are 63; every other
character, the padding character '=' included, has the invalid marker 255. -/
def specBase64Value (c : Nat) : Nat :=
  if 0x41 ≤ c ∧ c ≤ 0x5a then c - 0x41
  else if 0x61 ≤ c ∧ c ≤ 0x7a then 26 + (c - 0x61)
  else if 0x30 ≤ c ∧ c ≤ 0x39 then 52 + (c - 0x30)
  else if c = 0x2b ∨ c = 0x2d then 62
  else if c = 0x2f ∨ c = 0x5f then 63
  else 255

/-- A VJSON parser object with the default options and a Builder without open containers;
no date is parsed. -/
def vjsonEnv : ParseEnv where
  options := {}
  finite := fun _ => true
  parseString := VJsonParser.parseString {} (fun _ => none)
  openContainer := fun _ => none
  keyWritten := fun _ => false

/-! ### The payload of a base64 string as the specification words it -/

/-- The payload of a base64 string that starts at the cursor of `p`: `e` is the position of
the closing quote, the first quote at or behind the cursor, and `r` is the number of payload
characters before the trailing `=` padding: the payload characters from the `r`-th on are
all `=`, and the one before them, if any, is not. -/
def specBase64Payload (p : Parser) (e r : Nat) : Prop :=
  p.pos ≤ e ∧ e < p.size ∧ byteAt p.input e = 0x22
    ∧ (∀ k, p.pos ≤ k → k < e → byteAt p.input k ≠ 0x22)
    ∧ r ≤ e - p.pos
    ∧ (∀ k, r ≤ k → k < e - p.pos → byteAt p.input (p.pos + k) = 0x3d)
    ∧ (0 < r → byteAt p.input (p.pos + r - 1) ≠ 0x3d)

instance (p : Parser) (e r : Nat) : Decidable (specBase64Payload p e r) := by
  unfold specBase64Payload
  exact inferInstance

/-! ### An Object whose values repeat its keys -/

/-- The compact Object `14 0b 41 61 41 61 41 62 41 62 02`: the pairs "a" : "a" and
"b" : "b", every value byte-identical to its key. -/
def compactObjectSame : Slice :=
  ⟨[0x14, 0x0b, 0x41, 0x61, 0x41, 0x61, 0x41, 0x62, 0x41, 0x62, 0x02], 0⟩

/-- The accessors on `compactObjectSame`: two pairs, the keys at the offsets 2 and 6 and the
values at the offsets 4 and 8; it holds no number. -/
def samePairsApi : SliceApi where
  length := fun s => s.compactLength
  arrayItems := fun _ => []
  objectPairs := fun s => [(s.offset 2, s.offset 4), (s.offset 6, s.offset 8)]
  numericDouble := fun _ => 0
/-! ### The content of a JSON string as the specification words it -/

/-- A unit of the content of a JSON string: the closing quote, a character copied as it
stands (one byte, or a validated multi-byte UTF-8 sequence), a two-character escape with the
byte it stands for, a `\uXXXX` escape with its 16-bit value, or a unit that is rejected with
the given error. -/
inductive StringToken where
  | quote
  | raw (bytes : List Nat)
  | escape (b : Nat)
  | unicode (v : Nat)
  | bad (e : Error)
deriving DecidableEq, Repr

/-- The check of the `k` bytes behind a lead byte, "each continuation byte required to match
10xxxxxx": the error of the first byte that is missing (the input ends: ParseError) or has
another form (InvalidUtf8Sequence), nothing when all `k` bytes are continuation bytes. -/
def specFollowers (input : Bytes) : Nat → Nat → Option Error
  | _, 0 => none
  | pos, k + 1 =>
    if input.length ≤ pos then some .ParseError
    else if specContinuation (byteAt input pos) then specFollowers input (pos + 1) k
    else some .InvalidUtf8Sequence

/-- The unit of a JSON string that starts at the position `pos` of the input, with the
number of input bytes it takes: the closing quote; a backslash with one of
`"  \  /  b f n r t`, or with `u` and four hex digits; a control byte below 0x20, which is
rejected with UnexpectedControlCharacter; a byte below 0x80, and without validation every
other byte, which is copied as it stands; with validation a lead byte with the 1, 2 or 3
continuation bytes that its form requires. Every other escape and the end of the input are
rejected with ParseError, a byte that cannot lead a sequence with InvalidUtf8Sequence. Only
the form of the bytes of a sequence is examined, not the value they encode (the overlong
forms are the subject of C21). -/
def specStringToken (validate : Bool) (input : Bytes) (pos : Nat) : StringToken × Nat :=
  if input.length ≤ pos then (.bad .ParseError, 0)
  else if byteAt input pos = 0x22 then (.quote, 1)
  else if byteAt input pos = 0x5c then
    if input.length ≤ pos + 1 then (.bad .ParseError, 1)
    else
      match specSimpleEscape (byteAt input (pos + 1)) with
      | some b => (.escape b, 2)
      | none =>
        if byteAt input (pos + 1) = 0x75 then
          match specHex4 (bytesFrom input (pos + 2) 4) with
          | some v => (.unicode v, 6)
          | none => (.bad .ParseError, 2)
        else (.bad .ParseError, 2)
  else if byteAt input pos < 0x20 then (.bad .UnexpectedControlCharacter, 1)
  else if byteAt input pos < 0x80 ∨ validate = false then (.raw [byteAt input pos], 1)
  else
    match specUtf8Follow (byteAt input pos) with
    | none => (.bad .InvalidUtf8Sequence, 1)
    | some k =>
      match specFollowers input (pos + 1) k with
      | some e => (.bad e, 1)
      | none => (.raw (bytesFrom input pos (k + 1)), k + 1)

/-- What a `\uXXXX` escape with the value `v` does to the payload `acc` decoded so far, `hs`
being the high surrogate whose escape stands immediately before it (0 when there is none):
a low surrogate behind a high surrogate replaces the 3-byte emission of the high surrogate
by the 4-byte UTF-8 encoding of the code point of the pair; every other value appends its
UTF-8 encoding of 1, 2 or 3 bytes, a surrogate without its partner in the 3-byte form like
every other value from 0x800 on (the rejection of such surrogates is the subject of C22).
The first component is the high surrogate that the next unit has immediately before it. -/
def specUnicode (v hs : Nat) (acc : List Nat) : Nat × List Nat :=
  if 0xdc00 ≤ v ∧ v < 0xe000 ∧ hs ≠ 0 then
    (0, acc.take (acc.length - 3) ++ specUtf8 (specSurrogatePair hs v))
  else (if 0xd800 ≤ v ∧ v < 0xdc00 then v else 0, acc ++ specUtf8 v)

/-- The decoding of the content of a JSON string, unit by unit from the position `pos` on:
the payload and the position behind the closing quote, or the error of the first unit that
is rejected. The first argument bounds the number of units. -/
def specDecodeLoop (validate : Bool) (input : Bytes) :
    Nat → Nat → Nat → List Nat → Except Error (List Nat × Nat)
  | 0, _, _, _ => .error .InternalError
  | fuel + 1, pos, hs, acc =>
    match specStringToken validate input pos with
    | (.quote, n) => .ok (acc, pos + n)
    | (.raw bytes, n) => specDecodeLoop validate input fuel (pos + n) 0 (acc ++ bytes)
    | (.escape b, n) => specDecodeLoop validate input fuel (pos + n) 0 (acc ++ [b])
    | (.unicode v, n) =>
      specDecodeLoop validate input fuel (pos + n) (specUnicode v hs acc).1
        (specUnicode v hs acc).2
    | (.bad e, _) => .error e

/-- The decoding of the JSON string whose content starts at the position `pos` of the input,
behind the opening quote: the decoded payload and the position behind the closing quote. -/
def specDecode (validate : Bool) (input : Bytes) (pos : Nat) : Except Error (List Nat × Nat) :=
  specDecodeLoop validate input (input.length - pos + 1) pos 0 []

/-- The content of the string from `pos` on holds the escape of a low surrogate behind the
escape of a high surrogate with nothing but one or more single bytes copied as they stand
in between. `fresh` tells that the unit immediately before `pos` is the escape of a high
surrogate, `stale` that such an escape is followed by single copied bytes only up to `pos`.
(The specification decodes the two escapes on their own there; the bulk copy of the parser
may combine them.) -/
def specStalePairLoop (validate : Bool) (input : Bytes) : Nat → Nat → Bool → Bool → Bool
  | 0, _, _, _ => false
  | fuel + 1, pos, fresh, stale =>
    match specStringToken validate input pos with
    | (.quote, _) => false
    | (.raw bytes, n) =>
      if bytes.length = 1 then specStalePairLoop validate input fuel (pos + n) false (fresh || stale)
      else specStalePairLoop validate input fuel (pos + n) false false
    | (.escape _, n) => specStalePairLoop validate input fuel (pos + n) false false
    | (.unicode v, n) =>
      if 0xdc00 ≤ v ∧ v < 0xe000 then
        if stale then true else specStalePairLoop validate input fuel (pos + n) false false
      else
        specStalePairLoop validate input fuel (pos + n) (decide (0xd800 ≤ v ∧ v < 0xdc00)) false
    | (.bad _, _) => false

/-- The string whose content starts at `pos` holds the escape of a low surrogate behind the
escape of a high surrogate with one or more single copied bytes in between. -/
def specStalePair (validate : Bool) (input : Bytes) (pos : Nat) : Bool :=
  specStalePairLoop validate input (input.length - pos + 1) pos false false

/-- The decoding of the units of a string from the position `pos` up to the position `k`,
where a further unit starts: the high surrogate that this unit has immediately before it
(0 when there is none) and the payload decoded so far. There is no result when the closing
quote or a unit that is rejected stands before `k`, or when `k` lies inside a unit. The
first argument bounds the number of units. -/
def specPrefixLoop (validate : Bool) (input : Bytes) :
    Nat → Nat → Nat → Nat → List Nat → Option (Nat × List Nat)
  | 0, pos, k, hs, acc => if pos = k then some (hs, acc) else none
  | fuel + 1, pos, k, hs, acc =>
    if pos = k then some (hs, acc)
    else if k < pos then none
    else
      match specStringToken validate input pos with
      | (.quote, _) => none
      | (.raw bytes, n) => specPrefixLoop validate input fuel (pos + n) k 0 (acc ++ bytes)
      | (.escape b, n) => specPrefixLoop validate input fuel (pos + n) k 0 (acc ++ [b])
      | (.unicode v, n) =>
        specPrefixLoop validate input fuel (pos + n) k (specUnicode v hs acc).1
          (specUnicode v hs acc).2
      | (.bad _, _) => none

/-- The units of the string whose content starts at `pos`, decoded up to the position `k`
where a further unit starts. -/
def specPrefix (validate : Bool) (input : Bytes) (pos k : Nat) : Option (Nat × List Nat) :=
  specPrefixLoop validate input (k - pos + 1) pos k 0 []

/-! ### Integer tokens beyond the range of a double -/

/-- The `doubleValue` of a `ParsedNumber` stays finite while the digits `ds` are added: the
double of every prefix of the digits whose value has left the 64-bit range is neither NaN
nor infinite. -/
def specFiniteDigits (finite : DoubleExpr → Bool) (ds : List Nat) : Prop :=
  ∀ k, k ≤ ds.length → 2 ^ 64 ≤ specDecimal (ds.take k) →
    finite (.ofDigits (specDecimal (ds.take k))) = true

instance (finite : DoubleExpr → Bool) (ds : List Nat) :
    Decidable (specFiniteDigits finite ds) := by
  unfold specFiniteDigits
  exact Nat.decidableBallLE _ _

/-- The test `!std::isnan(d) && std::isfinite(d)` of the C++ library on the doubles that the
parser builds from the digits of an integer: a binary64 double holds no magnitude of 2^1024
(written `16 ^ 256`) or more, so that the accumulation of such digits ends in an infinite
value. The rounding of the accumulation, which matters only next to that bound, is left out;
the doubles of the other forms are taken as finite. -/
def finiteBinary64 : DoubleExpr → Bool
  | .ofDigits v => decide (v < 16 ^ 256)
  | _ => true

/-- The result `R` of the parser on a string agrees with the result `D` of the decoding of
the specification: when the decoding gives a payload and the position behind the closing
quote, the parser stops there and has appended the bytes of a String to the bytes `old` of
the buffer, whose payload is the decoded one when `same` holds and the scan `S` for a low
surrogate behind a stale high surrogate finds nothing; when the decoding is rejected, the
parser fails with the same error. -/
def StringRefines (input old : Bytes) (calls : List BuilderCall) (nesting : Nat)
    (D : Except Error (List Nat × Nat)) (S : Bool) (same : Prop)
    (R : Except Failure Parser) : Prop :=
  (∀ P e, D = .ok (P, e) →
    ∃ P', R = .ok ⟨input, e, ⟨old ++ specStringBytes P', calls⟩, nesting⟩
      ∧ (same → S = false → P' = P))
  ∧ (∀ err, D = .error err → ∃ st, R = .error ⟨err, st⟩)

/-! # Theorems -/

section

theorem byteAt_lt (mem : Bytes) (i : Nat) : byteAt mem i < 256 := by
  unfold byteAt; omega

theorem byteAt_of_bounded (mem : Bytes) (hb : ∀ b ∈ mem, b < 256) (i : Nat) :
    byteAt mem i = mem.getD i 0 := by
  unfold byteAt
  apply Nat.mod_eq_of_lt
  by_cases hi : i < mem.length
  · rw [List.getD_eq_getElem _ _ hi]
    exact hb _ (List.getElem_mem hi)
  · rw [List.getD_eq_default _ _ (by omega)]
    omega

theorem xor_shiftLeft_eq_add (a b k : Nat) (ha : a < 2 ^ k) : a ^^^ (b <<< k) = a + b * 2 ^ k := by
  apply Nat.eq_of_testBit_eq
  intro j
  have e : a + b * 2 ^ k = 2 ^ k * b + a := by rw [Nat.mul_comm, Nat.add_comm]
  rw [Nat.testBit_xor, Nat.testBit_shiftLeft, e, Nat.testBit_mul_pow_two_add _ ha]
  by_cases hj : j < k
  · have : ¬ j ≥ k := by omega
    simp [hj, this]
  · have hge : j ≥ k := by omega
    have hlt : a < 2 ^ j := lt_of_lt_of_le ha (Nat.pow_le_pow_right (by decide) hge)
    simp [hj, hge, Nat.testBit_lt_two_pow hlt]

theorem or_shiftLeft_eq_add (a b k : Nat) (ha : a < 2 ^ k) : a ||| (b <<< k) = a + b * 2 ^ k := by
  rw [Nat.shiftLeft_eq, Nat.or_comm, Nat.mul_comm b, ← Nat.mul_add_lt_is_or ha, Nat.add_comm]

theorem fasthashLoop3_eq (buf : Bytes) : ∀ (n pos : Nat) (h : Hash3),
    fasthashLoop3 buf n pos h
      = ⟨fasthashLoop buf n pos h.h0, fasthashLoop buf n pos h.h1, fasthashLoop buf n pos h.h2⟩ := by
  intro n
  induction n with
  | zero => intro pos h; rfl
  | succ n ih =>
    intro pos h
    simp only [fasthashLoop3, fasthashLoop, ih]
    rfl

/-- C3: the fused hash writes h[0], h[1], h[2] equal to three calls of fasthash64 with
seeds[0], seeds[1], seeds[2], for every buffer, every length and every seed triple. -/
theorem fasthash64x3_eq_fasthash64 (buf : Bytes) (len : Nat) (seeds : Nat → Nat) :
    fasthash64x3 buf len seeds
      = ⟨fasthash64 buf len (seeds 0), fasthash64 buf len (seeds 1), fasthash64 buf len (seeds 2)⟩ := by
  unfold fasthash64x3 fasthash64
  simp only [fasthashLoop3_eq]
  by_cases hr : 1 ≤ len &&& 7
  · simp only [hr, if_true]; rfl
  · simp only [hr, if_false]

end

section

theorem specMix_eq_mix (h : Nat) : specMix h = mix h := rfl

theorem take_succ_drop (buf : Bytes) (n off : Nat) (h : off < buf.length) :
    (buf.drop off).take (n + 1) = buf.getD off 0 :: (buf.drop (off + 1)).take n := by
  rw [List.drop_eq_getElem_cons h, List.take_succ_cons, List.getD_eq_getElem _ _ h]

theorem loadWord64_eq_spec (buf : Bytes) (hb : ∀ b ∈ buf, b < 256) (off : Nat)
    (h : off + 8 ≤ buf.length) :
    loadWord64 buf off = specLittleEndian ((buf.drop off).take 8) := by
  rw [take_succ_drop buf 7 off (by omega), take_succ_drop buf 6 (off + 1) (by omega),
    take_succ_drop buf 5 (off + 1 + 1) (by omega), take_succ_drop buf 4 (off + 1 + 1 + 1) (by omega),
    take_succ_drop buf 3 (off + 1 + 1 + 1 + 1) (by omega),
    take_succ_drop buf 2 (off + 1 + 1 + 1 + 1 + 1) (by omega),
    take_succ_drop buf 1 (off + 1 + 1 + 1 + 1 + 1 + 1) (by omega),
    take_succ_drop buf 0 (off + 1 + 1 + 1 + 1 + 1 + 1 + 1) (by omega)]
  simp only [List.take_zero, specLittleEndian, loadWord64, byteAt_of_bounded buf hb,
    Nat.shiftLeft_eq, Nat.add_assoc]
  norm_num
  omega

theorem fasthashLoop_eq_foldl (buf : Bytes) (hb : ∀ b ∈ buf, b < 256) : ∀ (n pos h : Nat),
    pos + 8 * n ≤ buf.length →
    fasthashLoop buf n pos h
      = ((List.range n).map (fun i => specLittleEndian ((buf.drop (pos + 8 * i)).take 8))).foldl
          (fun h v => ((h ^^^ specMix v) * 0x880355f21e6d1965) % 2 ^ 64) h := by
  intro n
  induction n with
  | zero => intro pos h _; rfl
  | succ n ih =>
    intro pos h hlen
    rw [fasthashLoop, ih (pos + 8) _ (by omega), List.range_succ_eq_map, List.map_cons,
      List.foldl_cons, List.map_map, loadWord64_eq_spec buf hb pos (by omega)]
    have e : ((fun i => specLittleEndian ((buf.drop (pos + 8 * i)).take 8)) ∘ Nat.succ)
        = (fun i => specLittleEndian ((buf.drop (pos + 8 + 8 * i)).take 8)) := by
      funext i
      simp only [Function.comp, Nat.succ_eq_add_one]
      congr 3
      omega
    rw [e]
    rfl

end

section

theorem specLittleEndian_lt : ∀ (bs : List Nat), (∀ b ∈ bs, b < 256) →
    specLittleEndian bs < 2 ^ (8 * bs.length) := by
  intro bs
  induction bs with
  | nil => intro _; simp [specLittleEndian]
  | cons b bs ih =>
    intro hb
    have h1 : b < 256 := hb b (List.mem_cons_self _ _)
    have h2 := ih (fun x hx => hb x (List.mem_cons_of_mem _ hx))
    have e : 2 ^ (8 * (b :: bs).length) = 256 * 2 ^ (8 * bs.length) := by
      rw [List.length_cons, Nat.mul_succ, Nat.pow_add]; norm_num [Nat.mul_comm]
    rw [e, specLittleEndian]
    omega

theorem specLittleEndian_append (bs : List Nat) (b : Nat) :
    specLittleEndian (bs ++ [b]) = specLittleEndian bs + b * 2 ^ (8 * bs.length) := by
  induction bs with
  | nil => simp [specLittleEndian]
  | cons a bs ih =>
    have e : 2 ^ (8 * (a :: bs).length) = 256 * 2 ^ (8 * bs.length) := by
      rw [List.length_cons, Nat.mul_succ, Nat.pow_add]; norm_num [Nat.mul_comm]
    rw [List.cons_append, specLittleEndian, ih, specLittleEndian, e]
    ring

theorem specTailOr_eq_littleEndian (bs : List Nat) (hb : ∀ b ∈ bs, b < 256) :
    specTailOr bs = specLittleEndian bs := by
  induction bs using List.reverseRecOn with
  | nil => rfl
  | append_singleton bs b ih =>
    have hb1 : ∀ x ∈ bs, x < 256 := fun x hx => hb x (List.mem_append_left _ hx)
    have step : (List.range bs.length).foldl
          (fun acc k => acc ||| ((bs ++ [b]).getD k 0 <<< (8 * k))) 0 = specTailOr bs := by
      unfold specTailOr
      apply List.foldl_ext
      intro acc k hk
      have hk1 : k < bs.length := List.mem_range.mp hk
      rw [List.getD_append _ _ _ _ hk1]
    unfold specTailOr
    rw [List.length_append, List.length_singleton, List.range_succ, List.foldl_append, step,
      List.foldl_cons, List.foldl_nil, ih hb1, specLittleEndian_append,
      List.getD_append_right _ _ _ _ (Nat.le_refl _), Nat.sub_self]
    exact or_shiftLeft_eq_add _ _ _ (specLittleEndian_lt bs hb1)

theorem xor_byte_shift (mem : Bytes) (i c k : Nat) :
    (c <<< (k + 8)) ^^^ (byteAt mem i <<< k) = (byteAt mem i + 256 * c) <<< k := by
  have h1 : byteAt mem i <<< k < 2 ^ (k + 8) := by
    rw [Nat.shiftLeft_eq, Nat.pow_add, Nat.mul_comm]
    exact Nat.mul_lt_mul_of_pos_left (byteAt_lt mem i) (Nat.pow_pos (by decide))
  rw [Nat.xor_comm, xor_shiftLeft_eq_add _ _ _ h1, Nat.shiftLeft_eq, Nat.shiftLeft_eq, Nat.pow_add]
  ring

theorem xor_byte_shift_zero (mem : Bytes) (i k : Nat) :
    0 ^^^ (byteAt mem i <<< k) = (byteAt mem i + 256 * 0) <<< k := by
  simp

theorem xor_byte_low (mem : Bytes) (i c : Nat) :
    (c <<< 8) ^^^ byteAt mem i = byteAt mem i + 256 * c := by
  have := xor_byte_shift mem i c 0
  simpa using this

theorem xor_byte_low_zero (mem : Bytes) (i : Nat) :
    0 ^^^ byteAt mem i = byteAt mem i + 256 * 0 := by
  simp

theorem take_drop_eq_bytesFrom (buf : Bytes) (hb : ∀ b ∈ buf, b < 256) : ∀ (n off : Nat),
    off + n ≤ buf.length → (buf.drop off).take n = bytesFrom buf off n := by
  intro n
  induction n with
  | zero => intro off _; simp [bytesFrom]
  | succ n ih =>
    intro off h
    rw [take_succ_drop buf n off (by omega), ih (off + 1) (by omega), bytesFrom,
      byteAt_of_bounded buf hb]

theorem fasthashTail_eq_spec (buf : Bytes) (hb : ∀ b ∈ buf, b < 256) (pos2 r : Nat)
    (hr : r ≤ 7) (hlen : buf.length = pos2 + r) :
    fasthashTail buf pos2 r = specTailOr (buf.drop pos2) := by
  have hb1 : ∀ b ∈ buf.drop pos2, b < 256 := fun b hx => hb b (List.mem_of_mem_drop hx)
  rw [specTailOr_eq_littleEndian _ hb1]
  have e : buf.drop pos2 = (buf.drop pos2).take r := by
    rw [List.take_of_length_le]; rw [List.length_drop]; omega
  rw [e, take_drop_eq_bytesFrom buf hb r pos2 (by omega)]
  interval_cases r
  · simp [fasthashTail, specLittleEndian, bytesFrom]
  all_goals
    simp only [bytesFrom, specLittleEndian, fasthashTail, Nat.add_assoc]
    norm_num [xor_byte_shift, xor_byte_shift_zero, xor_byte_low, xor_byte_low_zero]

end

section

/-- C4: on a sequence of bytes, fasthash64 is the reference fold of the specification
(seed XOR len*m, one round per full little-endian block, one tail round with the OR of the
shifted remaining bytes when len mod 8 is not 0, final mix); with length 0 it is mix(seed). -/
theorem fasthash64_eq_spec (buf : Bytes) (seed : Nat) (hb : ∀ b ∈ buf, b < 256) :
    fasthash64 buf buf.length seed = specFasthash64 buf seed
      ∧ fasthash64 buf 0 seed = specMix seed := by
  constructor
  · have hmod : buf.length &&& 7 = buf.length % 8 :=
      Nat.and_pow_two_sub_one_eq_mod buf.length 3
    have hdm : buf.length = 8 * (buf.length / 8) + buf.length % 8 :=
      (Nat.div_add_mod buf.length 8).symm
    have hlt : buf.length % 8 ≤ 7 := by omega
    unfold fasthash64 specFasthash64
    simp only [hmod]
    rw [fasthashLoop_eq_foldl buf hb (buf.length / 8) 0 _ (by omega)]
    simp only [Nat.zero_add, fasthashM, specMix_eq_mix]
    by_cases hr : buf.length % 8 = 0
    · have h1 : ¬ 1 ≤ buf.length % 8 := by omega
      simp [hr]
    · have h1 : 1 ≤ buf.length % 8 := by omega
      rw [fasthashTail_eq_spec buf hb _ _ hlt hdm]
      simp [hr, h1, hashRound, fasthashM]
  · simp [fasthash64, fasthashLoop, specMix_eq_mix]

theorem fasthash64_eq_spec_witness :
    (∀ b ∈ [1, 2, 3, 4, 5, 6, 7, 8, 9, 250, 251], b < 256)
      ∧ (fasthash64 [1, 2, 3, 4, 5, 6, 7, 8, 9, 250, 251] ([1, 2, 3, 4, 5, 6, 7, 8, 9, 250, 251] : Bytes).length 5
          = specFasthash64 [1, 2, 3, 4, 5, 6, 7, 8, 9, 250, 251] 5
        ∧ fasthash64 [1, 2, 3, 4, 5, 6, 7, 8, 9, 250, 251] 0 5 = specMix 5) :=
  ⟨by decide, fasthash64_eq_spec [1, 2, 3, 4, 5, 6, 7, 8, 9, 250, 251] 5 (by decide)⟩

end

section

theorem bytesFrom_length (buf : Bytes) : ∀ (n off : Nat), (bytesFrom buf off n).length = n := by
  intro n
  induction n with
  | zero => intro off; rfl
  | succ n ih => intro off; simp [bytesFrom, ih]

theorem bytesFrom_lt (buf : Bytes) : ∀ (n off : Nat), ∀ b ∈ bytesFrom buf off n, b < 256 := by
  intro n
  induction n with
  | zero => intro off b hb; simp [bytesFrom] at hb
  | succ n ih =>
    intro off b hb
    simp only [bytesFrom, List.mem_cons] at hb
    rcases hb with rfl | hb
    · exact byteAt_lt buf off
    · exact ih _ b hb

theorem readInteger_eq_littleEndian (mem : Bytes) : ∀ (w off : Nat),
    readInteger mem off w = specLittleEndian (bytesFrom mem off w) := by
  intro w
  induction w with
  | zero => intro off; rfl
  | succ w ih => intro off; simp [readInteger, bytesFrom, specLittleEndian, ih]

theorem readInteger_lt (mem : Bytes) (w off : Nat) : readInteger mem off w < 2 ^ (8 * w) := by
  rw [readInteger_eq_littleEndian]
  have := specLittleEndian_lt (bytesFrom mem off w) (bytesFrom_lt mem w off)
  rwa [bytesFrom_length] at this

theorem head_lt (s : Slice) : s.head < 256 := byteAt_lt _ _

end

section
open Slice

theorem getInt_of_int (s : Slice) (h1 : 0x20 ≤ s.head) (h2 : s.head ≤ 0x27) :
    s.getInt = .ok (specNumericValue s) := by
  have hv := readInteger_lt s.mem (s.head - 0x1f) (s.start + 1)
  rw [readInteger_eq_littleEndian] at hv
  simp only [getInt, getIntF, specNumericValue, h1, h2, and_self, if_true,
    readInteger_eq_littleEndian]
  generalize specLittleEndian (bytesFrom s.mem (s.start + 1) (s.head - 0x1f)) = v at hv ⊢
  generalize s.head = h at *
  interval_cases h <;> simp [specSignExtend, toInt64] at hv ⊢ <;> split_ifs <;> omega

theorem specSignExtend_range (w u : Nat) (hw : 1 ≤ w) (hu : u < 2 ^ (8 * w)) :
    -(2 : Int) ^ (8 * w - 1) ≤ specSignExtend w u ∧ specSignExtend w u < (2 : Int) ^ (8 * w - 1) := by
  have e : (2 : Int) ^ (8 * w) = 2 * 2 ^ (8 * w - 1) := by
    rw [← pow_succ']; congr 1; omega
  have hu' : (u : Int) < 2 ^ (8 * w) := by exact_mod_cast hu
  have hp : (0 : Int) < 2 ^ (8 * w - 1) := by positivity
  unfold specSignExtend
  split_ifs with hc
  · have hc' : (u : Int) < 2 ^ (8 * w - 1) := by exact_mod_cast hc
    constructor <;> omega
  · have hc' : ¬ (u : Int) < 2 ^ (8 * w - 1) := by
      intro h; apply hc; exact_mod_cast h
    constructor <;> omega

theorem getSmallInt_eq_getInt (s : Slice) (h1 : 0x20 ≤ s.head) (h2 : s.head ≤ 0x3f) :
    s.getSmallInt = s.getInt := by
  generalize hh : s.head = h at *
  interval_cases h <;> simp [getInt, getSmallInt, getIntF, getUIntF, getSmallIntF, hh]

/-- C9: for heads 0x20..0x27 getInt returns the sign-extended value of the w = head - 0x1f
little-endian payload bytes, which lies in [-2^(8w-1), 2^(8w-1)); for heads 0x30..0x39 getInt
and getSmallInt return head - 0x30; for heads 0x3a..0x3f they return head - 0x3a - 6; on
every head in 0x20..0x3f getSmallInt returns what getInt returns. -/
theorem getInt_getSmallInt_values (s : Slice) :
    (0x20 ≤ s.head ∧ s.head ≤ 0x27 →
        s.getInt = .ok (specSignExtend (s.head - 0x1f)
            (specLittleEndian (bytesFrom s.mem (s.start + 1) (s.head - 0x1f))))
        ∧ -(2 : Int) ^ (8 * (s.head - 0x1f) - 1)
            ≤ specSignExtend (s.head - 0x1f)
                (specLittleEndian (bytesFrom s.mem (s.start + 1) (s.head - 0x1f)))
        ∧ specSignExtend (s.head - 0x1f)
              (specLittleEndian (bytesFrom s.mem (s.start + 1) (s.head - 0x1f)))
            < (2 : Int) ^ (8 * (s.head - 0x1f) - 1))
    ∧ (0x30 ≤ s.head ∧ s.head ≤ 0x39 →
        s.getInt = .ok ((s.head : Int) - 0x30) ∧ s.getSmallInt = .ok ((s.head : Int) - 0x30)
        ∧ 0 ≤ (s.head : Int) - 0x30 ∧ (s.head : Int) - 0x30 ≤ 9)
    ∧ (0x3a ≤ s.head ∧ s.head ≤ 0x3f →
        s.getInt = .ok ((s.head : Int) - 0x3a - 6) ∧ s.getSmallInt = .ok ((s.head : Int) - 0x3a - 6)
        ∧ -6 ≤ (s.head : Int) - 0x3a - 6 ∧ (s.head : Int) - 0x3a - 6 ≤ -1)
    ∧ (0x20 ≤ s.head ∧ s.head ≤ 0x3f → s.getSmallInt = s.getInt) := by
  refine ⟨?_, ?_, ?_, ?_⟩
  · rintro ⟨h1, h2⟩
    have hv := readInteger_lt s.mem (s.head - 0x1f) (s.start + 1)
    rw [readInteger_eq_littleEndian] at hv
    have hr := specSignExtend_range (s.head - 0x1f) _ (by omega) hv
    refine ⟨?_, hr.1, hr.2⟩
    rw [getInt_of_int s h1 h2]
    simp [specNumericValue, h1, h2]
  · rintro ⟨h1, h2⟩
    generalize hh : s.head = h at *
    interval_cases h <;> simp [getInt, getSmallInt, getIntF, getSmallIntF, hh]
  · rintro ⟨h1, h2⟩
    generalize hh : s.head = h at *
    interval_cases h <;> simp [getInt, getSmallInt, getIntF, getSmallIntF, hh]
  · rintro ⟨h1, h2⟩
    exact getSmallInt_eq_getInt s h1 h2

theorem getInt_getSmallInt_values_witness :
    ((Slice.mk [0x21, 0xfe, 0xff] 0).getInt = .ok (-2))
      ∧ ((Slice.mk [0x35] 0).getSmallInt = .ok 5)
      ∧ ((Slice.mk [0x3b] 0).getInt = .ok (-5))
      ∧ ((Slice.mk [0x2f, 0, 0, 0, 0, 0, 0, 0, 0x80] 0).getSmallInt
          = (Slice.mk [0x2f, 0, 0, 0, 0, 0, 0, 0, 0x80] 0).getInt) := by
  refine ⟨?_, ?_, ?_, ?_⟩
  · have h := ((getInt_getSmallInt_values (Slice.mk [0x21, 0xfe, 0xff] 0)).1 (by decide)).1
    rw [h]; decide
  · have h := ((getInt_getSmallInt_values (Slice.mk [0x35] 0)).2.1 (by decide)).2.1
    rw [h]; decide
  · have h := ((getInt_getSmallInt_values (Slice.mk [0x3b] 0)).2.2.1 (by decide)).1
    rw [h]; decide
  · exact (getInt_getSmallInt_values (Slice.mk [0x2f, 0, 0, 0, 0, 0, 0, 0, 0x80] 0)).2.2.2 (by decide)

end

section
open Slice

theorem getIntF_of_int (n : Nat) (s : Slice) (h1 : 0x20 ≤ s.head) (h2 : s.head ≤ 0x27) :
    getIntF (n + 1) s = .ok (specNumericValue s) := by
  have hv := readInteger_lt s.mem (s.head - 0x1f) (s.start + 1)
  rw [readInteger_eq_littleEndian] at hv
  simp only [getIntF, specNumericValue, h1, h2, and_self, if_true,
    readInteger_eq_littleEndian]
  generalize specLittleEndian (bytesFrom s.mem (s.start + 1) (s.head - 0x1f)) = v at hv ⊢
  generalize s.head = h at *
  interval_cases h <;> simp [specSignExtend, toInt64] at hv ⊢ <;> split_ifs <;> omega

theorem getUIntF_of_uint (n : Nat) (s : Slice) (h1 : 0x28 ≤ s.head) (h2 : s.head ≤ 0x2f) :
    getUIntF (n + 1) s = .ok (specNumericValue s).toNat
      ∧ 0 ≤ specNumericValue s ∧ specNumericValue s < 2 ^ 64 := by
  have a1 : ¬ (0x20 ≤ s.head ∧ s.head ≤ 0x27) := by omega
  have hv := readInteger_lt s.mem (s.head - 0x27) (s.start + 1)
  rw [readInteger_eq_littleEndian] at hv
  have hle : (2 : Nat) ^ (8 * (s.head - 0x27)) ≤ 2 ^ 64 :=
    Nat.pow_le_pow_right (by decide) (by omega)
  simp only [getUIntF, specNumericValue, h1, h2, a1, and_self, if_true, if_false,
    readInteger_eq_littleEndian, Int.toNat_ofNat]
  refine ⟨trivial, ?_, ?_⟩
  · exact Int.ofNat_nonneg _
  · have : specLittleEndian (bytesFrom s.mem (s.start + 1) (s.head - 0x27)) < 2 ^ 64 :=
      lt_of_lt_of_le hv hle
    exact_mod_cast this

theorem specNumericValue_int_range (s : Slice) (h1 : 0x20 ≤ s.head) (h2 : s.head ≤ 0x27) :
    -(2 : Int) ^ 63 ≤ specNumericValue s ∧ specNumericValue s < 2 ^ 63 := by
  have hv := readInteger_lt s.mem (s.head - 0x1f) (s.start + 1)
  rw [readInteger_eq_littleEndian] at hv
  have hr := specSignExtend_range (s.head - 0x1f) _ (by omega) hv
  have hle : (2 : Int) ^ (8 * (s.head - 0x1f) - 1) ≤ 2 ^ 63 :=
    pow_le_pow_right₀ (by norm_num) (by omega)
  simp only [specNumericValue, h1, h2, and_self, if_true]
  constructor <;> omega

end

section
open Slice

/-- C10: on a numeric head (0x20..0x3f) getInt fails with NumberOutOfRange exactly for a UInt
above 2^63-1, getUInt fails with NumberOutOfRange exactly for a negative Int or a negative
SmallInt, a getter that does not fail so returns the mathematical value of the encoding, and
getInt and getUInt agree when both succeed; on every other head the three getters fail with
InvalidValueType. -/
theorem numeric_getters_range (s : Slice) :
    (0x20 ≤ s.head ∧ s.head ≤ 0x3f →
        (s.getInt = .error .NumberOutOfRange
            ↔ (0x28 ≤ s.head ∧ s.head ≤ 0x2f ∧ (2 : Int) ^ 63 - 1 < specNumericValue s))
        ∧ (s.getUInt = .error .NumberOutOfRange
            ↔ ((0x20 ≤ s.head ∧ s.head ≤ 0x27 ∧ specNumericValue s < 0)
                ∨ (0x3a ≤ s.head ∧ s.head ≤ 0x3f)))
        ∧ (s.getInt = .error .NumberOutOfRange ∨ s.getInt = .ok (specNumericValue s))
        ∧ (s.getUInt = .error .NumberOutOfRange
            ∨ (s.getUInt = .ok (specNumericValue s).toNat ∧ 0 ≤ specNumericValue s))
        ∧ (s.getSmallInt = .error .NumberOutOfRange ∨ s.getSmallInt = .ok (specNumericValue s))
        ∧ (∀ (a : Int) (b : Nat), s.getInt = .ok a → s.getUInt = .ok b → a = (b : Int)))
    ∧ (s.head < 0x20 ∨ 0x3f < s.head →
        s.getInt = .error .InvalidValueType ∧ s.getUInt = .error .InvalidValueType
          ∧ s.getSmallInt = .error .InvalidValueType) := by
  constructor
  · rintro ⟨h1, h2⟩
    have hsm : s.getSmallInt = s.getInt := getSmallInt_eq_getInt s h1 h2
    rw [hsm]
    by_cases c1 : 0x20 ≤ s.head ∧ s.head ≤ 0x27
    · -- Int
      have hI : s.getInt = .ok (specNumericValue s) := getIntF_of_int 2 s c1.1 c1.2
      have hr := specNumericValue_int_range s c1.1 c1.2
      have a2 : ¬ (0x28 ≤ s.head ∧ s.head ≤ 0x2f) := by omega
      have hU : s.getUInt = if specNumericValue s < 0 then .error .NumberOutOfRange
          else .ok (specNumericValue s).toNat := by
        simp only [getUInt, getUIntF, a2, c1, and_self, if_true, if_false,
          getIntF_of_int 1 s c1.1 c1.2, toUInt64]
        split_ifs with hneg
        · rfl
        · have : specNumericValue s % 2 ^ 64 = specNumericValue s :=
            Int.emod_eq_of_lt (by omega) (by omega)
          rw [this]
      rw [hI, hU]
      refine ⟨?_, ?_, Or.inr rfl, ?_, Or.inr rfl, ?_⟩
      · constructor
        · intro h; cases h
        · rintro ⟨h, _⟩; omega
      · split_ifs with hneg
        · simp [hneg, c1.1, c1.2]
        · constructor
          · intro h; cases h
          · rintro (⟨_, _, h⟩ | ⟨h, _⟩)
            · exact absurd h hneg
            · omega
      · split_ifs with hneg
        · exact Or.inl rfl
        · exact Or.inr ⟨rfl, by omega⟩
      · intro a b ha hb
        split_ifs at hb with hneg
        rw [← Except.ok.inj ha, ← Except.ok.inj hb]
        exact (Int.toNat_of_nonneg (by omega)).symm
    · by_cases c2 : 0x28 ≤ s.head ∧ s.head ≤ 0x2f
      · -- UInt
        obtain ⟨hU2, hge, hlt⟩ := getUIntF_of_uint 1 s c2.1 c2.2
        have hU : s.getUInt = .ok (specNumericValue s).toNat := (getUIntF_of_uint 2 s c2.1 c2.2).1
        have hcast : ((specNumericValue s).toNat : Int) = specNumericValue s :=
          Int.toNat_of_nonneg hge
        have hI : s.getInt = if (specNumericValue s).toNat > INT64_MAX then .error .NumberOutOfRange
            else .ok (specNumericValue s) := by
          simp only [getInt, getIntF, c1, c2, and_self, if_true, if_false, hU2]
          split_ifs with hbig
          · rfl
          · have : (specNumericValue s).toNat < 2 ^ 63 := by
              simp only [INT64_MAX] at hbig; omega
            simp only [toInt64, this, if_true, hcast]
        have hmax : ((specNumericValue s).toNat > INT64_MAX) ↔ (2 : Int) ^ 63 - 1 < specNumericValue s := by
          simp only [INT64_MAX]; omega
        rw [hI, hU]
        refine ⟨?_, ?_, ?_, Or.inr ⟨rfl, hge⟩, ?_, ?_⟩
        · split_ifs with hbig
          · simp only [true_iff]; exact ⟨c2.1, c2.2, hmax.mp hbig⟩
          · constructor
            · intro h; cases h
            · rintro ⟨_, _, h⟩; exact absurd (hmax.mpr h) hbig
        · constructor
          · intro h; cases h
          · rintro (⟨h, _⟩ | ⟨h, _⟩) <;> omega
        · split_ifs with hbig
          · exact Or.inl rfl
          · exact Or.inr rfl
        · split_ifs with hbig
          · exact Or.inl rfl
          · exact Or.inr rfl
        · intro a b ha hb
          split_ifs at ha with hbig
          rw [← Except.ok.inj ha, ← Except.ok.inj hb]
          exact hcast.symm
      · -- SmallInt
        have h3 : 0x30 ≤ s.head := by omega
        clear c1 c2 hsm
        generalize hh : s.head = h at *
        interval_cases h <;>
          simp [getInt, getUInt, getIntF, getUIntF, getSmallIntF, specNumericValue, hh]
  · intro hout
    have hlt := head_lt s
    have a1 : ¬ (0x20 ≤ s.head ∧ s.head ≤ 0x27) := by omega
    have a2 : ¬ (0x28 ≤ s.head ∧ s.head ≤ 0x2f) := by omega
    have a3 : ¬ (0x30 ≤ s.head ∧ s.head ≤ 0x3f) := by omega
    have a4 : ¬ (0x30 ≤ s.head ∧ s.head ≤ 0x39) := by omega
    have a5 : ¬ (0x3a ≤ s.head ∧ s.head ≤ 0x3f) := by omega
    simp only [getInt, getUInt, getSmallInt, getIntF, getUIntF, getSmallIntF, a1, a2, a3, a4, a5,
      if_false, or_self, and_self]

theorem numeric_getters_range_witness :
    ((Slice.mk [0x2f, 0, 0, 0, 0, 0, 0, 0, 0x80] 0).getInt = .error .NumberOutOfRange)
      ∧ ((Slice.mk [0x20, 0xff] 0).getUInt = .error .NumberOutOfRange)
      ∧ ((Slice.mk [0x18] 0).getInt = .error .InvalidValueType) := by
  refine ⟨?_, ?_, ?_⟩
  · exact ((numeric_getters_range (Slice.mk [0x2f, 0, 0, 0, 0, 0, 0, 0, 0x80] 0)).1
      (by decide)).1.mpr (by decide)
  · exact ((numeric_getters_range (Slice.mk [0x20, 0xff] 0)).1
      (by decide)).2.1.mpr (by decide)
  · exact ((numeric_getters_range (Slice.mk [0x18] 0)).2 (by decide)).1

end

section
open Slice

theorem isString_iff (s : Slice) : s.isString = true ↔ (0x40 ≤ s.head ∧ s.head ≤ 0xbf) := by
  have hlt := head_lt s
  unfold isString type
  generalize s.head = h at *
  interval_cases h <;> decide

theorem isObject_iff (s : Slice) :
    s.isObject = true ↔ ((0x0a ≤ s.head ∧ s.head ≤ 0x0e) ∨ s.head = 0x14) := by
  have hlt := head_lt s
  unfold isObject type
  generalize s.head = h at *
  interval_cases h <;> decide

theorem memcmp_eq_zero_iff (a b : Bytes) : ∀ (n ao bo : Nat),
    memcmp a ao b bo n = 0 ↔ bytesFrom a ao n = bytesFrom b bo n := by
  intro n
  induction n with
  | zero => intro ao bo; simp [memcmp, bytesFrom]
  | succ n ih =>
    intro ao bo
    simp only [memcmp, bytesFrom, List.cons.injEq]
    split_ifs with h1 h2
    · constructor
      · intro h; simp at h
      · rintro ⟨h, _⟩; omega
    · constructor
      · intro h; simp at h
      · rintro ⟨h, _⟩; omega
    · rw [ih]
      constructor
      · intro h; exact ⟨by omega, h⟩
      · rintro ⟨_, h⟩; exact h

theorem bytesFrom_self (a : Bytes) (ha : ∀ b ∈ a, b < 256) : bytesFrom a 0 a.length = a := by
  have := take_drop_eq_bytesFrom a ha a.length 0 (by omega)
  rw [← this]
  simp

theorem fastModulo32Bit_lt (x n : Nat) (h1 : 1 ≤ n) (h2 : n ≤ 0x1000000) :
    fastModulo32Bit x n < n := by
  unfold fastModulo32Bit
  have hx : x &&& 0xFFFFFFFF < 2 ^ 32 := by
    have := Nat.and_pow_two_sub_one_eq_mod x 32
    norm_num at this
    rw [this]
    omega
  have hprod : (x &&& 0xFFFFFFFF) * n < 2 ^ 32 * n := Nat.mul_lt_mul_of_pos_right hx (by omega)
  have hlt : (x &&& 0xFFFFFFFF) * n < 2 ^ 64 := by
    have : 2 ^ 32 * n ≤ 2 ^ 32 * 0x1000000 := Nat.mul_le_mul_left _ h2
    omega
  rw [Nat.mod_eq_of_lt hlt, Nat.shiftRight_eq_div_pow]
  exact Nat.div_lt_of_lt_mul hprod

theorem slotPos_lt (n hash : Nat) (h1 : 1 ≤ n) : slotPos n hash < n := by
  unfold slotPos
  split_ifs with hs
  · exact fastModulo32Bit_lt hash n h1 hs
  · exact Nat.mod_lt _ (by omega)

/-- A probe of a slot whose key, if any, is a String different from the attribute finds
nothing. -/
theorem probe_absent (tr : Option (Nat → Option Slice)) (s : Slice) (attr : Bytes)
    (hattr : ∀ b ∈ attr, b < 256) (p : Nat)
    (hkey : slotEntry s p ≠ 0 →
      (s.offset (slotEntry s p)).isString = true ∧ stringPayload (s.offset (slotEntry s p)) ≠ attr) :
    s.probe tr attr s.cuckooHeader.htBase (indexEntrySize s.head) p = .ok none := by
  unfold probe
  simp only [slotEntry] at hkey
  generalize readInteger s.mem (s.start + s.cuckooHeader.htBase + p * indexEntrySize s.head)
    (indexEntrySize s.head) = off at hkey
  by_cases h0 : off = 0
  · simp [h0]
  · obtain ⟨hstr, hne⟩ := hkey h0
    have hrange := (isString_iff _).mp hstr
    simp only [ne_eq, h0, not_false_eq_true, if_true, makeKey, hstr]
    unfold stringPayload at hne
    cases hg : (s.offset off).getString with
    | error e =>
      exfalso
      simp only [getString] at hg
      split_ifs at hg with c1 c2
      omega
    | ok r =>
      obtain ⟨st, len⟩ := r
      rw [hg] at hne
      simp only at hne ⊢
      have : ¬ (attr.length = len ∧ memcmp attr 0 (s.offset off).mem st len = 0) := by
        rintro ⟨hl, hm⟩
        rw [memcmp_eq_zero_iff, ← hl, bytesFrom_self attr hattr] at hm
        apply hne
        rw [← hl]
        exact hm.symm
      simp [this]

end

section
open Slice

theorem isEqualString_absent (k : Slice) (attr : Bytes) (hattr : ∀ b ∈ attr, b < 256)
    (hstr : k.isString = true) (hne : stringPayload k ≠ attr) :
    k.isEqualString attr = .ok false := by
  have hrange := (isString_iff _).mp hstr
  unfold stringPayload at hne
  unfold isEqualString
  cases hg : k.getString with
  | error e =>
    exfalso
    simp only [getString] at hg
    split_ifs at hg with c1 c2
    omega
  | ok r =>
    obtain ⟨st, len⟩ := r
    rw [hg] at hne
    simp only at hne ⊢
    split_ifs with hl
    · rfl
    · have hl' : len = attr.length := by simpa using hl
      have : ¬ (memcmp k.mem st attr 0 attr.length = 0) := by
        intro hm
        rw [memcmp_eq_zero_iff, bytesFrom_self attr hattr] at hm
        apply hne
        rw [hl']
        exact hm
      simp [this]

theorem compactObjectScan_absent (tr : Option (Nat → Option Slice)) (s : Slice) (attr : Bytes)
    (hattr : ∀ b ∈ attr, b < 256) : ∀ (n off : Nat),
    (∀ i < n, ∃ o, s.compactWalk i off = .ok o ∧ (s.offset o).isString = true
        ∧ stringPayload (s.offset o) ≠ attr) →
    compactObjectScan tr s attr n off = .ok noneSlice := by
  intro n
  induction n with
  | zero => intro off _; rfl
  | succ n ih =>
    intro off hall
    obtain ⟨o, ho, hstr, hne⟩ := hall 0 (by omega)
    simp only [compactWalk] at ho
    have ho' : off = o := Except.ok.inj ho
    subst ho'
    simp only [compactObjectScan, makeKey, hstr, if_true,
      isEqualString_absent _ attr hattr hstr hne]
    by_cases hn : n = 0
    · simp [hn]
    · simp only [hn, if_false]
      obtain ⟨o1, ho1, _, _⟩ := hall 1 (by omega)
      simp only [compactWalk] at ho1
      cases hstep : s.compactStep off with
      | error e => rw [hstep] at ho1; simp at ho1
      | ok off1 =>
        simp only
        apply ih
        intro i hi
        obtain ⟨o2, ho2, h2⟩ := hall (i + 1) (by omega)
        simp only [compactWalk, hstep] at ho2
        exact ⟨o2, ho2, h2⟩

/-- C2: get returns the None slice when the attribute equals none of the String keys of the
object (the keys in the slots of a cuckoo-hashed object, the keys met by the walk of a compact
object), it returns None on the empty object 0x0a for every attribute, and it fails with
InvalidValueType on a slice that is not an Object. -/
theorem get_absent_key (tr : Option (Nat → Option Slice)) (s : Slice) (attr : Bytes)
    (hattr : ∀ b ∈ attr, b < 256) :
    (s.isObject = false → s.get tr attr = .error .InvalidValueType)
    ∧ (s.head = 0x0a → s.get tr attr = .ok noneSlice)
    ∧ (0x0b ≤ s.head ∧ s.head ≤ 0x0e → 1 ≤ s.cuckooHeader.nrSlots →
        (∀ p < s.cuckooHeader.nrSlots, slotEntry s p ≠ 0 →
          (s.offset (slotEntry s p)).isString = true
            ∧ stringPayload (s.offset (slotEntry s p)) ≠ attr) →
        s.get tr attr = .ok noneSlice)
    ∧ (s.head = 0x14 →
        (∀ i < s.compactLength, ∃ off, s.getNthOffsetFromCompact i = .ok off
          ∧ (s.offset off).isString = true ∧ stringPayload (s.offset off) ≠ attr) →
        s.get tr attr = .ok noneSlice) := by
  refine ⟨?_, ?_, ?_, ?_⟩
  · intro h
    simp [Slice.get, h]
  · intro h
    have ho : s.isObject = true := (isObject_iff s).mpr (Or.inl (by omega))
    simp [Slice.get, ho, h]
  · intro hh hslots hkeys
    have ho : s.isObject = true := (isObject_iff s).mpr (Or.inl (by omega))
    have a1 : s.head ≠ 0x0a := by omega
    have a2 : s.head ≠ 0x14 := by omega
    have p0 := fun hash => probe_absent tr s attr hattr _
      (hkeys _ (slotPos_lt s.cuckooHeader.nrSlots hash hslots))
    simp only [Slice.get, ho, a1, a2, Bool.not_true, Bool.false_eq_true, if_false, p0]
  · intro hh hkeys
    have ho : s.isObject = true := (isObject_iff s).mpr (Or.inr hh)
    simp only [Slice.get, ho, hh, Bool.not_true, Bool.false_eq_true, if_false, if_true,
      getFromCompactObject]
    simp only [show (0x14 : Nat) = 0x0a ↔ False by decide, if_false]
    apply compactObjectScan_absent tr s attr hattr
    intro i hi
    obtain ⟨off, hoff, h2⟩ := hkeys i hi
    refine ⟨off, ?_, h2⟩
    simp only [getNthOffsetFromCompact] at hoff
    have : ¬ i ≥ readVariableValueLength true s.mem
        (s.start + readVariableValueLength false s.mem (s.start + 1) - 1) := by
      simp only [compactLength] at hi; omega
    simpa [this] using hoff

end

section
open Slice

theorem get_absent_key_witness :
    (∀ b ∈ ([0x62] : Bytes), b < 256)
      ∧ Slice.get none thirdSlotObject [0x62] = .ok noneSlice :=
  ⟨by decide,
   (get_absent_key none thirdSlotObject [0x62] (by decide)).2.2.1 (by decide) (by decide)
     (by decide)⟩

/-- C1 (defect of the code): in `thirdSlotObject` the pair "a" : 1 is stored in the third
candidate slot of its key (positions 3, 2, 1 for the three hashes; slot 1 holds the offset 5
of the key, whose value lies at offset 7), and get("a") returns the None slice: the third probe
reads the slot at pos[1] again. -/
theorem get_third_probe_reads_second_slot :
    slotPos thirdSlotObject.cuckooHeader.nrSlots
        (fasthash64x3 [0x61] 1 (fun k => seedTable.getD (3 * thirdSlotObject.cuckooHeader.seed + k) 0)).h0 = 3
      ∧ slotPos thirdSlotObject.cuckooHeader.nrSlots
        (fasthash64x3 [0x61] 1 (fun k => seedTable.getD (3 * thirdSlotObject.cuckooHeader.seed + k) 0)).h1 = 2
      ∧ slotPos thirdSlotObject.cuckooHeader.nrSlots
        (fasthash64x3 [0x61] 1 (fun k => seedTable.getD (3 * thirdSlotObject.cuckooHeader.seed + k) 0)).h2 = 1
      ∧ slotEntry thirdSlotObject 1 = 5
      ∧ stringPayload (thirdSlotObject.offset 5) = [0x61]
      ∧ (thirdSlotObject.offset 5).next = .ok (thirdSlotObject.offset 7)
      ∧ Slice.get none thirdSlotObject [0x61] = .ok noneSlice := by
  decide

end

section
open Parser

theorem byteAt_append_length (pre rest : Bytes) (c : Nat) :
    byteAt (pre ++ c :: rest) pre.length = c % 256 := by
  unfold byteAt
  rw [List.getD_eq_getElem?_getD, List.getElem?_append_right (Nat.le_refl _)]
  simp

theorem consume_at (p : Parser) (pre rest : Bytes) (c : Nat)
    (hin : p.input = pre ++ c :: rest) (hpos : p.pos = pre.length) :
    p.consume = (some (c % 256), { p with pos := p.pos + 1 }) := by
  have hlt : ¬ p.pos ≥ p.size := by
    simp [Parser.size, hin, hpos]
  simp only [consume, hlt, if_false]
  rw [hin, hpos, byteAt_append_length]

theorem consume_end (p : Parser) (pre : Bytes) (hin : p.input = pre) (hpos : p.pos = pre.length) :
    p.consume = (none, p) := by
  have : p.pos ≥ p.size := by simp [Parser.size, hin, hpos]
  simp [consume, this]

theorem addDigit_some (finite : DoubleExpr → Bool) (n n1 : ParsedNumber) (d : Nat)
    (h : n.Good) (hs : n.addDigit finite d = some n1) :
    n1.Good ∧ n1.digitsValue = n.digitsValue * 10 + d := by
  obtain ⟨h1, h2⟩ := h
  unfold ParsedNumber.addDigit at hs
  dsimp only at hs
  split_ifs at hs with hc hf
  · obtain ⟨hi, hlt⟩ := hc
    obtain ⟨e, _⟩ := h1 hi
    simp only [Option.some.injEq] at hs
    subst hs
    refine ⟨⟨?_, ?_⟩, rfl⟩
    · intro _; simp only; rw [← e]; exact ⟨rfl, hlt⟩
    · intro hf; simp at hf
  · simp only [Option.some.injEq] at hs
    subst hs
    refine ⟨⟨?_, ?_⟩, rfl⟩
    · intro hf; simp at hf
    · intro _
      simp only
      cases hi : n.isInteger with
      | true =>
        obtain ⟨e, _⟩ := h1 hi
        have : ¬ n.intValue * 10 + d < 2 ^ 64 := fun hlt => hc ⟨hi, hlt⟩
        rw [← e]; omega
      | false =>
        have := h2 hi
        omega

/-- A digit is rejected exactly when the value has left the 64-bit range and its double is
not finite. -/
theorem addDigit_none_iff (finite : DoubleExpr → Bool) (n : ParsedNumber) (d : Nat)
    (h : n.Good) :
    n.addDigit finite d = none
      ↔ 2 ^ 64 ≤ n.digitsValue * 10 + d
          ∧ finite (.ofDigits (n.digitsValue * 10 + d)) = false := by
  obtain ⟨h1, h2⟩ := h
  unfold ParsedNumber.addDigit
  by_cases hc : n.isInteger = true ∧ n.intValue * 10 + d < 2 ^ 64
  · rw [if_pos hc]
    obtain ⟨e, _⟩ := h1 hc.1
    constructor
    · intro hx; cases hx
    · rintro ⟨hge, _⟩
      rw [e] at hc
      omega
  · rw [if_neg hc]
    have hge : 2 ^ 64 ≤ n.digitsValue * 10 + d := by
      cases hi : n.isInteger with
      | true =>
        obtain ⟨e, _⟩ := h1 hi
        have : ¬ n.intValue * 10 + d < 2 ^ 64 := fun hlt => hc ⟨hi, hlt⟩
        rw [← e]; omega
      | false =>
        have := h2 hi
        omega
    simp only [ParsedNumber.doubleValue]
    by_cases hf : finite (.ofDigits (n.digitsValue * 10 + d)) = true
    · rw [if_pos hf]
      simp [hf]
    · rw [if_neg hf]
      simp only [Bool.not_eq_true] at hf
      exact ⟨fun _ => ⟨hge, hf⟩, fun _ => rfl⟩

/-- The scan of a run of digits whose doubles stay finite: the cursor ends behind the digits
and the `ParsedNumber` holds their value. -/
theorem scanDigits_digits (finite : DoubleExpr → Bool) (ds : List Nat)
    (hdig : ∀ d ∈ ds, d ≤ 9) (rest : Bytes)
    (hrest : ∀ c, rest.head? = some c → ¬ (0x30 ≤ c % 256 ∧ c % 256 ≤ 0x39)) :
    ∀ (fuel : Nat) (p : Parser) (pre : Bytes) (n : ParsedNumber), ds.length < fuel →
      p.input = pre ++ digitBytes ds ++ rest → p.pos = pre.length → n.Good →
      (∀ k, 1 ≤ k → k ≤ ds.length →
        2 ^ 64 ≤ (ds.take k).foldl (fun a d => a * 10 + d) n.digitsValue →
        finite (.ofDigits ((ds.take k).foldl (fun a d => a * 10 + d) n.digitsValue)) = true) →
      ∃ nv, scanDigits finite fuel p n = .ok ({ p with pos := p.pos + ds.length }, nv)
        ∧ nv.Good ∧ nv.digitsValue = ds.foldl (fun a d => a * 10 + d) n.digitsValue := by
  induction ds with
  | nil =>
    intro fuel p pre n hf hin hpos hg _
    obtain ⟨fuel, rfl⟩ : ∃ k, fuel = k + 1 := ⟨fuel - 1, by simp at hf; omega⟩
    simp only [digitBytes, List.map_nil, List.append_nil] at hin
    refine ⟨n, ?_, hg, rfl⟩
    cases rest with
    | nil =>
      simp only [List.append_nil] at hin
      simp [scanDigits, consume_end p pre hin hpos]
    | cons c rest =>
      have hc := hrest c rfl
      have hc' : c % 256 < 0x30 ∨ c % 256 > 0x39 := by omega
      simp only [scanDigits, consume_at p pre rest c hin hpos, hc', if_true, unconsume,
        List.length_nil]
      simp
  | cons d ds ih =>
    intro fuel p pre n hf hin hpos hg hfin
    obtain ⟨fuel, rfl⟩ : ∃ k, fuel = k + 1 := ⟨fuel - 1, by simp at hf; omega⟩
    have hd : d ≤ 9 := hdig d (List.mem_cons_self _ _)
    have hin1 : p.input = pre ++ (d + 0x30) :: (digitBytes ds ++ rest) := by
      rw [hin]; simp [digitBytes]
    have hmod : (d + 0x30) % 256 = d + 0x30 := by omega
    have hc' : ¬ (d + 0x30 < 0x30 ∨ d + 0x30 > 0x39) := by omega
    have hsome : ∃ n1, n.addDigit finite d = some n1 := by
      cases hx : n.addDigit finite d with
      | some n1 => exact ⟨n1, rfl⟩
      | none =>
        obtain ⟨a, b⟩ := (addDigit_none_iff finite n d hg).mp hx
        have := hfin 1 (Nat.le_refl 1) (by simp) (by simpa using a)
        simp only [List.take_succ_cons, List.take_zero, List.foldl_cons, List.foldl_nil] at this
        rw [this] at b
        cases b
    obtain ⟨n1, hn1⟩ := hsome
    obtain ⟨hg1, hv1⟩ := addDigit_some finite n n1 d hg hn1
    simp only [scanDigits, consume_at p pre _ _ hin1 hpos, hmod, hc', if_false,
      Nat.add_sub_cancel, hn1]
    obtain ⟨nv, e1, e2, e3⟩ := ih (fun x hx => hdig x (List.mem_cons_of_mem _ hx)) fuel
      ({ p with pos := p.pos + 1 } : Parser) (pre ++ [d + 0x30]) n1
      (by simp at hf; omega) (by simp [hin1]) (by simp [hpos]) hg1
      (by
        intro k hk1 hk2
        have := hfin (k + 1) (by omega) (by simp only [List.length_cons]; omega)
        simp only [List.take_succ_cons, List.foldl_cons] at this
        rw [hv1]
        exact this)
    refine ⟨nv, ?_, e2, ?_⟩
    · rw [e1]
      simp [Nat.add_assoc, Nat.add_comm 1]
    · rw [e3, hv1]
      rfl

/-- The scan of a run of digits stops with NumberOutOfRange behind the first digit with which
the value has left the 64-bit range and its double is not finite. -/
theorem scanDigits_overflow (finite : DoubleExpr → Bool) (ds : List Nat)
    (hdig : ∀ d ∈ ds, d ≤ 9) (rest : Bytes) :
    ∀ (fuel : Nat) (p : Parser) (pre : Bytes) (n : ParsedNumber) (j : Nat), ds.length < fuel →
      p.input = pre ++ digitBytes ds ++ rest → p.pos = pre.length → n.Good →
      1 ≤ j → j ≤ ds.length →
      (∀ k, 1 ≤ k → k < j →
        2 ^ 64 ≤ (ds.take k).foldl (fun a d => a * 10 + d) n.digitsValue →
        finite (.ofDigits ((ds.take k).foldl (fun a d => a * 10 + d) n.digitsValue)) = true) →
      2 ^ 64 ≤ (ds.take j).foldl (fun a d => a * 10 + d) n.digitsValue →
      finite (.ofDigits ((ds.take j).foldl (fun a d => a * 10 + d) n.digitsValue)) = false →
      scanDigits finite fuel p n = .error ⟨.NumberOutOfRange, { p with pos := p.pos + j }⟩ := by
  induction ds with
  | nil =>
    intro fuel p pre n j _ _ _ _ h1 h2
    simp at h2
    omega
  | cons d ds ih =>
    intro fuel p pre n j hf hin hpos hg hj1 hj2 hfin hge hbad
    obtain ⟨fuel, rfl⟩ : ∃ k, fuel = k + 1 := ⟨fuel - 1, by simp at hf; omega⟩
    have hd : d ≤ 9 := hdig d (List.mem_cons_self _ _)
    have hin1 : p.input = pre ++ (d + 0x30) :: (digitBytes ds ++ rest) := by
      rw [hin]; simp [digitBytes]
    have hmod : (d + 0x30) % 256 = d + 0x30 := by omega
    have hc' : ¬ (d + 0x30 < 0x30 ∨ d + 0x30 > 0x39) := by omega
    by_cases hj : j = 1
    · subst hj
      simp only [List.take_succ_cons, List.take_zero, List.foldl_cons, List.foldl_nil] at hge hbad
      have hn := (addDigit_none_iff finite n d hg).mpr ⟨hge, hbad⟩
      simp only [scanDigits, consume_at p pre _ _ hin1 hpos, hmod, hc', if_false,
        Nat.add_sub_cancel, hn, Parser.fail]
    · obtain ⟨j', rfl⟩ : ∃ j', j = j' + 1 := ⟨j - 1, by omega⟩
      have hsome : ∃ n1, n.addDigit finite d = some n1 := by
        cases hx : n.addDigit finite d with
        | some n1 => exact ⟨n1, rfl⟩
        | none =>
          obtain ⟨a, b⟩ := (addDigit_none_iff finite n d hg).mp hx
          have := hfin 1 (Nat.le_refl 1) (by omega) (by simpa using a)
          simp only [List.take_succ_cons, List.take_zero, List.foldl_cons, List.foldl_nil] at this
          rw [this] at b
          cases b
      obtain ⟨n1, hn1⟩ := hsome
      obtain ⟨hg1, hv1⟩ := addDigit_some finite n n1 d hg hn1
      simp only [scanDigits, consume_at p pre _ _ hin1 hpos, hmod, hc', if_false,
        Nat.add_sub_cancel, hn1]
      simp only [List.take_succ_cons, List.foldl_cons] at hge hbad
      rw [ih (fun x hx => hdig x (List.mem_cons_of_mem _ hx)) fuel
        ({ p with pos := p.pos + 1 } : Parser) (pre ++ [d + 0x30]) n1 j'
        (by simp at hf; omega) (by simp [hin1]) (by simp [hpos]) hg1 (by omega)
        (by simp only [List.length_cons] at hj2; omega)
        (by
          intro k hk1 hk2
          have := hfin (k + 1) (by omega) (by omega)
          simp only [List.take_succ_cons, List.foldl_cons] at this
          rw [hv1]
          exact this)
        (by rw [hv1]; exact hge) (by rw [hv1]; exact hbad)]
      simp [Nat.add_assoc, Nat.add_comm 1]

end

section
open Parser

theorem parsedNumber_empty_good : ({} : ParsedNumber).Good := by
  constructor
  · intro _; exact ⟨rfl, by decide⟩
  · intro h; simp at h

theorem parseNumberInteger_value (negative : Bool) (nv : ParsedNumber) (q : Parser)
    (hg : nv.Good) :
    (negative = false → nv.digitsValue ≤ 2 ^ 64 - 1 →
        parseNumberInteger negative nv q = .ok (q.emit (.addUInt nv.digitsValue)))
    ∧ (negative = true → nv.digitsValue ≤ 2 ^ 63 →
        parseNumberInteger negative nv q = .ok (q.emit (.addInt (-(nv.digitsValue : Int)))))
    ∧ (negative = true → 2 ^ 63 < nv.digitsValue →
        parseNumberInteger negative nv q
          = .ok (q.emit (.addDouble (if nv.digitsValue < 2 ^ 64 then .neg (.ofUInt nv.digitsValue)
              else .neg (.ofDigits nv.digitsValue))))) := by
  obtain ⟨h1, h2⟩ := hg
  refine ⟨?_, ?_, ?_⟩
  · intro hn hv
    subst hn
    cases hi : nv.isInteger with
    | false => have := h2 hi; omega
    | true =>
      obtain ⟨e, _⟩ := h1 hi
      simp [parseNumberInteger, hi, e]
  · intro hn hv
    subst hn
    cases hi : nv.isInteger with
    | false => have := h2 hi; omega
    | true =>
      obtain ⟨e, _⟩ := h1 hi
      simp only [parseNumberInteger, hi, e, Bool.not_true, Bool.false_eq_true, if_false, if_true]
      by_cases hmax : nv.digitsValue ≤ INT64_MAX
      · have hlt : nv.digitsValue < 2 ^ 63 := by simp only [INT64_MAX] at hmax; omega
        have ht : toInt64 nv.digitsValue = (nv.digitsValue : Int) := by
          unfold toInt64; rw [if_pos hlt]
        rw [if_pos hmax, ht]
      · have heq : nv.digitsValue = 2 ^ 63 := by simp only [INT64_MAX] at hmax; omega
        have hmin : nv.digitsValue = toUInt64 INT64_MIN := by rw [heq]; decide
        rw [if_neg hmax, if_pos hmin, heq]
        rfl
  · intro hn hv
    subst hn
    cases hi : nv.isInteger with
    | false =>
      have hge := h2 hi
      have hnl : ¬ nv.digitsValue < 2 ^ 64 := by omega
      rw [if_neg hnl]
      simp [parseNumberInteger, hi, ParsedNumber.doubleValue]
    | true =>
      obtain ⟨e, hlt⟩ := h1 hi
      have hmax : ¬ nv.intValue ≤ INT64_MAX := by simp only [INT64_MAX]; omega
      have hmin : toUInt64 INT64_MIN = 2 ^ 63 := by decide
      have hne : ¬ nv.intValue = toUInt64 INT64_MIN := by rw [hmin]; omega
      rw [if_pos hlt]
      rw [e] at hmax hne
      simp [parseNumberInteger, hi, hmax, hne, e]

end

section
open Parser

theorem parseNumberAfterDigits_integer (finite : DoubleExpr → Bool) (startPos : Nat)
    (negative : Bool) (nv : ParsedNumber) (q : Parser) (pre rest : Bytes)
    (hrest : ∀ c, rest.head? = some c →
      ¬ (0x30 ≤ c % 256 ∧ c % 256 ≤ 0x39) ∧ c % 256 ≠ 0x2e ∧ c % 256 ≠ 0x65 ∧ c % 256 ≠ 0x45)
    (hin : q.input = pre ++ rest) (hpos : q.pos = pre.length) :
    parseNumberAfterDigits finite startPos negative nv q = parseNumberInteger negative nv q := by
  cases rest with
  | nil =>
    simp only [List.append_nil] at hin
    simp [parseNumberAfterDigits, consume_end q pre hin hpos]
  | cons c rest =>
    obtain ⟨_, h1, h2, h3⟩ := hrest c rfl
    simp only [parseNumberAfterDigits, consume_at q pre rest c hin hpos, ne_eq, h1, h2, h3,
      not_false_eq_true, and_self, if_true, unconsume]
    simp

/-- The function parseNumber up to the digits of a token without fraction and exponent:
behind the optional sign the digits are scanned (a single zero is not), and the emission
follows when the scan succeeds. -/
theorem parseNumber_head (finite : DoubleExpr → Bool) (p : Parser) (pre rest : Bytes)
    (ds : List Nat) (negative : Bool)
    (hds : ds ≠ []) (hdig : ∀ d ∈ ds, d ≤ 9)
    (hin : p.input = pre ++ (if negative then [0x2d] else []) ++ digitBytes ds ++ rest)
    (hpos : p.pos = pre.length) :
    ∃ (q : Parser) (sg : Bytes),
      q = { p with pos := p.pos + (if negative then 1 else 0) }
      ∧ sg = pre ++ (if negative then [0x2d] else [])
      ∧ q.input = sg ++ digitBytes ds ++ rest ∧ q.pos = sg.length
      ∧ (∀ f, (if ds.head? ≠ some 0 then scanDigits finite (q.size + 1) q {}
              else .ok (({ q with pos := q.pos + 1 } : Parser), ({} : ParsedNumber))) = .error f →
          parseNumber finite p = .error f)
      ∧ (∀ p2 numberValue, (if ds.head? ≠ some 0 then scanDigits finite (q.size + 1) q {}
              else .ok (({ q with pos := q.pos + 1 } : Parser), ({} : ParsedNumber)))
            = .ok (p2, numberValue) →
          parseNumber finite p
            = parseNumberAfterDigits finite p.pos negative numberValue p2) := by
  obtain ⟨d, ds', rfl⟩ : ∃ d ds', ds = d :: ds' := by
    cases ds with
    | nil => exact absurd rfl hds
    | cons d ds' => exact ⟨d, ds', rfl⟩
  have hd : d ≤ 9 := hdig d (List.mem_cons_self _ _)
  have hmod : (d + 0x30) % 256 = d + 0x30 := by omega
  have hnd : ¬ (d + 0x30 < 0x30 ∨ d + 0x30 > 0x39) := by omega
  refine ⟨{ p with pos := p.pos + (if negative then 1 else 0) },
    pre ++ (if negative then [0x2d] else []), rfl, rfl, hin, ?_, ?_⟩
  · cases negative <;> simp [hpos]
  generalize hq1 : ({ p with pos := p.pos + (if negative then 1 else 0) } : Parser) = q
  have hq3 : q.input = pre ++ (if negative then [0x2d] else []) ++ digitBytes (d :: ds') ++ rest := by
    rw [← hq1]; exact hin
  have hq4 : q.pos = (pre ++ (if negative then [0x2d] else [])).length := by
    rw [← hq1]; cases negative <;> simp [hpos]
  have hqin : q.input = (pre ++ (if negative then [0x2d] else []))
      ++ (d + 0x30) :: (digitBytes ds' ++ rest) := by
    rw [hq3]; simp [digitBytes]
  have hcq : q.consume = (some (d + 0x30), { q with pos := q.pos + 1 }) := by
    rw [consume_at q _ _ _ hqin hq4, hmod]
  have hun : (({ q with pos := q.pos + 1 } : Parser).unconsume) = q := by
    simp [unconsume]
  have hcond : (d + 0x30 ≠ 0x30) ↔ ((d :: ds').head? ≠ some 0) := by
    simp only [List.head?_cons, ne_eq, Option.some.injEq]
    omega
  have hscan : (if d + 0x30 ≠ 0x30 then scanDigits finite (q.size + 1) q {}
        else .ok (({ q with pos := q.pos + 1 } : Parser), ({} : ParsedNumber)))
      = (if (d :: ds').head? ≠ some 0 then scanDigits finite (q.size + 1) q {}
        else .ok (({ q with pos := q.pos + 1 } : Parser), ({} : ParsedNumber))) := by
    by_cases hz : d + 0x30 ≠ 0x30
    · rw [if_pos hz, if_pos (hcond.mp hz)]
    · rw [if_neg hz, if_neg (fun h => hz (hcond.mpr h))]
  rw [← hscan]
  have hpn : parseNumber finite p
      = match (if d + 0x30 ≠ 0x30 then scanDigits finite (q.size + 1) q {}
              else .ok (({ q with pos := q.pos + 1 } : Parser), ({} : ParsedNumber))) with
        | .error f => .error f
        | .ok (p2, numberValue) =>
          parseNumberAfterDigits finite p.pos negative numberValue p2 := by
    cases negative with
    | false =>
      have hq : q = p := by rw [← hq1]; simp
      subst hq
      have hne : ¬ (d + 0x30 = 0x2d) := by omega
      simp only [parseNumber, hcq, hne, if_false, hnd, Parser.size, hun]
      try rfl
    | true =>
      have hpin : p.input = pre ++ 0x2d :: (digitBytes (d :: ds') ++ rest) := by
        rw [hin]; simp
      have hcp : p.consume = (some 0x2d, q) := by
        rw [consume_at p pre _ _ hpin hpos, ← hq1]; simp
      simp only [parseNumber, hcp, if_true, getOneOrThrow, hcq, hnd, if_false, Parser.size, hun]
      try rfl
  constructor
  · intro f hf
    rw [hpn, hf]
  · intro p2 nv hok
    rw [hpn, hok]

/-- The function parseNumber on a token without fraction and exponent whose doubles stay
finite: the digits are scanned and the emission of lines 164-181 follows. -/
theorem parseNumber_token (finite : DoubleExpr → Bool) (p : Parser) (pre rest : Bytes)
    (ds : List Nat) (negative : Bool)
    (hds : ds ≠ []) (hdig : ∀ d ∈ ds, d ≤ 9) (hlead : ds.head? = some 0 → ds = [0])
    (hrest : ∀ c, rest.head? = some c →
      ¬ (0x30 ≤ c % 256 ∧ c % 256 ≤ 0x39) ∧ c % 256 ≠ 0x2e ∧ c % 256 ≠ 0x65 ∧ c % 256 ≠ 0x45)
    (hin : p.input = pre ++ (if negative then [0x2d] else []) ++ digitBytes ds ++ rest)
    (hpos : p.pos = pre.length) (hfin : specFiniteDigits finite ds) :
    ∃ nv : ParsedNumber, nv.Good ∧ nv.digitsValue = specDecimal ds
      ∧ parseNumber finite p
        = parseNumberInteger negative nv
            { p with pos := p.pos + (if negative then 1 else 0) + ds.length } := by
  obtain ⟨q, sg, hq1, hq2, hq3, hq4, _, hhead⟩ :=
    parseNumber_head finite p pre rest ds negative hds hdig hin hpos
  have hrest' : ∀ c, rest.head? = some c → ¬ (0x30 ≤ c % 256 ∧ c % 256 ≤ 0x39) :=
    fun c hc => (hrest c hc).1
  have hfinal : ∀ (nv : ParsedNumber),
      parseNumberAfterDigits finite p.pos negative nv
          ({ q with pos := q.pos + ds.length } : Parser)
        = parseNumberInteger negative nv
          { p with pos := p.pos + (if negative then 1 else 0) + ds.length } := by
    intro nv
    rw [parseNumberAfterDigits_integer finite p.pos negative nv _ (sg ++ digitBytes ds) rest
      hrest (by simpa using hq3) (by simp [hq4, digitBytes])]
    rw [hq1]
  by_cases hz : ds.head? = some 0
  · have hnil := hlead hz
    subst hnil
    refine ⟨{}, parsedNumber_empty_good, rfl, ?_⟩
    rw [hhead _ _ (if_neg (by simp))]
    have := hfinal {}
    simp only [List.length_singleton] at this
    exact this
  · have hqsize : ds.length < q.size + 1 := by
      simp [Parser.size, hq3, digitBytes]; omega
    obtain ⟨nv, e1, e2, e3⟩ := scanDigits_digits finite ds hdig rest hrest' (q.size + 1) q sg {}
      hqsize hq3 hq4 parsedNumber_empty_good (fun k _ hk2 hge => hfin k hk2 hge)
    refine ⟨nv, e2, e3, ?_⟩
    rw [hhead _ _ ((if_pos hz).trans e1)]
    exact hfinal nv

/-- The function parseNumber on a token without fraction and exponent one of whose digits
makes the double infinite: NumberOutOfRange is raised behind that digit. -/
theorem parseNumber_overflow (finite : DoubleExpr → Bool) (p : Parser) (pre rest : Bytes)
    (ds : List Nat) (negative : Bool)
    (hds : ds ≠ []) (hdig : ∀ d ∈ ds, d ≤ 9) (hlead : ds.head? = some 0 → ds = [0])
    (hin : p.input = pre ++ (if negative then [0x2d] else []) ++ digitBytes ds ++ rest)
    (hpos : p.pos = pre.length) (hfin : ¬ specFiniteDigits finite ds) :
    ∃ j, 1 ≤ j ∧ j ≤ ds.length
      ∧ parseNumber finite p
        = .error ⟨.NumberOutOfRange,
            { p with pos := p.pos + (if negative then 1 else 0) + j }⟩ := by
  obtain ⟨q, sg, hq1, hq2, hq3, hq4, hhead, _⟩ :=
    parseNumber_head finite p pre rest ds negative hds hdig hin hpos
  -- the first digit that is rejected
  have hex : ∃ k, k ≤ ds.length ∧ 2 ^ 64 ≤ specDecimal (ds.take k)
      ∧ finite (.ofDigits (specDecimal (ds.take k))) = false := by
    unfold specFiniteDigits at hfin
    push_neg at hfin
    obtain ⟨k, a, b, c⟩ := hfin
    exact ⟨k, a, b, by simpa using c⟩
  classical
  let j := Nat.find hex
  have hj : j ≤ ds.length ∧ 2 ^ 64 ≤ specDecimal (ds.take j)
      ∧ finite (.ofDigits (specDecimal (ds.take j))) = false := Nat.find_spec hex
  have hmin : ∀ k, k < j → ¬ (k ≤ ds.length ∧ 2 ^ 64 ≤ specDecimal (ds.take k)
      ∧ finite (.ofDigits (specDecimal (ds.take k))) = false) := fun k hk => Nat.find_min hex hk
  have hj1 : 1 ≤ j := by
    by_contra hc
    have h0 : j = 0 := by omega
    have := hj.2.1
    rw [h0] at this
    simp [specDecimal] at this
  have hqsize : ds.length < q.size + 1 := by
    simp [Parser.size, hq3, digitBytes]; omega
  have hscan := scanDigits_overflow finite ds hdig rest (q.size + 1) q sg {} j hqsize hq3 hq4
    parsedNumber_empty_good hj1 hj.1
    (by
      intro k hk1 hk2 hge
      have := hmin k hk2
      by_contra hc
      exact this ⟨by omega, hge, by simpa using hc⟩)
    hj.2.1 hj.2.2
  refine ⟨j, hj1, hj.1, ?_⟩
  by_cases hz : ds.head? = some 0
  · -- the token is the digit 0 alone, which has no prefix beyond the 64-bit range
    exfalso
    have hnil := hlead hz
    have hge := hj.2.1
    rw [hnil] at hge
    have hval : ∀ k, specDecimal (List.take k [0]) = 0 := by
      intro k
      cases k with
      | zero => rfl
      | succ k => simp [specDecimal]
    rw [hval] at hge
    omega
  · rw [hhead _ ((if_pos hz).trans hscan), hq1]

end

section

theorem foldl_digits_mono (ds : List Nat) : ∀ (a b : Nat), a ≤ b →
    ds.foldl (fun a d => a * 10 + d) a ≤ ds.foldl (fun a d => a * 10 + d) b := by
  induction ds with
  | nil => intro a b h; exact h
  | cons d ds ih =>
    intro a b h
    simp only [List.foldl_cons]
    exact ih _ _ (by omega)

theorem foldl_digits_ge (ds : List Nat) : ∀ (a : Nat),
    a ≤ ds.foldl (fun a d => a * 10 + d) a := by
  induction ds with
  | nil => intro a; exact Nat.le_refl a
  | cons d ds ih =>
    intro a
    simp only [List.foldl_cons]
    exact Nat.le_trans (by omega) (ih _)

/-- The value of a prefix of a digit sequence is at most the value of the sequence. -/
theorem specDecimal_take_le (ds : List Nat) (k : Nat) :
    specDecimal (ds.take k) ≤ specDecimal ds := by
  unfold specDecimal
  conv_rhs => rw [← List.take_append_drop k ds, List.foldl_append]
  exact foldl_digits_ge _ _

end

section
open Parser

end

section
open Parser

set_option maxRecDepth 100000 in
/-- The token of a minus sign and 400 digits `9`: the digits are the bytes of the input, their
value is beyond 2^63, and parseNumber raises NumberOutOfRange behind the 309th digit, with
which the double of the digits becomes infinite. -/
theorem parseNumber_minus_400_nines :
    (0x2d :: List.replicate 400 0x39 : Bytes) = [0x2d] ++ digitBytes (List.replicate 400 9)
    ∧ 2 ^ 63 < specDecimal (List.replicate 400 9)
    ∧ parseNumber finiteBinary64 ⟨0x2d :: List.replicate 400 0x39, 0, ⟨[], []⟩, 0⟩
      = .error ⟨.NumberOutOfRange, ⟨0x2d :: List.replicate 400 0x39, 310, ⟨[], []⟩, 0⟩⟩ := by
  refine ⟨by decide, by decide, by decide⟩

end

section
open Parser

/-! ### Frame lemmas of the string parser -/

theorem consume_frame (q : Parser) :
    q.consume.2.input = q.input ∧ q.consume.2.b = q.b ∧ q.consume.2.nesting = q.nesting
      ∧ q.pos ≤ q.consume.2.pos
      ∧ (∀ c, q.consume.1 = some c → q.pos < q.size ∧ q.consume.2.pos = q.pos + 1) := by
  unfold consume
  split_ifs with h
  · simp
  · simp; omega

theorem getOneOrThrow_ok (q q1 : Parser) (i : Nat) (h : q.getOneOrThrow = .ok (i, q1)) :
    q1.input = q.input ∧ q1.b = q.b ∧ q.pos < q.size ∧ q1.pos = q.pos + 1 := by
  unfold getOneOrThrow at h
  have hf := consume_frame q
  rcases hc : q.consume with ⟨c, q'⟩
  rw [hc] at h hf
  cases c with
  | none => simp [Parser.fail] at h
  | some c =>
    simp only [Except.ok.injEq, Prod.mk.injEq] at h
    obtain ⟨_, rfl⟩ := h
    obtain ⟨h1, h2, _, _, h5⟩ := hf
    obtain ⟨h6, h7⟩ := h5 c rfl
    exact ⟨h1, h2, h6, h7⟩

theorem getOneOrThrow_error (q : Parser) (f : Failure) (h : q.getOneOrThrow = .error f) :
    f.error = .ParseError := by
  unfold getOneOrThrow at h
  rcases hc : q.consume with ⟨c, q'⟩
  rw [hc] at h
  cases c with
  | none =>
    simp only [Parser.fail, Except.error.injEq] at h
    rw [← h]
  | some c => simp at h

theorem parseHex_ok : ∀ (k v : Nat) (q q1 : Parser) (v1 : Nat),
    parseHex k v q = .ok (v1, q1) →
    q1.input = q.input ∧ q1.b = q.b ∧ q.pos ≤ q1.pos := by
  intro k
  induction k with
  | zero =>
    intro v q q1 v1 h
    simp only [parseHex, Except.ok.injEq, Prod.mk.injEq] at h
    obtain ⟨_, rfl⟩ := h
    exact ⟨rfl, rfl, Nat.le_refl _⟩
  | succ k ih =>
    intro v q q1 v1 h
    have hf := consume_frame q
    unfold parseHex at h
    rcases hc : q.consume with ⟨c, q'⟩
    rw [hc] at h hf
    obtain ⟨h1, h2, _, h4, _⟩ := hf
    cases c with
    | none => simp [Parser.fail] at h
    | some c =>
      simp only at h h1 h2 h4
      split_ifs at h with c1 c2 c3
      · obtain ⟨a, b, c'⟩ := ih _ _ _ _ h
        exact ⟨a.trans h1, b.trans h2, le_trans h4 c'⟩
      · obtain ⟨a, b, c'⟩ := ih _ _ _ _ h
        exact ⟨a.trans h1, b.trans h2, le_trans h4 c'⟩
      · obtain ⟨a, b, c'⟩ := ih _ _ _ _ h
        exact ⟨a.trans h1, b.trans h2, le_trans h4 c'⟩
      · simp [Parser.fail] at h

theorem parseHex_error : ∀ (k v : Nat) (q : Parser) (f : Failure),
    parseHex k v q = .error f → f.error = .ParseError := by
  intro k
  induction k with
  | zero => intro v q f h; simp [parseHex] at h
  | succ k ih =>
    intro v q f h
    unfold parseHex at h
    rcases hc : q.consume with ⟨c, q'⟩
    rw [hc] at h
    cases c with
    | none =>
      simp only [Parser.fail, Except.error.injEq] at h
      rw [← h]
    | some c =>
      simp only at h
      split_ifs at h with c1 c2 c3
      · exact ih _ _ _ h
      · exact ih _ _ _ h
      · exact ih _ _ _ h
      · simp only [Parser.fail, Except.error.injEq] at h
        rw [← h]

theorem put_frame (q : Parser) (x : Nat) :
    (q.put x).input = q.input ∧ (q.put x).pos = q.pos
      ∧ (q.put x).b.buf = q.b.buf ++ [x % 256] := ⟨rfl, rfl, rfl⟩

theorem parseFollow_ok : ∀ (k : Nat) (q q1 : Parser), parseFollow k q = .ok q1 →
    q1.input = q.input ∧ q.pos ≤ q1.pos ∧ ∃ xs, q1.b.buf = q.b.buf ++ xs := by
  intro k
  induction k with
  | zero =>
    intro q q1 h
    simp only [parseFollow, Except.ok.injEq] at h
    subst h
    exact ⟨rfl, Nat.le_refl _, [], by simp⟩
  | succ k ih =>
    intro q q1 h
    unfold parseFollow at h
    cases hg : q.getOneOrThrow with
    | error f => rw [hg] at h; simp at h
    | ok r =>
      obtain ⟨i, q'⟩ := r
      rw [hg] at h
      obtain ⟨h1, h2, _, h4⟩ := getOneOrThrow_ok q q' i hg
      simp only at h
      split_ifs at h with c1
      · simp [Parser.fail] at h
      · obtain ⟨a, b, xs, hx⟩ := ih _ _ h
        refine ⟨a.trans h1, ?_, (i % 256 :: xs), ?_⟩
        · have : (q'.put i).pos = q'.pos := rfl
          omega
        · rw [hx, (put_frame q' i).2.2, h2]; simp

theorem parseFollow_error : ∀ (k : Nat) (q : Parser) (f : Failure),
    parseFollow k q = .error f → f.error ≠ .InternalError := by
  intro k
  induction k with
  | zero => intro q f h; simp [parseFollow] at h
  | succ k ih =>
    intro q f h
    unfold parseFollow at h
    cases hg : q.getOneOrThrow with
    | error f' =>
      rw [hg] at h
      simp only [Except.error.injEq] at h
      rw [← h, getOneOrThrow_error q f' hg]
      decide
    | ok r =>
      obtain ⟨i, q'⟩ := r
      rw [hg] at h
      simp only at h
      split_ifs at h with c1
      · simp only [Parser.fail, Except.error.injEq] at h
        rw [← h]; simp
      · exact ih _ _ h

theorem parseRawByte_ok (opts : Options) (i : Nat) (q q1 : Parser)
    (h : parseRawByte opts i q = .ok q1) :
    q1.input = q.input ∧ q.pos ≤ q1.pos ∧ ∃ xs, q1.b.buf = q.b.buf ++ xs := by
  have hput : ∀ k q2, parseFollow k (q.put i) = .ok q2 →
      q2.input = q.input ∧ q.pos ≤ q2.pos ∧ ∃ xs, q2.b.buf = q.b.buf ++ xs := by
    intro k q2 h2
    obtain ⟨a, b, xs, hx⟩ := parseFollow_ok k _ _ h2
    exact ⟨a, b, i % 256 :: xs, by rw [hx, (put_frame q i).2.2]; simp⟩
  unfold parseRawByte at h
  split_ifs at h with c1 c2 c3 c4 c5 c6 c7
  · simp [Parser.fail] at h
  · simp only [Except.ok.injEq] at h
    subst h
    exact ⟨rfl, Nat.le_refl _, [i % 256], rfl⟩
  · simp only [Except.ok.injEq] at h
    subst h
    exact ⟨rfl, Nat.le_refl _, [i % 256], rfl⟩
  · simp [Parser.fail] at h
  · exact hput _ _ h
  · exact hput _ _ h
  · exact hput _ _ h
  · simp [Parser.fail] at h

theorem parseRawByte_error (opts : Options) (i : Nat) (q : Parser) (f : Failure)
    (h : parseRawByte opts i q = .error f) : f.error ≠ .InternalError := by
  unfold parseRawByte at h
  split_ifs at h with c1 c2 c3 c4 c5 c6 c7
  · simp only [Parser.fail, Except.error.injEq] at h
    rw [← h]
    simp
  · simp only [Parser.fail, Except.error.injEq] at h
    rw [← h]
    simp
  · exact parseFollow_error _ _ _ h
  · exact parseFollow_error _ _ _ h
  · exact parseFollow_error _ _ _ h
  · simp only [Parser.fail, Except.error.injEq] at h
    rw [← h]
    simp

theorem bulkCopy_frame (opts : Options) (q : Parser) :
    (bulkCopy opts q).input = q.input ∧ q.pos ≤ (bulkCopy opts q).pos
      ∧ ∃ xs, (bulkCopy opts q).b.buf = q.b.buf ++ xs := by
  unfold bulkCopy
  simp only
  split_ifs with h
  · exact ⟨rfl, Nat.le_add_right _ _, _, rfl⟩
  · exact ⟨rfl, Nat.le_refl _, [], by simp⟩

/-! ### The buffer invariant -/

theorem stringInv_append (old : Bytes) (large : Bool) (hs : Nat) (buf xs : Bytes)
    (h : StringInv old large hs buf) : StringInv old large 0 (buf ++ xs) := by
  obtain ⟨h1, h2, h3⟩ := h
  refine ⟨?_, ?_, ?_⟩
  · rw [List.take_append_of_le_length (by omega)]; exact h1
  · simp only [ne_eq, not_true_eq_false, if_false, List.length_append]
    split_ifs at h2 <;> simp_all <;> omega
  · intro hl
    have := h3 hl
    simp only [List.length_append]; omega

theorem stringInv_append_same (old : Bytes) (large : Bool) (hs : Nat) (buf xs : Bytes)
    (h : StringInv old large hs buf) : StringInv old large hs (buf ++ xs) := by
  obtain ⟨h1, h2, h3⟩ := h
  refine ⟨?_, ?_, ?_⟩
  · rw [List.take_append_of_le_length (by omega)]; exact h1
  · simp only [List.length_append]; omega
  · intro hl
    have := h3 hl
    simp only [List.length_append]; omega

theorem stringInv_append3 (old : Bytes) (large : Bool) (hs hs1 : Nat) (buf : Bytes) (a b c : Nat)
    (h : StringInv old large hs buf) : StringInv old large hs1 (buf ++ [a] ++ [b] ++ [c]) := by
  obtain ⟨h1, h2, h3⟩ := h
  refine ⟨?_, ?_, ?_⟩
  · rw [List.append_assoc, List.append_assoc, List.take_append_of_le_length (by omega)]; exact h1
  · simp only [List.length_append, List.length_singleton]
    split_ifs at h2 ⊢ <;> omega
  · intro hl
    have := h3 hl
    simp only [List.length_append, List.length_singleton]; omega

theorem stringInv_pair (old : Bytes) (large : Bool) (hs : Nat) (buf : Bytes) (a b c d : Nat)
    (hhs : hs ≠ 0) (h : StringInv old large hs buf) :
    StringInv old large 0 (buf.take (buf.length - 3) ++ [a] ++ [b] ++ [c] ++ [d]) := by
  obtain ⟨h1, h2, h3⟩ := h
  simp only [hhs, ne_eq, not_false_eq_true, if_true] at h2
  refine ⟨?_, ?_, ?_⟩
  · rw [List.append_assoc, List.append_assoc, List.append_assoc,
      List.take_append_of_le_length (by rw [List.length_take]; omega),
      List.take_take, Nat.min_eq_left (by omega)]
    exact h1
  · simp only [List.length_append, List.length_singleton, List.length_take, ne_eq,
      not_true_eq_false, if_false]
    split_ifs at h2 ⊢ <;> omega
  · intro hl
    have := h3 hl
    simp only [List.length_append, List.length_singleton, List.length_take]; omega

theorem stringInv_promote (old : Bytes) (hs : Nat) (buf : Bytes)
    (h : StringInv old false hs buf) (hlen : buf.length - (old.length + 1) > 126) :
    StringInv old true hs (buf.take (old.length + 9) ++ buf.drop (old.length + 1)) := by
  obtain ⟨h1, h2, _⟩ := h
  refine ⟨?_, ?_, ?_⟩
  · rw [List.take_append_of_le_length (by rw [List.length_take]; omega),
      List.take_take, Nat.min_eq_left (by omega)]
    exact h1
  · simp only [List.length_append, List.length_take, List.length_drop, if_true]
    simp only [Bool.false_eq_true, if_false] at h2
    split_ifs at h2 ⊢ <;> omega
  · intro _
    simp only [List.length_append, List.length_take, List.length_drop]
    omega

end

section
open Parser

theorem stringInv_put (old : Bytes) (large : Bool) (hs : Nat) (q : Parser) (a : Nat)
    (h : StringInv old large hs q.b.buf) : StringInv old large 0 (q.put a).b.buf :=
  stringInv_append old large hs _ _ h

theorem stringInv_put2 (old : Bytes) (large : Bool) (hs : Nat) (q : Parser) (a b : Nat)
    (h : StringInv old large hs q.b.buf) : StringInv old large 0 ((q.put a).put b).b.buf :=
  stringInv_append old large 0 _ _ (stringInv_append old large hs _ _ h)

theorem stringInv_put3 (old : Bytes) (large : Bool) (hs hs1 : Nat) (q : Parser) (a b c : Nat)
    (h : StringInv old large hs q.b.buf) :
    StringInv old large hs1 (((q.put a).put b).put c).b.buf :=
  stringInv_append3 old large hs hs1 q.b.buf (a % 256) (b % 256) (c % 256) h

theorem stringInv_put4_rewind (old : Bytes) (large : Bool) (hs : Nat) (q : Parser)
    (a b c d : Nat) (hhs : hs ≠ 0) (h : StringInv old large hs q.b.buf) :
    StringInv old large 0
      ((((({ q with b := q.b.rewind 3 } : Parser).put a).put b).put c).put d).b.buf :=
  stringInv_pair old large hs q.b.buf (a % 256) (b % 256) (c % 256) (d % 256) hhs h

theorem emitUnicode_inv (old : Bytes) (large : Bool) (v hs : Nat) (q : Parser)
    (h : StringInv old large hs q.b.buf) :
    StringInv old large (emitUnicode v hs q).1 (emitUnicode v hs q).2.b.buf
      ∧ (emitUnicode v hs q).2.input = q.input ∧ (emitUnicode v hs q).2.pos = q.pos := by
  unfold emitUnicode
  by_cases c1 : v < 0x80
  · rw [if_pos c1]
    exact ⟨stringInv_put old large hs q _ h, rfl, rfl⟩
  · by_cases c2 : v < 0x800
    · rw [if_neg c1, if_pos c2]
      exact ⟨stringInv_put2 old large hs q _ _ h, rfl, rfl⟩
    · by_cases c3 : v ≥ 0xdc00 ∧ v < 0xe000 ∧ hs ≠ 0
      · rw [if_neg c1, if_neg c2, if_pos c3]
        exact ⟨stringInv_put4_rewind old large hs q _ _ _ _ c3.2.2 h, rfl, rfl⟩
      · rw [if_neg c1, if_neg c2, if_neg c3]
        exact ⟨stringInv_put3 old large hs _ q _ _ _ h, rfl, rfl⟩

theorem parseEscape_ok (old : Bytes) (large : Bool) (i hs hs1 : Nat) (q q1 : Parser)
    (hinv : StringInv old large hs q.b.buf) (h : parseEscape i hs q = .ok (hs1, q1)) :
    StringInv old large hs1 q1.b.buf ∧ q1.input = q.input ∧ q.pos ≤ q1.pos := by
  have hput : ∀ x, StringInv old large 0 (q.put x).b.buf :=
    fun x => stringInv_put old large hs q x hinv
  unfold parseEscape at h
  split_ifs at h with c1 c2 c3 c4 c5 c6 c7
  · simp only [Except.ok.injEq, Prod.mk.injEq] at h
    obtain ⟨rfl, rfl⟩ := h
    exact ⟨hput _, rfl, Nat.le_refl _⟩
  · simp only [Except.ok.injEq, Prod.mk.injEq] at h
    obtain ⟨rfl, rfl⟩ := h
    exact ⟨hput _, rfl, Nat.le_refl _⟩
  · simp only [Except.ok.injEq, Prod.mk.injEq] at h
    obtain ⟨rfl, rfl⟩ := h
    exact ⟨hput _, rfl, Nat.le_refl _⟩
  · simp only [Except.ok.injEq, Prod.mk.injEq] at h
    obtain ⟨rfl, rfl⟩ := h
    exact ⟨hput _, rfl, Nat.le_refl _⟩
  · simp only [Except.ok.injEq, Prod.mk.injEq] at h
    obtain ⟨rfl, rfl⟩ := h
    exact ⟨hput _, rfl, Nat.le_refl _⟩
  · simp only [Except.ok.injEq, Prod.mk.injEq] at h
    obtain ⟨rfl, rfl⟩ := h
    exact ⟨hput _, rfl, Nat.le_refl _⟩
  · cases hx : parseHex 4 0 q with
    | error f => rw [hx] at h; simp at h
    | ok r =>
      obtain ⟨v, q2⟩ := r
      rw [hx] at h
      simp only [Except.ok.injEq] at h
      obtain ⟨a, b, c⟩ := parseHex_ok 4 0 q q2 v hx
      have hinv2 : StringInv old large hs q2.b.buf := by rw [b]; exact hinv
      obtain ⟨e1, e2, e3⟩ := emitUnicode_inv old large v hs q2 hinv2
      rw [h] at e1 e2 e3
      exact ⟨e1, e2.trans a, by simp only at e3; omega⟩
  · simp [Parser.fail] at h

theorem parseEscape_error (i hs : Nat) (q : Parser) (f : Failure)
    (h : parseEscape i hs q = .error f) : f.error ≠ .InternalError := by
  unfold parseEscape at h
  split_ifs at h with c1 c2 c3 c4 c5 c6 c7
  · cases hx : parseHex 4 0 q with
    | error f' =>
      rw [hx] at h
      simp only [Except.error.injEq] at h
      rw [← h, parseHex_error 4 0 q f' hx]
      simp
    | ok r => rw [hx] at h; simp at h
  · simp only [Parser.fail, Except.error.injEq] at h
    rw [← h]
    simp

/-! ### The header written at the closing quote -/

theorem littleEndianBytes_length : ∀ (n v : Nat), (littleEndianBytes n v).length = n := by
  intro n
  induction n with
  | zero => intro v; rfl
  | succ n ih => intro v; simp [littleEndianBytes, ih]

theorem exists_nine (l : List Nat) (h : 9 ≤ l.length) :
    ∃ x0 x1 x2 x3 x4 x5 x6 x7 x8 P, l = x0 :: x1 :: x2 :: x3 :: x4 :: x5 :: x6 :: x7 :: x8 :: P := by
  match l, h with
  | x0 :: x1 :: x2 :: x3 :: x4 :: x5 :: x6 :: x7 :: x8 :: P, _ =>
    exact ⟨x0, x1, x2, x3, x4, x5, x6, x7, x8, P, rfl⟩

theorem set_append_old (old l : Bytes) (i v : Nat) :
    (old ++ l).set (old.length + i) v = old ++ l.set i v := by
  rw [List.set_append_right _ _ (Nat.le_add_right _ _)]
  simp

theorem finishString_short (old : Bytes) (hs : Nat) (q : Parser)
    (h : StringInv old false hs q.b.buf) (hlen : ¬ q.b.pos - (old.length + 1) > 126) :
    ∃ P, (finishString false old.length q).b.buf = old ++ specStringBytes P := by
  obtain ⟨h1, h2, _⟩ := h
  have h2 : old.length + 1 ≤ q.b.buf.length := by
    simp only [Bool.false_eq_true, if_false] at h2
    omega
  refine ⟨q.b.buf.drop (old.length + 1), ?_⟩
  have hsplit : q.b.buf = old ++ q.b.buf.drop old.length := by
    conv_lhs => rw [← List.take_append_drop old.length q.b.buf, h1]
  obtain ⟨x0, P, hP⟩ : ∃ x0 P, q.b.buf.drop old.length = x0 :: P := by
    cases hd : q.b.buf.drop old.length with
    | nil =>
      have := congrArg List.length hd
      simp at this; omega
    | cons x0 P => exact ⟨x0, P, rfl⟩
  have hbuf : q.b.buf = old ++ x0 :: P := by rw [hsplit, hP]
  have hdrop : q.b.buf.drop (old.length + 1) = P := by
    rw [hbuf, List.drop_append_eq_append_drop]
    simp
  have hPlen : P.length ≤ 126 := by
    simp only [Builder.pos, hbuf, List.length_append, List.length_cons] at hlen
    omega
  have hpos : q.b.pos - (old.length + 1) = P.length := by
    simp only [Builder.pos, hbuf, List.length_append, List.length_cons]
    omega
  simp only [finishString, Bool.not_false, if_true, Builder.store, hpos, hdrop, specStringBytes,
    hPlen]
  rw [hbuf]
  have := set_append_old old (x0 :: P) 0 ((0x40 + P.length % 256) % 256)
  simp only [Nat.add_zero, List.set_cons_zero] at this
  rw [this]
  congr 2
  omega

end

section
open Parser

theorem set_middle (old pre g : Bytes) (x v : Nat) :
    (old ++ pre ++ x :: g).set (old.length + pre.length) v = old ++ pre ++ v :: g := by
  rw [← List.length_append, List.set_append_right _ _ (Nat.le_refl _)]
  simp

theorem storeLength_buf (old : Bytes) : ∀ (k i len : Nat) (pre g P : Bytes) (b : Builder),
    g.length = k → pre.length = i → b.buf = old ++ pre ++ (g ++ P) →
    (storeLength old.length k i len b).buf = old ++ pre ++ (littleEndianBytes k len ++ P) := by
  intro k
  induction k with
  | zero =>
    intro i len pre g P b hg _ hb
    have : g = [] := List.length_eq_zero.mp hg
    subst this
    simpa [storeLength, littleEndianBytes] using hb
  | succ k ih =>
    intro i len pre g P b hg hpre hb
    obtain ⟨x, g', rfl⟩ : ∃ x g', g = x :: g' := by
      cases g with
      | nil => simp at hg
      | cons x g' => exact ⟨x, g', rfl⟩
    have hmask : (len &&& 0xff) % 256 = len % 256 := by
      have := Nat.and_pow_two_sub_one_eq_mod len 8
      norm_num at this
      rw [this]
      exact Nat.mod_mod _ _
    have hshift : len >>> 8 = len / 256 := by
      rw [Nat.shiftRight_eq_div_pow]
    have hstore : (b.store (old.length + i) (len &&& 0xff)).buf
        = old ++ (pre ++ [len % 256]) ++ (g' ++ P) := by
      simp only [Builder.store, hb, hmask, ← hpre, List.cons_append]
      rw [set_middle]
      simp
    rw [storeLength, ih (i + 1) (len >>> 8) (pre ++ [len % 256]) g' P _ (by simpa using hg)
      (by simp [hpre]) hstore, hshift]
    simp [littleEndianBytes]

theorem finishString_long (old : Bytes) (hs : Nat) (q : Parser)
    (h : StringInv old true hs q.b.buf) :
    ∃ P, (finishString true old.length q).b.buf = old ++ specStringBytes P := by
  obtain ⟨h1, h2, h3⟩ := h
  have h3' := h3 rfl
  have hsplit : q.b.buf = old ++ q.b.buf.drop old.length := by
    conv_lhs => rw [← List.take_append_drop old.length q.b.buf, h1]
  obtain ⟨x0, x1, x2, x3, x4, x5, x6, x7, x8, P, hP⟩ :=
    exists_nine (q.b.buf.drop old.length) (by rw [List.length_drop]; omega)
  have hbuf : q.b.buf = old ++ (x0 :: x1 :: x2 :: x3 :: x4 :: x5 :: x6 :: x7 :: x8 :: P) := by
    rw [hsplit, hP]
  have hPlen : 127 ≤ P.length := by
    have := congrArg List.length hbuf
    simp only [List.length_append, List.length_cons] at this
    omega
  have hpos : q.b.pos - (old.length + 9) = P.length := by
    simp only [Builder.pos, hbuf, List.length_append, List.length_cons]
    omega
  refine ⟨P, ?_⟩
  have hstore0 : (q.b.store old.length 0xbf).buf
      = old ++ [0xbf] ++ ([x1, x2, x3, x4, x5, x6, x7, x8] ++ P) := by
    have := set_middle old [] (x1 :: x2 :: x3 :: x4 :: x5 :: x6 :: x7 :: x8 :: P) x0 (0xbf % 256)
    simp only [List.append_nil, List.length_nil, Nat.add_zero] at this
    simp only [Builder.store, hbuf, this]
    simp
  have := storeLength_buf old 8 1 P.length [0xbf] [x1, x2, x3, x4, x5, x6, x7, x8] P
    (q.b.store old.length 0xbf) rfl rfl hstore0
  have hnot : ¬ P.length ≤ 126 := by omega
  simp only [finishString, Bool.not_true, Bool.false_eq_true, if_false, hpos, this,
    specStringBytes, hnot]
  simp

end

section
open Parser

theorem parseStringLoop_ok (opts : Options) (old : Bytes) :
    ∀ (fuel : Nat) (large : Bool) (hs : Nat) (q q' : Parser),
    StringInv old large hs q.b.buf →
    parseStringLoop opts old.length fuel large hs q = .ok q' →
    ∃ P, q'.b.buf = old ++ specStringBytes P := by
  intro fuel
  induction fuel with
  | zero => intro large hs q q' _ h; simp [parseStringLoop, Parser.fail] at h
  | succ fuel ih =>
    intro large hs q q' hinv h
    unfold parseStringLoop at h
    dsimp only at h
    obtain ⟨_, _, xs, hxs⟩ := bulkCopy_frame opts q
    have hinv1 : StringInv old large hs (bulkCopy opts q).b.buf := by
      rw [hxs]; exact stringInv_append_same old large hs _ _ hinv
    cases hg : (bulkCopy opts q).getOneOrThrow with
    | error f => rw [hg] at h; simp at h
    | ok r =>
      obtain ⟨i, p2⟩ := r
      rw [hg] at h
      obtain ⟨_, hb2, _, _⟩ := getOneOrThrow_ok _ _ _ hg
      have hinv2 : StringInv old large hs p2.b.buf := by rw [hb2]; exact hinv1
      simp only at h
      -- the state behind the promotion check
      obtain ⟨large1, p3, hl1, hp3, hinv3, hshort⟩ : ∃ (large1 : Bool) (p3 : Parser),
          large1 = (large || (!large && decide (p2.b.pos - (old.length + 1) > 126)))
          ∧ p3 = (if (!large && decide (p2.b.pos - (old.length + 1) > 126)) = true
                  then p2.promote old.length else p2)
          ∧ StringInv old large1 hs p3.b.buf
          ∧ (large1 = false → ¬ p3.b.pos - (old.length + 1) > 126) := by
        refine ⟨_, _, rfl, rfl, ?_, ?_⟩
        · cases large with
          | true => simpa using hinv2
          | false =>
            by_cases hc : p2.b.pos - (old.length + 1) > 126
            · simp only [Bool.not_false, Bool.true_and, hc, decide_True, Bool.or_true, if_true]
              exact stringInv_promote old hs _ hinv2 hc
            · simpa [hc] using hinv2
        · cases large with
          | true => simp
          | false =>
            by_cases hc : p2.b.pos - (old.length + 1) > 126
            · simp [hc]
            · simp [hc]
      rw [← hl1, ← hp3] at h
      split_ifs at h with c1 c2
      · -- closing quote
        simp only [Except.ok.injEq] at h
        subst h
        cases hl : large1 with
        | true => rw [hl] at hinv3; exact finishString_long old hs p3 hinv3
        | false => rw [hl] at hinv3; exact finishString_short old hs p3 hinv3 (hshort hl)
      · -- escape
        have hf := consume_frame p3
        rcases hc : p3.consume with ⟨c, p4⟩
        rw [hc] at h hf
        cases c with
        | none => simp [Parser.fail] at h
        | some i1 =>
          simp only at h
          cases he : parseEscape i1 hs p4 with
          | error f => rw [he] at h; simp at h
          | ok r =>
            obtain ⟨hs1, p5⟩ := r
            rw [he] at h
            simp only at h
            have hinv4 : StringInv old large1 hs p4.b.buf := by
              have : p4.b = p3.b := hf.2.1
              rw [this]; exact hinv3
            exact ih _ _ _ _ (parseEscape_ok old large1 i1 hs hs1 p4 p5 hinv4 he).1 h
      · -- raw byte
        cases hr : parseRawByte opts i p3 with
        | error f => rw [hr] at h; simp at h
        | ok p4 =>
          rw [hr] at h
          simp only at h
          obtain ⟨_, _, ys, hys⟩ := parseRawByte_ok opts i p3 p4 hr
          have hinv4 : StringInv old large1 0 p4.b.buf := by
            rw [hys]; exact stringInv_append old large1 hs _ _ hinv3
          exact ih _ _ _ _ hinv4 h

end

section
open Parser

theorem emitUnicode_frame (v hs : Nat) (q : Parser) :
    (emitUnicode v hs q).2.input = q.input ∧ (emitUnicode v hs q).2.pos = q.pos := by
  unfold emitUnicode
  by_cases c1 : v < 0x80
  · rw [if_pos c1]; exact ⟨rfl, rfl⟩
  · by_cases c2 : v < 0x800
    · rw [if_neg c1, if_pos c2]; exact ⟨rfl, rfl⟩
    · by_cases c3 : v ≥ 0xdc00 ∧ v < 0xe000 ∧ hs ≠ 0
      · rw [if_neg c1, if_neg c2, if_pos c3]; exact ⟨rfl, rfl⟩
      · rw [if_neg c1, if_neg c2, if_neg c3]; exact ⟨rfl, rfl⟩

theorem parseEscape_frame (i hs hs1 : Nat) (q q1 : Parser)
    (h : parseEscape i hs q = .ok (hs1, q1)) : q1.input = q.input ∧ q.pos ≤ q1.pos := by
  unfold parseEscape at h
  split_ifs at h with c1 c2 c3 c4 c5 c6 c7
  · simp only [Except.ok.injEq, Prod.mk.injEq] at h
    obtain ⟨_, rfl⟩ := h
    exact ⟨rfl, Nat.le_refl _⟩
  · simp only [Except.ok.injEq, Prod.mk.injEq] at h
    obtain ⟨_, rfl⟩ := h
    exact ⟨rfl, Nat.le_refl _⟩
  · simp only [Except.ok.injEq, Prod.mk.injEq] at h
    obtain ⟨_, rfl⟩ := h
    exact ⟨rfl, Nat.le_refl _⟩
  · simp only [Except.ok.injEq, Prod.mk.injEq] at h
    obtain ⟨_, rfl⟩ := h
    exact ⟨rfl, Nat.le_refl _⟩
  · simp only [Except.ok.injEq, Prod.mk.injEq] at h
    obtain ⟨_, rfl⟩ := h
    exact ⟨rfl, Nat.le_refl _⟩
  · simp only [Except.ok.injEq, Prod.mk.injEq] at h
    obtain ⟨_, rfl⟩ := h
    exact ⟨rfl, Nat.le_refl _⟩
  · cases hx : parseHex 4 0 q with
    | error f => rw [hx] at h; simp at h
    | ok r =>
      obtain ⟨v, q2⟩ := r
      rw [hx] at h
      simp only [Except.ok.injEq] at h
      obtain ⟨a, _, c⟩ := parseHex_ok 4 0 q q2 v hx
      obtain ⟨e2, e3⟩ := emitUnicode_frame v hs q2
      rw [h] at e2 e3
      exact ⟨e2.trans a, by simp only at e3; omega⟩
  · simp [Parser.fail] at h

/-- The fuel of the string loop is enough: a loop started with more turns than input bytes
left never stops for lack of turns. -/
theorem parseStringLoop_fuel (opts : Options) (base : Nat) :
    ∀ (fuel : Nat) (large : Bool) (hs : Nat) (q : Parser) (f : Failure),
    q.size - q.pos < fuel →
    parseStringLoop opts base fuel large hs q = .error f → f.error ≠ .InternalError := by
  intro fuel
  induction fuel with
  | zero => intro large hs q f hlt _; omega
  | succ fuel ih =>
    intro large hs q f hlt h
    unfold parseStringLoop at h
    dsimp only at h
    obtain ⟨hin1, hpos1, _⟩ := bulkCopy_frame opts q
    cases hg : (bulkCopy opts q).getOneOrThrow with
    | error f' =>
      rw [hg] at h
      simp only [Except.error.injEq] at h
      rw [← h, getOneOrThrow_error _ _ hg]
      simp
    | ok r =>
      obtain ⟨i, p2⟩ := r
      rw [hg] at h
      obtain ⟨hin2, _, hlt2, hpos2⟩ := getOneOrThrow_ok _ _ _ hg
      simp only at h
      have hsz : ∀ (x : Parser), x.input = p2.input → x.size = q.size := by
        intro x hx
        simp only [Parser.size, hx, hin2, hin1]
      have hsz1 : (bulkCopy opts q).size = q.size := by simp only [Parser.size, hin1]
      -- the promotion changes neither the input nor the cursor
      generalize hp3 : (if (!large && decide (p2.b.pos - (base + 1) > 126)) = true
        then p2.promote base else p2) = p3 at h
      have hp3in : p3.input = p2.input ∧ p3.pos = p2.pos := by
        rw [← hp3]; split_ifs <;> exact ⟨rfl, rfl⟩
      split_ifs at h with c1 c2
      · have hf := consume_frame p3
        rcases hc : p3.consume with ⟨c, p4⟩
        rw [hc] at h hf
        cases c with
        | none =>
          simp only [Parser.fail, Except.error.injEq] at h
          rw [← h]; simp
        | some i1 =>
          simp only at h
          cases he : parseEscape i1 hs p4 with
          | error f' =>
            rw [he] at h
            simp only [Except.error.injEq] at h
            rw [← h]; exact parseEscape_error _ _ _ _ he
          | ok r =>
            obtain ⟨hs1, p5⟩ := r
            rw [he] at h
            simp only at h
            obtain ⟨a, b⟩ := parseEscape_frame _ _ _ _ _ he
            have h4in : p4.input = p3.input := hf.1
            have h4pos : p3.pos ≤ p4.pos := hf.2.2.2.1
            have : p5.size = q.size := hsz p5 (a.trans (h4in.trans hp3in.1))
            refine ih _ _ _ _ ?_ h
            rw [this]
            have := hp3in.2
            omega
      · cases hr : parseRawByte opts i p3 with
        | error f' =>
          rw [hr] at h
          simp only [Except.error.injEq] at h
          rw [← h]; exact parseRawByte_error _ _ _ _ hr
        | ok p4 =>
          rw [hr] at h
          simp only at h
          obtain ⟨a, b, _⟩ := parseRawByte_ok opts i p3 p4 hr
          have : p4.size = q.size := hsz p4 (a.trans hp3in.1)
          refine ih _ _ _ _ ?_ h
          rw [this]
          have := hp3in.2
          omega

end

section
open Parser

theorem byteAt_mid (pre l rest : Bytes) (k c : Nat) (hk : l.get? k = some c) :
    byteAt (pre ++ l ++ rest) (pre.length + k) = c % 256 := by
  have hlt : k < l.length := by
    rw [List.get?_eq_some] at hk
    exact hk.1
  unfold byteAt
  rw [List.getD_eq_getElem?_getD, List.append_assoc,
    List.getElem?_append_right (Nat.le_add_right _ _), Nat.add_sub_cancel_left,
    List.getElem?_append_left hlt]
  rw [List.get?_eq_getElem?] at hk
  rw [hk]
  rfl

theorem consume_of_lt (q : Parser) (h : q.pos < q.size) :
    q.consume = (some (byteAt q.input q.pos), { q with pos := q.pos + 1 }) := by
  have : ¬ q.pos ≥ q.size := by omega
  simp [consume, this]

theorem getOneOrThrow_of_lt (q : Parser) (h : q.pos < q.size) :
    q.getOneOrThrow = .ok (byteAt q.input q.pos, { q with pos := q.pos + 1 }) := by
  simp [getOneOrThrow, consume_of_lt q h]

theorem drop_eq_cons (l : Bytes) (n : Nat) (h : n < l.length) :
    l.drop n = l.getD n 0 :: l.drop (n + 1) := by
  rw [List.drop_eq_getElem_cons h, List.getD_eq_getElem _ _ h]

theorem bulkCopy_stop (opts : Options) (q : Parser) (h : q.pos < q.size)
    (hc : byteAt q.input q.pos = 0x22 ∨ byteAt q.input q.pos = 0x5c) :
    bulkCopy opts q = q := by
  unfold bulkCopy
  simp only
  split_ifs with hr
  · have hd : q.input.drop q.pos = q.input.getD q.pos 0 :: q.input.drop (q.pos + 1) :=
      drop_eq_cons _ _ h
    obtain ⟨m, hm⟩ : ∃ m, q.size - q.pos - 15 = m + 1 := ⟨q.size - q.pos - 16, by omega⟩
    have hcount : JSONStringCopyCount opts.validateUtf8Strings (q.input.drop q.pos)
        (q.size - q.pos - 15) = 0 := by
      rw [hd, hm, JSONStringCopyCount]
      have : isCopyable opts.validateUtf8Strings (q.input.getD q.pos 0 % 256) = false := by
        unfold byteAt at hc
        rcases hc with hc | hc <;> (rw [hc]; cases opts.validateUtf8Strings <;> rfl)
      simp only [this, Bool.false_eq_true, if_false]
    rw [hcount]
    simp [bytesFrom]
  · rfl

theorem hexDigitValue_lt (c d : Nat) (h : hexDigitValue c = some d) : d < 16 := by
  unfold hexDigitValue at h
  split_ifs at h <;> simp at h <;> omega

theorem parseHex_step (k v : Nat) (q : Parser) (d : Nat) (hlt : q.pos < q.size)
    (hv : v < 2 ^ 16) (hd : hexDigitValue (byteAt q.input q.pos) = some d) :
    parseHex (k + 1) v q = parseHex k (v * 16 + d) { q with pos := q.pos + 1 } := by
  have hd16 := hexDigitValue_lt _ _ hd
  have hsh : v <<< 4 = v * 16 := by rw [Nat.shiftLeft_eq]
  rw [parseHex, consume_of_lt q hlt]
  simp only
  unfold hexDigitValue at hd
  split_ifs at hd with c1 c2 c3
  · simp only [Option.some.injEq] at hd
    rw [if_pos c1, hsh]
    congr 1
    omega
  · simp only [Option.some.injEq] at hd
    rw [if_neg c1, if_pos c2, hsh]
    congr 1
    omega
  · simp only [Option.some.injEq] at hd
    rw [if_neg c1, if_neg c2, if_pos c3, hsh]
    congr 1
    omega

theorem parseHex_four (q : Parser) (d0 d1 d2 d3 : Nat) (hlt : q.pos + 4 ≤ q.size)
    (h0 : hexDigitValue (byteAt q.input q.pos) = some d0)
    (h1 : hexDigitValue (byteAt q.input (q.pos + 1)) = some d1)
    (h2 : hexDigitValue (byteAt q.input (q.pos + 2)) = some d2)
    (h3 : hexDigitValue (byteAt q.input (q.pos + 3)) = some d3) :
    parseHex 4 0 q = .ok (((d0 * 16 + d1) * 16 + d2) * 16 + d3, { q with pos := q.pos + 4 }) := by
  have b0 := hexDigitValue_lt _ _ h0
  have b1 := hexDigitValue_lt _ _ h1
  have b2 := hexDigitValue_lt _ _ h2
  have b3 := hexDigitValue_lt _ _ h3
  rw [parseHex_step 3 0 q d0 (by omega) (by norm_num) h0,
    parseHex_step 2 _ _ d1 (by simp only [Parser.size] at *; omega) (by norm_num; omega) h1,
    parseHex_step 1 _ _ d2 (by simp only [Parser.size] at *; omega) (by norm_num; omega) h2,
    parseHex_step 0 _ _ d3 (by simp only [Parser.size] at *; omega) (by norm_num; omega) h3]
  simp [parseHex]

end

section
open Parser

theorem parseStringLoop_quote (opts : Options) (base fuel hs : Nat) (q : Parser)
    (hlt : q.pos < q.size) (hc : byteAt q.input q.pos = 0x22)
    (hshort : ¬ q.b.pos - (base + 1) > 126) :
    parseStringLoop opts base (fuel + 1) false hs q
      = .ok (finishString false base { q with pos := q.pos + 1 }) := by
  rw [parseStringLoop, bulkCopy_stop opts q hlt (Or.inl hc)]
  simp only [getOneOrThrow_of_lt q hlt, hc, hshort, decide_False, Bool.not_false, Bool.and_false,
    Bool.or_false, Bool.false_eq_true, if_false, if_true]

theorem parseStringLoop_unicode (opts : Options) (base fuel hs : Nat) (q : Parser)
    (d0 d1 d2 d3 : Nat) (hlt : q.pos + 6 ≤ q.size)
    (hc0 : byteAt q.input q.pos = 0x5c) (hc1 : byteAt q.input (q.pos + 1) = 0x75)
    (h0 : hexDigitValue (byteAt q.input (q.pos + 2)) = some d0)
    (h1 : hexDigitValue (byteAt q.input (q.pos + 3)) = some d1)
    (h2 : hexDigitValue (byteAt q.input (q.pos + 4)) = some d2)
    (h3 : hexDigitValue (byteAt q.input (q.pos + 5)) = some d3)
    (hshort : ¬ q.b.pos - (base + 1) > 126) :
    parseStringLoop opts base (fuel + 1) false hs q
      = parseStringLoop opts base fuel false
          (emitUnicode (((d0 * 16 + d1) * 16 + d2) * 16 + d3) hs { q with pos := q.pos + 6 }).1
          (emitUnicode (((d0 * 16 + d1) * 16 + d2) * 16 + d3) hs { q with pos := q.pos + 6 }).2 := by
  have hq1 : ({ q with pos := q.pos + 1 } : Parser).pos < ({ q with pos := q.pos + 1 } : Parser).size := by
    simp only [Parser.size] at *; omega
  have hhex := parseHex_four ({ q with pos := q.pos + 1 + 1 } : Parser) d0 d1 d2 d3
    (by simp only [Parser.size] at *; omega) h0 h1 h2 h3
  rw [parseStringLoop, bulkCopy_stop opts q (by omega) (Or.inr hc0)]
  simp only [getOneOrThrow_of_lt q (show q.pos < q.size by omega), hc0, hshort, decide_False,
    Bool.not_false, Bool.and_false, Bool.or_false, Bool.false_eq_true, if_false, if_true,
    consume_of_lt _ hq1, hc1, parseEscape, hhex]
  norm_num

end

section
open Parser

theorem specHex4_digits (cs : List Nat) (v : Nat) (h : specHex4 cs = some v) :
    ∃ a b c d va vb vc vd, cs = [a, b, c, d] ∧ hexDigitValue a = some va
      ∧ hexDigitValue b = some vb ∧ hexDigitValue c = some vc ∧ hexDigitValue d = some vd
      ∧ v = ((va * 16 + vb) * 16 + vc) * 16 + vd ∧ a < 256 ∧ b < 256 ∧ c < 256 ∧ d < 256 := by
  have hsmall : ∀ x y, hexDigitValue x = some y → x < 256 := by
    intro x y hx
    unfold hexDigitValue at hx
    split_ifs at hx <;> simp at hx <;> omega
  match cs, h with
  | [a, b, c, d], h =>
    simp only [specHex4] at h
    cases ha : hexDigitValue a with
    | none => simp [ha] at h
    | some va =>
      cases hb : hexDigitValue b with
      | none => simp [ha, hb] at h
      | some vb =>
        cases hc : hexDigitValue c with
        | none => simp [ha, hb, hc] at h
        | some vc =>
          cases hd : hexDigitValue d with
          | none => simp [ha, hb, hc, hd] at h
          | some vd =>
            simp only [ha, hb, hc, hd, Option.some.injEq] at h
            exact ⟨a, b, c, d, va, vb, vc, vd, rfl, ha, hb, hc, hd, h.symm,
              hsmall _ _ ha, hsmall _ _ hb, hsmall _ _ hc, hsmall _ _ hd⟩

theorem and_63 (x : Nat) : x &&& 0x3f = x % 64 := by
  have := Nat.and_pow_two_sub_one_eq_mod x 6
  norm_num at this
  exact this

/-- C7: the escape of a high surrogate h immediately followed by the escape of a low
surrogate l, and the closing quote, make parseString append the short-string head 0x44 and
the 4-byte UTF-8 encoding of the code point 0x10000 + ((h - 0xD800) << 10) + (l - 0xDC00). -/
theorem parseString_surrogate_pair (opts : Options) (p : Parser) (pre rest hi lo : Bytes)
    (h l : Nat) (hh : specHex4 hi = some h) (hl : specHex4 lo = some l)
    (hhr : 0xd800 ≤ h ∧ h ≤ 0xdbff) (hlr : 0xdc00 ≤ l ∧ l ≤ 0xdfff)
    (hin : p.input = pre ++ ([0x5c, 0x75] ++ hi ++ [0x5c, 0x75] ++ lo ++ [0x22]) ++ rest)
    (hpos : p.pos = pre.length) :
    Parser.parseString opts p
      = .ok { p with pos := p.pos + 13,
                     b := { p.b with buf := p.b.buf ++ 0x44 :: specUtf8 (specSurrogatePair h l) } }
      ∧ (specUtf8 (specSurrogatePair h l)).length = 4 := by
  obtain ⟨a0, a1, a2, a3, va0, va1, va2, va3, rfl, ha0, ha1, ha2, ha3, hv, la0, la1, la2, la3⟩ :=
    specHex4_digits hi h hh
  obtain ⟨b0, b1, b2, b3, vb0, vb1, vb2, vb3, rfl, hb0, hb1, hb2, hb3, hw, lb0, lb1, lb2, lb3⟩ :=
    specHex4_digits lo l hl
  have hsize : p.pos + 13 ≤ p.size := by
    simp only [Parser.size, hin, hpos, List.length_append, List.length_cons, List.length_nil]
    omega
  have hbyte : ∀ (k c : Nat),
      ([0x5c, 0x75] ++ [a0, a1, a2, a3] ++ [0x5c, 0x75] ++ [b0, b1, b2, b3] ++ [0x22] : Bytes).get? k
        = some c → c < 256 → byteAt p.input (p.pos + k) = c := by
    intro k c hk hc
    rw [hin, hpos, byteAt_mid pre _ rest k c hk, Nat.mod_eq_of_lt hc]
  have e0 := hbyte 0 0x5c rfl (by decide)
  have e1 := hbyte 1 0x75 rfl (by decide)
  have e2 : hexDigitValue (byteAt p.input (p.pos + 2)) = some va0 := by
    rw [hbyte 2 a0 rfl la0]; exact ha0
  have e3 : hexDigitValue (byteAt p.input (p.pos + 3)) = some va1 := by
    rw [hbyte 3 a1 rfl la1]; exact ha1
  have e4 : hexDigitValue (byteAt p.input (p.pos + 4)) = some va2 := by
    rw [hbyte 4 a2 rfl la2]; exact ha2
  have e5 : hexDigitValue (byteAt p.input (p.pos + 5)) = some va3 := by
    rw [hbyte 5 a3 rfl la3]; exact ha3
  have e6 := hbyte 6 0x5c rfl (by decide)
  have e7 := hbyte 7 0x75 rfl (by decide)
  have e8 : hexDigitValue (byteAt p.input (p.pos + 8)) = some vb0 := by
    rw [hbyte 8 b0 rfl lb0]; exact hb0
  have e9 : hexDigitValue (byteAt p.input (p.pos + 9)) = some vb1 := by
    rw [hbyte 9 b1 rfl lb1]; exact hb1
  have e10 : hexDigitValue (byteAt p.input (p.pos + 10)) = some vb2 := by
    rw [hbyte 10 b2 rfl lb2]; exact hb2
  have e11 : hexDigitValue (byteAt p.input (p.pos + 11)) = some vb3 := by
    rw [hbyte 11 b3 rfl lb3]; exact hb3
  have e12 := hbyte 12 0x22 rfl (by decide)
  -- the code point
  have hcp : (0x10000 + ((h - 0xd800) <<< 10) + l - 0xdc00) % 2 ^ 32 = specSurrogatePair h l := by
    unfold specSurrogatePair
    rw [Nat.shiftLeft_eq]
    omega
  have hcplo : 0x10000 ≤ specSurrogatePair h l := by unfold specSurrogatePair; omega
  have hcphi : specSurrogatePair h l < 0x110000 := by unfold specSurrogatePair; omega
  have hutf : specUtf8 (specSurrogatePair h l)
      = [0xf0 + specSurrogatePair h l / 0x40000, 0x80 + specSurrogatePair h l / 0x1000 % 0x40,
         0x80 + specSurrogatePair h l / 0x40 % 0x40, 0x80 + specSurrogatePair h l % 0x40] := by
    unfold specUtf8
    rw [if_neg (by omega), if_neg (by omega), if_neg (by omega)]
  refine ⟨?_, by rw [hutf]; rfl⟩
  -- the three turns of the loop
  obtain ⟨fuel, hfuel⟩ : ∃ fuel, p.size - p.pos + 1 = fuel + 3 := ⟨p.size - p.pos - 2, by omega⟩
  unfold Parser.parseString
  rw [hfuel]
  rw [parseStringLoop_unicode opts _ _ 0 (p.put 0x40) va0 va1 va2 va3
    (by simpa [Parser.put, Parser.size] using (by omega : p.pos + 6 ≤ p.size))
    e0 e1 e2 e3 e4 e5 (by simp [Parser.put, Builder.push, Builder.pos])]
  rw [← hv]
  have hem1 : emitUnicode h 0 { (p.put 0x40) with pos := (p.put 0x40).pos + 6 }
      = (h, ((({ (p.put 0x40) with pos := p.pos + 6 } : Parser).put (0xe0 + (h >>> 12))).put
              (0x80 + ((h >>> 6) &&& 0x3f))).put (0x80 + (h &&& 0x3f))) := by
    unfold emitUnicode
    rw [if_neg (by omega), if_neg (by omega), if_neg (by omega), if_pos (by omega)]
    rfl
  rw [hem1]
  simp only
  rw [parseStringLoop_unicode opts _ _ h _ vb0 vb1 vb2 vb3
    (by simpa [Parser.put, Parser.size] using (by omega : p.pos + 6 + 6 ≤ p.size))
    (by simpa [Parser.put, Nat.add_assoc] using e6) (by simpa [Parser.put, Nat.add_assoc] using e7)
    (by simpa [Parser.put, Nat.add_assoc] using e8) (by simpa [Parser.put, Nat.add_assoc] using e9)
    (by simpa [Parser.put, Nat.add_assoc] using e10)
    (by simpa [Parser.put, Nat.add_assoc] using e11)
    (by simp [Parser.put, Builder.push, Builder.pos])]
  rw [← hw]
  unfold emitUnicode
  rw [if_neg (by omega), if_neg (by omega), if_pos ⟨by omega, by omega, by omega⟩]
  simp only [hcp]
  rw [parseStringLoop_quote opts _ _ 0 _
    (by simpa [Parser.put, Parser.size] using (by omega : p.pos + 6 + 6 < p.size))
    (by simpa [Parser.put, Nat.add_assoc] using e12)
    (by simp [Parser.put, Builder.push, Builder.pos, Builder.rewind])]
  rw [hutf]
  have m1 : specSurrogatePair h l >>> 18 = specSurrogatePair h l / 0x40000 := by
    rw [Nat.shiftRight_eq_div_pow]
  have m2 : specSurrogatePair h l >>> 12 = specSurrogatePair h l / 0x1000 := by
    rw [Nat.shiftRight_eq_div_pow]
  have m3 : specSurrogatePair h l >>> 6 = specSurrogatePair h l / 0x40 := by
    rw [Nat.shiftRight_eq_div_pow]
  have n1 : (0xf0 + specSurrogatePair h l / 0x40000) % 256 = 0xf0 + specSurrogatePair h l / 0x40000 := by
    omega
  have n2 : ∀ x, (0x80 + x % 64) % 256 = 0x80 + x % 64 := by intro x; omega
  simp [finishString, Parser.put, Builder.push, Builder.rewind, Builder.store, Builder.pos,
    m1, m2, m3, and_63, n1, n2, List.take_append_eq_append_take, Nat.add_assoc]

end

section

theorem parseString_surrogate_pair_witness :
    Parser.parseString {}
        ⟨[0x5c, 0x75, 0x44, 0x38, 0x33, 0x44, 0x5c, 0x75, 0x44, 0x45, 0x30, 0x30, 0x22], 0,
          ⟨[], []⟩, 0⟩
      = .ok ⟨[0x5c, 0x75, 0x44, 0x38, 0x33, 0x44, 0x5c, 0x75, 0x44, 0x45, 0x30, 0x30, 0x22], 13,
          ⟨[0x44, 0xf0, 0x9f, 0x98, 0x80], []⟩, 0⟩ :=
  (parseString_surrogate_pair {}
    ⟨[0x5c, 0x75, 0x44, 0x38, 0x33, 0x44, 0x5c, 0x75, 0x44, 0x45, 0x30, 0x30, 0x22], 0,
      ⟨[], []⟩, 0⟩ [] [] [0x44, 0x38, 0x33, 0x44] [0x44, 0x45, 0x30, 0x30] 0xd83d 0xde00
    (by decide) (by decide) (by decide) (by decide) (by decide) (by decide)).1

end

section
open Parser VJsonParser

/-! ### Base64 -/

theorem stride3_induction {P : List Nat → Prop} (h0 : P []) (h1 : ∀ a, P [a])
    (h2 : ∀ a b, P [a, b]) (h3 : ∀ a b c rest, P rest → P (a :: b :: c :: rest)) :
    ∀ B, P B
  | [] => h0
  | [a] => h1 a
  | [a, b] => h2 a b
  | a :: b :: c :: rest => h3 a b c rest (stride3_induction h0 h1 h2 h3 rest)

theorem base64Char_decode (u : Bool) (v : Nat) (hv : v < 64) :
    decodeChar (base64Char u v) = v ∧ base64Char u v < 256 ∧ base64Char u v ≠ 0x22
      ∧ base64Char u v ≠ 0x3d := by
  cases u <;> interval_cases v <;> decide

theorem sextet_bits : ∀ x < 64, (x &&& 0x3f) = x ∧ (x &&& 0x30) >>> 4 = x / 16
    ∧ (x &&& 0x0f) = x % 16 ∧ (x &&& 0x3c) >>> 2 = x / 4 ∧ (x &&& 0x03) = x % 4
    ∧ x >>> 0 = x := by
  decide

theorem base64_first (a b : Nat) (ha : a < 256) (hb : b < 256) :
    ((((a / 4) &&& 0x3f) <<< 2) + (((a % 4 * 16 + b / 16) &&& 0x30) >>> 4)) % 256 = a := by
  have h1 := sextet_bits (a / 4) (by omega)
  have h2 := sextet_bits (a % 4 * 16 + b / 16) (by omega)
  rw [h1.1, h2.2.1, Nat.shiftLeft_eq]
  omega

theorem base64_second (a b c : Nat) (hb : b < 256) (hc : c < 256) :
    ((((a % 4 * 16 + b / 16) &&& 0x0f) <<< 4) + (((b % 16 * 4 + c / 64) &&& 0x3c) >>> 2)) % 256
      = b := by
  have h1 := sextet_bits (a % 4 * 16 + b / 16) (by omega)
  have h2 := sextet_bits (b % 16 * 4 + c / 64) (by omega)
  rw [h1.2.2.1, h2.2.2.2.1, Nat.shiftLeft_eq]
  omega

theorem base64_third (b c : Nat) (hc : c < 256) :
    ((((b % 16 * 4 + c / 64) &&& 0x03) <<< 6) + (((c % 64) &&& 0x3f) >>> 0)) % 256 = c := by
  have h1 := sextet_bits (b % 16 * 4 + c / 64) (by omega)
  have h2 := sextet_bits (c % 64) (by omega)
  rw [h1.2.2.2.2.1, h2.1, Nat.shiftLeft_eq, Nat.shiftRight_zero]
  omega

theorem specBase64Chars_cons3 (a b c : Nat) (rest : List Nat) :
    specBase64Chars (a :: b :: c :: rest) = specBase64Chars rest + 4 := by
  simp only [specBase64Chars, List.length_cons]
  have e1 : (rest.length + 1 + 1 + 1) / 3 = rest.length / 3 + 1 := by omega
  have e2 : (rest.length + 1 + 1 + 1) % 3 = rest.length % 3 := by omega
  rw [e1, e2]
  omega

theorem specBase64Chars_pos (B : List Nat) (h : B ≠ []) : 0 < specBase64Chars B := by
  have : 0 < B.length := List.length_pos.mpr h
  unfold specBase64Chars
  split_ifs <;> omega

theorem specBase64Chars_decoded (B : List Nat) : 3 * specBase64Chars B / 4 = B.length := by
  unfold specBase64Chars
  split_ifs <;> omega

theorem specBase64_chars (u : Bool) : ∀ (B : List Nat), (∀ b ∈ B, b < 256) →
    ∀ x ∈ specBase64 u B, x < 256 ∧ x ≠ 0x22 := by
  apply stride3_induction
  · intro _ x hx; simp [specBase64] at hx
  · intro a ha x hx
    have ha' : a < 256 := ha a (by simp)
    simp only [specBase64, List.mem_cons, List.mem_singleton, List.not_mem_nil, or_false] at hx
    rcases hx with rfl | rfl | rfl | rfl
    · exact ⟨(base64Char_decode u _ (by omega)).2.1, (base64Char_decode u _ (by omega)).2.2.1⟩
    · exact ⟨(base64Char_decode u _ (by omega)).2.1, (base64Char_decode u _ (by omega)).2.2.1⟩
    · decide
    · decide
  · intro a b hab x hx
    have ha' : a < 256 := hab a (by simp)
    have hb' : b < 256 := hab b (by simp)
    simp only [specBase64, List.mem_cons, List.mem_singleton, List.not_mem_nil, or_false] at hx
    rcases hx with rfl | rfl | rfl | rfl
    · exact ⟨(base64Char_decode u _ (by omega)).2.1, (base64Char_decode u _ (by omega)).2.2.1⟩
    · exact ⟨(base64Char_decode u _ (by omega)).2.1, (base64Char_decode u _ (by omega)).2.2.1⟩
    · exact ⟨(base64Char_decode u _ (by omega)).2.1, (base64Char_decode u _ (by omega)).2.2.1⟩
    · decide
  · intro a b c rest ih habc x hx
    have ha' : a < 256 := habc a (by simp)
    have hb' : b < 256 := habc b (by simp)
    have hc' : c < 256 := habc c (by simp)
    simp only [specBase64, List.mem_cons] at hx
    rcases hx with rfl | rfl | rfl | rfl | hx
    · exact ⟨(base64Char_decode u _ (by omega)).2.1, (base64Char_decode u _ (by omega)).2.2.1⟩
    · exact ⟨(base64Char_decode u _ (by omega)).2.1, (base64Char_decode u _ (by omega)).2.2.1⟩
    · exact ⟨(base64Char_decode u _ (by omega)).2.1, (base64Char_decode u _ (by omega)).2.2.1⟩
    · exact ⟨(base64Char_decode u _ (by omega)).2.1, (base64Char_decode u _ (by omega)).2.2.1⟩
    · exact ih (fun y hy => habc y (by simp [hy])) x hx

theorem memchr_found (c : Nat) : ∀ (l rest : List Nat) (c1 start : Nat),
    (∀ x ∈ l, x % 256 ≠ c) → c1 % 256 = c →
    memchr c (l ++ c1 :: rest) start = some (start + l.length) := by
  intro l
  induction l with
  | nil => intro rest c1 start _ h1; simp [memchr, h1]
  | cons x l ih =>
    intro rest c1 start hl h1
    have hx : x % 256 ≠ c := hl x (by simp)
    simp only [List.cons_append, memchr, hx, if_false]
    show memchr c (l ++ c1 :: rest) (start + 1) = _
    rw [ih rest c1 (start + 1) (fun y hy => hl y (by simp [hy])) h1]
    simp only [List.length_cons]
    congr 1
    omega

theorem skipPadding_shift (input : Bytes) (pos : Nat) : ∀ (n : Nat),
    0 < skipPadding input (pos + 4) n →
    skipPadding input pos (n + 4) = skipPadding input (pos + 4) n + 4 := by
  intro n
  induction n with
  | zero => intro h; simp [skipPadding] at h
  | succ n ih =>
    intro h
    have e2 : pos + (n + 4) = pos + 4 + n := by omega
    have eL : skipPadding input pos (n + 1 + 4)
        = if byteAt input (pos + 4 + n) = 0x3d then skipPadding input pos (n + 4)
          else n + 5 := by
      show skipPadding input pos ((n + 4) + 1) = _
      rw [skipPadding, e2]
    have eR : skipPadding input (pos + 4) (n + 1)
        = if byteAt input (pos + 4 + n) = 0x3d then skipPadding input (pos + 4) n
          else n + 1 := by
      rw [skipPadding]
    rw [eL, eR]
    rw [eR] at h
    by_cases hc : byteAt input (pos + 4 + n) = 0x3d
    · rw [if_pos hc] at h ⊢
      rw [if_pos hc]
      exact ih h
    · rw [if_neg hc, if_neg hc]

end

section
open Parser VJsonParser

theorem skipPadding_base64 (u : Bool) (input : Bytes) : ∀ (B : List Nat), (∀ b ∈ B, b < 256) →
    ∀ (pos : Nat), (∀ k < (specBase64 u B).length,
        byteAt input (pos + k) = (specBase64 u B).getD k 0) →
    skipPadding input pos (specBase64 u B).length = specBase64Chars B := by
  apply stride3_induction
  · intro _ pos _; rfl
  · intro a ha pos hk
    have ha' : a < 256 := ha a (by simp)
    have k1 := hk 1 (by simp [specBase64])
    have k2 := hk 2 (by simp [specBase64])
    have k3 := hk 3 (by simp [specBase64])
    simp only [specBase64, List.getD_cons_succ, List.getD_cons_zero] at k1 k2 k3
    have n1 := (base64Char_decode u (a % 4 * 16) (by omega)).2.2.2
    simp only [specBase64, List.length_cons, List.length_nil, skipPadding, k3, k2, k1, if_true]
    rw [if_neg n1]
    simp [specBase64Chars]
  · intro a b hab pos hk
    have ha' : a < 256 := hab a (by simp)
    have hb' : b < 256 := hab b (by simp)
    have k2 := hk 2 (by simp [specBase64])
    have k3 := hk 3 (by simp [specBase64])
    simp only [specBase64, List.getD_cons_succ, List.getD_cons_zero] at k2 k3
    have n1 := (base64Char_decode u (b % 16 * 4) (by omega)).2.2.2
    simp only [specBase64, List.length_cons, List.length_nil, skipPadding, k3, k2, if_true]
    rw [if_neg n1]
    simp [specBase64Chars]
  · intro a b c rest ih habc pos hk
    have hc' : c < 256 := habc c (by simp)
    have hrest : ∀ y ∈ rest, y < 256 := fun y hy => habc y (by simp [hy])
    have hlen : (specBase64 u (a :: b :: c :: rest)).length = (specBase64 u rest).length + 4 := by
      simp [specBase64]
    rw [hlen, specBase64Chars_cons3]
    by_cases hr : rest = []
    · subst hr
      have k3 := hk 3 (by simp [specBase64])
      simp only [specBase64, List.getD_cons_succ, List.getD_cons_zero] at k3
      have n1 := (base64Char_decode u (c % 64) (by omega)).2.2.2
      simp only [specBase64, List.length_nil, Nat.zero_add, skipPadding, k3]
      rw [if_neg n1]
      rfl
    · have hih := ih hrest (pos + 4) (by
        intro k hk4
        have := hk (k + 4) (by rw [hlen]; omega)
        simp only [specBase64, List.getD_cons_succ] at this
        rw [← this]
        congr 1
        omega)
      rw [skipPadding_shift input pos _ (by rw [hih]; exact specBase64Chars_pos rest hr), hih]

theorem put_put (q : Parser) (a : Nat) (B : List Nat) :
    ({ (q.put a) with b := { (q.put a).b with buf := (q.put a).b.buf ++ B } } : Parser)
      = { q with b := { q.b with buf := q.b.buf ++ (a % 256) :: B } } := by
  simp [Parser.put, Builder.push]

theorem base64Loop_decodes (u : Bool) : ∀ (B : List Nat), (∀ b ∈ B, b < 256) → B ≠ [] →
    ∀ (q : Parser) (off fuel : Nat),
    (∀ k < (specBase64 u B).length, byteAt q.input (off + k) = (specBase64 u B).getD k 0) →
    specBase64Chars B / 4 + 1 ≤ fuel →
    base64Loop fuel q off (specBase64Chars B)
      = .ok { q with b := { q.b with buf := q.b.buf ++ B } } := by
  apply stride3_induction
  · intro _ h; exact absurd rfl h
  · intro a ha _ q off fuel hk hfuel
    have ha' : a < 256 := ha a (by simp)
    obtain ⟨fuel, rfl⟩ : ∃ f, fuel = f + 1 := ⟨fuel - 1, by omega⟩
    have k0 := hk 0 (by simp [specBase64])
    have k1 := hk 1 (by simp [specBase64])
    simp only [specBase64, List.getD_cons_succ, List.getD_cons_zero, Nat.add_zero] at k0 k1
    have d0 := (base64Char_decode u (a / 4) (by omega)).1
    have d1 := (base64Char_decode u (a % 4 * 16) (by omega)).1
    have hch : specBase64Chars [a] = 2 := by simp [specBase64Chars]
    have hne : ¬ (a % 4 * 16 = 0xff) := by omega
    have hx := base64_first a 0 ha' (by decide)
    simp only [Nat.zero_div, Nat.add_zero] at hx
    rw [hch, base64Loop]
    simp only [k0, k1, d0, d1, show (2 : Nat) > 1 from by decide, show ¬ (2 : Nat) > 2 from by decide,
      show ¬ (2 : Nat) > 3 from by decide, show (2 : Nat) ≤ 4 from by decide, if_true, if_false,
      ne_eq, hne, not_false_eq_true, not_true_eq_false]
    simp [Parser.put, Builder.push, hx]
  · intro a b hab _ q off fuel hk hfuel
    have ha' : a < 256 := hab a (by simp)
    have hb' : b < 256 := hab b (by simp)
    obtain ⟨fuel, rfl⟩ : ∃ f, fuel = f + 1 := ⟨fuel - 1, by omega⟩
    have k0 := hk 0 (by simp [specBase64])
    have k1 := hk 1 (by simp [specBase64])
    have k2 := hk 2 (by simp [specBase64])
    simp only [specBase64, List.getD_cons_succ, List.getD_cons_zero, Nat.add_zero] at k0 k1 k2
    have d0 := (base64Char_decode u (a / 4) (by omega)).1
    have d1 := (base64Char_decode u (a % 4 * 16 + b / 16) (by omega)).1
    have d2 := (base64Char_decode u (b % 16 * 4) (by omega)).1
    have hch : specBase64Chars [a, b] = 3 := by simp [specBase64Chars]
    have hne1 : ¬ (a % 4 * 16 + b / 16 = 0xff) := by omega
    have hne2 : ¬ (b % 16 * 4 = 0xff) := by omega
    have hx := base64_first a b ha' hb'
    have hy := base64_second a b 0 hb' (by decide)
    simp only [Nat.zero_div, Nat.add_zero] at hy
    rw [hch, base64Loop]
    simp only [k0, k1, k2, d0, d1, d2, show (3 : Nat) > 1 from by decide,
      show (3 : Nat) > 2 from by decide, show ¬ (3 : Nat) > 3 from by decide,
      show (3 : Nat) ≤ 4 from by decide, if_true, if_false, ne_eq, hne1, hne2,
      not_false_eq_true, not_true_eq_false]
    simp [Parser.put, Builder.push, hx, hy]
  · intro a b c rest ih habc _ q off fuel hk hfuel
    have ha' : a < 256 := habc a (by simp)
    have hb' : b < 256 := habc b (by simp)
    have hc' : c < 256 := habc c (by simp)
    have hrest : ∀ y ∈ rest, y < 256 := fun y hy => habc y (by simp [hy])
    have hlen : (specBase64 u (a :: b :: c :: rest)).length = (specBase64 u rest).length + 4 := by
      simp [specBase64]
    obtain ⟨fuel, rfl⟩ : ∃ f, fuel = f + 1 := ⟨fuel - 1, by omega⟩
    have k0 := hk 0 (by rw [hlen]; omega)
    have k1 := hk 1 (by rw [hlen]; omega)
    have k2 := hk 2 (by rw [hlen]; omega)
    have k3 := hk 3 (by rw [hlen]; omega)
    simp only [specBase64, List.getD_cons_succ, List.getD_cons_zero, Nat.add_zero] at k0 k1 k2 k3
    have d0 := (base64Char_decode u (a / 4) (by omega)).1
    have d1 := (base64Char_decode u (a % 4 * 16 + b / 16) (by omega)).1
    have d2 := (base64Char_decode u (b % 16 * 4 + c / 64) (by omega)).1
    have d3 := (base64Char_decode u (c % 64) (by omega)).1
    have hne1 : ¬ (a % 4 * 16 + b / 16 = 0xff) := by omega
    have hne2 : ¬ (b % 16 * 4 + c / 64 = 0xff) := by omega
    have hne3 : ¬ (c % 64 = 0xff) := by omega
    have hx := base64_first a b ha' hb'
    have hy := base64_second a b c hb' hc'
    have hz := base64_third b c hc'
    simp only [Nat.shiftRight_zero] at hz
    have hpos : 0 < specBase64Chars rest + 4 := by omega
    have g1 : specBase64Chars rest + 4 > 1 := by omega
    have g2 : specBase64Chars rest + 4 > 2 := by omega
    have g3 : specBase64Chars rest + 4 > 3 := by omega
    rw [specBase64Chars_cons3] at hfuel ⊢
    rw [base64Loop]
    simp only [k0, k1, k2, k3, d0, d1, d2, d3, g1, g2, g3, if_true, if_false, ne_eq, hne1, hne2,
      hne3, not_false_eq_true, not_true_eq_false]
    by_cases hr : rest = []
    · subst hr
      have : specBase64Chars [] + 4 ≤ 4 := by decide
      simp only [this, if_true]
      simp [Parser.put, Builder.push, hx, hy, hz]
    · have hgt : ¬ specBase64Chars rest + 4 ≤ 4 := by
        have := specBase64Chars_pos rest hr
        omega
      simp only [hgt, if_false, Nat.add_sub_cancel]
      rw [ih hrest hr _ (off + 4) fuel (by
        intro k hk4
        have := hk (k + 4) (by rw [hlen]; omega)
        simp only [Parser.put]
        rw [show off + 4 + k = off + (k + 4) by omega, this]
        simp [specBase64]) (by omega)]
      simp [Parser.put, Builder.push, hx, hy, hz]

end

section
open Parser VJsonParser

theorem and_255 (x : Nat) : x &&& 0xff = x % 256 := by
  have := Nat.and_pow_two_sub_one_eq_mod x 8
  norm_num at this
  exact this

theorem appendUIntLoop_eq : ∀ (fuel v : Nat) (acc : List Nat), 1 ≤ fuel → v < 256 ^ fuel →
    ∃ w, 1 ≤ w ∧ w ≤ fuel ∧ Builder.appendUIntLoop fuel v acc = acc ++ littleEndianBytes w v
      ∧ v < 256 ^ w := by
  intro fuel
  induction fuel with
  | zero => intro v acc h; omega
  | succ f ih =>
    intro v acc _ hv
    have hsh : v >>> 8 = v / 256 := by rw [Nat.shiftRight_eq_div_pow]
    rw [Builder.appendUIntLoop, hsh, and_255]
    by_cases hz : v / 256 = 0
    · refine ⟨1, Nat.le_refl _, by omega, ?_, ?_⟩
      · simp [hz, littleEndianBytes]
      · have : v < 256 := by omega
        simpa using this
    · have hf : 1 ≤ f := by
        rcases Nat.eq_zero_or_pos f with h0 | h0
        · subst h0
          simp at hv
          omega
        · exact h0
      have hv' : v / 256 < 256 ^ f := by
        rw [Nat.pow_succ] at hv
        exact Nat.div_lt_of_lt_mul (by rw [Nat.mul_comm]; exact hv)
      obtain ⟨w, hw1, hw2, hw3, hw4⟩ := ih (v / 256) (acc ++ [v % 256]) hf hv'
      refine ⟨w + 1, by omega, by omega, ?_, ?_⟩
      · simp only [ne_eq, hz, not_false_eq_true, if_true, hw3, littleEndianBytes]
        simp
      · rw [Nat.pow_succ]
        omega

theorem specLittleEndian_bytes : ∀ (w v : Nat), v < 256 ^ w →
    specLittleEndian (littleEndianBytes w v) = v := by
  intro w
  induction w with
  | zero => intro v hv; simp at hv; simp [littleEndianBytes, specLittleEndian, hv]
  | succ w ih =>
    intro v hv
    have hv' : v / 256 < 256 ^ w := by
      rw [Nat.pow_succ] at hv
      exact Nat.div_lt_of_lt_mul (by rw [Nat.mul_comm]; exact hv)
    simp only [littleEndianBytes, specLittleEndian, ih _ hv']
    omega

theorem specBase64_nil_iff (u : Bool) (B : List Nat) : (specBase64 u B).length = 0 ↔ B = [] := by
  constructor
  · intro h
    match B, h with
    | [], _ => rfl
    | [_], h => simp [specBase64] at h
    | [_, _], h => simp [specBase64] at h
    | _ :: _ :: _ :: _, h => simp [specBase64] at h
  · intro h; subst h; rfl

/-- C8: for every sequence of bytes B the VJSON parser, reading `b:`, the padded base64
encoding of B in either alphabet and the closing quote, appends a Binary value (head
0xbf + w, the length B.length in w little-endian bytes, then the bytes of B) and leaves the
cursor behind the closing quote. -/
theorem parseString_base64 (opts : Options) (parseDate : Bytes → Option Int) (u : Bool)
    (B : List Nat) (hB : ∀ b ∈ B, b < 256) (hBlen : B.length < 2 ^ 64)
    (p : Parser) (pre rest : Bytes)
    (hin : p.input = pre ++ ([0x62, 0x3a] ++ specBase64 u B ++ [0x22]) ++ rest)
    (hpos : p.pos = pre.length) :
    ∃ w, 1 ≤ w ∧ w ≤ 8 ∧ specLittleEndian (littleEndianBytes w B.length) = B.length
      ∧ VJsonParser.parseString opts parseDate p
        = .ok { p with pos := p.pos + 2 + (specBase64 u B).length + 1,
                       b := { p.b with buf := p.b.buf
                                ++ ((0xbf + w) :: (littleEndianBytes w B.length ++ B)) } } := by
  have henc := specBase64_chars u B hB
  -- the header written by appendUInt
  obtain ⟨w, hw1, hw2, hw3, hw4⟩ := appendUIntLoop_eq 8 (B.length % 2 ^ 64) [] (by decide)
    (by rw [Nat.mod_eq_of_lt hBlen]; exact hBlen)
  rw [Nat.mod_eq_of_lt hBlen] at hw3 hw4
  refine ⟨w, hw1, hw2, specLittleEndian_bytes w _ hw4, ?_⟩
  have happ : ∀ (b : Builder), b.appendUInt B.length 0xbf
      = { b with buf := b.buf ++ ((0xbf + w) :: littleEndianBytes w B.length) } := by
    intro b
    simp only [Builder.appendUInt, Nat.mod_eq_of_lt hBlen, hw3, List.nil_append,
      littleEndianBytes_length]
    congr 3
    omega
  -- the bytes of the input
  have hsize : p.size = p.pos + 2 + (specBase64 u B).length + 1 + rest.length := by
    simp only [Parser.size, hin, hpos, List.length_append, List.length_cons, List.length_nil]
    omega
  have hbyte : ∀ (k c : Nat),
      ([0x62, 0x3a] ++ specBase64 u B ++ [0x22] : Bytes).get? k = some c → c < 256 →
      byteAt p.input (p.pos + k) = c := by
    intro k c hk hc
    rw [hin, hpos, byteAt_mid pre _ rest k c hk, Nat.mod_eq_of_lt hc]
  have e0 : byteAt p.input p.pos = 0x62 := hbyte 0 0x62 rfl (by decide)
  have e1 : byteAt p.input (p.pos + 1) = 0x3a := hbyte 1 0x3a rfl (by decide)
  have eenc : ∀ k < (specBase64 u B).length,
      byteAt p.input (p.pos + 2 + k) = (specBase64 u B).getD k 0 := by
    intro k hk
    have hget : (specBase64 u B)[k]? = some ((specBase64 u B).getD k 0) := by
      rw [List.getD_eq_getElem _ _ hk, List.getElem?_eq_getElem hk]
    rw [Nat.add_assoc]
    apply hbyte
    · rw [List.get?_eq_getElem?]
      simp only [List.cons_append, List.nil_append, List.getElem?_cons_succ,
        show 2 + k = k + 1 + 1 by omega]
      rw [List.getElem?_append_left hk]
      exact hget
    · exact (henc _ (by rw [List.getD_eq_getElem _ _ hk]; exact List.getElem_mem hk)).1
  have equote : byteAt p.input (p.pos + 2 + (specBase64 u B).length) = 0x22 := by
    rw [Nat.add_assoc]
    apply hbyte
    · rw [List.get?_eq_getElem?]
      simp only [List.cons_append, List.nil_append, List.getElem?_cons_succ,
        show 2 + (specBase64 u B).length = (specBase64 u B).length + 1 + 1 by omega]
      rw [List.getElem?_append_right (Nat.le_refl _)]
      simp
    · decide
  have hdrop : p.input.drop (p.pos + 2) = specBase64 u B ++ 0x22 :: rest := by
    have : p.input = (pre ++ [0x62, 0x3a]) ++ (specBase64 u B ++ 0x22 :: rest) := by
      rw [hin]; simp
    rw [this, hpos, show pre.length + 2 = (pre ++ [0x62, 0x3a]).length by simp,
      List.drop_left]
  have hmem : memchr 0x22 (p.input.drop (p.pos + 2)) (p.pos + 2)
      = some (p.pos + 2 + (specBase64 u B).length) := by
    rw [hdrop]
    exact memchr_found 0x22 _ rest 0x22 _
      (fun x hx => by rw [Nat.mod_eq_of_lt (henc x hx).1]; exact (henc x hx).2) rfl
  have hskip : skipPadding p.input (p.pos + 2) (specBase64 u B).length = specBase64Chars B :=
    skipPadding_base64 u p.input B hB (p.pos + 2) eenc
  -- parseBase64
  have hparse : parseBase64 { p with pos := p.pos + 2 }
      = .ok { p with pos := p.pos + 2 + (specBase64 u B).length,
                     b := { p.b with buf := p.b.buf
                              ++ ((0xbf + w) :: (littleEndianBytes w B.length ++ B)) } } := by
    unfold parseBase64
    simp only [hmem, Nat.add_sub_cancel_left, hskip, specBase64Chars_decoded]
    by_cases hnil : B = []
    · subst hnil
      have h0 := happ p.b
      simp only [List.length_nil] at h0
      simp [specBase64, h0]
    · have hl : ¬ (specBase64 u B).length = 0 := fun h => hnil ((specBase64_nil_iff u B).mp h)
      simp only [hl, if_false]
      rw [base64Loop_decodes u B hB hnil
        ⟨p.input, p.pos + 2, p.b.appendUInt B.length 0xbf, p.nesting⟩ (p.pos + 2) _ eenc
        (Nat.le_refl _)]
      simp [happ]
  unfold VJsonParser.parseString
  have hnot : ¬ p.size - p.pos < 2 := by omega
  simp only [hnot, if_false, e0, e1, ne_eq, not_true_eq_false, hparse,
    show ¬ ((0x62 : Nat) = 0x73) from by decide, if_true]
  rw [consume_of_lt _ (by simp only [Parser.size] at hsize ⊢; omega)]

theorem parseString_base64_witness :
    (∀ b ∈ [0x48, 0x65, 0x6c, 0x6c, 0x6f], b < 256)
      ∧ ∃ w, 1 ≤ w ∧ w ≤ 8
        ∧ specLittleEndian (littleEndianBytes w [0x48, 0x65, 0x6c, 0x6c, 0x6f].length)
            = [0x48, 0x65, 0x6c, 0x6c, 0x6f].length
        ∧ VJsonParser.parseString {} (fun _ => none)
            ⟨[0x62, 0x3a, 0x53, 0x47, 0x56, 0x73, 0x62, 0x47, 0x38, 0x3d, 0x22], 0, ⟨[], []⟩, 0⟩
          = .ok ⟨[0x62, 0x3a, 0x53, 0x47, 0x56, 0x73, 0x62, 0x47, 0x38, 0x3d, 0x22], 11,
              ⟨(0xbf + w) :: (littleEndianBytes w [0x48, 0x65, 0x6c, 0x6c, 0x6f].length
                  ++ [0x48, 0x65, 0x6c, 0x6c, 0x6f]), []⟩, 0⟩ :=
  ⟨by decide,
   parseString_base64 {} (fun _ => none) false [0x48, 0x65, 0x6c, 0x6c, 0x6f] (by decide)
     (by decide)
     ⟨[0x62, 0x3a, 0x53, 0x47, 0x56, 0x73, 0x62, 0x47, 0x38, 0x3d, 0x22], 0, ⟨[], []⟩, 0⟩ [] []
     (by decide) (by decide)⟩

end

section
open Slice

theorem sub64_of_le (a b : Nat) (hb : b ≤ a) (ha : a < 2 ^ 64) : sub64 a b = a - b := by
  unfold sub64
  have hb' : b % 2 ^ 64 = b := Nat.mod_eq_of_lt (by omega)
  rw [hb']
  have : a + (2 ^ 64 - b) = (a - b) + 2 ^ 64 := by omega
  rw [this, Nat.add_mod_right]
  exact Nat.mod_eq_of_lt (by omega)

theorem mul64_of_lt (a b : Nat) (h : a * b < 2 ^ 64) : mul64 a b = a * b :=
  Nat.mod_eq_of_lt h

theorem indexEntrySize_le (h : Nat) : indexEntrySize h ≤ 8 := by
  unfold indexEntrySize
  by_cases hh : h < 32
  · interval_cases h <;> decide
  · rw [List.getD_eq_default]
    · omega
    · simp [WidthMap]; omega

theorem byteLen_lt (s : Slice) :
    readInteger s.mem (s.start + 1) (indexEntrySize s.head) < 2 ^ 64 := by
  have h1 := readInteger_lt s.mem (indexEntrySize s.head) (s.start + 1)
  have h2 := indexEntrySize_le s.head
  calc readInteger s.mem (s.start + 1) (indexEntrySize s.head)
      < 2 ^ (8 * indexEntrySize s.head) := h1
    _ ≤ 2 ^ 64 := Nat.pow_le_pow_right (by decide) (by omega)

/-- C11: in an Array without index table (head 0x02..0x05) whose first element has the byte
size bs, every index i below n = (byteLen - firstSubOffset) / bs is answered by getNth with
the Slice at offset firstSubOffset(h) + i * bs from the start of the array. -/
theorem getNth_without_index_table (s : Slice) (i bs : Nat)
    (hh : 0x02 ≤ s.head ∧ s.head ≤ 0x05)
    (hfirst : (s.offset (FirstSubMap.getD s.head 0)).byteSize = some bs)
    (hi : i < (readInteger s.mem (s.start + 1) (indexEntrySize s.head)
                - FirstSubMap.getD s.head 0) / bs) :
    s.getNth i = .ok (s.offset (FirstSubMap.getD s.head 0 + i * bs)) := by
  have hlen := byteLen_lt s
  generalize he : readInteger s.mem (s.start + 1) (indexEntrySize s.head) = e at hi hlen
  generalize hd : FirstSubMap.getD s.head 0 = d at hi hfirst
  have hbs : bs ≠ 0 := by
    intro h0
    rw [h0, Nat.div_zero] at hi
    omega
  have hpos : 0 < bs := Nat.pos_of_ne_zero hbs
  have hmul : i * bs < e - d := by
    have h1 : (i + 1) * bs ≤ e - d := (Nat.le_div_iff_mul_le hpos).mp hi
    rw [Nat.add_mul] at h1
    omega
  have hde : d ≤ e := by omega
  have h1 : ¬ (s.head = 0x13 ∨ s.head = 0x14) := by omega
  have h2 : ¬ (s.head = 0x01 ∨ s.head = 0x0a) := by omega
  have hhd : s.nthHeader = .ok ⟨d, (e - d) / bs, 0⟩ := by
    simp only [nthHeader, findDataOffset, hh.2, if_true, hd, hfirst, hbs, if_false, he,
      sub64_of_le e d hde hlen]
  simp only [getNth, getNthOffset, h1, h2, if_false, hhd, ge_iff_le, Nat.not_le.mpr hi,
    hh.2, true_or, if_true, findDataOffset, hd]
  have hsel : (if d = 0 then d else d) = d := by split_ifs <;> rfl
  rw [hsel, hfirst]
  simp only [mul64_of_lt i bs (by omega)]
  rw [Nat.mod_eq_of_lt (by omega)]

/-- The theorem of C11 at the Array `02 05 31 32 33` (three SmallInts) and index 2. -/
theorem getNth_without_index_table_witness :
    smallIntArray.getNth 2 = .ok (smallIntArray.offset (2 + 2 * 1)) :=
  getNth_without_index_table smallIntArray 2 1 (by decide) (by decide) (by decide)

end

section
open Slice

theorem nthHeader_index_table (s : Slice) (n : Nat)
    (hh : 0x06 ≤ s.head ∧ s.head ≤ 0x09)
    (hn : specArrayLength s = some n)
    (htab : if indexEntrySize s.head = 8
      then n * 8 + 8 ≤ readInteger s.mem (s.start + 1) (indexEntrySize s.head)
      else n * indexEntrySize s.head ≤ readInteger s.mem (s.start + 1) (indexEntrySize s.head)) :
    s.nthHeader = .ok ⟨0, n, specIndexTableBase s n⟩ := by
  have hlen := byteLen_lt s
  unfold specArrayLength at hn
  unfold nthHeader specIndexTableBase
  generalize hg : s.head = h at *
  obtain ⟨h1, h2⟩ := hh
  interval_cases h
  · have e1 : indexEntrySize 6 = 1 := by decide
    simp only [e1] at *
    simp at hn htab ⊢
    subst hn
    rw [mul64_of_lt _ _ (by omega), sub64_of_le _ _ (by omega) hlen]
    simp
  · have e1 : indexEntrySize 7 = 2 := by decide
    simp only [e1] at *
    simp at hn htab ⊢
    subst hn
    rw [mul64_of_lt _ _ (by omega), sub64_of_le _ _ (by omega) hlen]
    simp
  · have e1 : indexEntrySize 8 = 4 := by decide
    simp only [e1] at *
    simp at hn htab ⊢
    subst hn
    rw [mul64_of_lt _ _ (by omega), sub64_of_le _ _ (by omega) hlen]
    simp
  · have e1 : indexEntrySize 9 = 8 := by decide
    simp only [e1] at *
    simp at hn htab ⊢
    subst hn
    rw [mul64_of_lt _ _ (by omega), sub64_of_le _ _ (by omega) hlen,
      sub64_of_le _ _ (by omega) (by omega)]
    simp

/-- C12: in an Array with index table (head 0x06..0x09) holding n >= 1 elements, whose index
table lies inside the array (n*W <= byteLen, n*8+8 <= byteLen for W = 8), getNth(i) for i < n
is the Slice at the offset stored in the i-th W-byte little-endian entry of the index table,
the table starting at byteLen - n*W for W in {1,2,4} (n read at offset 1+W) and at
byteLen - n*8 - 8 for W = 8 (n read from the last 8 bytes). For n = 1 the array is taken in
the layout of the specification, in which the payload follows the header immediately: the
entry of its element is the offset firstSubOffset(h), at which a value with a byte size
stands. -/
theorem getNth_index_table (s : Slice) (i n : Nat)
    (hh : 0x06 ≤ s.head ∧ s.head ≤ 0x09)
    (hn : specArrayLength s = some n)
    (htab : if indexEntrySize s.head = 8
      then n * 8 + 8 ≤ readInteger s.mem (s.start + 1) (indexEntrySize s.head)
      else n * indexEntrySize s.head ≤ readInteger s.mem (s.start + 1) (indexEntrySize s.head))
    (hi : i < n)
    (hfirst : n = 1 → specIndexEntry s n 0 = FirstSubMap.getD s.head 0
      ∧ (s.offset (specIndexEntry s n 0)).byteSize ≠ none) :
    s.getNth i = .ok (s.offset (specIndexEntry s n i)) := by
  have hhd := nthHeader_index_table s n hh hn htab
  have h1 : ¬ (s.head = 0x13 ∨ s.head = 0x14) := by omega
  have h2 : ¬ (s.head = 0x01 ∨ s.head = 0x0a) := by omega
  have h3 : ¬ s.head ≤ 0x05 := by omega
  by_cases hn1 : n = 1
  · obtain ⟨hent, hsize⟩ := hfirst hn1
    have hi0 : i = 0 := by omega
    subst hi0
    rw [hent] at hsize ⊢
    obtain ⟨bs, hbs⟩ := Option.ne_none_iff_exists'.mp hsize
    simp only [getNth, getNthOffset, h1, h2, if_false, hhd, ge_iff_le, Nat.not_le.mpr hi, h3,
      hn1, or_true, if_true, findDataOffset, hbs, mul64, Nat.zero_mul, Nat.zero_mod,
      Nat.add_zero]
    have hlt : FirstSubMap.getD s.head 0 < 2 ^ 64 := by
      generalize hg : s.head = h at *
      obtain ⟨a, b⟩ := hh
      interval_cases h <;> decide
    rw [Nat.mod_eq_of_lt hlt]
    simp
  · simp only [getNth, getNthOffset, h1, h2, if_false, hhd, ge_iff_le, Nat.not_le.mpr hi, h3,
      hn1, or_self, specIndexEntry, readInteger_eq_littleEndian]

/-- The theorem of C12 at the Array `06 05 01 31 03`, which holds the single SmallInt 1 at
the offset 3 = firstSubOffset(0x06) that its index table stores, and at the Array
`06 07 02 31 32 03 04` (two SmallInts) with index 1. -/
theorem getNth_index_table_witness :
    (⟨[0x06, 0x05, 0x01, 0x31, 0x03], 0⟩ : Slice).getNth 0
      = .ok ((⟨[0x06, 0x05, 0x01, 0x31, 0x03], 0⟩ : Slice).offset 3)
    ∧ (⟨[0x06, 0x07, 0x02, 0x31, 0x32, 0x03, 0x04], 0⟩ : Slice).getNth 1
      = .ok ((⟨[0x06, 0x07, 0x02, 0x31, 0x32, 0x03, 0x04], 0⟩ : Slice).offset 4) :=
  ⟨getNth_index_table ⟨[0x06, 0x05, 0x01, 0x31, 0x03], 0⟩ 0 1 (by decide)
      (by decide) (by decide) (by decide) (fun _ => by decide),
   getNth_index_table ⟨[0x06, 0x07, 0x02, 0x31, 0x32, 0x03, 0x04], 0⟩ 1 2 (by decide)
      (by decide) (by decide) (by decide) (fun h => absurd h (by decide))⟩

end

section
open Slice

theorem readVariableValueLengthLoop_lt : ∀ (src : List Nat) (p len : Nat), len < 2 ^ 64 →
    readVariableValueLengthLoop src p len < 2 ^ 64 := by
  intro src
  induction src with
  | nil => intro p len h; simpa [readVariableValueLengthLoop] using h
  | cons v rest ih =>
    intro p len _
    simp only [readVariableValueLengthLoop]
    split_ifs
    · exact ih _ _ (Nat.mod_lt _ (by decide))
    · exact Nat.mod_lt _ (by decide)

theorem readVariableValueLength_lt (reverse : Bool) (mem : Bytes) (off : Nat) :
    readVariableValueLength reverse mem off < 2 ^ 64 := by
  unfold readVariableValueLength
  split_ifs <;> exact readVariableValueLengthLoop_lt _ _ _ (by decide)

theorem getVariableValueLengthLoop_groups : ∀ (fuel v len : Nat), v < 128 ^ (fuel + 1) →
    ∃ k, getVariableValueLengthLoop fuel v len = len + k
      ∧ (k = 0 ∨ 128 ^ k ≤ v) ∧ v < 128 ^ (k + 1) := by
  intro fuel
  induction fuel with
  | zero =>
    intro v len hv
    exact ⟨0, by simp [getVariableValueLengthLoop], Or.inl rfl, by simpa using hv⟩
  | succ fuel ih =>
    intro v len hv
    simp only [getVariableValueLengthLoop]
    split_ifs with hc
    · have hdiv : v >>> 7 = v / 128 := by rw [Nat.shiftRight_eq_div_pow]
      rw [hdiv]
      have hlt : v / 128 < 128 ^ (fuel + 1) := by
        rw [Nat.div_lt_iff_lt_mul (by decide)]
        rw [pow_succ] at hv
        exact hv
      obtain ⟨k, hk, hlow, hup⟩ := ih (v / 128) (len + 1) hlt
      refine ⟨k + 1, by rw [hk]; omega, Or.inr ?_, ?_⟩
      · rcases hlow with h0 | h1
        · subst h0; simpa using hc
        · rw [pow_succ]
          exact (Nat.le_div_iff_mul_le (by decide)).mp h1
      · rw [pow_succ]
        exact (Nat.div_lt_iff_lt_mul (by decide)).mp hup
    · exact ⟨0, rfl, Or.inl rfl, by simpa using Nat.lt_of_not_le hc⟩

theorem getVariableValueLength_groups (v : Nat) (hv : v < 2 ^ 64) :
    ∃ k, getVariableValueLength v = k ∧ 1 ≤ k ∧ (k = 1 ∨ 128 ^ (k - 1) ≤ v) ∧ v < 128 ^ k := by
  have h11 : v < 128 ^ (10 + 1) := lt_trans hv (by norm_num)
  obtain ⟨k, hk, hlow, hup⟩ := getVariableValueLengthLoop_groups 10 v 1 h11
  refine ⟨1 + k, by rw [getVariableValueLength, hk], by omega, ?_, ?_⟩
  · rcases hlow with h0 | h1
    · left; omega
    · right; simpa using h1
  · rw [Nat.add_comm]; exact hup

theorem compactWalk_array (s : Slice) (hh : s.head ≠ 0x14) : ∀ (sizes : List Nat) (off : Nat),
    (∀ j v, sizes[j]? = some v → (s.offset (off + (sizes.take j).sum)).byteSize = some v) →
    s.compactWalk sizes.length off = .ok (off + sizes.sum) := by
  intro sizes
  induction sizes with
  | nil => intro off _; simp [compactWalk]
  | cons a rest ih =>
    intro off hsz
    have h0 := hsz 0 a (by simp)
    simp only [List.take_zero, List.sum_nil, Nat.add_zero] at h0
    have hstep : s.compactStep off = .ok (off + a) := by
      simp only [compactStep, h0, hh, if_false]
    simp only [List.length_cons, compactWalk, hstep, List.sum_cons]
    rw [ih (off + a), Nat.add_assoc]
    intro j v hj
    have := hsz (j + 1) v (by simpa using hj)
    simpa [Nat.add_assoc] using this

theorem compactWalk_object (s : Slice) (hh : s.head = 0x14) : ∀ (k : Nat) (sizes : List Nat)
    (off : Nat), sizes.length = 2 * k →
    (∀ j v, sizes[j]? = some v → (s.offset (off + (sizes.take j).sum)).byteSize = some v) →
    s.compactWalk k off = .ok (off + sizes.sum) := by
  intro k
  induction k with
  | zero =>
    intro sizes off hlen _
    have : sizes = [] := List.length_eq_zero.mp (by omega)
    simp [this, compactWalk]
  | succ k ih =>
    intro sizes off hlen hsz
    match sizes, hlen, hsz with
    | [], hlen, _ => simp at hlen
    | [_], hlen, _ => simp at hlen; omega
    | a :: b :: rest, hlen, hsz =>
      have h0 := hsz 0 a (by simp)
      have h1 := hsz 1 b (by simp)
      simp only [List.take_zero, List.sum_nil, Nat.add_zero] at h0
      simp at h1
      have hstep : s.compactStep off = .ok (off + a + b) := by
        simp only [compactStep, h0, hh, if_true, h1]
      simp only [compactWalk, hstep, List.sum_cons]
      rw [ih rest (off + a + b) (by simp at hlen; omega)]
      · congr 1; omega
      · intro j v hj
        have := hsz (j + 2) v (by simpa using hj)
        simpa [Nat.add_assoc] using this

theorem compactLoop_enough (s : Slice) (index : Nat) : ∀ (k current off : Nat),
    current + k = index →
    compactLoop s index (k + 1) current off = some (s.compactWalk k off) := by
  intro k
  induction k with
  | zero =>
    intro current off h
    simp [compactLoop, compactWalk, show current = index by omega]
  | succ k ih =>
    intro current off h
    have hne : current ≠ index := by omega
    rw [compactLoop]
    simp only [hne, ne_eq, not_false_eq_true, if_true, compactWalk]
    cases hstep : s.compactStep off with
    | error e => rfl
    | ok o => exact ih (current + 1) o (by omega)

theorem compactLoop_short (s : Slice) (index : Nat) : ∀ (k current off r : Nat),
    current + k = index → s.compactWalk k off = .ok r →
    compactLoop s index k current off = none := by
  intro k
  induction k with
  | zero => intro current off r _ _; rfl
  | succ k ih =>
    intro current off r h hw
    have hne : current ≠ index := by omega
    rw [compactLoop]
    simp only [hne, ne_eq, not_false_eq_true, if_true]
    simp only [compactWalk] at hw
    cases hstep : s.compactStep off with
    | error e => rw [hstep] at hw; cases hw
    | ok o =>
      rw [hstep] at hw
      exact ih (current + 1) o r (by omega) hw

/-- C13: in a compact Array (0x13) or compact Object (0x14) with n items, for i < n,
getNthOffsetFromCompact(i) is the header length plus the sum of the byte sizes of the values
before the i-th item: the first i elements of an Array, the first i keys and their values
of an Object (`sizes` lists these byte sizes in order). The header length is 1 plus the
number of 7-bit groups of the total length. The loop ends after exactly i runs of its body:
i + 1 evaluations of its condition give the result and i evaluations do not. -/
theorem getNthOffsetFromCompact_sum (s : Slice) (i : Nat) (sizes : List Nat)
    (_hh : s.head = 0x13 ∨ s.head = 0x14)
    (hi : i < s.compactLength)
    (hlen : sizes.length = if s.head = 0x14 then 2 * i else i)
    (hsz : ∀ j v, sizes[j]? = some v →
      (s.offset (1 + getVariableValueLength (readVariableValueLength false s.mem (s.start + 1))
        + (sizes.take j).sum)).byteSize = some v) :
    ∃ k, 1 ≤ k
      ∧ (k = 1 ∨ 128 ^ (k - 1) ≤ readVariableValueLength false s.mem (s.start + 1))
      ∧ readVariableValueLength false s.mem (s.start + 1) < 128 ^ k
      ∧ s.getNthOffsetFromCompact i = .ok (1 + k + sizes.sum)
      ∧ compactLoop s i (i + 1) 0 (1 + k) = some (.ok (1 + k + sizes.sum))
      ∧ compactLoop s i i 0 (1 + k) = none := by
  obtain ⟨k, hk, h1, h2, h3⟩ := getVariableValueLength_groups
    (readVariableValueLength false s.mem (s.start + 1)) (readVariableValueLength_lt _ _ _)
  rw [hk] at hsz
  have hwalk : s.compactWalk i (1 + k) = .ok (1 + k + sizes.sum) := by
    by_cases ho : s.head = 0x14
    · rw [if_pos ho] at hlen
      exact compactWalk_object s ho i sizes (1 + k) hlen hsz
    · rw [if_neg ho] at hlen
      rw [← hlen]
      exact compactWalk_array s ho sizes (1 + k) hsz
  refine ⟨k, h1, h2, h3, ?_, ?_, ?_⟩
  · have hn : ¬ i ≥ readVariableValueLength true s.mem
        (s.start + readVariableValueLength false s.mem (s.start + 1) - 1) := by
      simp only [compactLength] at hi; omega
    simp only [getNthOffsetFromCompact, hn, if_false, hk, hwalk]
  · rw [compactLoop_enough s i i 0 (1 + k) (by omega), hwalk]
  · exact compactLoop_short s i i 0 (1 + k) _ (by omega) hwalk

/-- The theorem of C13 at the compact Array `13 06 31 28 10 02` (the SmallInt 1 and the UInt
16) and index 1. -/
theorem getNthOffsetFromCompact_sum_witness :
    ∃ k, 1 ≤ k
      ∧ (k = 1 ∨ 128 ^ (k - 1) ≤ readVariableValueLength false [0x13, 0x06, 0x31, 0x28, 0x10, 0x02] (0 + 1))
      ∧ readVariableValueLength false [0x13, 0x06, 0x31, 0x28, 0x10, 0x02] (0 + 1) < 128 ^ k
      ∧ (⟨[0x13, 0x06, 0x31, 0x28, 0x10, 0x02], 0⟩ : Slice).getNthOffsetFromCompact 1
          = .ok (1 + k + [1].sum)
      ∧ compactLoop ⟨[0x13, 0x06, 0x31, 0x28, 0x10, 0x02], 0⟩ 1 (1 + 1) 0 (1 + k)
          = some (.ok (1 + k + [1].sum))
      ∧ compactLoop ⟨[0x13, 0x06, 0x31, 0x28, 0x10, 0x02], 0⟩ 1 1 0 (1 + k) = none :=
  getNthOffsetFromCompact_sum ⟨[0x13, 0x06, 0x31, 0x28, 0x10, 0x02], 0⟩ 1 [1]
    (by decide) (by decide) (by decide)
    (by
      intro j v hj
      match j, hj with
      | 0, hj =>
        have : v = 1 := by simpa using hj.symm
        subst this
        decide
      | j + 1, hj => simp at hj)

end

section
open Slice

theorem isArray_iff (s : Slice) :
    s.isArray = true ↔ ((0x01 ≤ s.head ∧ s.head ≤ 0x09) ∨ s.head = 0x13) := by
  have hlt := head_lt s
  unfold isArray type
  generalize s.head = h at *
  interval_cases h <;> decide

theorem getNth_error_iff (s : Slice) (i : Nat) (e : Error) :
    s.getNth i = .error e ↔ s.getNthOffset i = .error e := by
  unfold getNth
  cases s.getNthOffset i with
  | error err => simp
  | ok off => simp

theorem getNth_ok_iff (s : Slice) (i : Nat) :
    (∃ r, s.getNth i = .ok r) ↔ ∃ off, s.getNthOffset i = .ok off := by
  unfold getNth
  cases s.getNthOffset i with
  | error err => simp
  | ok off => simp

theorem compactWalk_error (s : Slice) : ∀ (k off : Nat) (e : Error),
    s.compactWalk k off = .error e → e = .InternalError := by
  intro k
  induction k with
  | zero => intro off e h; simp [compactWalk] at h
  | succ k ih =>
    intro off e h
    simp only [compactWalk] at h
    cases hstep : s.compactStep off with
    | error err =>
      rw [hstep] at h
      simp only [Except.error.injEq] at h
      subst h
      unfold compactStep at hstep
      cases h1 : (s.offset off).byteSize with
      | none => simp [h1] at hstep; exact hstep.symm
      | some n1 =>
        simp only [h1] at hstep
        split_ifs at hstep
        · cases h2 : (s.offset (off + n1)).byteSize with
          | none => simp [h2] at hstep; exact hstep.symm
          | some n2 => simp [h2] at hstep
    | ok o =>
      rw [hstep] at h
      exact ih o e h

theorem compactWalk_total (s : Slice) (hsz : ∀ off, (s.offset off).byteSize ≠ none) :
    ∀ (k off : Nat), ∃ r, s.compactWalk k off = .ok r := by
  intro k
  induction k with
  | zero => intro off; exact ⟨off, rfl⟩
  | succ k ih =>
    intro off
    obtain ⟨n1, h1⟩ := Option.ne_none_iff_exists'.mp (hsz off)
    obtain ⟨n2, h2⟩ := Option.ne_none_iff_exists'.mp (hsz (off + n1))
    have hstep : ∃ o, s.compactStep off = .ok o := by
      unfold compactStep
      simp only [h1, h2]
      split_ifs
      · exact ⟨_, rfl⟩
      · exact ⟨_, rfl⟩
    obtain ⟨o, ho⟩ := hstep
    simp only [compactWalk, ho]
    exact ih o

theorem getNthOffset_of_header (s : Slice) (i : Nat) (hd : NthHeader)
    (h1 : ¬ (s.head = 0x13 ∨ s.head = 0x14)) (h2 : ¬ (s.head = 0x01 ∨ s.head = 0x0a))
    (hhd : s.nthHeader = .ok hd) :
    (s.getNthOffset i = .error .IndexOutOfBounds ↔ hd.n ≤ i)
    ∧ (i < hd.n → ∀ e, s.getNthOffset i = .error e → e = .InternalError)
    ∧ (i < hd.n → (∀ off, (s.offset off).byteSize ≠ none) →
        ∃ off, s.getNthOffset i = .ok off) := by
  simp only [getNthOffset, h1, h2, if_false, hhd, ge_iff_le]
  by_cases hi : hd.n ≤ i
  · simp only [hi, if_true, true_iff]
    exact ⟨trivial, fun h => absurd hi (Nat.not_le.mpr h), fun h => absurd hi (Nat.not_le.mpr h)⟩
  · simp only [hi, if_false, iff_false]
    by_cases hsel : s.head ≤ 0x05 ∨ hd.n = 1
    · simp only [hsel, if_true]
      cases hb : (s.offset (if hd.dataOffset = 0 then findDataOffset s.head
          else hd.dataOffset)).byteSize with
      | none =>
        refine ⟨by simp, fun _ e he => ?_, fun _ hsz => absurd hb (hsz _)⟩
        simp only [Except.error.injEq] at he
        exact he.symm
      | some bs =>
        exact ⟨by simp, fun _ e he => by simp at he, fun _ _ => ⟨_, rfl⟩⟩
    · simp only [hsel, if_false]
      exact ⟨by simp, fun _ e he => by simp at he, fun _ _ => ⟨_, rfl⟩⟩

theorem nthHeader_of_length (s : Slice) (n : Nat)
    (hh : 0x02 ≤ s.head ∧ s.head ≤ 0x09) (hn : specArrayLength s = some n) :
    ∃ d ie, s.nthHeader = .ok ⟨d, n, ie⟩ := by
  have hlen := byteLen_lt s
  unfold specArrayLength at hn
  unfold nthHeader
  have hne : s.head ≠ 0x01 := by omega
  simp only [hne, if_false] at hn
  by_cases h5 : s.head ≤ 0x05
  · have hr : 0x02 ≤ s.head ∧ s.head ≤ 0x05 := ⟨hh.1, h5⟩
    simp only [hr, and_self, if_true] at hn
    simp only [h5, if_true, findDataOffset]
    cases hb : (s.offset (FirstSubMap.getD s.head 0)).byteSize with
    | none =>
      simp only [hb] at hn
      cases hn
    | some bs =>
      simp only [hb] at hn
      split_ifs at hn with hc
      simp only [Option.some.injEq] at hn
      have hbs : bs ≠ 0 := fun h => hc (Or.inl h)
      have hle : FirstSubMap.getD s.head 0 ≤
          readInteger s.mem (s.start + 1) (indexEntrySize s.head) := by
        by_contra hlt
        exact hc (Or.inr (Nat.lt_of_not_le hlt))
      simp only [hbs, if_false, sub64_of_le _ _ hle hlen, hn]
      exact ⟨_, _, rfl⟩
  · have hr : ¬ (0x02 ≤ s.head ∧ s.head ≤ 0x05) := fun h => h5 h.2
    simp only [hr, if_false] at hn
    simp only [h5, if_false, hh.2, if_true]
    by_cases h8 : s.head ≤ 0x08
    · have hr2 : 0x06 ≤ s.head ∧ s.head ≤ 0x08 := ⟨by omega, h8⟩
      simp only [hr2, and_self, if_true, Option.some.injEq] at hn
      have hw : indexEntrySize s.head < 8 := by
        generalize s.head = h at *
        obtain ⟨a, b⟩ := hr2
        interval_cases h <;> decide
      simp only [hw, if_true, hn]
      exact ⟨_, _, rfl⟩
    · have h9 : s.head = 0x09 := by omega
      have hr2 : ¬ (0x06 ≤ s.head ∧ s.head ≤ 0x08) := fun h => h8 h.2
      have hw : indexEntrySize 9 = 8 := by decide
      simp only [hr2, if_false, h9, if_true, Option.some.injEq, hw] at hn
      simp only [h9, hw, Nat.lt_irrefl, if_false]
      have hn2 : readInteger s.mem (s.start + readInteger s.mem (s.start + 1) 8 - 8) 8 = n := by
        simpa using hn
      rw [hn2]
      exact ⟨_, _, rfl⟩

/-- C14: for an Array with n elements (head 0x01..0x09 or 0x13), getNth(i) fails with
IndexOutOfBounds exactly when i ≥ n; every index fails so on the empty Array 0x01; for
i < n the only failure left is the one of a value without a byte size, and getNth(i)
returns a Slice when every value has a byte size. -/
theorem getNth_index_out_of_bounds (s : Slice) (i n : Nat)
    (harr : s.isArray = true) (hn : specArrayLength s = some n) :
    (s.getNth i = .error .IndexOutOfBounds ↔ n ≤ i)
    ∧ (s.head = 0x01 → s.getNth i = .error .IndexOutOfBounds)
    ∧ (i < n → ∀ e, s.getNth i = .error e → e = .InternalError)
    ∧ (i < n → (∀ off, (s.offset off).byteSize ≠ none) → ∃ r, s.getNth i = .ok r) := by
  have hempty : s.head = 0x01 → s.getNth i = .error .IndexOutOfBounds := by
    intro h
    simp [getNth, getNthOffset, h]
  rcases (isArray_iff s).mp harr with hr | hc
  · by_cases h01 : s.head = 0x01
    · have : n = 0 := by
        simp only [specArrayLength, h01, if_true, Option.some.injEq] at hn
        exact hn.symm
      subst this
      exact ⟨by simp [hempty h01], hempty, fun h => absurd h (Nat.not_lt_zero _),
        fun h => absurd h (Nat.not_lt_zero _)⟩
    · obtain ⟨d, ie, hhd⟩ := nthHeader_of_length s n ⟨by omega, hr.2⟩ hn
      obtain ⟨a, b, c⟩ := getNthOffset_of_header s i ⟨d, n, ie⟩ (by omega) (by omega) hhd
      refine ⟨by rw [getNth_error_iff]; exact a, hempty, ?_, ?_⟩
      · intro hi e he
        exact b hi e ((getNth_error_iff s i e).mp he)
      · intro hi hsz
        exact (getNth_ok_iff s i).mpr (c hi hsz)
  · have hlen : n = s.compactLength := by
      simp only [specArrayLength, hc] at hn
      simpa using hn.symm
    subst hlen
    have hoff : s.getNthOffset i = s.getNthOffsetFromCompact i := by
      simp [getNthOffset, hc]
    refine ⟨?_, hempty, ?_, ?_⟩
    · rw [getNth_error_iff, hoff]
      simp only [getNthOffsetFromCompact, ge_iff_le, compactLength]
      split_ifs with hge
      · simp [hge]
      · constructor
        · intro h
          have := compactWalk_error s _ _ _ h
          cases this
        · intro h
          exact absurd h hge
    · intro hi e he
      rw [getNth_error_iff, hoff] at he
      have hge : ¬ i ≥ readVariableValueLength true s.mem
          (s.start + readVariableValueLength false s.mem (s.start + 1) - 1) := by
        simp only [compactLength] at hi; omega
      simp only [getNthOffsetFromCompact, hge, if_false] at he
      exact compactWalk_error s _ _ _ he
    · intro hi hsz
      rw [getNth_ok_iff, hoff]
      have hge : ¬ i ≥ readVariableValueLength true s.mem
          (s.start + readVariableValueLength false s.mem (s.start + 1) - 1) := by
        simp only [compactLength] at hi; omega
      simp only [getNthOffsetFromCompact, hge, if_false]
      exact compactWalk_total s hsz _ _

/-- The theorem of C14 at the Array `02 05 31 32 33`, which has 3 elements, and index 1. -/
theorem getNth_index_out_of_bounds_witness :
    (smallIntArray.getNth 1 = .error .IndexOutOfBounds ↔ 3 ≤ 1)
    ∧ (smallIntArray.head = 0x01 → smallIntArray.getNth 1 = .error .IndexOutOfBounds)
    ∧ (1 < 3 → ∀ e, smallIntArray.getNth 1 = .error e → e = .InternalError)
    ∧ (1 < 3 → (∀ off, (smallIntArray.offset off).byteSize ≠ none) →
        ∃ r, smallIntArray.getNth 1 = .ok r) :=
  getNth_index_out_of_bounds smallIntArray 1 3 (by decide) (by decide)

end

section
open Slice

/-- C15 on the Object `twoPairObject`, which holds 2 pairs in 4 slots and in which get finds
both keys: getNthKey(0) is not the key "a" of the first stored pair but the Slice at offset 0,
the content of the empty hash slot 0, which is the Object itself and has no key to translate;
getNthKey(2) and getNthKey(3) do not fail although only 2 pairs are stored: they return the
contents of the slots 2 and 3; IndexOutOfBounds is raised from index 4, the number of slots,
on. -/
theorem getNthKey_reads_hash_slot :
    twoPairObject.get none [0x61] = .ok (twoPairObject.offset 7)
    ∧ twoPairObject.get none [0x62] = .ok (twoPairObject.offset 10)
    ∧ twoPairObject.getNthKey none 0 false = .ok (twoPairObject.offset 0)
    ∧ twoPairObject.getNthKey none 0 true = .error .InvalidValueType
    ∧ twoPairObject.getNthKey none 1 false = .ok (twoPairObject.offset 8)
    ∧ twoPairObject.getNthKey none 2 false = .ok (twoPairObject.offset 0)
    ∧ twoPairObject.getNthKey none 3 false = .ok (twoPairObject.offset 5)
    ∧ twoPairObject.getNthKey none 4 false = .error .IndexOutOfBounds := by
  decide

end

section
open Slice

theorem byteSize_eq_none_iff (s : Slice) :
    s.byteSize = none ↔ (s.type = ValueType.BCD ∨ s.type = ValueType.Custom) := by
  unfold byteSize
  generalize s.type = t
  cases t <;> simp only [reduceCtorEq, or_self, or_true, true_or, iff_false, iff_true] <;>
    split_ifs <;> simp only [reduceCtorEq, not_false_eq_true]

theorem byteSize_none_of_head_eq (a b : Slice) (h : a.head = b.head) :
    a.byteSize = none ↔ b.byteSize = none := by
  rw [byteSize_eq_none_iff, byteSize_eq_none_iff]
  unfold type
  rw [h]

theorem memcmp_comm_zero (a b : Bytes) (ao bo n : Nat) :
    (memcmp a ao b bo n == 0) = (memcmp b bo a ao n == 0) := by
  have h1 := memcmp_eq_zero_iff a b n ao bo
  have h2 := memcmp_eq_zero_iff b a n bo ao
  by_cases h : bytesFrom a ao n = bytesFrom b bo n
  · rw [beq_iff_eq.mpr (h1.mpr h), beq_iff_eq.mpr (h2.mpr h.symm)]
  · have e1 : ¬ memcmp a ao b bo n = 0 := fun x => h (h1.mp x)
    have e2 : ¬ memcmp b bo a ao n = 0 := fun x => h (h2.mp x).symm
    rw [beq_eq_false_iff_ne.mpr e1, beq_eq_false_iff_ne.mpr e2]

theorem equals_true_iff (a b : Slice) :
    a.equals b = .ok true ↔ a.head = b.head ∧ ∃ n, a.byteSize = some n ∧ b.byteSize = some n
      ∧ bytesFrom a.mem a.start n = bytesFrom b.mem b.start n := by
  unfold equals
  by_cases hh : a.head = b.head
  · simp only [hh, ne_eq, not_true_eq_false, if_false, true_and]
    cases ha : a.byteSize with
    | none => simp
    | some na =>
      cases hb : b.byteSize with
      | none => simp
      | some nb =>
        by_cases hn : na = nb
        · subst hn
          simp [memcmp_eq_zero_iff]
        · simp only [hn, not_false_eq_true, if_true, Except.ok.injEq, Bool.false_eq_true,
            Option.some.injEq, false_iff, not_exists, not_and]
          intro n h1 h2
          omega
  · simp [hh]

theorem equals_symm (a b : Slice) : a.equals b = b.equals a := by
  unfold equals
  by_cases hh : a.head = b.head
  · simp only [hh, ne_eq, not_true_eq_false, if_false]
    cases ha : a.byteSize with
    | none =>
      have hb := (byteSize_none_of_head_eq a b hh).mp ha
      simp [hb]
    | some na =>
      cases hb : b.byteSize with
      | none => rfl
      | some nb =>
        by_cases hn : na = nb
        · subst hn
          simp only [not_true_eq_false, if_false, memcmp_comm_zero a.mem b.mem]
        · have hn2 : ¬ nb = na := fun h => hn h.symm
          simp [hn, hn2]
  · have hh2 : ¬ b.head = a.head := fun h => hh h.symm
    simp [hh, hh2]

/-- C16: a.equals(b) is true exactly when a and b have the same head byte, the same byte
size, and the same bytes over that range; equals is reflexive on every value that has a
byte size, symmetric (in its result and in its failure) and transitive. -/
theorem equals_iff (a b c : Slice) :
    (a.equals b = .ok true ↔ a.head = b.head ∧ ∃ n, a.byteSize = some n ∧ b.byteSize = some n
      ∧ bytesFrom a.mem a.start n = bytesFrom b.mem b.start n)
    ∧ (a.byteSize ≠ none → a.equals a = .ok true)
    ∧ a.equals b = b.equals a
    ∧ (a.equals b = .ok true → b.equals c = .ok true → a.equals c = .ok true) := by
  refine ⟨equals_true_iff a b, ?_, equals_symm a b, ?_⟩
  · intro h
    obtain ⟨n, hn⟩ := Option.ne_none_iff_exists'.mp h
    exact (equals_true_iff a a).mpr ⟨rfl, n, hn, hn, rfl⟩
  · intro hab hbc
    obtain ⟨h1, n, ha, hb, hbytes⟩ := (equals_true_iff a b).mp hab
    obtain ⟨h2, m, hb2, hc, hbytes2⟩ := (equals_true_iff b c).mp hbc
    have hnm : n = m := by
      rw [hb] at hb2
      exact Option.some.inj hb2
    subst hnm
    exact (equals_true_iff a c).mpr ⟨h1.trans h2, n, ha, hc, hbytes.trans hbytes2⟩

/-- The theorem of C16 at the SmallInt 2 found at offset 3 of `02 05 31 32 33` and at
offset 1 of `32 32`, and the SmallInt 2 at offset 0 of `32 32`. -/
theorem equals_iff_witness :
    ((smallIntArray.offset 3).equals ⟨[0x32, 0x32], 1⟩ = .ok true ↔
      (smallIntArray.offset 3).head = (⟨[0x32, 0x32], 1⟩ : Slice).head
      ∧ ∃ n, (smallIntArray.offset 3).byteSize = some n
        ∧ (⟨[0x32, 0x32], 1⟩ : Slice).byteSize = some n
        ∧ bytesFrom (smallIntArray.offset 3).mem (smallIntArray.offset 3).start n
            = bytesFrom [0x32, 0x32] 1 n)
    ∧ ((smallIntArray.offset 3).byteSize ≠ none →
        (smallIntArray.offset 3).equals (smallIntArray.offset 3) = .ok true)
    ∧ (smallIntArray.offset 3).equals ⟨[0x32, 0x32], 1⟩
        = (⟨[0x32, 0x32], 1⟩ : Slice).equals (smallIntArray.offset 3)
    ∧ ((smallIntArray.offset 3).equals ⟨[0x32, 0x32], 1⟩ = .ok true →
        (⟨[0x32, 0x32], 1⟩ : Slice).equals ⟨[0x32, 0x32], 0⟩ = .ok true →
        (smallIntArray.offset 3).equals ⟨[0x32, 0x32], 0⟩ = .ok true) :=
  equals_iff (smallIntArray.offset 3) ⟨[0x32, 0x32], 1⟩ ⟨[0x32, 0x32], 0⟩

end

section
open Slice

theorem memcmp_lex (a b : Bytes) : ∀ (n1 n2 ao bo : Nat),
    specLexSign (bytesFrom a ao n1) (bytesFrom b bo n2) =
      (if memcmp a ao b bo (min n1 n2) = 0 ∧ n1 ≠ n2 then (if n1 > n2 then 1 else -1)
       else memcmp a ao b bo (min n1 n2)) := by
  intro n1
  induction n1 with
  | zero =>
    intro n2 ao bo
    cases n2 with
    | zero => simp [bytesFrom, specLexSign, memcmp]
    | succ n2 => simp [bytesFrom, specLexSign, memcmp]
  | succ n1 ih =>
    intro n2 ao bo
    cases n2 with
    | zero => simp [bytesFrom, specLexSign, memcmp]
    | succ n2 =>
      simp only [bytesFrom, specLexSign, Nat.succ_min_succ, memcmp]
      by_cases h1 : byteAt a ao < byteAt b bo
      · simp [h1]
      · by_cases h2 : byteAt b bo < byteAt a ao
        · simp [h1, h2]
        · simp only [h1, h2, if_false]
          rw [ih n2 (ao + 1) (bo + 1)]
          simp only [ne_eq, Nat.add_right_cancel_iff, gt_iff_lt, Nat.add_lt_add_iff_right]

theorem specLexSign_eq_zero_iff : ∀ (p q : List Nat), specLexSign p q = 0 ↔ p = q := by
  intro p
  induction p with
  | nil => intro q; cases q <;> simp [specLexSign]
  | cons a as ih =>
    intro q
    cases q with
    | nil => simp [specLexSign]
    | cons b bs =>
      simp only [specLexSign, List.cons.injEq]
      split_ifs with h1 h2
      · constructor
        · intro h; simp at h
        · rintro ⟨h, _⟩; omega
      · constructor
        · intro h; simp at h
        · rintro ⟨h, _⟩; omega
      · rw [ih]
        constructor
        · intro h; exact ⟨by omega, h⟩
        · rintro ⟨_, h⟩; exact h

theorem specLexSign_shorter : ∀ (p q : List Nat), p <+: q → p ≠ q → specLexSign p q = -1 := by
  intro p
  induction p with
  | nil => intro q _ hne; cases q with
    | nil => exact absurd rfl hne
    | cons b bs => rfl
  | cons a as ih =>
    intro q hpre hne
    cases q with
    | nil => simp at hpre
    | cons b bs =>
      obtain ⟨t, ht⟩ := hpre
      simp only [List.cons_append, List.cons.injEq] at ht
      obtain ⟨hab, ht⟩ := ht
      subst hab
      simp only [specLexSign, Nat.lt_irrefl, if_false]
      exact ih bs ⟨t, ht⟩ (fun h => hne (by rw [h]))

theorem specLexSign_longer : ∀ (p q : List Nat), q <+: p → p ≠ q → specLexSign p q = 1 := by
  intro p
  induction p with
  | nil => intro q hpre hne; cases q with
    | nil => exact absurd rfl hne
    | cons b bs => simp at hpre
  | cons a as ih =>
    intro q hpre hne
    cases q with
    | nil => rfl
    | cons b bs =>
      obtain ⟨t, ht⟩ := hpre
      simp only [List.cons_append, List.cons.injEq] at ht
      obtain ⟨hab, ht⟩ := ht
      subst hab
      simp only [specLexSign, Nat.lt_irrefl, if_false]
      exact ih bs ⟨t, ht⟩ (fun h => hne (by rw [h]))

theorem specLexSign_range : ∀ (p q : List Nat),
    specLexSign p q = -1 ∨ specLexSign p q = 0 ∨ specLexSign p q = 1 := by
  intro p
  induction p with
  | nil => intro q; cases q <;> simp [specLexSign]
  | cons a as ih =>
    intro q
    cases q with
    | nil => simp [specLexSign]
    | cons b bs =>
      simp only [specLexSign]
      split_ifs
      · simp
      · simp
      · exact ih bs

/-- C17: for a String slice with payload p and a string s, compareString(s) returns a
number c that is 0 exactly when p = s (equal length and equal bytes), which is exactly when
isEqualString(s) is true; the sign of c is the sign of the lexicographic comparison of p and
s as unsigned byte sequences: c is negative when p is a strict prefix of s and positive when
s is a strict prefix of p. -/
theorem compareString_sign (s : Slice) (attr : Bytes)
    (hs : s.isString = true) (hattr : ∀ b ∈ attr, b < 256) :
    ∃ c, s.compareString attr = .ok c
      ∧ (c = 0 ↔ stringPayload s = attr)
      ∧ s.isEqualString attr = .ok (decide (c = 0))
      ∧ Int.sign c = specLexSign (stringPayload s) attr
      ∧ (stringPayload s <+: attr → stringPayload s ≠ attr → c < 0)
      ∧ (attr <+: stringPayload s → stringPayload s ≠ attr → 0 < c) := by
  have hhead := (isString_iff s).mp hs
  obtain ⟨k, kl, hg⟩ : ∃ k kl, s.getString = .ok (k, kl) := by
    unfold getString
    by_cases hbf : s.head = 0xbf
    · have : ¬ (0x40 ≤ s.head ∧ s.head ≤ 0xbe) := by omega
      simp only [this, if_false, hbf, if_true]
      exact ⟨_, _, rfl⟩
    · have : 0x40 ≤ s.head ∧ s.head ≤ 0xbe := by omega
      simp only [this, and_self, if_true]
      exact ⟨_, _, rfl⟩
  have hp : stringPayload s = bytesFrom s.mem k kl := by simp [stringPayload, hg]
  have hlex := memcmp_lex s.mem attr kl attr.length k 0
  rw [bytesFrom_self attr hattr, ← hp] at hlex
  have hc : s.compareString attr = .ok (specLexSign (stringPayload s) attr) := by
    simp only [compareString, hg, hlex]
    split_ifs <;> rfl
  have hz := specLexSign_eq_zero_iff (stringPayload s) attr
  refine ⟨_, hc, hz, ?_, ?_, ?_, ?_⟩
  · simp only [isEqualString, hg]
    by_cases hl : kl = attr.length
    · simp only [hl, ne_eq, not_true_eq_false, if_false, Except.ok.injEq]
      have h1 := memcmp_eq_zero_iff s.mem attr attr.length k 0
      rw [bytesFrom_self attr hattr, ← hl, ← hp] at h1
      rw [hl] at h1
      by_cases he : stringPayload s = attr
      · rw [beq_iff_eq.mpr (h1.mpr he), decide_eq_true (hz.mpr he)]
      · have e1 : ¬ memcmp s.mem k attr 0 attr.length = 0 := fun x => he (h1.mp x)
        have e2 : ¬ specLexSign (stringPayload s) attr = 0 := fun x => he (hz.mp x)
        rw [beq_eq_false_iff_ne.mpr e1, decide_eq_false e2]
    · have hne : stringPayload s ≠ attr := by
        intro h
        apply hl
        have := congrArg List.length h
        rw [hp, bytesFrom_length] at this
        exact this
      have e2 : ¬ specLexSign (stringPayload s) attr = 0 := fun x => hne (hz.mp x)
      simp only [hl, ne_eq, not_false_eq_true, if_true, decide_eq_false e2]
  · rcases specLexSign_range (stringPayload s) attr with h | h | h <;> rw [h] <;> rfl
  · intro h1 h2
    rw [specLexSign_shorter _ _ h1 h2]
    decide
  · intro h1 h2
    rw [specLexSign_longer _ _ h1 h2]
    decide

/-- The theorem of C17 at the String "ab" (`42 61 62`) compared with "abc". -/
theorem compareString_sign_witness :
    ∃ c, (⟨[0x42, 0x61, 0x62], 0⟩ : Slice).compareString [0x61, 0x62, 0x63] = .ok c
      ∧ (c = 0 ↔ stringPayload ⟨[0x42, 0x61, 0x62], 0⟩ = [0x61, 0x62, 0x63])
      ∧ (⟨[0x42, 0x61, 0x62], 0⟩ : Slice).isEqualString [0x61, 0x62, 0x63]
          = .ok (decide (c = 0))
      ∧ Int.sign c = specLexSign (stringPayload ⟨[0x42, 0x61, 0x62], 0⟩) [0x61, 0x62, 0x63]
      ∧ (stringPayload ⟨[0x42, 0x61, 0x62], 0⟩ <+: [0x61, 0x62, 0x63] →
          stringPayload ⟨[0x42, 0x61, 0x62], 0⟩ ≠ [0x61, 0x62, 0x63] → c < 0)
      ∧ ([0x61, 0x62, 0x63] <+: stringPayload ⟨[0x42, 0x61, 0x62], 0⟩ →
          stringPayload ⟨[0x42, 0x61, 0x62], 0⟩ ≠ [0x61, 0x62, 0x63] → 0 < c) :=
  compareString_sign ⟨[0x42, 0x61, 0x62], 0⟩ [0x61, 0x62, 0x63] (by decide) (by decide)

end

section
open Slice

/-- The step of the loop over the pairs of an Object in `normalizedHash`, for the key hashes
`f` and the value hashes `g`. -/
theorem pairFold_perm {α : Type} (f g : α → Option Nat) (l l' : List α) (hp : l.Perm l') :
    ∀ v : Nat,
    l.foldlM (fun value it =>
      match f it with
      | none => none
      | some hk =>
        match g it with
        | none => none
        | some hv => some ((value ^^^ hk) ^^^ hv)) v
    = l'.foldlM (fun value it =>
      match f it with
      | none => none
      | some hk =>
        match g it with
        | none => none
        | some hv => some ((value ^^^ hk) ^^^ hv)) v := by
  induction hp with
  | nil => intro v; rfl
  | cons x _ ih =>
    intro v
    simp only [List.foldlM_cons]
    cases f x with
    | none => rfl
    | some hk =>
      cases g x with
      | none => rfl
      | some hv => exact ih _
  | swap x y l =>
    intro v
    simp only [List.foldlM_cons]
    cases f x <;> cases g x <;> cases f y <;> cases g y <;> try rfl
    rename_i a b c d
    have : ((v ^^^ c) ^^^ d ^^^ a) ^^^ b = ((v ^^^ a) ^^^ b ^^^ c) ^^^ d := by ac_rfl
    simp only [Option.some_bind, Option.bind_eq_bind, this]
  | trans _ _ ih1 ih2 => intro v; rw [ih1, ih2]

theorem pairFold_congr {α : Type} (f g : α → Option Nat) : ∀ (l l' : List α),
    List.Forall₂ (fun p q => f p = f q ∧ g p = g q) l l' → ∀ v : Nat,
    l.foldlM (fun value it =>
      match f it with
      | none => none
      | some hk =>
        match g it with
        | none => none
        | some hv => some ((value ^^^ hk) ^^^ hv)) v
    = l'.foldlM (fun value it =>
      match f it with
      | none => none
      | some hk =>
        match g it with
        | none => none
        | some hv => some ((value ^^^ hk) ^^^ hv)) v := by
  intro l l' h
  induction h with
  | nil => intro v; rfl
  | cons hx _ ih =>
    intro v
    rename_i x y _ _ _
    simp only [List.foldlM_cons, hx.1, hx.2]
    cases f y with
    | none => rfl
    | some hk =>
      cases g y with
      | none => rfl
      | some hv => exact ih _

theorem pairFold_closed {α : Type} (f g : α → Option Nat) : ∀ (l : List α)
    (hs : List (Nat × Nat)) (v : Nat),
    List.Forall₂ (fun p h => f p = some h.1 ∧ g p = some h.2) l hs →
    l.foldlM (fun value it =>
      match f it with
      | none => none
      | some hk =>
        match g it with
        | none => none
        | some hv => some ((value ^^^ hk) ^^^ hv)) v
    = some (v ^^^ specXorAll (hs.map (fun h => h.1 ^^^ h.2))) := by
  intro l hs v h
  induction h generalizing v with
  | nil => simp [specXorAll]
  | cons hx _ ih =>
    simp only [List.foldlM_cons, hx.1, hx.2, List.map_cons, specXorAll]
    rw [show ∀ (x : Nat) (k : Nat → Option Nat), (some x >>= k) = k x from fun _ _ => rfl, ih]
    simp only [Nat.xor_assoc]

theorem isObject_not_number (s : Slice) (h : s.isObject = true) :
    s.isNumber = false ∧ s.isArray = false := by
  unfold isObject at h
  have ht : s.type = ValueType.Object := by simpa using h
  simp [isNumber, isArray, ht]

/-- C18: two Objects of the same length whose iterations yield, in different orders, pairs
with the same key and the same value (the same slices, or slices with the same normalized
hash under seed2) have the same normalizedHash for every seed; when the keys and values
have the hashes hs under seed2, the hash of the Object is seed2 XOR the XOR over all pairs
of (hash of the key XOR hash of the value), with seed2 the fasthash64 of the 8 bytes of
(length XOR 0xf00ba44ba5) under the seed. -/
theorem normalizedHash_object_order (api : SliceApi) (fuel : Nat) (a b : Slice) (seed : Nat)
    (ha : a.isObject = true) (hb : b.isObject = true)
    (hlen : api.length a = api.length b)
    (hperm : ∃ l, (api.objectPairs a).Perm l ∧ List.Forall₂ (fun p q =>
      normalizedHashF api fuel p.1
          (fasthash64 (wordBytes (api.length a ^^^ 0xf00ba44ba5)) 8 seed)
        = normalizedHashF api fuel q.1
          (fasthash64 (wordBytes (api.length a ^^^ 0xf00ba44ba5)) 8 seed)
      ∧ normalizedHashF api fuel p.2
          (fasthash64 (wordBytes (api.length a ^^^ 0xf00ba44ba5)) 8 seed)
        = normalizedHashF api fuel q.2
          (fasthash64 (wordBytes (api.length a ^^^ 0xf00ba44ba5)) 8 seed))
      l (api.objectPairs b)) :
    normalizedHashF api (fuel + 1) a seed = normalizedHashF api (fuel + 1) b seed
    ∧ ((api.objectPairs a).Perm (api.objectPairs b) →
        ∀ k, normalizedHashF api k a seed = normalizedHashF api k b seed)
    ∧ ∀ hs : List (Nat × Nat),
        List.Forall₂ (fun p h =>
          normalizedHashF api fuel p.1
              (fasthash64 (wordBytes (api.length a ^^^ 0xf00ba44ba5)) 8 seed) = some h.1
          ∧ normalizedHashF api fuel p.2
              (fasthash64 (wordBytes (api.length a ^^^ 0xf00ba44ba5)) 8 seed) = some h.2)
          (api.objectPairs a) hs →
        normalizedHashF api (fuel + 1) a seed
          = some (fasthash64 (wordBytes (api.length a ^^^ 0xf00ba44ba5)) 8 seed
              ^^^ specXorAll (hs.map (fun h => h.1 ^^^ h.2))) := by
  obtain ⟨a1, a2⟩ := isObject_not_number a ha
  obtain ⟨b1, b2⟩ := isObject_not_number b hb
  refine ⟨?_, ?_, ?_⟩
  · obtain ⟨l, hp, hf⟩ := hperm
    simp only [normalizedHashF, a1, a2, b1, b2, ha, hb, Bool.false_eq_true, if_false, if_true]
    rw [pairFold_perm _ _ _ _ hp, ← hlen]
    exact pairFold_congr _ _ _ _ hf _
  · intro hp k
    cases k with
    | zero => rfl
    | succ k =>
      simp only [normalizedHashF, a1, a2, b1, b2, ha, hb, Bool.false_eq_true, if_false, if_true,
        hlen]
      exact pairFold_perm _ _ _ _ hp _
  · intro hs h
    simp only [normalizedHashF, a1, a2, ha, Bool.false_eq_true, if_false, if_true]
    exact pairFold_closed _ _ _ hs _ h

/-- The theorem of C18 at the compact Objects `compactObjectAB` and `compactObjectBA`, which
hold the pairs "a" : 1 and "b" : 2 in the two orders, with seed 0. -/
theorem normalizedHash_object_order_witness :
    normalizedHashF examplePairsApi (1 + 1) compactObjectAB 0
      = normalizedHashF examplePairsApi (1 + 1) compactObjectBA 0 :=
  (normalizedHash_object_order examplePairsApi 1 compactObjectAB compactObjectBA 0
    (by decide) (by decide) (by decide)
    ⟨[(compactObjectAB.offset 5, compactObjectAB.offset 7),
       (compactObjectAB.offset 2, compactObjectAB.offset 4)],
      List.Perm.swap _ _ _,
      List.Forall₂.cons (by decide) (List.Forall₂.cons (by decide) List.Forall₂.nil)⟩).1

end

section
open Parser

theorem continuation_iff (c : Nat) (hc : c < 256) :
    c &&& 0xc0 = 0x80 ↔ specContinuation c := by
  unfold specContinuation
  interval_cases c <;> decide

theorem lead_class (i : Nat) (h1 : 0x80 ≤ i) (h2 : i < 256) :
    (specUtf8Follow i = none ∧ (i &&& 0xe0 = 0x80 ∨
        (i &&& 0xe0 ≠ 0xc0 ∧ i &&& 0xf0 ≠ 0xe0 ∧ i &&& 0xf8 ≠ 0xf0)))
    ∨ (specUtf8Follow i = some 1 ∧ i &&& 0xe0 ≠ 0x80 ∧ i &&& 0xe0 = 0xc0)
    ∨ (specUtf8Follow i = some 2 ∧ i &&& 0xe0 ≠ 0x80 ∧ i &&& 0xe0 ≠ 0xc0 ∧ i &&& 0xf0 = 0xe0)
    ∨ (specUtf8Follow i = some 3 ∧ i &&& 0xe0 ≠ 0x80 ∧ i &&& 0xe0 ≠ 0xc0 ∧ i &&& 0xf0 ≠ 0xe0
        ∧ i &&& 0xf8 = 0xf0) := by
  interval_cases i <;> decide

theorem parseFollow_copies : ∀ (k : Nat) (p : Parser),
    (∀ m < k, p.pos + m < p.size ∧ specContinuation (byteAt p.input (p.pos + m))) →
    parseFollow k p = .ok ⟨p.input, p.pos + k,
      ⟨p.b.buf ++ bytesFrom p.input p.pos k, p.b.calls⟩, p.nesting⟩ := by
  intro k
  induction k with
  | zero => intro p _; simp [parseFollow, bytesFrom]
  | succ k ih =>
    intro p h
    have h0 := h 0 (by omega)
    simp only [Nat.add_zero] at h0
    have hc := (continuation_iff _ (byteAt_lt p.input p.pos)).mpr h0.2
    rw [parseFollow, getOneOrThrow_of_lt p h0.1]
    simp only [hc, ne_eq, not_true_eq_false, if_false]
    rw [ih]
    · simp only [Parser.put, Builder.push, bytesFrom, Nat.mod_eq_of_lt (byteAt_lt _ _),
        List.append_assoc, List.singleton_append, Parser.mk.injEq, Except.ok.injEq]
      refine ⟨trivial, by omega, trivial, trivial⟩
    · intro m hm
      have := h (m + 1) (by omega)
      simp only [Parser.put, Parser.size] at this ⊢
      rw [show p.pos + 1 + m = p.pos + (m + 1) by omega]
      exact this

theorem parseFollow_rejects : ∀ (k : Nat) (p : Parser) (j : Nat), j < k →
    (∀ m < j, p.pos + m < p.size ∧ specContinuation (byteAt p.input (p.pos + m))) →
    p.pos + j < p.size → ¬ specContinuation (byteAt p.input (p.pos + j)) →
    ∃ st, parseFollow k p = .error ⟨.InvalidUtf8Sequence, st⟩ := by
  intro k
  induction k with
  | zero => intro p j hj; omega
  | succ k ih =>
    intro p j hj hgood hin hbad
    cases j with
    | zero =>
      simp only [Nat.add_zero] at hin hbad
      have hc : ¬ byteAt p.input p.pos &&& 0xc0 = 0x80 :=
        fun h => hbad ((continuation_iff _ (byteAt_lt p.input p.pos)).mp h)
      rw [parseFollow, getOneOrThrow_of_lt p hin]
      simp only [hc, ne_eq, not_false_eq_true, if_true, Parser.fail]
      exact ⟨_, rfl⟩
    | succ j =>
      have h0 := hgood 0 (by omega)
      simp only [Nat.add_zero] at h0
      have hc := (continuation_iff _ (byteAt_lt p.input p.pos)).mpr h0.2
      rw [parseFollow, getOneOrThrow_of_lt p h0.1]
      simp only [hc, ne_eq, not_true_eq_false, if_false]
      apply ih _ j (by omega)
      · intro m hm
        have := hgood (m + 1) (by omega)
        simp only [Parser.put, Parser.size] at this ⊢
        rw [show p.pos + 1 + m = p.pos + (m + 1) by omega]
        exact this
      · simp only [Parser.put, Parser.size] at hin ⊢
        omega
      · simp only [Parser.put]
        rw [show p.pos + 1 + j = p.pos + (j + 1) by omega]
        exact hbad

/-- C20: with validateUtf8Strings = true, a raw byte i with the high bit set that
parseString handles byte by byte is rejected with InvalidUtf8Sequence when it cannot lead a
sequence (0x80..0xBF and 0xF8..0xFF); a lead byte 0xC0..0xDF, 0xE0..0xEF, 0xF0..0xF7 requires
k = 1, 2, 3 following bytes: when the next k input bytes are of the form 10xxxxxx, the lead
byte and these k bytes are appended unchanged to the buffer and the cursor is moved past
them; when one of them (the first at index j) is in the input and is not of that form, as
the closing quote is, InvalidUtf8Sequence is raised. -/
theorem parseRawByte_utf8 (opts : Options) (i : Nat) (p : Parser)
    (hv : opts.validateUtf8Strings = true) (hi : 0x80 ≤ i ∧ i < 256) :
    (specUtf8Follow i = none → parseRawByte opts i p = .error ⟨.InvalidUtf8Sequence, p⟩)
    ∧ ∀ k, specUtf8Follow i = some k →
      ((∀ m < k, p.pos + m < p.size ∧ specContinuation (byteAt p.input (p.pos + m))) →
        parseRawByte opts i p = .ok ⟨p.input, p.pos + k,
          ⟨p.b.buf ++ i :: bytesFrom p.input p.pos k, p.b.calls⟩, p.nesting⟩)
      ∧ (∀ j < k,
          (∀ m < j, p.pos + m < p.size ∧ specContinuation (byteAt p.input (p.pos + m))) →
          p.pos + j < p.size →
          (¬ specContinuation (byteAt p.input (p.pos + j)) →
            ∃ st, parseRawByte opts i p = .error ⟨.InvalidUtf8Sequence, st⟩)
          ∧ (byteAt p.input (p.pos + j) = 0x22 →
            ∃ st, parseRawByte opts i p = .error ⟨.InvalidUtf8Sequence, st⟩)) := by
  have hhigh : ¬ i &&& 0x80 = 0 := by
    obtain ⟨h1, h2⟩ := hi
    interval_cases i <;> decide
  have hcopy : ∀ k, (∀ m < k, p.pos + m < p.size
      ∧ specContinuation (byteAt p.input (p.pos + m))) →
      parseFollow k (p.put i) = .ok ⟨p.input, p.pos + k,
          ⟨p.b.buf ++ i :: bytesFrom p.input p.pos k, p.b.calls⟩, p.nesting⟩ := by
    intro k h
    rw [parseFollow_copies k (p.put i) h]
    simp [Parser.put, Builder.push, Nat.mod_eq_of_lt hi.2]
  have hrej : ∀ k j, j < k →
      (∀ m < j, p.pos + m < p.size ∧ specContinuation (byteAt p.input (p.pos + m))) →
      p.pos + j < p.size → ¬ specContinuation (byteAt p.input (p.pos + j)) →
      ∃ st, parseFollow k (p.put i) = .error ⟨.InvalidUtf8Sequence, st⟩ :=
    fun k j hj hg hin hbad => parseFollow_rejects k (p.put i) j hj hg hin hbad
  have hquote : ¬ specContinuation 0x22 := by decide
  rcases lead_class i hi.1 hi.2 with ⟨hs, hc⟩ | ⟨hs, c1, c2⟩ | ⟨hs, c1, c2, c3⟩
      | ⟨hs, c1, c2, c3, c4⟩
  · refine ⟨fun _ => ?_, fun k hk => by rw [hs] at hk; cases hk⟩
    unfold parseRawByte
    rcases hc with hc | ⟨c2, c3, c4⟩
    · simp [hhigh, hv, hc, Parser.fail]
    · by_cases c1 : i &&& 0xe0 = 0x80
      · simp [hhigh, hv, c1, Parser.fail]
      · simp [hhigh, hv, c1, c2, c3, c4, Parser.fail]
  · refine ⟨fun h => (by rw [hs] at h; cases h), fun k hk => ?_⟩
    rw [hs] at hk
    obtain rfl : 1 = k := Option.some.inj hk
    have e : parseRawByte opts i p = parseFollow 1 (p.put i) := by
      simp [parseRawByte, hhigh, hv, c1, c2]
    rw [e]
    exact ⟨hcopy 1, fun j hj hg hin =>
      ⟨hrej 1 j hj hg hin, fun hq => hrej 1 j hj hg hin (by rw [hq]; exact hquote)⟩⟩
  · refine ⟨fun h => (by rw [hs] at h; cases h), fun k hk => ?_⟩
    rw [hs] at hk
    obtain rfl : 2 = k := Option.some.inj hk
    have e : parseRawByte opts i p = parseFollow 2 (p.put i) := by
      simp [parseRawByte, hhigh, hv, c1, c2, c3]
    rw [e]
    exact ⟨hcopy 2, fun j hj hg hin =>
      ⟨hrej 2 j hj hg hin, fun hq => hrej 2 j hj hg hin (by rw [hq]; exact hquote)⟩⟩
  · refine ⟨fun h => (by rw [hs] at h; cases h), fun k hk => ?_⟩
    rw [hs] at hk
    obtain rfl : 3 = k := Option.some.inj hk
    have e : parseRawByte opts i p = parseFollow 3 (p.put i) := by
      simp [parseRawByte, hhigh, hv, c1, c2, c3, c4]
    rw [e]
    exact ⟨hcopy 3, fun j hj hg hin =>
      ⟨hrej 3 j hj hg hin, fun hq => hrej 3 j hj hg hin (by rw [hq]; exact hquote)⟩⟩

/-- The theorem of C20 at the lead byte `c3` of the input `"é"` (`22 c3 a9 22`), with the
cursor behind the lead byte: the byte `a9` that follows is copied with it. -/
theorem parseRawByte_utf8_witness :
    parseRawByte { validateUtf8Strings := true } 0xc3
        ⟨[0x22, 0xc3, 0xa9, 0x22], 2, ⟨[0x40], []⟩, 0⟩
      = .ok ⟨[0x22, 0xc3, 0xa9, 0x22], 2 + 1,
          ⟨[0x40] ++ 0xc3 :: bytesFrom [0x22, 0xc3, 0xa9, 0x22] 2 1, []⟩, 0⟩ :=
  ((parseRawByte_utf8 { validateUtf8Strings := true } 0xc3
      ⟨[0x22, 0xc3, 0xa9, 0x22], 2, ⟨[0x40], []⟩, 0⟩ rfl (by decide)).2 1 (by decide)).1
    (by decide)

end

section
open Parser

theorem byteAt_of_drop (input : Bytes) (pos c : Nat) (rest : Bytes)
    (h : input.drop pos = c :: rest) :
    pos < input.length ∧ byteAt input pos = c % 256 ∧ input.drop (pos + 1) = rest := by
  have hlt : pos < input.length := by
    by_contra hge
    rw [List.drop_eq_nil_of_le (by omega)] at h
    cases h
  rw [drop_eq_cons input pos hlt] at h
  simp only [List.cons.injEq] at h
  exact ⟨hlt, by rw [byteAt, h.1], h.2⟩

theorem skipWhiteSpaceLoop_ok : ∀ (src : List Nat) (p q : Parser) (c : Nat),
    p.input.drop p.pos = src → skipWhiteSpaceLoop src p = .ok (c, q) →
    q.input = p.input ∧ q.b = p.b ∧ q.nesting = p.nesting ∧ p.pos ≤ q.pos ∧ q.pos < q.size := by
  intro src
  induction src with
  | nil => intro p q c _ h; simp [skipWhiteSpaceLoop, Parser.fail] at h
  | cons x rest ih =>
    intro p q c hsrc h
    obtain ⟨hlt, _, hrest⟩ := byteAt_of_drop _ _ _ _ hsrc
    simp only [skipWhiteSpaceLoop] at h
    split_ifs at h with hw
    · simp only [Except.ok.injEq, Prod.mk.injEq] at h
      obtain ⟨_, rfl⟩ := h
      exact ⟨rfl, rfl, rfl, Nat.le_refl _, hlt⟩
    · obtain ⟨a1, a2, a3, a4, a5⟩ := ih p.advance q c hrest h
      exact ⟨a1, a2, a3, by simp only [advance] at a4; omega, a5⟩

theorem skipWhiteSpaceLoop_error : ∀ (src : List Nat) (p : Parser) (f : Failure),
    skipWhiteSpaceLoop src p = .error f → f.error = .ParseError := by
  intro src
  induction src with
  | nil =>
    intro p f h
    simp only [skipWhiteSpaceLoop, Parser.fail, Except.error.injEq] at h
    rw [← h]
  | cons x rest ih =>
    intro p f h
    simp only [skipWhiteSpaceLoop] at h
    split_ifs at h
    exact ih _ _ h

/-- The outcomes of `skipWhiteSpace`, by the tests it makes. -/
theorem skipWhiteSpace_cases (p : Parser) :
    (p.pos ≥ p.size ∧ p.skipWhiteSpace = p.fail .ParseError)
    ∨ (p.pos < p.size ∧ isWhiteSpace (byteAt p.input p.pos) = false
        ∧ p.skipWhiteSpace = .ok (byteAt p.input p.pos, p))
    ∨ (p.pos < p.size ∧ isWhiteSpace (byteAt p.input p.pos) = true ∧ p.pos + 1 ≥ p.size
        ∧ p.skipWhiteSpace = Parser.fail { p with pos := p.pos + 1 } .ParseError)
    ∨ (p.pos + 1 < p.size ∧ isWhiteSpace (byteAt p.input p.pos) = true
        ∧ isWhiteSpace (byteAt p.input (p.pos + 1)) = false
        ∧ p.skipWhiteSpace = .ok (byteAt p.input (p.pos + 1), { p with pos := p.pos + 1 }))
    ∨ (p.pos < p.size ∧ isWhiteSpace (byteAt p.input p.pos) = true
        ∧ ∃ n, p.skipWhiteSpace
            = skipWhiteSpaceLoop (p.input.drop (p.pos + n)) { p with pos := p.pos + n }) := by
  by_cases h1 : p.pos ≥ p.size
  · left
    exact ⟨h1, by simp [skipWhiteSpace, h1]⟩
  · right
    have hlt : p.pos < p.size := by omega
    by_cases h2 : isWhiteSpace (byteAt p.input p.pos) = true
    · right
      have hloop : ∃ n, (if p.size - p.pos ≥ 16 then (⟨p.input, p.pos
          + JSONSkipWhiteSpaceCount (p.input.drop p.pos) (p.size - p.pos - 15), p.b, p.nesting⟩
            : Parser) else p) = ⟨p.input, p.pos + n, p.b, p.nesting⟩ := by
        by_cases c4 : p.size - p.pos ≥ 16
        · exact ⟨JSONSkipWhiteSpaceCount (p.input.drop p.pos) (p.size - p.pos - 15),
            by simp only [c4, if_true]⟩
        · exact ⟨0, by simp only [c4, if_false, Nat.add_zero]⟩
      have hsp : isWhiteSpace 0x20 = true := by decide
      by_cases c1 : byteAt p.input p.pos = 0x20
      · by_cases c2 : p.pos + 1 ≥ p.size
        · left
          exact ⟨hlt, h2, c2, by simp [skipWhiteSpace, h1, hsp, c1, c2]⟩
        · by_cases c3 : isWhiteSpace (byteAt p.input (p.pos + 1)) = true
          · right; right
            refine ⟨hlt, h2, ?_⟩
            obtain ⟨n, hn⟩ := hloop
            exact ⟨n, by simp only [skipWhiteSpace, h1, hsp, c1, c2, c3, if_false, if_true,
              Bool.not_true, Bool.false_eq_true, hn]⟩
          · right; left
            have c3' : isWhiteSpace (byteAt p.input (p.pos + 1)) = false := by simpa using c3
            exact ⟨by omega, h2, c3', by simp [skipWhiteSpace, h1, hsp, c1, c2, c3']⟩
      · right; right
        refine ⟨hlt, h2, ?_⟩
        obtain ⟨n, hn⟩ := hloop
        exact ⟨n, by simp only [skipWhiteSpace, h1, h2, c1, if_false,
          Bool.not_true, Bool.false_eq_true, hn]⟩
    · left
      have h2' : isWhiteSpace (byteAt p.input p.pos) = false := by simpa using h2
      exact ⟨hlt, h2', by simp [skipWhiteSpace, h1, h2']⟩

theorem skipWhiteSpace_ok (p q : Parser) (c : Nat) (h : p.skipWhiteSpace = .ok (c, q)) :
    q.input = p.input ∧ q.b = p.b ∧ q.nesting = p.nesting ∧ p.pos ≤ q.pos ∧ q.pos < q.size := by
  rcases skipWhiteSpace_cases p with ⟨_, e⟩ | ⟨a, _, e⟩ | ⟨_, _, _, e⟩ | ⟨a, _, _, e⟩ | ⟨_, _, n, e⟩
  · rw [e] at h; simp [Parser.fail] at h
  · rw [e] at h
    simp only [Except.ok.injEq, Prod.mk.injEq] at h
    obtain ⟨_, rfl⟩ := h
    exact ⟨rfl, rfl, rfl, Nat.le_refl _, a⟩
  · rw [e] at h; simp [Parser.fail] at h
  · rw [e] at h
    simp only [Except.ok.injEq, Prod.mk.injEq] at h
    obtain ⟨_, rfl⟩ := h
    exact ⟨rfl, rfl, rfl, by simp, a⟩
  · rw [e] at h
    obtain ⟨a1, a2, a3, a4, a5⟩ := skipWhiteSpaceLoop_ok _
      ⟨p.input, p.pos + n, p.b, p.nesting⟩ q c rfl h
    exact ⟨a1, a2, a3, by simp only at a4; omega, a5⟩

theorem skipWhiteSpace_error (p : Parser) (f : Failure) (h : p.skipWhiteSpace = .error f) :
    f.error = .ParseError := by
  rcases skipWhiteSpace_cases p with ⟨_, e⟩ | ⟨a, _, e⟩ | ⟨_, _, _, e⟩ | ⟨a, _, _, e⟩ | ⟨_, _, n, e⟩
  · rw [e] at h
    simp only [Parser.fail, Except.error.injEq] at h
    rw [← h]
  · rw [e] at h; cases h
  · rw [e] at h
    simp only [Parser.fail, Except.error.injEq] at h
    rw [← h]
  · rw [e] at h; cases h
  · rw [e] at h
    exact skipWhiteSpaceLoop_error _ _ _ h

theorem skipWhiteSpaceLoop_only : ∀ (src : List Nat) (p : Parser),
    p.input.drop p.pos = src → specOnlyWhiteSpace p →
    ∃ f, skipWhiteSpaceLoop src p = .error f := by
  intro src
  induction src with
  | nil => intro p _ _; exact ⟨_, rfl⟩
  | cons x rest ih =>
    intro p hsrc hws
    obtain ⟨hlt, hb, hrest⟩ := byteAt_of_drop _ _ _ _ hsrc
    have hx : isWhiteSpace (x % 256) = true := by
      rw [← hb]
      exact hws p.pos (Nat.le_refl _) hlt
    simp only [skipWhiteSpaceLoop, hx, Bool.not_true, Bool.false_eq_true, if_false]
    apply ih p.advance hrest
    intro k hk1 hk2
    exact hws k (by simp only [advance] at hk1; omega) hk2

theorem skipWhiteSpace_only (p : Parser) (hws : specOnlyWhiteSpace p) :
    ∃ f, p.skipWhiteSpace = .error f := by
  rcases skipWhiteSpace_cases p with ⟨_, e⟩ | ⟨a, b, e⟩ | ⟨_, _, _, e⟩ | ⟨a, _, b, e⟩ | ⟨_, _, n, e⟩
  · exact ⟨_, e⟩
  · have := hws p.pos (Nat.le_refl _) a
    rw [b] at this
    cases this
  · exact ⟨_, e⟩
  · have := hws (p.pos + 1) (by omega) a
    rw [b] at this
    cases this
  · rw [e]
    apply skipWhiteSpaceLoop_only _ ⟨p.input, p.pos + n, p.b, p.nesting⟩ rfl
    intro k hk1 hk2
    exact hws k (by simp only at hk1; omega) hk2

end

section
open Parser

theorem parseLiteral_ok (c : BuilderCall) : ∀ (suffix : List Nat) (p q : Parser),
    parseLiteral c suffix p = .ok q → q.input = p.input ∧ p.pos ≤ q.pos := by
  intro suffix
  induction suffix with
  | nil =>
    intro p q h
    simp only [parseLiteral, Except.ok.injEq] at h
    subst h
    exact ⟨rfl, Nat.le_refl _⟩
  | cons x rest ih =>
    intro p q h
    have hf := consume_frame p
    simp only [parseLiteral] at h
    rcases hc : p.consume with ⟨i, p1⟩
    rw [hc] at h hf
    cases i with
    | none => simp [Parser.fail] at h
    | some i =>
      simp only at h
      split_ifs at h
      · simp [Parser.fail] at h
      · obtain ⟨a, b⟩ := ih p1 q h
        exact ⟨a.trans hf.1, Nat.le_trans hf.2.2.2.1 b⟩

theorem scanDigits_frame (finite : DoubleExpr → Bool) :
    ∀ (fuel : Nat) (p : Parser) (n : ParsedNumber) (r : Parser × ParsedNumber),
    scanDigits finite fuel p n = .ok r → r.1.input = p.input ∧ p.pos ≤ r.1.pos := by
  intro fuel
  induction fuel with
  | zero =>
    intro p n r h
    simp only [scanDigits, Except.ok.injEq] at h
    subst h
    exact ⟨rfl, Nat.le_refl _⟩
  | succ fuel ih =>
    intro p n r h
    have hf := consume_frame p
    simp only [scanDigits] at h
    rcases hc : p.consume with ⟨i, p1⟩
    rw [hc] at hf h
    cases i with
    | none =>
      simp only [Except.ok.injEq] at h
      subst h
      exact ⟨hf.1, hf.2.2.2.1⟩
    | some i =>
      have hp := (hf.2.2.2.2 i rfl).2
      simp only at hf hp h
      split_ifs at h
      · simp only [Except.ok.injEq] at h
        subst h
        exact ⟨hf.1, by simp only [unconsume]; omega⟩
      · cases ha : n.addDigit finite (i - 0x30) with
        | none => rw [ha] at h; simp [Parser.fail] at h
        | some n1 =>
          rw [ha] at h
          obtain ⟨a, b⟩ := ih p1 n1 r h
          exact ⟨a.trans hf.1, by omega⟩

theorem scanDigits_strict (finite : DoubleExpr → Bool) (fuel : Nat) (p : Parser)
    (n : ParsedNumber) (r : Parser × ParsedNumber)
    (hlt : p.pos < p.size) (hd : ¬ (byteAt p.input p.pos < 0x30 ∨ byteAt p.input p.pos > 0x39))
    (h : scanDigits finite (fuel + 1) p n = .ok r) :
    p.pos + 1 ≤ r.1.pos := by
  simp only [scanDigits, consume_of_lt p hlt, hd, if_false] at h
  cases ha : n.addDigit finite (byteAt p.input p.pos - 0x30) with
  | none => rw [ha] at h; simp [Parser.fail] at h
  | some n1 =>
    rw [ha] at h
    have := (scanDigits_frame finite fuel { p with pos := p.pos + 1 } n1 r h).2
    exact this

theorem scanDigitsFractional_frame : ∀ (fuel : Nat) (p : Parser) (ds : List Nat),
    (scanDigitsFractional fuel p ds).1.input = p.input
      ∧ p.pos ≤ (scanDigitsFractional fuel p ds).1.pos := by
  intro fuel
  induction fuel with
  | zero => intro p n; exact ⟨rfl, Nat.le_refl _⟩
  | succ fuel ih =>
    intro p ds
    have hf := consume_frame p
    simp only [scanDigitsFractional]
    rcases hc : p.consume with ⟨i, p1⟩
    rw [hc] at hf
    cases i with
    | none => exact ⟨hf.1, hf.2.2.2.1⟩
    | some i =>
      have hp := (hf.2.2.2.2 i rfl).2
      simp only at hf hp ⊢
      split_ifs
      · exact ⟨hf.1, by simp only [unconsume]; omega⟩
      · obtain ⟨a, b⟩ := ih p1 (ds ++ [i - 0x30])
        exact ⟨a.trans hf.1, by omega⟩

theorem parseNumberInteger_frame (negative : Bool) (nv : ParsedNumber) (p q : Parser)
    (h : parseNumberInteger negative nv p = .ok q) : q.input = p.input ∧ q.pos = p.pos := by
  unfold parseNumberInteger at h
  split_ifs at h <;>
    (simp only [Except.ok.injEq] at h; subst h; exact ⟨rfl, rfl⟩)

theorem parseNumberExponent_frame (finite : DoubleExpr → Bool) (startPos : Nat)
    (fp : DoubleExpr) (p q : Parser) (h : parseNumberExponent finite startPos fp p = .ok q) :
    q.input = p.input ∧ p.pos ≤ q.pos := by
  unfold parseNumberExponent at h
  cases hg : p.getOneOrThrow with
  | error f => rw [hg] at h; cases h
  | ok r =>
    obtain ⟨i, p1⟩ := r
    obtain ⟨a1, _, _, a4⟩ := getOneOrThrow_ok p p1 i hg
    rw [hg] at h
    simp only at h
    have key : ∀ (i1 : Nat) (p2 : Parser) (negative : Bool), p2.input = p.input →
        p.pos + 1 ≤ p2.pos →
        (if i1 < 0x30 ∨ i1 > 0x39 then p2.fail .ParseError
          else
            match scanDigits finite (p2.size + 1) p2.unconsume {} with
            | .error f => .error f
            | .ok (p3, exponent) =>
              let scaled :=
                if negative then DoubleExpr.mul fp (.pow10 (.neg exponent.asDouble))
                else DoubleExpr.mul fp (.pow10 exponent.asDouble)
              if !finite scaled then p3.fail .NumberOutOfRange
              else .ok (p3.emit (.addDouble (.atof (p3.input.drop startPos))))) = .ok q →
        q.input = p.input ∧ p.pos ≤ q.pos := by
      intro i1 p2 negative hin hpos hq
      by_cases c1 : i1 < 0x30 ∨ i1 > 0x39
      · rw [if_pos c1] at hq
        simp [Parser.fail] at hq
      · rw [if_neg c1] at hq
        cases hs : scanDigits finite (p2.size + 1) p2.unconsume {} with
        | error f => rw [hs] at hq; cases hq
        | ok r =>
        obtain ⟨p3, ex⟩ := r
        obtain ⟨b1, b2⟩ := scanDigits_frame finite (p2.size + 1) p2.unconsume {} _ hs
        rw [hs] at hq
        simp only [unconsume] at b1 b2
        have hfin : ∀ (c : Prop) [Decidable c], (if c then p3.fail .NumberOutOfRange
            else Except.ok (p3.emit (.addDouble (.atof (p3.input.drop startPos))))) = .ok q →
            q.input = p.input ∧ p.pos ≤ q.pos := by
          intro c _ hc
          split_ifs at hc
          · simp [Parser.fail] at hc
          · simp only [Except.ok.injEq] at hc
            subst hc
            exact ⟨by simp only [emit]; rw [b1, hin], by simp only [emit]; omega⟩
        exact hfin _ hq
    split_ifs at h with c0
    · cases hg2 : p1.getOneOrThrow with
      | error f => rw [hg2] at h; cases h
      | ok r2 =>
        obtain ⟨i1, p2⟩ := r2
        obtain ⟨d1, _, _, d4⟩ := getOneOrThrow_ok p1 p2 i1 hg2
        rw [hg2] at h
        exact key i1 p2 _ (d1.trans a1) (by omega) h
    · exact key i p1 _ a1 (by omega) h

theorem parseNumberRest_frame (finite : DoubleExpr → Bool) (startPos : Nat)
    (fp : DoubleExpr) (i : Nat) (p q : Parser)
    (h : parseNumberRest finite startPos fp i p = .ok q) :
    q.input = p.input ∧ p.pos - 1 ≤ q.pos := by
  unfold parseNumberRest at h
  split_ifs at h
  · simp only [Except.ok.injEq] at h
    subst h
    exact ⟨rfl, Nat.le_refl _⟩
  · obtain ⟨a, b⟩ := parseNumberExponent_frame finite startPos fp p q h
    exact ⟨a, by omega⟩

theorem parseNumberAfterDigits_frame (finite : DoubleExpr → Bool) (startPos : Nat)
    (negative : Bool) (nv : ParsedNumber) (p q : Parser)
    (h : parseNumberAfterDigits finite startPos negative nv p = .ok q) :
    q.input = p.input ∧ p.pos ≤ q.pos := by
  unfold parseNumberAfterDigits at h
  have hf := consume_frame p
  rcases hc : p.consume with ⟨i, p1⟩
  rw [hc] at h hf
  cases i with
  | none =>
    obtain ⟨a, b⟩ := parseNumberInteger_frame _ _ _ _ h
    exact ⟨a.trans hf.1, by rw [b]; exact hf.2.2.2.1⟩
  | some i =>
    have hp := (hf.2.2.2.2 i rfl).2
    simp only at h hf hp
    by_cases c1 : i ≠ 0x2e ∧ i ≠ 0x65 ∧ i ≠ 0x45
    · rw [if_pos c1] at h
      obtain ⟨a, b⟩ := parseNumberInteger_frame _ _ _ _ h
      exact ⟨a.trans hf.1, by rw [b]; simp only [unconsume]; omega⟩
    · rw [if_neg c1] at h
      by_cases c2 : i = 0x2e
      · rw [if_pos c2] at h
        cases hg : p1.getOneOrThrow with
        | error f => rw [hg] at h; cases h
        | ok r =>
          obtain ⟨k, p2⟩ := r
          obtain ⟨d1, _, _, d4⟩ := getOneOrThrow_ok p1 p2 k hg
          rw [hg] at h
          simp only at h
          by_cases c3 : k < 0x30 ∨ k > 0x39
          · rw [if_pos c3] at h
            simp [Parser.fail] at h
          · rw [if_neg c3] at h
            obtain ⟨b1, b2⟩ := scanDigitsFractional_frame (p2.size + 1) p2.unconsume []
            rcases hs : scanDigitsFractional (p2.size + 1) p2.unconsume [] with ⟨p3, ds⟩
            rw [hs] at h b1 b2
            simp only [unconsume] at h b1 b2
            have hf3 := consume_frame p3
            rcases hc3 : p3.consume with ⟨k1, p4⟩
            rw [hc3] at h hf3
            cases k1 with
            | none =>
              simp only [Except.ok.injEq] at h
              subst h
              simp only [emit]
              exact ⟨by rw [hf3.1, b1, d1, hf.1],
                by have := hf3.2.2.2.1; simp only at this; omega⟩
            | some k1 =>
              have hp4 := (hf3.2.2.2.2 k1 rfl).2
              simp only at h hf3 hp4
              obtain ⟨e1, e2⟩ := parseNumberRest_frame _ _ _ _ _ _ h
              exact ⟨by rw [e1, hf3.1, b1, d1, hf.1], by omega⟩
      · rw [if_neg c2] at h
        obtain ⟨e1, e2⟩ := parseNumberRest_frame _ _ _ _ _ _ h
        exact ⟨e1.trans hf.1, by omega⟩

theorem parseNumber_frame (finite : DoubleExpr → Bool) (p q : Parser)
    (h : parseNumber finite p = .ok q) : q.input = p.input ∧ p.pos < q.pos := by
  unfold parseNumber at h
  have hf := consume_frame p
  rcases hc : p.consume with ⟨i0, p0⟩
  rw [hc] at h hf
  cases i0 with
  | none => simp [Parser.fail] at h
  | some i0 =>
    obtain ⟨hlt, hp0⟩ := hf.2.2.2.2 i0 rfl
    have hi0 : i0 = byteAt p.input p.pos := by
      rw [consume_of_lt p hlt] at hc
      simp only [Prod.mk.injEq, Option.some.injEq] at hc
      exact hc.1.symm
    simp only at h hf hp0
    have key : ∀ (i : Nat) (p1 : Parser) (negative : Bool), p1.input = p.input →
        p.pos + 1 ≤ p1.pos → p1.pos ≤ p1.size → i = byteAt p1.input (p1.pos - 1) →
        (if i < 0x30 ∨ i > 0x39 then p1.fail .ParseError
          else
            match (if i ≠ 0x30 then scanDigits finite (p1.size + 1) p1.unconsume {}
              else .ok (p1, ({} : ParsedNumber))) with
            | .error f => .error f
            | .ok (p2, numberValue) =>
              parseNumberAfterDigits finite p.pos negative numberValue p2) = .ok q →
        q.input = p.input ∧ p.pos < q.pos := by
      intro i p1 negative hin hpos hsz hi hq
      by_cases c1 : i < 0x30 ∨ i > 0x39
      · rw [if_pos c1] at hq
        simp [Parser.fail] at hq
      · rw [if_neg c1] at hq
        by_cases c2 : i ≠ 0x30
        · simp only [c2, ne_eq, not_false_eq_true, if_true] at hq
          cases hs : scanDigits finite (p1.size + 1) p1.unconsume {} with
          | error f => rw [hs] at hq; cases hq
          | ok r =>
          obtain ⟨p2, nv⟩ := r
          have hst := scanDigits_strict finite p1.size p1.unconsume {} _
            (by simp only [unconsume, Parser.size] at hsz ⊢; omega)
            (by simp only [unconsume]; rw [← hi]; exact c1) hs
          have hfr := (scanDigits_frame finite (p1.size + 1) p1.unconsume {} _ hs).1
          rw [hs] at hq
          simp only [unconsume] at hq hst hfr
          obtain ⟨e1, e2⟩ := parseNumberAfterDigits_frame _ _ _ _ _ _ hq
          exact ⟨by rw [e1, hfr, hin], by omega⟩
        · simp only [c2, if_false] at hq
          obtain ⟨e1, e2⟩ := parseNumberAfterDigits_frame _ _ _ _ _ _ hq
          exact ⟨e1.trans hin, by omega⟩
    split_ifs at h with c0
    · cases hg : p0.getOneOrThrow with
      | error f => rw [hg] at h; cases h
      | ok r =>
        obtain ⟨i, p1⟩ := r
        obtain ⟨d1, _, d3, d4⟩ := getOneOrThrow_ok p0 p1 i hg
        rw [hg] at h
        have hi : i = byteAt p1.input (p1.pos - 1) := by
          rw [getOneOrThrow_of_lt p0 d3] at hg
          simp only [Except.ok.injEq, Prod.mk.injEq] at hg
          rw [← hg.1, d1, d4]
          simp
        exact key i p1 true (d1.trans hf.1) (by omega)
          (by simp only [Parser.size] at d3 ⊢; rw [d1]; omega) hi h
    · exact key i0 p0 false hf.1 (by omega)
        (by simp only [Parser.size] at hlt ⊢; rw [hf.1]; omega)
        (by rw [hi0, hf.1, hp0]; simp) h

end

section
open Parser

theorem finishString_frame (large : Bool) (base : Nat) (p : Parser) :
    (finishString large base p).input = p.input ∧ (finishString large base p).pos = p.pos := by
  unfold finishString
  split_ifs <;> exact ⟨rfl, rfl⟩

theorem parseStringLoop_frame (opts : Options) (base : Nat) :
    ∀ (fuel : Nat) (large : Bool) (hs : Nat) (q q' : Parser),
    parseStringLoop opts base fuel large hs q = .ok q' →
    q'.input = q.input ∧ q.pos ≤ q'.pos := by
  intro fuel
  induction fuel with
  | zero => intro large hs q q' h; simp [parseStringLoop, Parser.fail] at h
  | succ fuel ih =>
    intro large hs q q' h
    unfold parseStringLoop at h
    dsimp only at h
    obtain ⟨hin1, hpos1, _⟩ := bulkCopy_frame opts q
    cases hg : (bulkCopy opts q).getOneOrThrow with
    | error f' => rw [hg] at h; cases h
    | ok r =>
      obtain ⟨i, p2⟩ := r
      rw [hg] at h
      obtain ⟨hin2, _, hlt2, hpos2⟩ := getOneOrThrow_ok _ _ _ hg
      simp only at h
      generalize hp3 : (if (!large && decide (p2.b.pos - (base + 1) > 126)) = true
        then p2.promote base else p2) = p3 at h
      have hp3in : p3.input = p2.input ∧ p3.pos = p2.pos := by
        rw [← hp3]; split_ifs <;> exact ⟨rfl, rfl⟩
      by_cases c1 : i = 0x22
      · rw [if_pos c1] at h
        simp only [Except.ok.injEq] at h
        subst h
        obtain ⟨a, b⟩ := finishString_frame (large || (!large && decide
          (p2.b.pos - (base + 1) > 126))) base p3
        exact ⟨by rw [a, hp3in.1, hin2, hin1], by rw [b, hp3in.2]; omega⟩
      · rw [if_neg c1] at h
        by_cases c2 : i = 0x5c
        · rw [if_pos c2] at h
          have hf := consume_frame p3
          rcases hc : p3.consume with ⟨c, p4⟩
          rw [hc] at h hf
          cases c with
          | none => simp [Parser.fail] at h
          | some i1 =>
            simp only at h
            cases he : parseEscape i1 hs p4 with
            | error f' => rw [he] at h; cases h
            | ok r =>
              obtain ⟨hs1, p5⟩ := r
              rw [he] at h
              simp only at h
              obtain ⟨a, b⟩ := parseEscape_frame _ _ _ _ _ he
              obtain ⟨d1, d2⟩ := ih _ _ _ _ h
              have h4pos : p3.pos ≤ p4.pos := hf.2.2.2.1
              exact ⟨by rw [d1, a, hf.1, hp3in.1, hin2, hin1], by have := hp3in.2; omega⟩
        · rw [if_neg c2] at h
          cases hr : parseRawByte opts i p3 with
          | error f' => rw [hr] at h; cases h
          | ok p4 =>
            rw [hr] at h
            simp only at h
            obtain ⟨a, b, _⟩ := parseRawByte_ok opts i p3 p4 hr
            obtain ⟨d1, d2⟩ := ih _ _ _ _ h
            exact ⟨by rw [d1, a, hp3in.1, hin2, hin1], by have := hp3in.2; omega⟩

theorem parseString_frame (opts : Options) (p q : Parser)
    (h : Parser.parseString opts p = .ok q) : q.input = p.input ∧ p.pos ≤ q.pos := by
  unfold Parser.parseString at h
  exact parseStringLoop_frame opts _ _ _ _ (p.put 0x40) _ h

theorem translateKey_frame (opts : Options) (lastPos : Nat) (p q : Parser) (e : Bool)
    (h : translateKey opts lastPos p = .ok (e, q)) :
    q.input = p.input ∧ q.pos = p.pos ∧ q.nesting = p.nesting := by
  unfold translateKey at h
  dsimp only at h
  split at h
  · split at h
    · simp only [Except.ok.injEq, Prod.mk.injEq] at h
      obtain ⟨_, rfl⟩ := h
      exact ⟨rfl, rfl, rfl⟩
    · split at h
      · split at h
        · simp [Parser.fail] at h
        · split at h
          · simp only [Except.ok.injEq, Prod.mk.injEq] at h
            obtain ⟨_, rfl⟩ := h
            exact ⟨rfl, rfl, rfl⟩
          · split at h
            · simp [Parser.fail] at h
            · simp only [Except.ok.injEq, Prod.mk.injEq] at h
              obtain ⟨_, rfl⟩ := h
              exact ⟨rfl, rfl, rfl⟩
      · simp only [Except.ok.injEq, Prod.mk.injEq] at h
        obtain ⟨_, rfl⟩ := h
        exact ⟨rfl, rfl, rfl⟩
  · simp only [Except.ok.injEq, Prod.mk.injEq] at h
    obtain ⟨_, rfl⟩ := h
    exact ⟨rfl, rfl, rfl⟩

end

section
open Parser

theorem parseJsonF_succ (env : ParseEnv) (fuel : Nat) (p : Parser) :
    parseJsonF env (fuel + 1) p =
      match p.skipWhiteSpace with
      | .error f => some (.error f)
      | .ok (_, p1) =>
        match p1.consume with
        | (none, p2) => some (.ok p2)
        | (some i, p2) =>
          if i = 0x7b then parseObjectF env fuel p2
          else if i = 0x5b then parseArrayF env fuel p2
          else if i = 0x74 then some (parseLiteral (.addBool true) [0x72, 0x75, 0x65] p2)
          else if i = 0x66 then
            some (parseLiteral (.addBool false) [0x61, 0x6c, 0x73, 0x65] p2)
          else if i = 0x6e then some (parseLiteral .addNull [0x75, 0x6c, 0x6c] p2)
          else if i = 0x22 then some (env.parseString p2)
          else some (parseNumber env.finite p2.unconsume) := by
  rw [parseJsonF]

theorem parse_frame (env : ParseEnv) (hstr : StringFrame env) : ∀ (fuel : Nat),
    (∀ p q, parseJsonF env fuel p = some (.ok q) → q.input = p.input ∧ p.pos < q.pos)
    ∧ (∀ p q, parseArrayF env fuel p = some (.ok q) → q.input = p.input ∧ p.pos ≤ q.pos)
    ∧ (∀ p q, parseArrayLoopF env fuel p = some (.ok q) → q.input = p.input ∧ p.pos ≤ q.pos)
    ∧ (∀ p q, parseObjectF env fuel p = some (.ok q) → q.input = p.input ∧ p.pos ≤ q.pos)
    ∧ (∀ i p q, parseObjectLoopF env fuel i p = some (.ok q) →
        q.input = p.input ∧ p.pos ≤ q.pos) := by
  intro fuel
  induction fuel with
  | zero =>
    refine ⟨?_, ?_, ?_, ?_, ?_⟩
    · intro p q h; simp [parseJsonF] at h
    · intro p q h; simp [parseArrayF] at h
    · intro p q h; simp [parseArrayLoopF] at h
    · intro p q h; simp [parseObjectF] at h
    · intro i p q h; simp [parseObjectLoopF] at h
  | succ fuel ih =>
    obtain ⟨ihJ, ihA, ihAL, ihO, ihOL⟩ := ih
    refine ⟨?_, ?_, ?_, ?_, ?_⟩
    · -- parseJson
      intro p q h
      rw [parseJsonF_succ] at h
      cases hs : p.skipWhiteSpace with
      | error f => rw [hs] at h; simp at h
      | ok r =>
        obtain ⟨c, p1⟩ := r
        obtain ⟨a1, _, _, a4, a5⟩ := skipWhiteSpace_ok p p1 c hs
        rw [hs] at h
        simp only [consume_of_lt p1 a5] at h
        generalize hp2 : ({ p1 with pos := p1.pos + 1 } : Parser) = p2 at h
        have hin2 : p2.input = p.input := by rw [← hp2]; exact a1
        have hpos2 : p2.pos = p1.pos + 1 := by rw [← hp2]
        split_ifs at h with c1 c2 c3 c4 c5 c6
        · obtain ⟨b1, b2⟩ := ihO p2 q h
          exact ⟨b1.trans hin2, by omega⟩
        · obtain ⟨b1, b2⟩ := ihA p2 q h
          exact ⟨b1.trans hin2, by omega⟩
        · obtain ⟨b1, b2⟩ := parseLiteral_ok _ _ p2 q (by simpa using h)
          exact ⟨b1.trans hin2, by omega⟩
        · obtain ⟨b1, b2⟩ := parseLiteral_ok _ _ p2 q (by simpa using h)
          exact ⟨b1.trans hin2, by omega⟩
        · obtain ⟨b1, b2⟩ := parseLiteral_ok _ _ p2 q (by simpa using h)
          exact ⟨b1.trans hin2, by omega⟩
        · obtain ⟨b1, b2⟩ := hstr p2 q (by simpa using h)
          exact ⟨b1.trans hin2, by omega⟩
        · obtain ⟨b1, b2⟩ := parseNumber_frame _ p2.unconsume q (by simpa using h)
          exact ⟨b1.trans hin2, by simp only [unconsume] at b2; omega⟩
    · -- parseArray
      intro p q h
      rw [parseArrayF] at h
      cases hs : (p.emit .addArray).skipWhiteSpace with
      | error f => rw [hs] at h; simp at h
      | ok r =>
        obtain ⟨c, p1⟩ := r
        obtain ⟨a1, _, _, a4, a5⟩ := skipWhiteSpace_ok _ p1 c hs
        rw [hs] at h
        simp only at h
        split_ifs at h with c1
        · simp only [Option.some.injEq, Except.ok.injEq] at h
          subst h
          exact ⟨a1, by simp only [emit, advance] at a4 ⊢; omega⟩
        · obtain ⟨b1, b2⟩ := ihAL _ q h
          exact ⟨b1.trans a1, by simp only [emit, increaseNesting] at a4 b2; omega⟩
    · -- the loop of parseArray
      intro p q h
      rw [parseArrayLoopF] at h
      cases hj : parseJsonF env fuel (p.emit .reportAdd) with
      | none => rw [hj] at h; simp at h
      | some r =>
        rw [hj] at h
        cases r with
        | error f => simp at h
        | ok p1 =>
          obtain ⟨j1, j2⟩ := ihJ _ p1 hj
          simp only at h
          cases hs : p1.skipWhiteSpace with
          | error f => rw [hs] at h; simp at h
          | ok r =>
            obtain ⟨c, p2⟩ := r
            obtain ⟨a1, _, _, a4, a5⟩ := skipWhiteSpace_ok _ p2 c hs
            rw [hs] at h
            simp only at h
            split_ifs at h with c1 c2
            · simp only [Option.some.injEq, Except.ok.injEq] at h
              subst h
              exact ⟨a1.trans j1, by simp only [emit, advance, decreaseNesting] at j2 ⊢; omega⟩
            · simp [Parser.fail] at h
            · obtain ⟨b1, b2⟩ := ihAL _ q h
              exact ⟨b1.trans (a1.trans j1), by
                simp only [emit, advance] at j2 b2; omega⟩
    · -- parseObject
      intro p q h
      rw [parseObjectF] at h
      cases hs : (p.emit .addObject).skipWhiteSpace with
      | error f => rw [hs] at h; simp at h
      | ok r =>
        obtain ⟨c, p1⟩ := r
        obtain ⟨a1, _, _, a4, a5⟩ := skipWhiteSpace_ok _ p1 c hs
        rw [hs] at h
        simp only at h
        have hf := consume_frame p1
        split_ifs at h with c1 c2
        · simp only [Option.some.injEq, Except.ok.injEq] at h
          subst h
          exact ⟨hf.1.trans a1, by
            have := hf.2.2.2.1; simp only [emit] at a4 ⊢; omega⟩
        · simp only [Option.some.injEq, Except.ok.injEq] at h
          subst h
          exact ⟨hf.1.trans a1, by
            have := hf.2.2.2.1; simp only [emit] at a4 ⊢; omega⟩
        · obtain ⟨b1, b2⟩ := ihOL _ _ q h
          exact ⟨b1.trans a1, by simp only [emit, increaseNesting] at a4 b2; omega⟩
    · -- the loop of parseObject
      intro i p q h
      rw [parseObjectLoopF] at h
      split_ifs at h with c0
      · simp [Parser.fail] at h
      · dsimp only at h
        cases hk : Parser.parseString env.options (p.advance.emit .reportAdd) with
        | error f => rw [hk] at h; simp at h
        | ok p2 =>
          obtain ⟨k1, k2⟩ := parseString_frame _ _ p2 hk
          rw [hk] at h
          simp only at h
          cases ht : translateKey env.options (p.advance.emit .reportAdd).b.pos p2 with
          | error f => rw [ht] at h; simp at h
          | ok r =>
            obtain ⟨ex, p3⟩ := r
            obtain ⟨t1, t2, _⟩ := translateKey_frame _ _ _ _ _ ht
            rw [ht] at h
            simp only at h
            cases hs : p3.skipWhiteSpace with
            | error f => rw [hs] at h; simp at h
            | ok r =>
              obtain ⟨c, p4⟩ := r
              obtain ⟨a1, _, _, a4, a5⟩ := skipWhiteSpace_ok _ p4 c hs
              rw [hs] at h
              simp only at h
              by_cases c1 : c ≠ 0x3a
              · rw [if_pos c1] at h
                simp [Parser.fail] at h
              · rw [if_neg c1] at h
                cases hj : parseJsonF env fuel p4.advance with
                | none => rw [hj] at h; simp at h
                | some r =>
                  rw [hj] at h
                  cases r with
                  | error f => simp at h
                  | ok p5 =>
                    obtain ⟨j1, j2⟩ := ihJ _ p5 hj
                    simp only at h
                    generalize hp6 : (if ex = true then p5.emit .removeLast else p5) = p6 at h
                    have h6 : p6.input = p5.input ∧ p6.pos = p5.pos := by
                      rw [← hp6]; split_ifs <;> exact ⟨rfl, rfl⟩
                    have hbase : p5.input = p.input ∧ p.pos ≤ p5.pos := by
                      refine ⟨by rw [j1]; simp only [advance]; rw [a1, t1, k1]; rfl, ?_⟩
                      simp only [advance, emit] at j2 k2
                      omega
                    cases hs2 : p6.skipWhiteSpace with
                    | error f => rw [hs2] at h; simp at h
                    | ok r =>
                      obtain ⟨c2, p7⟩ := r
                      obtain ⟨e1, _, _, e4, e5⟩ := skipWhiteSpace_ok _ p7 c2 hs2
                      rw [hs2] at h
                      simp only at h
                      have h7 : p7.input = p.input ∧ p.pos ≤ p7.pos :=
                        ⟨by rw [e1, h6.1, hbase.1], by have := h6.2; have := hbase.2; omega⟩
                      by_cases d1 : c2 = 0x7d
                      · rw [if_pos d1] at h
                        simp only [Option.some.injEq, Except.ok.injEq] at h
                        subst h
                        refine ⟨?_, ?_⟩
                        · simp only [decreaseNesting]
                          split_ifs <;> simp only [emit, advance] <;> exact h7.1
                        · simp only [decreaseNesting]
                          have h72 := h7.2
                          split_ifs <;> simp only [emit, advance] <;> omega
                      · rw [if_neg d1] at h
                        by_cases d2 : c2 ≠ 0x2c
                        · rw [if_pos d2] at h
                          simp [Parser.fail] at h
                        · rw [if_neg d2] at h
                          cases hs3 : p7.advance.skipWhiteSpace with
                          | error f => rw [hs3] at h; simp at h
                          | ok r =>
                            obtain ⟨c3, p10⟩ := r
                            obtain ⟨g1, _, _, g4, g5⟩ := skipWhiteSpace_ok _ p10 c3 hs3
                            rw [hs3] at h
                            simp only at h
                            obtain ⟨b1, b2⟩ := ihOL _ _ q h
                            exact ⟨by rw [b1, g1]; simp only [advance]; exact h7.1, by
                              simp only [advance] at g4; have := h7.2; omega⟩

end

section
open Parser

theorem size_eq_of_input (p q : Parser) (h : q.input = p.input) : q.size = p.size := by
  simp only [Parser.size, h]

theorem parse_total (env : ParseEnv) (hstr : StringFrame env) : ∀ (fuel : Nat),
    (∀ p, 3 * (p.size - p.pos) + 2 ≤ fuel → parseJsonF env fuel p ≠ none)
    ∧ (∀ p, 3 * (p.size - p.pos) + 4 ≤ fuel → parseArrayF env fuel p ≠ none)
    ∧ (∀ p, 3 * (p.size - p.pos) + 3 ≤ fuel → parseArrayLoopF env fuel p ≠ none)
    ∧ (∀ p, 3 * (p.size - p.pos) + 4 ≤ fuel → parseObjectF env fuel p ≠ none)
    ∧ (∀ i p, 3 * (p.size - p.pos) + 3 ≤ fuel → parseObjectLoopF env fuel i p ≠ none) := by
  intro fuel
  induction fuel with
  | zero =>
    refine ⟨?_, ?_, ?_, ?_, ?_⟩ <;> intros <;> omega
  | succ fuel ih =>
    obtain ⟨ihJ, ihA, ihAL, ihO, ihOL⟩ := ih
    obtain ⟨frJ, _, _, _, _⟩ := parse_frame env hstr fuel
    refine ⟨?_, ?_, ?_, ?_, ?_⟩
    · -- parseJson
      intro p hb
      rw [parseJsonF_succ]
      cases hs : p.skipWhiteSpace with
      | error f => simp
      | ok r =>
        obtain ⟨c, p1⟩ := r
        obtain ⟨a1, _, _, a4, a5⟩ := skipWhiteSpace_ok p p1 c hs
        have hsz := size_eq_of_input p p1 a1
        simp only [consume_of_lt p1 a5]
        split_ifs with c1 c2 c3 c4 c5 c6
        · apply ihO
          simp only [Parser.size] at hsz a5 hb ⊢
          omega
        · apply ihA
          simp only [Parser.size] at hsz a5 hb ⊢
          omega
        all_goals simp
    · -- parseArray
      intro p hb
      rw [parseArrayF]
      cases hs : (p.emit .addArray).skipWhiteSpace with
      | error f => simp
      | ok r =>
        obtain ⟨c, p1⟩ := r
        obtain ⟨a1, _, _, a4, a5⟩ := skipWhiteSpace_ok _ p1 c hs
        have hsz := size_eq_of_input _ p1 a1
        simp only
        split_ifs with c1
        · simp
        · apply ihAL
          simp only [Parser.size, emit, increaseNesting] at hsz a4 a5 hb ⊢
          omega
    · -- the loop of parseArray
      intro p hb
      rw [parseArrayLoopF]
      cases hj : parseJsonF env fuel (p.emit .reportAdd) with
      | none =>
        exfalso
        exact ihJ (p.emit .reportAdd) (by simp only [Parser.size, emit] at hb ⊢; omega) hj
      | some r =>
        cases r with
        | error f => simp
        | ok p1 =>
          obtain ⟨j1, j2⟩ := frJ _ p1 hj
          have hsz1 := size_eq_of_input _ p1 j1
          simp only
          cases hs : p1.skipWhiteSpace with
          | error f => simp
          | ok r =>
            obtain ⟨c, p2⟩ := r
            obtain ⟨a1, _, _, a4, a5⟩ := skipWhiteSpace_ok _ p2 c hs
            have hsz2 := size_eq_of_input _ p2 a1
            simp only
            split_ifs with c1 c2
            · simp
            · simp [Parser.fail]
            · apply ihAL
              simp only [Parser.size, emit, advance] at hsz1 hsz2 j2 a4 a5 hb ⊢
              omega
    · -- parseObject
      intro p hb
      rw [parseObjectF]
      cases hs : (p.emit .addObject).skipWhiteSpace with
      | error f => simp
      | ok r =>
        obtain ⟨c, p1⟩ := r
        obtain ⟨a1, _, _, a4, a5⟩ := skipWhiteSpace_ok _ p1 c hs
        have hsz := size_eq_of_input _ p1 a1
        simp only
        split_ifs with c1 c2
        · simp
        · simp
        · apply ihOL
          simp only [Parser.size, emit, increaseNesting] at hsz a4 a5 hb ⊢
          omega
    · -- the loop of parseObject
      intro i p hb
      rw [parseObjectLoopF]
      split_ifs with c0
      · simp [Parser.fail]
      · dsimp only
        cases hk : Parser.parseString env.options (p.advance.emit .reportAdd) with
        | error f => simp
        | ok p2 =>
          obtain ⟨k1, k2⟩ := parseString_frame _ _ p2 hk
          have hsz2 := size_eq_of_input _ p2 k1
          simp only
          cases ht : translateKey env.options (p.advance.emit .reportAdd).b.pos p2 with
          | error f => simp
          | ok r =>
            obtain ⟨ex, p3⟩ := r
            obtain ⟨t1, t2, _⟩ := translateKey_frame _ _ _ _ _ ht
            have hsz3 := size_eq_of_input _ p3 t1
            simp only
            cases hs : p3.skipWhiteSpace with
            | error f => simp
            | ok r =>
              obtain ⟨c, p4⟩ := r
              obtain ⟨a1, _, _, a4, a5⟩ := skipWhiteSpace_ok _ p4 c hs
              have hsz4 := size_eq_of_input _ p4 a1
              simp only
              by_cases c1 : c ≠ 0x3a
              · rw [if_pos c1]
                simp [Parser.fail]
              · rw [if_neg c1]
                have hpos4 : p.pos + 1 ≤ p4.pos := by
                  simp only [emit, advance] at k2
                  omega
                have hsz : p4.size = p.size := by
                  rw [hsz4, hsz3, hsz2]
                  rfl
                cases hj : parseJsonF env fuel p4.advance with
                | none =>
                  exfalso
                  refine ihJ p4.advance ?_ hj
                  simp only [Parser.size, advance] at hsz hb ⊢
                  omega
                | some r =>
                  cases r with
                  | error f => simp
                  | ok p5 =>
                    obtain ⟨j1, j2⟩ := frJ _ p5 hj
                    have hsz5 := size_eq_of_input _ p5 j1
                    simp only
                    generalize hp6 : (if ex = true then p5.emit .removeLast else p5) = p6
                    have h6 : p6.input = p5.input ∧ p6.pos = p5.pos := by
                      rw [← hp6]; split_ifs <;> exact ⟨rfl, rfl⟩
                    have hsz6 := size_eq_of_input _ p6 h6.1
                    cases hs2 : p6.skipWhiteSpace with
                    | error f => simp
                    | ok r =>
                      obtain ⟨c2, p7⟩ := r
                      obtain ⟨e1, _, _, e4, e5⟩ := skipWhiteSpace_ok _ p7 c2 hs2
                      have hsz7 := size_eq_of_input _ p7 e1
                      simp only
                      by_cases d1 : c2 = 0x7d
                      · rw [if_pos d1]
                        simp
                      · rw [if_neg d1]
                        by_cases d2 : c2 ≠ 0x2c
                        · rw [if_pos d2]
                          simp [Parser.fail]
                        · rw [if_neg d2]
                          cases hs3 : p7.advance.skipWhiteSpace with
                          | error f => simp
                          | ok r =>
                            obtain ⟨c3, p10⟩ := r
                            obtain ⟨g1, _, _, g4, g5⟩ := skipWhiteSpace_ok _ p10 c3 hs3
                            have hsz10 := size_eq_of_input _ p10 g1
                            simp only
                            apply ihOL
                            have h6p := h6.2
                            simp only [Parser.size, advance] at *
                            omega

end

section
open Parser

theorem parseJson_total (env : ParseEnv) (hstr : StringFrame env) (p : Parser) :
    parseJson env p ≠ none :=
  (parse_total env hstr _).1 p (Nat.le_refl _)

theorem parseJson_frame (env : ParseEnv) (hstr : StringFrame env) (p q : Parser)
    (h : parseJson env p = some (.ok q)) : q.input = p.input ∧ p.pos < q.pos :=
  (parse_frame env hstr _).1 p q h

theorem parseJson_only (env : ParseEnv) (p : Parser) (hws : specOnlyWhiteSpace p) :
    ∃ st, parseJson env p = some (.error ⟨.ParseError, st⟩) := by
  obtain ⟨f, hf⟩ := skipWhiteSpace_only p hws
  have he := skipWhiteSpace_error p f hf
  refine ⟨f.state, ?_⟩
  unfold parseJson
  rw [show 3 * (p.size - p.pos) + 2 = (3 * (p.size - p.pos) + 1) + 1 from rfl, parseJsonF_succ, hf]
  simp only [Option.some.injEq, Except.error.injEq]
  cases f
  simp only at he
  simp [he]

theorem beginValue_frame (env : ParseEnv) (p p1 : Parser) (r : Bool)
    (h : beginValue env p = .ok (r, p1)) : p1.input = p.input ∧ p1.pos = p.pos := by
  unfold beginValue at h
  split at h
  · simp only [Except.ok.injEq, Prod.mk.injEq] at h
    obtain ⟨_, rfl⟩ := h
    exact ⟨rfl, rfl⟩
  · split_ifs at h
    · simp [Parser.fail] at h
    · simp only [Except.ok.injEq, Prod.mk.injEq] at h
      obtain ⟨_, rfl⟩ := h
      exact ⟨rfl, rfl⟩
    · simp only [Except.ok.injEq, Prod.mk.injEq] at h
      obtain ⟨_, rfl⟩ := h
      exact ⟨rfl, rfl⟩

theorem skipTrailing_spec : ∀ (src : List Nat) (p : Parser), p.input.drop p.pos = src →
    (skipTrailing src p).input = p.input ∧ (skipTrailing src p).b = p.b
    ∧ (skipTrailing src p).nesting = p.nesting ∧ p.pos ≤ (skipTrailing src p).pos
    ∧ (∀ k, p.pos ≤ k → k < (skipTrailing src p).pos → isWhiteSpace (byteAt p.input k) = true)
    ∧ ((skipTrailing src p).pos < (skipTrailing src p).size →
        isWhiteSpace (byteAt p.input (skipTrailing src p).pos) = false) := by
  intro src
  induction src with
  | nil =>
    intro p hsrc
    refine ⟨rfl, rfl, rfl, Nat.le_refl _, fun k h1 h2 => ?_, fun hlt => ?_⟩
    · have h3 : k < p.pos := h2
      omega
    · exfalso
      have : p.input.length ≤ p.pos := by
        by_contra hc
        rw [drop_eq_cons p.input p.pos (by omega)] at hsrc
        cases hsrc
      have h3 : p.pos < p.input.length := hlt
      omega
  | cons x rest ih =>
    intro p hsrc
    obtain ⟨hlt, hb, hrest⟩ := byteAt_of_drop _ _ _ _ hsrc
    by_cases hw : isWhiteSpace (x % 256) = true
    · have e : skipTrailing (x :: rest) p = skipTrailing rest p.advance := by
        simp only [skipTrailing, hw, if_true]
      rw [e]
      obtain ⟨a1, a2, a3, a4, a5, a6⟩ := ih p.advance hrest
      have hadv : p.advance.pos = p.pos + 1 := rfl
      refine ⟨a1, a2, a3, by omega, ?_, a6⟩
      intro k h1 h2
      by_cases hk : k = p.pos
      · rw [hk, hb]; exact hw
      · exact a5 k (by omega) h2
    · have e : skipTrailing (x :: rest) p = p := by
        simp only [skipTrailing, hw, Bool.false_eq_true, if_false]
      rw [e]
      refine ⟨rfl, rfl, rfl, Nat.le_refl _, fun k h1 h2 => by omega, fun _ => ?_⟩
      rw [hb]
      simpa using hw

/-- One turn of the loop of `parseInternal` that reads a value. -/
theorem parseInternalLoop_value (env : ParseEnv) (hstr : StringFrame env) (p p1 p2 : Parser)
    (r : Bool) (hb : beginValue env p = .ok (r, p1)) (hj : parseJson env p1 = some (.ok p2)) :
    specTopLevelValue env p (skipTrailing (p2.input.drop p2.pos) p2)
    ∧ (skipTrailing (p2.input.drop p2.pos) p2).size = p.size
    ∧ p.pos < (skipTrailing (p2.input.drop p2.pos) p2).pos := by
  obtain ⟨b1, b2⟩ := beginValue_frame env p p1 r hb
  obtain ⟨j1, j2⟩ := parseJson_frame env hstr p1 p2 hj
  obtain ⟨a1, a2, a3, a4, a5, a6⟩ := skipTrailing_spec _ p2 rfl
  have hin : p2.input = p.input := j1.trans b1
  refine ⟨⟨r, p1, p2, hb, hj, a1.trans hin, a2, a3, a4, ?_, ?_⟩, ?_, by omega⟩
  · intro k h1 h2
    rw [← hin]
    exact a5 k h1 h2
  · intro hlt
    rw [← hin]
    exact a6 hlt
  · exact size_eq_of_input p _ (a1.trans hin)

theorem parseInternalLoop_total (env : ParseEnv) (hstr : StringFrame env) (multi : Bool) :
    ∀ (fuel nr : Nat) (p : Parser), p.size - p.pos < fuel →
    parseInternalLoop env multi fuel nr p ≠ none := by
  intro fuel
  induction fuel with
  | zero => intro nr p h; omega
  | succ fuel ih =>
    intro nr p hlt
    rw [parseInternalLoop]
    cases hb : beginValue env p with
    | error f => simp
    | ok r =>
      obtain ⟨rep, p1⟩ := r
      simp only
      cases hj : parseJson env p1 with
      | none => exact absurd hj (parseJson_total env hstr p1)
      | some res =>
        cases res with
        | error f => simp only; split_ifs <;> simp
        | ok p2 =>
          obtain ⟨_, hsz, hpos⟩ := parseInternalLoop_value env hstr p p1 p2 rep hb hj
          simp only
          split_ifs with c1 c2
          · simp
          · apply ih
            omega
          · simp

theorem parseInternalLoop_multi (env : ParseEnv) (hstr : StringFrame env) :
    ∀ (fuel nr : Nat) (p : Parser) (n : Nat) (q : Parser),
    parseInternalLoop env true fuel nr p = some (.ok (n, q)) →
    nr < n ∧ q.size ≤ q.pos ∧ specTopLevelValues env (n - nr) p q := by
  intro fuel
  induction fuel with
  | zero => intro nr p n q h; simp [parseInternalLoop] at h
  | succ fuel ih =>
    intro nr p n q h
    rw [parseInternalLoop] at h
    cases hb : beginValue env p with
    | error f => rw [hb] at h; simp at h
    | ok r =>
      obtain ⟨rep, p1⟩ := r
      rw [hb] at h
      simp only at h
      cases hj : parseJson env p1 with
      | none => rw [hj] at h; simp at h
      | some res =>
        rw [hj] at h
        cases res with
        | error f =>
          simp only at h
          split_ifs at h <;> simp at h
        | ok p2 =>
          obtain ⟨hval, hsz, hpos⟩ := parseInternalLoop_value env hstr p p1 p2 rep hb hj
          simp only [Bool.not_true, Bool.false_eq_true, false_and, if_false, true_and] at h
          split_ifs at h with c2
          · obtain ⟨a1, a2, a3⟩ := ih _ _ _ _ h
            refine ⟨by omega, a2, ?_⟩
            obtain ⟨d, hd⟩ : ∃ d, n - nr = d + 2 := ⟨n - nr - 2, by omega⟩
            rw [hd]
            have hd1 : n - (nr + 1) = d + 1 := by omega
            rw [hd1] at a3
            exact ⟨_, hval, c2, a3⟩
          · simp only [Option.some.injEq, Except.ok.injEq, Prod.mk.injEq] at h
            obtain ⟨rfl, rfl⟩ := h
            refine ⟨by omega, by omega, ?_⟩
            rw [show nr + 1 - nr = 1 by omega]
            exact hval

end

section
open Dumper

/-- C29: for every slice and every state of the sink, handleUnsupportedType appends exactly
the four bytes `null` (6e 75 6c 6c) and raises no error when unsupportedTypeBehavior is
NullifyUnsupportedType; it appends exactly the quote, the text `(non-representable type `,
the type name of the slice, the closing parenthesis and the quote when the setting is
ConvertUnsupportedType; with any other setting it raises NoJsonEquivalent and the sink is
unchanged. The options are never changed. -/
theorem handleUnsupportedType_policy (typeName : Slice → Bytes) (d : Dumper) (slice : Slice) :
    (d.options.unsupportedTypeBehavior = UnsupportedTypeBehavior.NullifyUnsupportedType →
      handleUnsupportedType typeName d slice
        = .ok ⟨d.options, d.sink ++ [0x6e, 0x75, 0x6c, 0x6c]⟩)
    ∧ (d.options.unsupportedTypeBehavior = UnsupportedTypeBehavior.ConvertUnsupportedType →
      handleUnsupportedType typeName d slice
        = .ok ⟨d.options, d.sink ++ ([0x22, 0x28, 0x6e, 0x6f, 0x6e, 0x2d, 0x72, 0x65, 0x70, 0x72,
            0x65, 0x73, 0x65, 0x6e, 0x74, 0x61, 0x62, 0x6c, 0x65, 0x20, 0x74, 0x79, 0x70, 0x65,
            0x20] ++ typeName slice ++ [0x29, 0x22])⟩
      ∧ [0x28, 0x6e, 0x6f, 0x6e, 0x2d, 0x72, 0x65, 0x70, 0x72, 0x65, 0x73, 0x65, 0x6e, 0x74,
          0x61, 0x62, 0x6c, 0x65, 0x20, 0x74, 0x79, 0x70, 0x65, 0x20]
        = literalBytes "(non-representable type ")
    ∧ (d.options.unsupportedTypeBehavior ≠ UnsupportedTypeBehavior.NullifyUnsupportedType →
      d.options.unsupportedTypeBehavior ≠ UnsupportedTypeBehavior.ConvertUnsupportedType →
      handleUnsupportedType typeName d slice = .error ⟨.NoJsonEquivalent, d⟩) := by
  refine ⟨fun h => ?_, fun h => ⟨?_, by decide⟩, fun h1 h2 => ?_⟩
  · simp [handleUnsupportedType, h, Dumper.append, literalBytes]
  · simp [handleUnsupportedType, h, Dumper.append, literalBytes]
  · simp [handleUnsupportedType, h1, h2]

/-- The theorem of C29 for a dumper that has written `[` and meets a MinKey (head 0x1e) with
the setting NullifyUnsupportedType: the sink holds `[null` afterwards. -/
theorem handleUnsupportedType_policy_witness :
    handleUnsupportedType (fun _ => literalBytes "min-key")
        ⟨{ unsupportedTypeBehavior := UnsupportedTypeBehavior.NullifyUnsupportedType }, [0x5b]⟩
        ⟨[0x1e], 0⟩
      = .ok ⟨{ unsupportedTypeBehavior := UnsupportedTypeBehavior.NullifyUnsupportedType },
          [0x5b] ++ [0x6e, 0x75, 0x6c, 0x6c]⟩ :=
  (handleUnsupportedType_policy (fun _ => literalBytes "min-key")
    ⟨{ unsupportedTypeBehavior := UnsupportedTypeBehavior.NullifyUnsupportedType }, [0x5b]⟩
    ⟨[0x1e], 0⟩).1 rfl

end

section
open Slice

/-- C30: makeKey returns the slice itself for every String; for every SmallInt or UInt it
fails with NeedAttributeTranslator if and only if no attribute translator is configured, and
with a translator `t` it returns the slice that `t` gives for the id getUIntUnchecked of the
slice, or the None slice when `t` has no entry for the id; for every slice of another type it
fails with InvalidValueType. -/
theorem makeKey_cases (tr : Option (Nat → Option Slice)) (s : Slice) :
    (s.type = ValueType.String → s.makeKey tr = .ok s)
    ∧ (s.type = ValueType.SmallInt ∨ s.type = ValueType.UInt →
        (s.makeKey tr = .error .NeedAttributeTranslator ↔ tr = none)
        ∧ (∀ t, tr = some t → s.makeKey tr = .ok ((t s.getUIntUnchecked).getD noneSlice)))
    ∧ (s.type ≠ ValueType.String → s.type ≠ ValueType.SmallInt → s.type ≠ ValueType.UInt →
        s.makeKey tr = .error .InvalidValueType) := by
  refine ⟨fun h => ?_, fun h => ?_, fun h1 h2 h3 => ?_⟩
  · simp [makeKey, isString, h]
  · have hs : s.isString = false := by
      rcases h with h | h <;> simp [isString, h]
    have hi : (s.isSmallInt || s.isUInt) = true := by
      rcases h with h | h <;> simp [isSmallInt, isUInt, h]
    cases tr with
    | none => simp [makeKey, hs, hi]
    | some t =>
      refine ⟨by simp [makeKey, hs, hi], fun t1 ht => ?_⟩
      cases ht
      simp only [makeKey, hs, hi, translateUnchecked, Bool.false_eq_true, if_false, if_true]
      cases t s.getUIntUnchecked <;> rfl
  · simp [makeKey, isString, isSmallInt, isUInt, h1, h2, h3]

/-- The theorem of C30 for the UInt `28 07` (the id 7) and a translator that knows no id:
makeKey returns the None slice. -/
theorem makeKey_cases_witness :
    (⟨[0x28, 0x07], 0⟩ : Slice).type = ValueType.UInt
    ∧ (⟨[0x28, 0x07], 0⟩ : Slice).makeKey (some (fun _ => none)) = .ok noneSlice :=
  ⟨by decide,
   ((makeKey_cases (some (fun _ => none)) ⟨[0x28, 0x07], 0⟩).2.1 (Or.inr (by decide))).2
     (fun _ => none) rfl⟩

end

section
open Parser

theorem bulkCopy_stay (opts : Options) (q : Parser) (h : q.pos < q.size)
    (hc : isCopyable opts.validateUtf8Strings (byteAt q.input q.pos) = false) :
    bulkCopy opts q = q := by
  unfold bulkCopy
  simp only
  split_ifs with hr
  · have hd : q.input.drop q.pos = q.input.getD q.pos 0 :: q.input.drop (q.pos + 1) :=
      drop_eq_cons _ _ h
    obtain ⟨m, hm⟩ : ∃ m, q.size - q.pos - 15 = m + 1 := ⟨q.size - q.pos - 16, by omega⟩
    have hcount : JSONStringCopyCount opts.validateUtf8Strings (q.input.drop q.pos)
        (q.size - q.pos - 15) = 0 := by
      rw [hd, hm, JSONStringCopyCount]
      unfold byteAt at hc
      simp only [hc, Bool.false_eq_true, if_false]
    rw [hcount]
    simp [bytesFrom]
  · rfl

/-- A turn of the loop of `parseString` that starts at a byte which the bulk copy does not
take: the byte is consumed, the payload is moved when the promotion to the long form is due,
and the byte is handled in the state `p3` behind that. -/
theorem parseStringLoop_turn (opts : Options) (base fuel : Nat) (large : Bool) (hs : Nat)
    (q : Parser) (hlt : q.pos < q.size) (hstay : bulkCopy opts q = q) :
    ∃ (large1 : Bool) (p3 : Parser),
      p3.input = q.input ∧ p3.pos = q.pos + 1 ∧ p3.b.calls = q.b.calls
      ∧ p3.nesting = q.nesting
      ∧ (p3.b.buf = q.b.buf ∨ p3.b.buf = (q.promote base).b.buf)
      ∧ parseStringLoop opts base (fuel + 1) large hs q
        = if byteAt q.input q.pos = 0x22 then .ok (finishString large1 base p3)
          else if byteAt q.input q.pos = 0x5c then
            match p3.consume with
            | (none, p4) => p4.fail .ParseError
            | (some i1, p4) =>
              match parseEscape i1 hs p4 with
              | .error f => .error f
              | .ok (hs1, p5) => parseStringLoop opts base fuel large1 hs1 p5
          else
            match parseRawByte opts (byteAt q.input q.pos) p3 with
            | .error f => .error f
            | .ok p4 => parseStringLoop opts base fuel large1 0 p4 := by
  rw [parseStringLoop, hstay]
  dsimp only
  rw [getOneOrThrow_of_lt q hlt]
  dsimp only
  generalize (!large && decide (q.b.pos - (base + 1) > 126)) = promoted
  cases promoted with
  | false =>
    exact ⟨large || false, { q with pos := q.pos + 1 }, rfl, rfl, rfl, rfl, Or.inl rfl, rfl⟩
  | true =>
    exact ⟨large || true, ({ q with pos := q.pos + 1 } : Parser).promote base, rfl, rfl, rfl,
      rfl, Or.inr rfl, rfl⟩

end

section
open Parser

theorem parser_eq_of_fields (a b : Parser) (h1 : a.input = b.input) (h2 : a.pos = b.pos)
    (h3 : a.b.buf = b.b.buf) (h4 : a.b.calls = b.b.calls) (h5 : a.nesting = b.nesting) :
    a = b := by
  obtain ⟨ai, ap, ⟨abuf, acalls⟩, an⟩ := a
  obtain ⟨bi, bp, ⟨bbuf, bcalls⟩, bn⟩ := b
  simp only at h1 h2 h3 h4 h5
  subst h1 h2 h3 h4 h5
  rfl

/-- C21 (defect of the code): with validateUtf8Strings = true, the option that Options.h
documents as "validate UTF-8 strings when JSON-parsing with Parser", the parser accepts the
strings `"\xC0\x80"` and `"\xC1\xBF"`, which hold an overlong two-byte encoding and are no
UTF-8, and emits the Strings `42 c0 80` and `42 c1 bf`; no part of the payload is rejected with
InvalidUtf8Sequence. The same lead bytes are rejected when the byte behind them is no
continuation byte (`22 c0 22`), so the validation is in force and checks the form of the
bytes only. -/
theorem parseInternal_accepts_overlong :
    validatingEnv.options.validateUtf8Strings = true
    ∧ parseInternal validatingEnv false ⟨[0x22, 0xc0, 0x80, 0x22], 0, ⟨[], []⟩, 0⟩
      = some (.ok (1, ⟨[0x22, 0xc0, 0x80, 0x22], 4, ⟨[0x42, 0xc0, 0x80], []⟩, 0⟩))
    ∧ parseInternal validatingEnv false ⟨[0x22, 0xc1, 0xbf, 0x22], 0, ⟨[], []⟩, 0⟩
      = some (.ok (1, ⟨[0x22, 0xc1, 0xbf, 0x22], 4, ⟨[0x42, 0xc1, 0xbf], []⟩, 0⟩))
    ∧ parseInternal validatingEnv false ⟨[0x22, 0xc0, 0x22], 0, ⟨[], []⟩, 0⟩
      = some (.error ⟨.InvalidUtf8Sequence, ⟨[0x22, 0xc0, 0x22], 3, ⟨[0x40, 0xc0], []⟩, 0⟩⟩) := by
  refine ⟨rfl, ?_, ?_, ?_⟩ <;> rfl

end

section
open Parser

theorem emitUnicode_lone_surrogate (v hs : Nat) (q : Parser)
    (hsur : 0xd800 ≤ v ∧ v < 0xe000) (hlone : v < 0xdc00 ∨ hs = 0) :
    emitUnicode v hs q
      = (if v < 0xdc00 then v else 0,
          ⟨q.input, q.pos,
            ⟨q.b.buf ++ [0xed, 0x80 + ((v >>> 6) &&& 0x3f), 0x80 + (v &&& 0x3f)], q.b.calls⟩,
            q.nesting⟩) := by
  have c1 : ¬ v < 0x80 := by omega
  have c2 : ¬ v < 0x800 := by omega
  have c3 : ¬ (v ≥ 0xdc00 ∧ v < 0xe000 ∧ hs ≠ 0) := by
    rintro ⟨h1, _, h3⟩
    rcases hlone with h | h
    · omega
    · exact h3 h
  have e12 : v >>> 12 = 13 := by
    rw [Nat.shiftRight_eq_div_pow]
    omega
  have e6 : (0x80 + ((v >>> 6) &&& 0x3f)) % 256 = 0x80 + ((v >>> 6) &&& 0x3f) := by
    rw [and_63]
    omega
  have e0 : (0x80 + (v &&& 0x3f)) % 256 = 0x80 + (v &&& 0x3f) := by
    rw [and_63]
    omega
  unfold emitUnicode
  rw [if_neg c1, if_neg c2, if_neg c3]
  simp only [Parser.put, Builder.push, e12, e6, e0, List.append_assoc, List.singleton_append,
    List.nil_append, List.cons_append]
  by_cases h : v < 0xdc00
  · have h2 : v ≥ 0xd800 ∧ v < 0xdc00 := ⟨hsur.1, h⟩
    simp [h, h2]
  · have h2 : ¬ (v ≥ 0xd800 ∧ v < 0xdc00) := fun c => h c.2
    simp [h, h2]

/-- C22 (defect of the code): with validateUtf8Strings = true, the option that Options.h
documents as "validate UTF-8 strings when JSON-parsing with Parser", the parser accepts the
string `"\ud800"`, a lone high surrogate, and the string `"\udc00"`, a low surrogate without a
high surrogate before it, and emits the Strings `43 ed a0 80` and `43 ed b0 80`, whose
payload is the 3-byte form of a surrogate code point and no UTF-8; nothing is rejected. -/
theorem parseInternal_accepts_lone_surrogate :
    validatingEnv.options.validateUtf8Strings = true
    ∧ parseInternal validatingEnv false
        ⟨[0x22, 0x5c, 0x75, 0x64, 0x38, 0x30, 0x30, 0x22], 0, ⟨[], []⟩, 0⟩
      = some (.ok (1, ⟨[0x22, 0x5c, 0x75, 0x64, 0x38, 0x30, 0x30, 0x22], 8,
          ⟨[0x43, 0xed, 0xa0, 0x80], []⟩, 0⟩))
    ∧ parseInternal validatingEnv false
        ⟨[0x22, 0x5c, 0x75, 0x64, 0x63, 0x30, 0x30, 0x22], 0, ⟨[], []⟩, 0⟩
      = some (.ok (1, ⟨[0x22, 0x5c, 0x75, 0x64, 0x63, 0x30, 0x30, 0x22], 8,
          ⟨[0x43, 0xed, 0xb0, 0x80], []⟩, 0⟩)) := by
  refine ⟨rfl, ?_, ?_⟩ <;> rfl

end

section
open Parser

theorem specNoControl_trans (input : Bytes) (a b c : Nat)
    (h1 : specNoControl input a b) (h2 : specNoControl input b c) :
    specNoControl input a c := by
  intro k hk1 hk2
  by_cases h : k < b
  · exact h1 k hk1 h
  · exact h2 k (by omega) hk2

theorem specNoControl_one (input : Bytes) (a : Nat) (h : 0x20 ≤ byteAt input a) :
    specNoControl input a (a + 1) := by
  intro k hk1 hk2
  obtain rfl : k = a := by omega
  exact h

theorem specNoControl_mono (input : Bytes) (a b c : Nat) (hcb : c ≤ b)
    (h : specNoControl input a b) : specNoControl input a c :=
  fun k hk1 hk2 => h k hk1 (by omega)

theorem high_bit_ge (i : Nat) (hi : i < 256) (h : ¬ i &&& 0x80 = 0) : 0x80 ≤ i := by
  by_contra hc
  apply h
  have hlt : i < 128 := by omega
  clear hi hc h
  interval_cases i <;> rfl

theorem low_bit_lt (i : Nat) (hi : i < 256) (h : i &&& 0x80 = 0) : i < 0x80 := by
  by_contra hc
  have h1 : 128 ≤ i := by omega
  clear hc
  interval_cases i <;> simp at h

theorem getOneOrThrow_cases (q : Parser) :
    (q.pos < q.size
      ∧ q.getOneOrThrow = .ok (byteAt q.input q.pos, { q with pos := q.pos + 1 }))
    ∨ (q.size ≤ q.pos ∧ q.getOneOrThrow = .error ⟨.ParseError, q⟩) := by
  by_cases h : q.pos < q.size
  · exact Or.inl ⟨h, getOneOrThrow_of_lt q h⟩
  · refine Or.inr ⟨by omega, ?_⟩
    have : q.pos ≥ q.size := by omega
    simp [getOneOrThrow, consume, this, Parser.fail]

theorem consume_cases (q : Parser) :
    (q.pos < q.size
      ∧ q.consume = (some (byteAt q.input q.pos), { q with pos := q.pos + 1 }))
    ∨ (q.size ≤ q.pos ∧ q.consume = (none, q)) := by
  by_cases h : q.pos < q.size
  · exact Or.inl ⟨h, consume_of_lt q h⟩
  · refine Or.inr ⟨by omega, ?_⟩
    have : q.pos ≥ q.size := by omega
    simp [consume, this]

/-- What a function of the string parser has read when it returns: the input is kept, the
cursor has not moved back, and no byte read is a control byte. -/
theorem parseHex_scan : ∀ (k v : Nat) (q : Parser),
    (∀ v1 q1, parseHex k v q = .ok (v1, q1) →
      q1.input = q.input ∧ q.pos ≤ q1.pos ∧ specNoControl q.input q.pos q1.pos)
    ∧ (∀ f, parseHex k v q = .error f →
      f.state.input = q.input ∧ q.pos ≤ f.state.pos
        ∧ specNoControl q.input q.pos (f.state.pos - 1)) := by
  intro k
  induction k with
  | zero =>
    intro v q
    refine ⟨fun v1 q1 h => ?_, fun f h => ?_⟩
    · simp only [parseHex, Except.ok.injEq, Prod.mk.injEq] at h
      obtain ⟨_, rfl⟩ := h
      exact ⟨rfl, le_refl _, fun k h1 h2 => by omega⟩
    · simp [parseHex] at h
  | succ k ih =>
    intro v q
    have hstep : ∀ (w : Nat), 0x30 ≤ byteAt q.input q.pos →
        ((∀ v1 q1, parseHex k w { q with pos := q.pos + 1 } = .ok (v1, q1) →
          q1.input = q.input ∧ q.pos ≤ q1.pos ∧ specNoControl q.input q.pos q1.pos)
        ∧ (∀ f, parseHex k w { q with pos := q.pos + 1 } = .error f →
          f.state.input = q.input ∧ q.pos ≤ f.state.pos
            ∧ specNoControl q.input q.pos (f.state.pos - 1))) := by
      intro w hb
      obtain ⟨i1, i2⟩ := ih w { q with pos := q.pos + 1 }
      have hone := specNoControl_one q.input q.pos (by omega)
      refine ⟨fun v1 q1 h => ?_, fun f h => ?_⟩
      · obtain ⟨a, b, c⟩ := i1 v1 q1 h
        exact ⟨a, by simp only at b; omega, specNoControl_trans _ _ _ _ hone c⟩
      · obtain ⟨a, b, c⟩ := i2 f h
        exact ⟨a, by simp only at b; omega, specNoControl_trans _ _ _ _ hone c⟩
    rcases consume_cases q with ⟨hlt, hc⟩ | ⟨hge, hc⟩
    · rw [parseHex, hc]
      simp only
      by_cases c1 : 0x30 ≤ byteAt q.input q.pos ∧ byteAt q.input q.pos ≤ 0x39
      · rw [if_pos c1]
        exact hstep _ c1.1
      · rw [if_neg c1]
        by_cases c2 : 0x61 ≤ byteAt q.input q.pos ∧ byteAt q.input q.pos ≤ 0x66
        · rw [if_pos c2]
          exact hstep _ (by omega)
        · rw [if_neg c2]
          by_cases c3 : 0x41 ≤ byteAt q.input q.pos ∧ byteAt q.input q.pos ≤ 0x46
          · rw [if_pos c3]
            exact hstep _ (by omega)
          · rw [if_neg c3]
            refine ⟨fun v1 q1 h => by simp [Parser.fail] at h, fun f h => ?_⟩
            simp only [Parser.fail, Except.error.injEq] at h
            subst h
            exact ⟨rfl, by simp, fun k h1 h2 => by simp only at h2; omega⟩
    · rw [parseHex, hc]
      simp only
      refine ⟨fun v1 q1 h => by simp [Parser.fail] at h, fun f h => ?_⟩
      simp only [Parser.fail, Except.error.injEq] at h
      subst h
      exact ⟨rfl, le_refl _, fun k h1 h2 => by simp only at h2; omega⟩

theorem parseFollow_scan : ∀ (k : Nat) (q : Parser),
    (∀ q1, parseFollow k q = .ok q1 →
      q1.input = q.input ∧ q.pos ≤ q1.pos ∧ specNoControl q.input q.pos q1.pos)
    ∧ (∀ f, parseFollow k q = .error f →
      f.state.input = q.input ∧ q.pos ≤ f.state.pos
        ∧ specNoControl q.input q.pos (f.state.pos - 1)) := by
  intro k
  induction k with
  | zero =>
    intro q
    refine ⟨fun q1 h => ?_, fun f h => ?_⟩
    · simp only [parseFollow, Except.ok.injEq] at h
      subst h
      exact ⟨rfl, le_refl _, fun k h1 h2 => by omega⟩
    · simp [parseFollow] at h
  | succ k ih =>
    intro q
    rcases getOneOrThrow_cases q with ⟨hlt, hc⟩ | ⟨hge, hc⟩
    · rw [parseFollow, hc]
      simp only
      by_cases c1 : byteAt q.input q.pos &&& 0xc0 ≠ 0x80
      · rw [if_pos c1]
        refine ⟨fun q1 h => by simp [Parser.fail] at h, fun f h => ?_⟩
        simp only [Parser.fail, Except.error.injEq] at h
        subst h
        exact ⟨rfl, by simp, fun k h1 h2 => by simp only at h2; omega⟩
      · rw [if_neg c1]
        have hcont := (continuation_iff _ (byteAt_lt q.input q.pos)).mp (not_not.mp c1)
        have hone := specNoControl_one q.input q.pos (by unfold specContinuation at hcont; omega)
        obtain ⟨i1, i2⟩ := ih (({ q with pos := q.pos + 1 } : Parser).put (byteAt q.input q.pos))
        refine ⟨fun q1 h => ?_, fun f h => ?_⟩
        · obtain ⟨a, b, c⟩ := i1 q1 h
          exact ⟨a, by simp only [Parser.put] at b; omega,
            specNoControl_trans _ _ _ _ hone c⟩
        · obtain ⟨a, b, c⟩ := i2 f h
          exact ⟨a, by simp only [Parser.put] at b; omega,
            specNoControl_trans _ _ _ _ hone c⟩
    · rw [parseFollow, hc]
      simp only
      refine ⟨fun q1 h => by simp at h, fun f h => ?_⟩
      simp only [Except.error.injEq] at h
      subst h
      exact ⟨rfl, le_refl _, fun k h1 h2 => by simp only at h2; omega⟩

end

section
open Parser

theorem parseEscape_scan (i hs : Nat) (q : Parser) :
    (∀ hs1 q1, parseEscape i hs q = .ok (hs1, q1) →
      0x20 ≤ i ∧ q1.input = q.input ∧ q.pos ≤ q1.pos ∧ specNoControl q.input q.pos q1.pos)
    ∧ (∀ f, parseEscape i hs q = .error f →
      f.state.input = q.input ∧ q.pos ≤ f.state.pos ∧ (q.pos < f.state.pos → 0x20 ≤ i)
        ∧ specNoControl q.input q.pos (f.state.pos - 1)) := by
  have hput : ∀ (x : Nat), 0x20 ≤ i →
      (∀ hs1 q1, (Except.ok (0, q.put x) : Except Failure (Nat × Parser)) = .ok (hs1, q1) →
        0x20 ≤ i ∧ q1.input = q.input ∧ q.pos ≤ q1.pos ∧ specNoControl q.input q.pos q1.pos)
      ∧ (∀ f, (Except.ok (0, q.put x) : Except Failure (Nat × Parser)) = .error f →
        f.state.input = q.input ∧ q.pos ≤ f.state.pos ∧ (q.pos < f.state.pos → 0x20 ≤ i)
          ∧ specNoControl q.input q.pos (f.state.pos - 1)) := by
    intro x hx
    refine ⟨fun hs1 q1 h => ?_, fun f h => by simp at h⟩
    simp only [Except.ok.injEq, Prod.mk.injEq] at h
    obtain ⟨_, rfl⟩ := h
    exact ⟨hx, rfl, le_refl _, fun k h1 h2 => by simp only [Parser.put] at h2; omega⟩
  unfold parseEscape
  by_cases c1 : i = 0x22 ∨ i = 0x2f ∨ i = 0x5c
  · rw [if_pos c1]; exact hput _ (by omega)
  rw [if_neg c1]
  by_cases c2 : i = 0x62
  · rw [if_pos c2]; exact hput _ (by omega)
  rw [if_neg c2]
  by_cases c3 : i = 0x66
  · rw [if_pos c3]; exact hput _ (by omega)
  rw [if_neg c3]
  by_cases c4 : i = 0x6e
  · rw [if_pos c4]; exact hput _ (by omega)
  rw [if_neg c4]
  by_cases c5 : i = 0x72
  · rw [if_pos c5]; exact hput _ (by omega)
  rw [if_neg c5]
  by_cases c6 : i = 0x74
  · rw [if_pos c6]; exact hput _ (by omega)
  rw [if_neg c6]
  by_cases c7 : i = 0x75
  · rw [if_pos c7]
    obtain ⟨i1, i2⟩ := parseHex_scan 4 0 q
    cases hh : parseHex 4 0 q with
    | error f0 =>
      refine ⟨fun hs1 q1 h => by simp at h, fun f h => ?_⟩
      simp only [Except.error.injEq] at h
      subst h
      obtain ⟨a, b, c⟩ := i2 f0 hh
      exact ⟨a, b, fun _ => by omega, c⟩
    | ok r =>
      obtain ⟨v, p1⟩ := r
      obtain ⟨a, b, c⟩ := i1 v p1 hh
      obtain ⟨e1, e2⟩ := emitUnicode_frame v hs p1
      refine ⟨fun hs1 q1 h => ?_, fun f h => by simp at h⟩
      simp only [Except.ok.injEq] at h
      have hq1 : q1 = (emitUnicode v hs p1).2 := by rw [h]
      subst hq1
      exact ⟨by omega, by rw [e1, a], by rw [e2]; exact b, by rw [e2]; exact c⟩
  · rw [if_neg c7]
    refine ⟨fun hs1 q1 h => by simp [Parser.fail] at h, fun f h => ?_⟩
    simp only [Parser.fail, Except.error.injEq] at h
    subst h
    exact ⟨rfl, le_refl _, fun h => absurd h (lt_irrefl _),
      fun k h1 h2 => by simp only at h2; omega⟩

theorem parseRawByte_scan (opts : Options) (i : Nat) (q : Parser) (hi : i < 256) :
    (∀ q1, parseRawByte opts i q = .ok q1 →
      0x20 ≤ i ∧ q1.input = q.input ∧ q.pos ≤ q1.pos ∧ specNoControl q.input q.pos q1.pos)
    ∧ (∀ f, parseRawByte opts i q = .error f →
      f.state.input = q.input ∧ q.pos ≤ f.state.pos ∧ (q.pos < f.state.pos → 0x20 ≤ i)
        ∧ specNoControl q.input q.pos (f.state.pos - 1)) := by
  have hfail : ∀ (e : Error),
      (∀ q1, (q.fail e : Except Failure Parser) = .ok q1 →
        0x20 ≤ i ∧ q1.input = q.input ∧ q.pos ≤ q1.pos ∧ specNoControl q.input q.pos q1.pos)
      ∧ (∀ f, (q.fail e : Except Failure Parser) = .error f →
        f.state.input = q.input ∧ q.pos ≤ f.state.pos ∧ (q.pos < f.state.pos → 0x20 ≤ i)
          ∧ specNoControl q.input q.pos (f.state.pos - 1)) := by
    intro e
    refine ⟨fun q1 h => by simp [Parser.fail] at h, fun f h => ?_⟩
    simp only [Parser.fail, Except.error.injEq] at h
    subst h
    exact ⟨rfl, le_refl _, fun h => absurd h (lt_irrefl _),
      fun k h1 h2 => by simp only at h2; omega⟩
  have hput : 0x20 ≤ i →
      (∀ q1, (Except.ok (q.put i) : Except Failure Parser) = .ok q1 →
        0x20 ≤ i ∧ q1.input = q.input ∧ q.pos ≤ q1.pos ∧ specNoControl q.input q.pos q1.pos)
      ∧ (∀ f, (Except.ok (q.put i) : Except Failure Parser) = .error f →
        f.state.input = q.input ∧ q.pos ≤ f.state.pos ∧ (q.pos < f.state.pos → 0x20 ≤ i)
          ∧ specNoControl q.input q.pos (f.state.pos - 1)) := by
    intro hx
    refine ⟨fun q1 h => ?_, fun f h => by simp at h⟩
    simp only [Except.ok.injEq] at h
    subst h
    exact ⟨hx, rfl, le_refl _, fun k h1 h2 => by simp only [Parser.put] at h2; omega⟩
  have hfollow : ∀ (k : Nat), 0x20 ≤ i →
      (∀ q1, parseFollow k (q.put i) = .ok q1 →
        0x20 ≤ i ∧ q1.input = q.input ∧ q.pos ≤ q1.pos ∧ specNoControl q.input q.pos q1.pos)
      ∧ (∀ f, parseFollow k (q.put i) = .error f →
        f.state.input = q.input ∧ q.pos ≤ f.state.pos ∧ (q.pos < f.state.pos → 0x20 ≤ i)
          ∧ specNoControl q.input q.pos (f.state.pos - 1)) := by
    intro k hx
    obtain ⟨i1, i2⟩ := parseFollow_scan k (q.put i)
    refine ⟨fun q1 h => ?_, fun f h => ?_⟩
    · obtain ⟨a, b, c⟩ := i1 q1 h
      exact ⟨hx, a, b, c⟩
    · obtain ⟨a, b, c⟩ := i2 f h
      exact ⟨a, b, fun _ => hx, c⟩
  unfold parseRawByte
  by_cases c1 : i &&& 0x80 = 0
  · rw [if_pos c1]
    by_cases c2 : i < 0x20
    · rw [if_pos c2]; exact hfail _
    · rw [if_neg c2]; exact hput (by omega)
  · rw [if_neg c1]
    have hge : 0x80 ≤ i := high_bit_ge i hi c1
    cases hv : opts.validateUtf8Strings with
    | false =>
      simp only [Bool.not_false, if_true]
      exact hput (by omega)
    | true =>
      simp only [Bool.not_true, Bool.false_eq_true, if_false]
      by_cases d1 : i &&& 0xe0 = 0x80
      · rw [if_pos d1]; exact hfail _
      rw [if_neg d1]
      by_cases d2 : i &&& 0xe0 = 0xc0
      · rw [if_pos d2]; exact hfollow 1 (by omega)
      rw [if_neg d2]
      by_cases d3 : i &&& 0xf0 = 0xe0
      · rw [if_pos d3]; exact hfollow 2 (by omega)
      rw [if_neg d3]
      by_cases d4 : i &&& 0xf8 = 0xf0
      · rw [if_pos d4]; exact hfollow 3 (by omega)
      rw [if_neg d4]; exact hfail _

theorem isCopyable_ge (validate : Bool) (c : Nat) (h : isCopyable validate c = true) :
    0x20 ≤ c ∧ c ≠ 0x22 ∧ c ≠ 0x5c ∧ (validate = true → c < 0x80) := by
  unfold isCopyable at h
  simp only [Bool.and_eq_true, bne_iff_ne, ne_eq, decide_eq_true_eq, Bool.or_eq_true,
    Bool.not_eq_true'] at h
  obtain ⟨⟨⟨h1, h2⟩, h3⟩, h4⟩ := h
  refine ⟨h3, h1, h2, fun hv => ?_⟩
  rcases h4 with h4 | h4
  · rw [hv] at h4; cases h4
  · exact h4

theorem JSONStringCopyCount_spec (validate : Bool) : ∀ (src : List Nat) (limit : Nat),
    JSONStringCopyCount validate src limit ≤ limit
    ∧ JSONStringCopyCount validate src limit ≤ src.length
    ∧ ∀ j, j < JSONStringCopyCount validate src limit →
        isCopyable validate (src.getD j 0 % 256) = true := by
  intro src
  induction src with
  | nil => intro limit; simp [JSONStringCopyCount]
  | cons c rest ih =>
    intro limit
    cases limit with
    | zero => simp [JSONStringCopyCount]
    | succ limit =>
      rw [JSONStringCopyCount]
      by_cases hc : isCopyable validate (c % 256) = true
      · rw [if_pos hc]
        obtain ⟨a, b, d⟩ := ih limit
        refine ⟨by omega, by simp only [List.length_cons]; omega, fun j hj => ?_⟩
        cases j with
        | zero => simpa using hc
        | succ j =>
          have := d j (by omega)
          simpa using this
      · rw [if_neg hc]
        exact ⟨Nat.zero_le _, Nat.zero_le _, fun j hj => absurd hj (Nat.not_lt_zero j)⟩

theorem byteAt_drop (input : Bytes) (pos j : Nat) :
    (input.drop pos).getD j 0 % 256 = byteAt input (pos + j) := by
  unfold byteAt
  rw [List.getD_eq_getElem?_getD, List.getD_eq_getElem?_getD, List.getElem?_drop]

/-- The bulk copy reads copyable bytes only, so that it stops in front of the first byte that
is not copyable. -/
theorem bulkCopy_scan (opts : Options) (q : Parser) :
    (bulkCopy opts q).input = q.input ∧ q.pos ≤ (bulkCopy opts q).pos
    ∧ (bulkCopy opts q).pos ≤ max q.pos q.size
    ∧ (bulkCopy opts q).b.calls = q.b.calls ∧ (bulkCopy opts q).nesting = q.nesting
    ∧ ∀ k, q.pos ≤ k → k < (bulkCopy opts q).pos →
        isCopyable opts.validateUtf8Strings (byteAt q.input k) = true := by
  unfold bulkCopy
  simp only
  split_ifs with hr
  · obtain ⟨a, b, c⟩ := JSONStringCopyCount_spec opts.validateUtf8Strings
      (q.input.drop q.pos) (q.size - q.pos - 15)
    refine ⟨rfl, by simp, ?_, rfl, rfl, fun k h1 h2 => ?_⟩
    · simp only [Parser.size] at *
      omega
    · simp only at h2
      have := c (k - q.pos) (by omega)
      rw [byteAt_drop, show q.pos + (k - q.pos) = k by omega] at this
      exact this
  · exact ⟨rfl, le_refl _, le_max_left _ _, rfl, rfl, fun k h1 h2 => by omega⟩

end

section
open Parser

theorem promote_frame (p : Parser) (base : Nat) :
    (p.promote base).input = p.input ∧ (p.promote base).pos = p.pos := ⟨rfl, rfl⟩

/-- What the loop of `parseString` has read when it returns: no byte read is a control byte,
the byte at which an error is raised apart. -/
theorem parseStringLoop_scan (opts : Options) (base : Nat) :
    ∀ (fuel : Nat) (large : Bool) (hs : Nat) (q : Parser),
    (∀ q', parseStringLoop opts base fuel large hs q = .ok q' →
      q'.input = q.input ∧ q.pos ≤ q'.pos ∧ specNoControl q.input q.pos q'.pos)
    ∧ (∀ f, parseStringLoop opts base fuel large hs q = .error f →
      f.state.input = q.input ∧ q.pos ≤ f.state.pos
        ∧ specNoControl q.input q.pos (f.state.pos - 1)) := by
  intro fuel
  induction fuel with
  | zero =>
    intro large hs q
    refine ⟨fun q' h => by simp [parseStringLoop, Parser.fail] at h, fun f h => ?_⟩
    simp only [parseStringLoop, Parser.fail, Except.error.injEq] at h
    subst h
    exact ⟨rfl, le_refl _, fun k h1 h2 => by simp only at h2; omega⟩
  | succ fuel ih =>
    intro large hs q
    obtain ⟨bin, bpos, _, _, _, bcopy⟩ := bulkCopy_scan opts q
    have hbulk : ∀ k, q.pos ≤ k → k < (bulkCopy opts q).pos → 0x20 ≤ byteAt q.input k :=
      fun k h1 h2 => (isCopyable_ge _ _ (bcopy k h1 h2)).1
    rw [parseStringLoop]
    simp only
    rcases getOneOrThrow_cases (bulkCopy opts q) with ⟨hlt, hc⟩ | ⟨hge, hc⟩
    swap
    · rw [hc]
      simp only
      refine ⟨fun q' h => by simp at h, fun f h => ?_⟩
      simp only [Except.error.injEq] at h
      subst h
      exact ⟨bin, bpos, fun k h1 h2 => hbulk k h1 (by simp only at h2; omega)⟩
    rw [hc]
    dsimp only
    rw [bin] at hc ⊢
    generalize hp2 : (⟨q.input, (bulkCopy opts q).pos + 1, (bulkCopy opts q).b,
      (bulkCopy opts q).nesting⟩ : Parser) = p2
    have h2 : p2.input = q.input ∧ p2.pos = (bulkCopy opts q).pos + 1 := by
      rw [← hp2]; exact ⟨rfl, rfl⟩
    generalize (!large && decide ((bulkCopy opts q).b.pos - (base + 1) > 126)) = promoted
    generalize hp3 : (if promoted = true then p2.promote base else p2) = p3
    have h3 : p3.input = q.input ∧ p3.pos = (bulkCopy opts q).pos + 1 := by
      rw [← hp3]
      split_ifs
      · exact h2
      · exact h2
    obtain ⟨h3in, h3pos⟩ := h3
    generalize (large || promoted) = large1
    clear hp2 hp3 h2 hc
    generalize hp1 : (bulkCopy opts q).pos = p1pos at *
    by_cases c1 : byteAt q.input p1pos = 0x22
    · rw [if_pos c1]
      obtain ⟨fi, fp⟩ := finishString_frame large1 base p3
      refine ⟨fun q' h => ?_, fun f h => by simp at h⟩
      simp only [Except.ok.injEq] at h
      subst h
      refine ⟨by rw [fi, h3in], by rw [fp, h3pos]; omega, fun k h1 h2 => ?_⟩
      rw [fp, h3pos] at h2
      by_cases hk : k < p1pos
      · exact hbulk k h1 hk
      · obtain rfl : k = p1pos := by omega
        omega
    rw [if_neg c1]
    by_cases c2 : byteAt q.input p1pos = 0x5c
    · rw [if_pos c2]
      rcases consume_cases p3 with ⟨hlt3, hc3⟩ | ⟨hge3, hc3⟩
      swap
      · rw [hc3]
        simp only
        refine ⟨fun q' h => by simp [Parser.fail] at h, fun f h => ?_⟩
        simp only [Parser.fail, Except.error.injEq] at h
        subst h
        exact ⟨h3in, by simp only; omega,
          fun k h1 h2 => hbulk k h1 (by simp only at h2; omega)⟩
      rw [hc3]
      simp only
      obtain ⟨e1, e2⟩ := parseEscape_scan (byteAt p3.input p3.pos) hs
        { p3 with pos := p3.pos + 1 }
      cases he : parseEscape (byteAt p3.input p3.pos) hs { p3 with pos := p3.pos + 1 } with
      | error f0 =>
        simp only
        obtain ⟨a, b, c, d⟩ := e2 f0 he
        simp only at a b c d
        refine ⟨fun q' h => by simp at h, fun f h => ?_⟩
        simp only [Except.error.injEq] at h
        subst h
        refine ⟨by rw [a, h3in], by omega, fun k h1 h2 => ?_⟩
        by_cases hk : k < p1pos
        · exact hbulk k h1 hk
        · by_cases hk2 : k = p1pos
          · rw [hk2]; omega
          · by_cases hk3 : k = p1pos + 1
            · have := c (by omega)
              rw [h3in, h3pos] at this
              rw [hk3]; exact this
            · have := d k (by omega) h2
              rw [h3in] at this
              exact this
      | ok r =>
        obtain ⟨hs1, p5⟩ := r
        simp only
        obtain ⟨a, b, c, d⟩ := e1 hs1 p5 he
        simp only at b c d
        obtain ⟨i1, i2⟩ := ih large1 hs1 p5
        have hglue : specNoControl q.input q.pos p5.pos := by
          intro k h1 h2
          by_cases hk : k < p1pos
          · exact hbulk k h1 hk
          · by_cases hk2 : k = p1pos
            · rw [hk2]; omega
            · by_cases hk3 : k = p1pos + 1
              · rw [h3in, h3pos] at a
                rw [hk3]; exact a
              · have := d k (by omega) h2
                rw [h3in] at this
                exact this
        rw [b, h3in] at i1 i2
        refine ⟨fun q' h => ?_, fun f h => ?_⟩
        · obtain ⟨x, y, z⟩ := i1 q' h
          exact ⟨x, by omega, specNoControl_trans _ _ _ _ hglue z⟩
        · obtain ⟨x, y, z⟩ := i2 f h
          refine ⟨x, by omega, fun k h1 h2 => ?_⟩
          by_cases hk : k < p5.pos
          · exact hglue k h1 hk
          · exact z k (by omega) h2
    rw [if_neg c2]
    obtain ⟨e1, e2⟩ := parseRawByte_scan opts (byteAt q.input p1pos) p3 (byteAt_lt _ _)
    cases he : parseRawByte opts (byteAt q.input p1pos) p3 with
    | error f0 =>
      simp only
      obtain ⟨a, b, c, d⟩ := e2 f0 he
      refine ⟨fun q' h => by simp at h, fun f h => ?_⟩
      simp only [Except.error.injEq] at h
      subst h
      refine ⟨by rw [a, h3in], by omega, fun k h1 h2 => ?_⟩
      by_cases hk : k < p1pos
      · exact hbulk k h1 hk
      · by_cases hk2 : k = p1pos
        · rw [hk2]; exact c (by omega)
        · have := d k (by omega) h2
          rw [h3in] at this
          exact this
    | ok p4 =>
      simp only
      obtain ⟨a, b, c, d⟩ := e1 p4 he
      obtain ⟨i1, i2⟩ := ih large1 0 p4
      have hglue : specNoControl q.input q.pos p4.pos := by
        intro k h1 h2
        by_cases hk : k < p1pos
        · exact hbulk k h1 hk
        · by_cases hk2 : k = p1pos
          · rw [hk2]; exact a
          · have := d k (by omega) h2
            rw [h3in] at this
            exact this
      rw [b, h3in] at i1 i2
      refine ⟨fun q' h => ?_, fun f h => ?_⟩
      · obtain ⟨x, y, z⟩ := i1 q' h
        exact ⟨x, by omega, specNoControl_trans _ _ _ _ hglue z⟩
      · obtain ⟨x, y, z⟩ := i2 f h
        refine ⟨x, by omega, fun k h1 h2 => ?_⟩
        by_cases hk : k < p4.pos
        · exact hglue k h1 hk
        · exact z k (by omega) h2

end

section
open Parser

theorem control_low_bits (i : Nat) (h : i < 0x20) : i &&& 0x80 = 0 := by
  interval_cases i <;> rfl

theorem parseRawByte_copyable (opts : Options) (i : Nat) (q : Parser) (hi : i < 256)
    (hc : isCopyable opts.validateUtf8Strings i = true) :
    parseRawByte opts i q = .ok (q.put i) := by
  obtain ⟨h1, _, _, h4⟩ := isCopyable_ge _ _ hc
  unfold parseRawByte
  by_cases c1 : i &&& 0x80 = 0
  · rw [if_pos c1, if_neg (by omega)]
  · rw [if_neg c1]
    have hge := high_bit_ge i hi c1
    cases hv : opts.validateUtf8Strings with
    | false => simp
    | true => have := h4 hv; omega

/-- A control byte at the position `k` that the loop of `parseString` reaches through
copyable bytes raises UnexpectedControlCharacter, with the cursor behind the byte. -/
theorem parseStringLoop_control (opts : Options) (base : Nat) :
    ∀ (fuel : Nat) (large : Bool) (hs : Nat) (q : Parser) (k : Nat),
    q.pos ≤ k → k < q.size → k - q.pos < fuel →
    (∀ j, q.pos ≤ j → j < k → isCopyable opts.validateUtf8Strings (byteAt q.input j) = true) →
    byteAt q.input k < 0x20 →
    ∃ st, parseStringLoop opts base fuel large hs q = .error ⟨.UnexpectedControlCharacter, st⟩
      ∧ st.pos = k + 1 ∧ st.input = q.input := by
  intro fuel
  induction fuel with
  | zero => intro large hs q k _ _ hf; omega
  | succ fuel ih =>
    intro large hs q k hk hlt hf hcopy hctl
    obtain ⟨bin, bpos, _, _, _, bcopy⟩ := bulkCopy_scan opts q
    have hle : (bulkCopy opts q).pos ≤ k := by
      by_contra hc
      have := (isCopyable_ge _ _ (bcopy k hk (by omega))).1
      omega
    have hlt1 : (bulkCopy opts q).pos < (bulkCopy opts q).size := by
      simp only [Parser.size, bin] at hlt ⊢
      omega
    rw [parseStringLoop]
    dsimp only
    rw [getOneOrThrow_of_lt _ hlt1]
    dsimp only
    rw [bin]
    generalize hp2 : (⟨q.input, (bulkCopy opts q).pos + 1, (bulkCopy opts q).b,
      (bulkCopy opts q).nesting⟩ : Parser) = p2
    have h2 : p2.input = q.input ∧ p2.pos = (bulkCopy opts q).pos + 1 := by
      rw [← hp2]; exact ⟨rfl, rfl⟩
    generalize (!large && decide ((bulkCopy opts q).b.pos - (base + 1) > 126)) = promoted
    generalize hp3 : (if promoted = true then p2.promote base else p2) = p3
    have h3 : p3.input = q.input ∧ p3.pos = (bulkCopy opts q).pos + 1 := by
      rw [← hp3]
      split_ifs
      · exact h2
      · exact h2
    obtain ⟨h3in, h3pos⟩ := h3
    generalize (large || promoted) = large1
    clear hp2 hp3 h2
    by_cases hat : (bulkCopy opts q).pos = k
    · rw [hat] at h3pos ⊢
      have c1 : ¬ byteAt q.input k = 0x22 := by omega
      have c2 : ¬ byteAt q.input k = 0x5c := by omega
      rw [if_neg c1, if_neg c2]
      simp only [parseRawByte, control_low_bits _ hctl, hctl, if_true, Parser.fail]
      exact ⟨p3, rfl, h3pos, h3in⟩
    · have hcp := hcopy (bulkCopy opts q).pos bpos (by omega)
      obtain ⟨_, c1, c2, _⟩ := isCopyable_ge _ _ hcp
      rw [if_neg c1, if_neg c2, parseRawByte_copyable opts _ p3 (byteAt_lt _ _) hcp]
      dsimp only
      obtain ⟨st, e1, e2, e3⟩ := ih large1 0 (p3.put (byteAt q.input (bulkCopy opts q).pos)) k
        (by simp only [Parser.put]; omega)
        (by simp only [Parser.put, Parser.size, h3in] at hlt ⊢; exact hlt)
        (by simp only [Parser.put]; omega)
        (fun j h1 h2 => by
          simp only [Parser.put, h3in] at h1 ⊢
          exact hcopy j (by omega) h2)
        (by simp only [Parser.put, h3in]; exact hctl)
      exact ⟨st, e1, e2, by rw [e3]; simp only [Parser.put, h3in]⟩

end

section
open Parser

theorem relocate_size (input T : Bytes) (d : Nat) (hT : input.drop d = T) (q : Parser)
    (hq : q.input = T) :
    (q.relocate input d).size - (q.relocate input d).pos = q.size - q.pos := by
  have : T.length = input.length - d := by rw [← hT, List.length_drop]
  simp only [relocate, Parser.size, hq]
  omega

theorem relocate_lt (input T : Bytes) (d : Nat) (hT : input.drop d = T) (q : Parser)
    (hq : q.input = T) :
    (q.relocate input d).pos < (q.relocate input d).size ↔ q.pos < q.size := by
  have : T.length = input.length - d := by rw [← hT, List.length_drop]
  simp only [relocate, Parser.size, hq]
  omega

theorem relocate_byte (input T : Bytes) (d : Nat) (hT : input.drop d = T) (k : Nat) :
    byteAt input (d + k) = byteAt T k := by
  rw [← hT, ← byteAt_drop]
  rfl

theorem relocate_bytesFrom (input T : Bytes) (d : Nat) (hT : input.drop d = T) :
    ∀ (n k : Nat), bytesFrom input (d + k) n = bytesFrom T k n := by
  intro n
  induction n with
  | zero => intro k; rfl
  | succ n ih =>
    intro k
    rw [bytesFrom, bytesFrom, relocate_byte input T d hT k, ← ih (k + 1)]
    rfl

theorem consume_relocate (input T : Bytes) (d : Nat) (hT : input.drop d = T) (q : Parser)
    (hq : q.input = T) :
    (q.relocate input d).consume = (q.consume.1, q.consume.2.relocate input d) := by
  have hlt := relocate_lt input T d hT q hq
  rcases consume_cases q with ⟨h, hc⟩ | ⟨h, hc⟩
  · rw [hc, consume_of_lt _ (hlt.mpr h)]
    simp only [relocate, relocate_byte input T d hT, hq, Nat.add_assoc]
  · have h2 : (q.relocate input d).size ≤ (q.relocate input d).pos := by
      by_contra hn
      have := hlt.mp (by omega)
      omega
    rcases consume_cases (q.relocate input d) with ⟨h3, _⟩ | ⟨_, hc2⟩
    · omega
    · rw [hc, hc2]

theorem getOneOrThrow_relocate (input T : Bytes) (d : Nat) (hT : input.drop d = T)
    (q : Parser) (hq : q.input = T) :
    (∀ c q1, q.getOneOrThrow = .ok (c, q1) →
      (q.relocate input d).getOneOrThrow = .ok (c, q1.relocate input d))
    ∧ (∀ f, q.getOneOrThrow = .error f →
      (q.relocate input d).getOneOrThrow = .error ⟨f.error, f.state.relocate input d⟩) := by
  unfold getOneOrThrow
  rw [consume_relocate input T d hT q hq]
  cases hc : q.consume with
  | mk o q1 =>
    cases o with
    | none =>
      refine ⟨fun c q1 h => by simp [Parser.fail] at h, fun f h => ?_⟩
      simp only [Parser.fail, Except.error.injEq] at h ⊢
      subst h
      rfl
    | some c =>
      refine ⟨fun c1 q2 h => ?_, fun f h => by simp at h⟩
      simp only [Except.ok.injEq, Prod.mk.injEq] at h ⊢
      obtain ⟨rfl, rfl⟩ := h
      exact ⟨rfl, rfl⟩

theorem bulkCopy_relocate (opts : Options) (input T : Bytes) (d : Nat)
    (hT : input.drop d = T) (q : Parser) (hq : q.input = T) :
    bulkCopy opts (q.relocate input d) = (bulkCopy opts q).relocate input d := by
  have hsz := relocate_size input T d hT q hq
  unfold bulkCopy
  simp only [hsz]
  have hdrop : (q.relocate input d).input.drop (q.relocate input d).pos
      = q.input.drop q.pos := by
    simp only [relocate, hq, ← hT, List.drop_drop]
  have hbytes : ∀ n, bytesFrom (q.relocate input d).input (q.relocate input d).pos n
      = bytesFrom q.input q.pos n := by
    intro n
    simp only [relocate, hq]
    exact relocate_bytesFrom input T d hT n q.pos
  rw [hdrop, hbytes]
  split_ifs <;> first | rfl | simp only [relocate, Nat.add_assoc]

theorem parseHex_relocate (input T : Bytes) (d : Nat) (hT : input.drop d = T) :
    ∀ (k v : Nat) (q : Parser), q.input = T →
    (∀ v1 q1, parseHex k v q = .ok (v1, q1) →
      parseHex k v (q.relocate input d) = .ok (v1, q1.relocate input d))
    ∧ (∀ f, parseHex k v q = .error f →
      parseHex k v (q.relocate input d) = .error ⟨f.error, f.state.relocate input d⟩) := by
  intro k
  induction k with
  | zero =>
    intro v q _
    refine ⟨fun v1 q1 h => ?_, fun f h => by simp [parseHex] at h⟩
    simp only [parseHex, Except.ok.injEq, Prod.mk.injEq] at h ⊢
    obtain ⟨rfl, rfl⟩ := h
    exact ⟨rfl, rfl⟩
  | succ k ih =>
    intro v q hq
    rw [parseHex, parseHex, consume_relocate input T d hT q hq]
    rcases consume_cases q with ⟨h, hc⟩ | ⟨h, hc⟩
    · rw [hc]
      dsimp only
      have hin : ({ q with pos := q.pos + 1 } : Parser).input = T := hq
      split_ifs
      · exact ih _ _ hin
      · exact ih _ _ hin
      · exact ih _ _ hin
      · refine ⟨fun v1 q1 h => by simp [Parser.fail] at h, fun f h => ?_⟩
        simp only [Parser.fail, Except.error.injEq] at h ⊢
        subst h
        rfl
    · rw [hc]
      dsimp only
      refine ⟨fun v1 q1 h => by simp [Parser.fail] at h, fun f h => ?_⟩
      simp only [Parser.fail, Except.error.injEq] at h ⊢
      subst h
      rfl

theorem parseFollow_relocate (input T : Bytes) (d : Nat) (hT : input.drop d = T) :
    ∀ (k : Nat) (q : Parser), q.input = T →
    parseFollow k (q.relocate input d) = relocateResult input d (parseFollow k q) := by
  intro k
  induction k with
  | zero => intro q _; rfl
  | succ k ih =>
    intro q hq
    obtain ⟨g1, g2⟩ := getOneOrThrow_relocate input T d hT q hq
    rw [parseFollow, parseFollow]
    cases hg : q.getOneOrThrow with
    | error f => rw [g2 f hg]; rfl
    | ok r =>
      obtain ⟨c, q1⟩ := r
      rw [g1 c q1 hg]
      dsimp only
      have hin : q1.input = T := by rw [(getOneOrThrow_ok q q1 c hg).1, hq]
      split_ifs
      · rfl
      · exact ih (q1.put c) hin

end

section
open Parser

theorem emitUnicode_relocate (input : Bytes) (d v hs : Nat) (q : Parser) :
    emitUnicode v hs (q.relocate input d)
      = ((emitUnicode v hs q).1, (emitUnicode v hs q).2.relocate input d) := by
  unfold emitUnicode
  by_cases c1 : v < 0x80
  · rw [if_pos c1, if_pos c1]
    simp only [relocate, Parser.put, Builder.push]
  · by_cases c2 : v < 0x800
    · rw [if_neg c1, if_pos c2, if_neg c1, if_pos c2]
      simp only [relocate, Parser.put, Builder.push]
    · by_cases c3 : v ≥ 0xdc00 ∧ v < 0xe000 ∧ hs ≠ 0
      · rw [if_neg c1, if_neg c2, if_pos c3, if_neg c1, if_neg c2, if_pos c3]
        simp only [relocate, Parser.put, Builder.push, Builder.rewind]
      · rw [if_neg c1, if_neg c2, if_neg c3, if_neg c1, if_neg c2, if_neg c3]
        simp only [relocate, Parser.put, Builder.push]

theorem parseEscape_relocate (input T : Bytes) (d : Nat) (hT : input.drop d = T)
    (i hs : Nat) (q : Parser) (hq : q.input = T) :
    (∀ hs1 q1, parseEscape i hs q = .ok (hs1, q1) →
      parseEscape i hs (q.relocate input d) = .ok (hs1, q1.relocate input d))
    ∧ (∀ f, parseEscape i hs q = .error f →
      parseEscape i hs (q.relocate input d) = .error ⟨f.error, f.state.relocate input d⟩) := by
  have hput : ∀ (x : Nat),
      (∀ hs1 q1, (Except.ok (0, q.put x) : Except Failure (Nat × Parser)) = .ok (hs1, q1) →
        (Except.ok (0, (q.relocate input d).put x) : Except Failure (Nat × Parser))
          = .ok (hs1, q1.relocate input d))
      ∧ (∀ f, (Except.ok (0, q.put x) : Except Failure (Nat × Parser)) = .error f →
        (Except.ok (0, (q.relocate input d).put x) : Except Failure (Nat × Parser))
          = .error ⟨f.error, f.state.relocate input d⟩) := by
    intro x
    refine ⟨fun hs1 q1 h => ?_, fun f h => by simp at h⟩
    simp only [Except.ok.injEq, Prod.mk.injEq] at h ⊢
    obtain ⟨rfl, rfl⟩ := h
    exact ⟨rfl, rfl⟩
  unfold parseEscape
  by_cases c1 : i = 0x22 ∨ i = 0x2f ∨ i = 0x5c
  · rw [if_pos c1, if_pos c1]; exact hput _
  rw [if_neg c1, if_neg c1]
  by_cases c2 : i = 0x62
  · rw [if_pos c2, if_pos c2]; exact hput _
  rw [if_neg c2, if_neg c2]
  by_cases c3 : i = 0x66
  · rw [if_pos c3, if_pos c3]; exact hput _
  rw [if_neg c3, if_neg c3]
  by_cases c4 : i = 0x6e
  · rw [if_pos c4, if_pos c4]; exact hput _
  rw [if_neg c4, if_neg c4]
  by_cases c5 : i = 0x72
  · rw [if_pos c5, if_pos c5]; exact hput _
  rw [if_neg c5, if_neg c5]
  by_cases c6 : i = 0x74
  · rw [if_pos c6, if_pos c6]; exact hput _
  rw [if_neg c6, if_neg c6]
  by_cases c7 : i = 0x75
  · rw [if_pos c7, if_pos c7]
    obtain ⟨g1, g2⟩ := parseHex_relocate input T d hT 4 0 q hq
    cases hh : parseHex 4 0 q with
    | error f0 =>
      rw [g2 f0 hh]
      refine ⟨fun hs1 q1 h => by simp at h, fun f h => ?_⟩
      simp only [Except.error.injEq] at h ⊢
      subst h
      rfl
    | ok r =>
      obtain ⟨v, p1⟩ := r
      rw [g1 v p1 hh]
      dsimp only
      rw [emitUnicode_relocate]
      refine ⟨fun hs1 q1 h => ?_, fun f h => by simp at h⟩
      simp only [Except.ok.injEq] at h ⊢
      rw [h]
  · rw [if_neg c7, if_neg c7]
    refine ⟨fun hs1 q1 h => by simp [Parser.fail] at h, fun f h => ?_⟩
    simp only [Parser.fail, Except.error.injEq] at h ⊢
    subst h
    rfl

theorem parseRawByte_relocate (opts : Options) (input T : Bytes) (d : Nat)
    (hT : input.drop d = T) (i : Nat) (q : Parser) (hq : q.input = T) :
    parseRawByte opts i (q.relocate input d)
      = relocateResult input d (parseRawByte opts i q) := by
  have hf : ∀ k, parseFollow k ((q.relocate input d).put i)
      = relocateResult input d (parseFollow k (q.put i)) :=
    fun k => parseFollow_relocate input T d hT k (q.put i) hq
  unfold parseRawByte
  split_ifs <;> first | rfl | exact hf _

theorem finishString_relocate (input : Bytes) (d : Nat) (large : Bool) (base : Nat)
    (q : Parser) :
    finishString large base (q.relocate input d)
      = (finishString large base q).relocate input d := by
  unfold finishString
  split_ifs <;> rfl

theorem parseStringLoop_relocate (opts : Options) (base : Nat) (input T : Bytes) (d : Nat)
    (hT : input.drop d = T) :
    ∀ (fuel : Nat) (large : Bool) (hs : Nat) (q : Parser), q.input = T →
    parseStringLoop opts base fuel large hs (q.relocate input d)
      = relocateResult input d (parseStringLoop opts base fuel large hs q) := by
  intro fuel
  induction fuel with
  | zero => intro large hs q _; rfl
  | succ fuel ih =>
    intro large hs q hq
    have hb := bulkCopy_frame opts q
    have hq1 : (bulkCopy opts q).input = T := by rw [hb.1, hq]
    obtain ⟨g1, g2⟩ := getOneOrThrow_relocate input T d hT (bulkCopy opts q) hq1
    rw [parseStringLoop, parseStringLoop, bulkCopy_relocate opts input T d hT q hq]
    cases hg : (bulkCopy opts q).getOneOrThrow with
    | error f => rw [g2 f hg]; rfl
    | ok r =>
      obtain ⟨i, p2⟩ := r
      rw [g1 i p2 hg]
      dsimp only
      have hq2 : p2.input = T := by rw [(getOneOrThrow_ok _ p2 i hg).1, hq1]
      have hb2 : (p2.relocate input d).b.pos = p2.b.pos := rfl
      rw [hb2]
      generalize (!large && decide (p2.b.pos - (base + 1) > 126)) = promoted
      have hp3 : (if promoted = true then (p2.relocate input d).promote base
            else p2.relocate input d)
          = (if promoted = true then p2.promote base else p2).relocate input d := by
        split_ifs <;> rfl
      rw [hp3]
      generalize hq3 : (if promoted = true then p2.promote base else p2) = p3
      have hq3in : p3.input = T := by
        rw [← hq3]
        split_ifs
        · exact hq2
        · exact hq2
      generalize (large || promoted) = large1
      by_cases c1 : i = 0x22
      · rw [if_pos c1, if_pos c1, finishString_relocate]
        rfl
      rw [if_neg c1, if_neg c1]
      by_cases c2 : i = 0x5c
      · rw [if_pos c2, if_pos c2, consume_relocate input T d hT p3 hq3in]
        cases hc : p3.consume with
        | mk o p4 =>
          have hq4 : p4.input = T := by
            have := (consume_frame p3).1
            rw [hc] at this
            rw [this, hq3in]
          cases o with
          | none => rfl
          | some i1 =>
            dsimp only
            obtain ⟨e1, e2⟩ := parseEscape_relocate input T d hT i1 hs p4 hq4
            cases he : parseEscape i1 hs p4 with
            | error f => rw [e2 f he]; rfl
            | ok r2 =>
              obtain ⟨hs1, p5⟩ := r2
              rw [e1 hs1 p5 he]
              dsimp only
              exact ih large1 hs1 p5 (by rw [(parseEscape_frame i1 hs hs1 p4 p5 he).1, hq4])
      rw [if_neg c2, if_neg c2, parseRawByte_relocate opts input T d hT i p3 hq3in]
      cases he : parseRawByte opts i p3 with
      | error f => rfl
      | ok p4 =>
        simp only [relocateResult]
        exact ih large1 0 p4 (by rw [(parseRawByte_ok opts i p3 p4 he).1, hq3in])

theorem parseString_relocate (opts : Options) (input T : Bytes) (d : Nat)
    (hT : input.drop d = T) (q : Parser) (hq : q.input = T) :
    Parser.parseString opts (q.relocate input d)
      = relocateResult input d (Parser.parseString opts q) := by
  unfold Parser.parseString
  have hsz := relocate_size input T d hT q hq
  have hb : (q.relocate input d).b.pos = q.b.pos := rfl
  rw [hsz, hb]
  exact parseStringLoop_relocate opts q.b.pos input T d hT _ false 0 (q.put 0x40) hq

end

section
open Parser

/-- C28: let the input of the VJSON parser hold `s:` followed by the bytes X at the cursor
behind the opening quote (X is the body of the string, its closing quote and what follows
it), and let a plain parser with the same Builder and nesting depth hold X at its cursor.
Then both results are the result of parseString on the input X itself, relocated to the two
inputs: the same error or the same success, the same bytes and calls in the Builder, and the
cursor at the same offset in X, which lies two bytes further in the input of the VJSON parser:
the prefix is dropped and the rest is parsed as a regular String. In the input of the VJSON
parser itself the result is that of the plain parseString called two bytes further, with the
same final cursor. -/
theorem vjson_string_refines (opts : Options) (parseDate : Bytes → Option Int)
    (p p' : Parser) (X : Bytes)
    (hs : p.input.drop p.pos = 0x73 :: 0x3a :: X)
    (hx : p'.input.drop p'.pos = X) (hb : p'.b = p.b) (hn : p'.nesting = p.nesting) :
    VJsonParser.parseString opts parseDate p
        = relocateResult p.input (p.pos + 2) (Parser.parseString opts ⟨X, 0, p.b, p.nesting⟩)
    ∧ Parser.parseString opts p'
        = relocateResult p'.input p'.pos (Parser.parseString opts ⟨X, 0, p.b, p.nesting⟩)
    ∧ VJsonParser.parseString opts parseDate p
        = Parser.parseString opts ⟨p.input, p.pos + 2, p.b, p.nesting⟩ := by
  obtain ⟨h0, b0, d0⟩ := byteAt_of_drop p.input p.pos 0x73 (0x3a :: X) hs
  obtain ⟨h1, b1, d1⟩ := byteAt_of_drop p.input (p.pos + 1) 0x3a X d0
  have hsz : ¬ p.size - p.pos < 2 := by
    simp only [Parser.size]
    omega
  have hcolon : ¬ byteAt p.input (p.pos + 1) ≠ 0x3a := by
    rw [b1]; decide
  have htype : byteAt p.input p.pos = 0x73 := by rw [b0]
  have hdef : VJsonParser.parseString opts parseDate p
      = Parser.parseString opts ⟨p.input, p.pos + 2, p.b, p.nesting⟩ := by
    unfold VJsonParser.parseString
    rw [if_neg hsz]
    dsimp only
    rw [if_neg hcolon, if_pos htype]
  refine ⟨?_, ?_, hdef⟩
  · rw [hdef]
    exact parseString_relocate opts p.input X (p.pos + 2) d1 ⟨X, 0, p.b, p.nesting⟩ rfl
  · have e : p' = (⟨X, 0, p.b, p.nesting⟩ : Parser).relocate p'.input p'.pos := by
      cases p' with
      | mk input pos b nesting =>
        simp only at hb hn
        simp only [relocate, hb, hn, Nat.add_zero]
    rw [e]
    exact parseString_relocate opts p'.input X p'.pos hx ⟨X, 0, p.b, p.nesting⟩ rfl

/-- The theorem of C28 on the input `"s:hello"` of the VJSON parser and the input `"hello"`
of the plain parser: both yield the String `45 68 65 6c 6c 6f`, and the cursors end behind
the closing quotes, at the positions 9 and 7. -/
theorem vjson_string_refines_witness :
    (VJsonParser.parseString {} (fun _ => none)
        ⟨[0x22, 0x73, 0x3a, 0x68, 0x65, 0x6c, 0x6c, 0x6f, 0x22], 1, ⟨[], []⟩, 0⟩
      = relocateResult [0x22, 0x73, 0x3a, 0x68, 0x65, 0x6c, 0x6c, 0x6f, 0x22] (1 + 2)
          (Parser.parseString {} ⟨[0x68, 0x65, 0x6c, 0x6c, 0x6f, 0x22], 0, ⟨[], []⟩, 0⟩)
      ∧ Parser.parseString {} ⟨[0x22, 0x68, 0x65, 0x6c, 0x6c, 0x6f, 0x22], 1, ⟨[], []⟩, 0⟩
        = relocateResult [0x22, 0x68, 0x65, 0x6c, 0x6c, 0x6f, 0x22] 1
            (Parser.parseString {} ⟨[0x68, 0x65, 0x6c, 0x6c, 0x6f, 0x22], 0, ⟨[], []⟩, 0⟩))
    ∧ VJsonParser.parseString {} (fun _ => none)
        ⟨[0x22, 0x73, 0x3a, 0x68, 0x65, 0x6c, 0x6c, 0x6f, 0x22], 1, ⟨[], []⟩, 0⟩
      = .ok ⟨[0x22, 0x73, 0x3a, 0x68, 0x65, 0x6c, 0x6c, 0x6f, 0x22], 9,
          ⟨[0x45, 0x68, 0x65, 0x6c, 0x6c, 0x6f], []⟩, 0⟩
    ∧ Parser.parseString {} ⟨[0x22, 0x68, 0x65, 0x6c, 0x6c, 0x6f, 0x22], 1, ⟨[], []⟩, 0⟩
      = .ok ⟨[0x22, 0x68, 0x65, 0x6c, 0x6c, 0x6f, 0x22], 7,
          ⟨[0x45, 0x68, 0x65, 0x6c, 0x6c, 0x6f], []⟩, 0⟩ :=
  ⟨⟨(vjson_string_refines {} (fun _ => none)
      ⟨[0x22, 0x73, 0x3a, 0x68, 0x65, 0x6c, 0x6c, 0x6f, 0x22], 1, ⟨[], []⟩, 0⟩
      ⟨[0x22, 0x68, 0x65, 0x6c, 0x6c, 0x6f, 0x22], 1, ⟨[], []⟩, 0⟩
      [0x68, 0x65, 0x6c, 0x6c, 0x6f, 0x22] rfl rfl rfl rfl).1,
    (vjson_string_refines {} (fun _ => none)
      ⟨[0x22, 0x73, 0x3a, 0x68, 0x65, 0x6c, 0x6c, 0x6f, 0x22], 1, ⟨[], []⟩, 0⟩
      ⟨[0x22, 0x68, 0x65, 0x6c, 0x6c, 0x6f, 0x22], 1, ⟨[], []⟩, 0⟩
      [0x68, 0x65, 0x6c, 0x6c, 0x6f, 0x22] rfl rfl rfl rfl).2.1⟩,
    rfl, rfl⟩

end

section
open Parser

theorem skipWhiteSpace_at (p : Parser) (h : p.pos < p.size)
    (hb : isWhiteSpace (byteAt p.input p.pos) = false) :
    p.skipWhiteSpace = .ok (byteAt p.input p.pos, p) := by
  have h1 : ¬ p.pos ≥ p.size := by omega
  simp [skipWhiteSpace, h1, hb]

theorem skipWhiteSpaceLoop_byte : ∀ (src : List Nat) (p q : Parser) (c : Nat),
    p.input.drop p.pos = src → skipWhiteSpaceLoop src p = .ok (c, q) →
    c = byteAt q.input q.pos ∧ isWhiteSpace c = false := by
  intro src
  induction src with
  | nil => intro p q c _ h; simp [skipWhiteSpaceLoop, Parser.fail] at h
  | cons x rest ih =>
    intro p q c hd h
    obtain ⟨hlt, hb, hrest⟩ := byteAt_of_drop p.input p.pos x rest hd
    rw [skipWhiteSpaceLoop] at h
    by_cases hw : isWhiteSpace (x % 256) = true
    · simp only [hw, Bool.not_true, Bool.false_eq_true, if_false] at h
      exact ih p.advance q c hrest h
    · simp only [hw, Bool.not_false, if_true, Except.ok.injEq, Prod.mk.injEq] at h
      obtain ⟨rfl, rfl⟩ := h
      exact ⟨hb.symm, by simpa using hw⟩

/-- The byte that `skipWhiteSpace` returns is the byte at the cursor, and no whitespace. -/
theorem skipWhiteSpace_byte (p q : Parser) (c : Nat) (h : p.skipWhiteSpace = .ok (c, q)) :
    c = byteAt q.input q.pos ∧ isWhiteSpace c = false := by
  rcases skipWhiteSpace_cases p with ⟨_, e⟩ | ⟨_, hb, e⟩ | ⟨_, _, _, e⟩ | ⟨_, _, hb, e⟩
      | ⟨_, _, n, e⟩
  · rw [e] at h; simp [Parser.fail] at h
  · rw [e] at h
    simp only [Except.ok.injEq, Prod.mk.injEq] at h
    obtain ⟨rfl, rfl⟩ := h
    exact ⟨rfl, hb⟩
  · rw [e] at h; simp [Parser.fail] at h
  · rw [e] at h
    simp only [Except.ok.injEq, Prod.mk.injEq] at h
    obtain ⟨rfl, rfl⟩ := h
    exact ⟨rfl, hb⟩
  · rw [e] at h
    exact skipWhiteSpaceLoop_byte _ (⟨p.input, p.pos + n, p.b, p.nesting⟩ : Parser) q c rfl h

theorem specDigit_not_ws (c : Nat) (h : specDigit c) : isWhiteSpace c = false := by
  unfold specDigit at h
  unfold isWhiteSpace
  have h1 : c ≠ 0x20 := by omega
  have h2 : c ≠ 0x09 := by omega
  have h3 : c ≠ 0x0a := by omega
  have h4 : c ≠ 0x0d := by omega
  simp [h1, h2, h3, h4]

/-- The function parseNumber on a token with a leading zero: the zero alone is the number,
and the cursor stops at the digit behind it. -/
theorem parseNumber_leading_zero (finite : DoubleExpr → Bool) (p : Parser) (e : Nat)
    (c : BuilderCall) (h : specLeadingZero p = some (e, c)) :
    parseNumber finite p = .ok ⟨p.input, e, ⟨p.b.buf, p.b.calls ++ [c]⟩, p.nesting⟩
    ∧ e < p.size ∧ specDigit (byteAt p.input e) ∧ p.pos < e
    ∧ (c = .addUInt 0 ∨ c = .addInt 0) := by
  unfold specLeadingZero at h
  by_cases c1 : byteAt p.input p.pos = 0x30 ∧ p.pos + 1 < p.size
      ∧ specDigit (byteAt p.input (p.pos + 1))
  · rw [if_pos c1] at h
    simp only [Option.some.injEq, Prod.mk.injEq] at h
    obtain ⟨rfl, rfl⟩ := h
    obtain ⟨hz, hlt, hd⟩ := c1
    refine ⟨?_, hlt, hd, by omega, Or.inl rfl⟩
    have hd' := hd
    unfold specDigit at hd'
    have hq1 : ({ p with pos := p.pos + 1 } : Parser).pos
        < ({ p with pos := p.pos + 1 } : Parser).size := hlt
    have n1 : ¬ (byteAt p.input (p.pos + 1) = 0x2e) := by omega
    have n2 : ¬ (byteAt p.input (p.pos + 1) = 0x65) := by omega
    have n3 : ¬ (byteAt p.input (p.pos + 1) = 0x45) := by omega
    simp [parseNumber, consume_of_lt p (show p.pos < p.size by omega), hz,
      parseNumberAfterDigits, consume_of_lt _ hq1, n1, n2, n3, parseNumberInteger,
      Parser.unconsume, Parser.emit, Builder.call]
  · rw [if_neg c1] at h
    by_cases c2 : byteAt p.input p.pos = 0x2d ∧ byteAt p.input (p.pos + 1) = 0x30
        ∧ p.pos + 2 < p.size ∧ specDigit (byteAt p.input (p.pos + 2))
    · rw [if_pos c2] at h
      simp only [Option.some.injEq, Prod.mk.injEq] at h
      obtain ⟨rfl, rfl⟩ := h
      obtain ⟨hm, hz, hlt, hd⟩ := c2
      refine ⟨?_, hlt, hd, by omega, Or.inr rfl⟩
      have hd' := hd
      unfold specDigit at hd'
      have hq1 : ({ p with pos := p.pos + 1 } : Parser).pos
          < ({ p with pos := p.pos + 1 } : Parser).size := by
        simp only [Parser.size] at hlt ⊢
        omega
      have hq2 : ({ p with pos := p.pos + 1 + 1 } : Parser).pos
          < ({ p with pos := p.pos + 1 + 1 } : Parser).size := hlt
      have e2 : p.pos + 1 + 1 = p.pos + 2 := rfl
      have n1 : ¬ (byteAt p.input (p.pos + 1 + 1) = 0x2e) := by
        rw [e2]; clear hq1 hq2; omega
      have n2 : ¬ (byteAt p.input (p.pos + 1 + 1) = 0x65) := by
        rw [e2]; clear hq1 hq2; omega
      have n3 : ¬ (byteAt p.input (p.pos + 1 + 1) = 0x45) := by
        rw [e2]; clear hq1 hq2; omega
      have hneg : -(toInt64 0) = 0 := by decide
      have hmax : (0 : Nat) ≤ INT64_MAX := by decide
      simp [parseNumber, consume_of_lt p (show p.pos < p.size by omega), hm,
        getOneOrThrow_of_lt _ hq1, hz, parseNumberAfterDigits, consume_of_lt _ hq2, n1, n2, n3,
        parseNumberInteger, Parser.unconsume, Parser.emit, Builder.call, hneg, hmax]
    · rw [if_neg c2] at h
      cases h

end

section
open Parser

/-- The function parseJson in front of a number token with a leading zero, which may stand
behind whitespace: the value is the zero, and the cursor stops at the digit behind it. -/
theorem parseJsonF_leading_zero (env : ParseEnv) (fuel : Nat) (p p1 : Parser) (c0 e : Nat)
    (c : BuilderCall) (hsk : p.skipWhiteSpace = .ok (c0, p1))
    (hz : specLeadingZero p1 = some (e, c)) :
    parseJsonF env (fuel + 1) p
        = some (.ok ⟨p.input, e, ⟨p.b.buf, p.b.calls ++ [c]⟩, p.nesting⟩)
    ∧ e < p.size ∧ specDigit (byteAt p.input e) ∧ p.pos < e := by
  obtain ⟨hin, hb, hn, hpos, hlt⟩ := skipWhiteSpace_ok p p1 c0 hsk
  obtain ⟨hnum, h1, h2, h3, _⟩ := parseNumber_leading_zero env.finite p1 e c hz
  have hbyte : byteAt p1.input p1.pos = 0x30 ∨ byteAt p1.input p1.pos = 0x2d := by
    unfold specLeadingZero at hz
    split_ifs at hz with a b
    · exact Or.inl a.1
    · exact Or.inr b.1
  have hun : ({ p1 with pos := p1.pos + 1 } : Parser).unconsume = p1 := by
    simp [Parser.unconsume]
  refine ⟨?_, by rw [Parser.size, ← hin]; exact h1, by rw [← hin]; exact h2, by omega⟩
  rw [parseJsonF_succ, hsk]
  dsimp only
  rw [consume_of_lt p1 hlt]
  dsimp only
  rcases hbyte with hb0 | hb0 <;>
    (simp only [hb0, hun, hnum, Nat.reduceEqDiff, if_false]
     rw [hin, hb, hn])

/-- C25: a number token that starts with `0`, optionally behind `-`, immediately followed by
another digit is read as the number 0 alone: parseNumber emits the zero and leaves the cursor
at the digit behind it, which is never absorbed. That digit then raises ParseError: at the
top level with multi = false (for a parser whose Builder accepts a value), as an element of an
array, and as the value of a member of an object. The token may stand behind whitespace. -/
theorem parseNumber_leading_zero_rejected (env : ParseEnv) (p p1 : Parser) (c0 e : Nat)
    (c : BuilderCall) (hz : specLeadingZero p1 = some (e, c)) :
    (parseNumber env.finite p1 = .ok ⟨p1.input, e, ⟨p1.b.buf, p1.b.calls ++ [c]⟩, p1.nesting⟩
      ∧ e < p1.size ∧ specDigit (byteAt p1.input e) ∧ (c = .addUInt 0 ∨ c = .addInt 0))
    ∧ (∀ r p0, beginValue env (skipBOM p) = .ok (r, p0) →
        p0.skipWhiteSpace = .ok (c0, p1) →
        ∃ st, parseInternal env false p = some (.error ⟨.ParseError, st⟩))
    ∧ (∀ fuel, (p.emit .reportAdd).skipWhiteSpace = .ok (c0, p1) →
        ∃ st, parseArrayLoopF env (fuel + 2) p = some (.error ⟨.ParseError, st⟩))
    ∧ (∀ fuel p2 p3 p4 excluded,
        Parser.parseString env.options (p.advance.emit .reportAdd) = .ok p2 →
        translateKey env.options (p.advance.emit .reportAdd).b.pos p2 = .ok (excluded, p3) →
        p3.skipWhiteSpace = .ok (0x3a, p4) →
        p4.advance.skipWhiteSpace = .ok (c0, p1) →
        ∃ st, parseObjectLoopF env (fuel + 2) 0x22 p = some (.error ⟨.ParseError, st⟩)) := by
  obtain ⟨hnum, h1, h2, _, h4⟩ := parseNumber_leading_zero env.finite p1 e c hz
  have hd : isWhiteSpace (byteAt p1.input e) = false := specDigit_not_ws _ h2
  have hd2 := h2
  unfold specDigit at hd2
  refine ⟨⟨hnum, h1, h2, h4⟩, ?_, ?_, ?_⟩
  · intro r p0 hbv hsk
    obtain ⟨hj, g1, g2, g3⟩ := parseJsonF_leading_zero env (3 * (p0.size - p0.pos) + 1) p0 p1
      c0 e c hsk hz
    have hj2 : parseJson env p0
        = some (.ok ⟨p0.input, e, ⟨p0.b.buf, p0.b.calls ++ [c]⟩, p0.nesting⟩) := hj
    obtain ⟨t1, _, _, t4, t5, t6⟩ := skipTrailing_spec
      ((⟨p0.input, e, ⟨p0.b.buf, p0.b.calls ++ [c]⟩, p0.nesting⟩ : Parser).input.drop e)
      ⟨p0.input, e, ⟨p0.b.buf, p0.b.calls ++ [c]⟩, p0.nesting⟩ rfl
    have hne : (skipTrailing (List.drop e p0.input)
        ⟨p0.input, e, ⟨p0.b.buf, p0.b.calls ++ [c]⟩, p0.nesting⟩).pos
        ≠ (skipTrailing (List.drop e p0.input)
        ⟨p0.input, e, ⟨p0.b.buf, p0.b.calls ++ [c]⟩, p0.nesting⟩).size := by
      simp only at t1 t4 t5 t6
      have hsz : (skipTrailing (List.drop e p0.input)
          ⟨p0.input, e, ⟨p0.b.buf, p0.b.calls ++ [c]⟩, p0.nesting⟩).size = p0.size := by
        rw [Parser.size, t1]; rfl
      rw [hsz]
      have hposeq : (skipTrailing (List.drop e p0.input)
          ⟨p0.input, e, ⟨p0.b.buf, p0.b.calls ++ [c]⟩, p0.nesting⟩).pos = e := by
        by_contra hc
        have := t5 e (le_refl _) (by omega)
        rw [specDigit_not_ws _ g2] at this
        cases this
      omega
    unfold parseInternal
    rw [parseInternalLoop, hbv]
    dsimp only
    rw [hj2]
    dsimp only
    simp only [hne, ne_eq, not_false_eq_true, and_true, Bool.not_false, if_true, Parser.fail]
    exact ⟨_, rfl⟩
  · intro fuel hsk
    obtain ⟨hj, g1, g2, g3⟩ := parseJsonF_leading_zero env fuel (p.emit .reportAdd) p1 c0 e c
      hsk hz
    have hat := skipWhiteSpace_at
      (⟨(p.emit .reportAdd).input, e,
        ⟨(p.emit .reportAdd).b.buf, (p.emit .reportAdd).b.calls ++ [c]⟩,
        (p.emit .reportAdd).nesting⟩ : Parser) g1
      (specDigit_not_ws _ g2)
    have g2' := g2
    unfold specDigit at g2'
    rw [parseArrayLoopF, hj]
    dsimp only
    rw [hat]
    dsimp only
    have n1 : ¬ byteAt (p.emit .reportAdd).input e = 0x5d := by omega
    have n2 : byteAt (p.emit .reportAdd).input e ≠ 0x2c := by omega
    rw [if_neg n1, if_pos n2]
    exact ⟨_, rfl⟩
  · intro fuel p2 p3 p4 excluded hstr htr hcol hsk
    obtain ⟨hj, g1, g2, g3⟩ := parseJsonF_leading_zero env fuel p4.advance p1 c0 e c hsk hz
    have g2' := g2
    unfold specDigit at g2'
    rw [parseObjectLoopF, if_neg (show ¬ ((0x22 : Nat) ≠ 0x22) from fun h => h rfl)]
    dsimp only
    rw [hstr]
    dsimp only
    rw [htr]
    dsimp only
    rw [hcol]
    dsimp only
    rw [if_neg (show ¬ ((0x3a : Nat) ≠ 0x3a) from fun h => h rfl), hj]
    dsimp only
    have hat : ∀ q : Parser, q.input = p4.advance.input → q.pos = e →
        q.skipWhiteSpace = .ok (byteAt p4.advance.input e, q) := by
      intro q hqi hqp
      have := skipWhiteSpace_at q (by rw [Parser.size, hqi, hqp]; exact g1)
        (by rw [hqi, hqp]; exact specDigit_not_ws _ g2)
      rw [hqi, hqp] at this
      exact this
    have n1 : ¬ byteAt p4.advance.input e = 0x7d := by omega
    have n2 : byteAt p4.advance.input e ≠ 0x2c := by omega
    cases excluded with
    | false =>
      rw [if_neg (by decide), hat ⟨p4.advance.input, e,
        ⟨p4.advance.b.buf, p4.advance.b.calls ++ [c]⟩, p4.advance.nesting⟩ rfl rfl]
      dsimp only
      rw [if_neg n1, if_pos n2]
      exact ⟨_, rfl⟩
    | true =>
      rw [if_pos rfl, hat ((⟨p4.advance.input, e,
        ⟨p4.advance.b.buf, p4.advance.b.calls ++ [c]⟩, p4.advance.nesting⟩ : Parser).emit
          .removeLast) rfl rfl]
      dsimp only
      rw [if_neg n1, if_pos n2]
      exact ⟨_, rfl⟩

/-- The theorem of C25 on the input `01` at the top level, on the element `-012` of the array
`[-012]`, the parser standing behind the opening bracket, and on the value `01` of the member
of the object `{"a":01}`, the parser standing at the quote of the key: all raise
ParseError. -/
theorem parseNumber_leading_zero_rejected_witness :
    (specLeadingZero ⟨[0x30, 0x31], 0, ⟨[], []⟩, 0⟩ = some (1, .addUInt 0)
      ∧ ∃ st, parseInternal plainEnv false ⟨[0x30, 0x31], 0, ⟨[], []⟩, 0⟩
          = some (.error ⟨.ParseError, st⟩))
    ∧ (specLeadingZero ⟨[0x5b, 0x2d, 0x30, 0x31, 0x32, 0x5d], 1, ⟨[], [.addArray, .reportAdd]⟩, 1⟩
          = some (3, .addInt 0)
      ∧ ∃ st, parseArrayLoopF plainEnv (0 + 2)
            ⟨[0x5b, 0x2d, 0x30, 0x31, 0x32, 0x5d], 1, ⟨[], [.addArray]⟩, 1⟩
          = some (.error ⟨.ParseError, st⟩))
    ∧ (specLeadingZero ⟨[0x7b, 0x22, 0x61, 0x22, 0x3a, 0x30, 0x31, 0x7d], 5,
            ⟨[0x41, 0x61], [.addObject, .reportAdd]⟩, 1⟩
          = some (6, .addUInt 0)
      ∧ ∃ st, parseObjectLoopF plainEnv (0 + 2) 0x22
            ⟨[0x7b, 0x22, 0x61, 0x22, 0x3a, 0x30, 0x31, 0x7d], 1, ⟨[], [.addObject]⟩, 1⟩
          = some (.error ⟨.ParseError, st⟩)) :=
  ⟨⟨by decide,
    (parseNumber_leading_zero_rejected plainEnv ⟨[0x30, 0x31], 0, ⟨[], []⟩, 0⟩
      ⟨[0x30, 0x31], 0, ⟨[], []⟩, 0⟩ 0x30 1 (.addUInt 0) (by decide)).2.1 false
      ⟨[0x30, 0x31], 0, ⟨[], []⟩, 0⟩ rfl rfl⟩,
   ⟨by decide,
    (parseNumber_leading_zero_rejected plainEnv
      ⟨[0x5b, 0x2d, 0x30, 0x31, 0x32, 0x5d], 1, ⟨[], [.addArray]⟩, 1⟩
      ⟨[0x5b, 0x2d, 0x30, 0x31, 0x32, 0x5d], 1, ⟨[], [.addArray, .reportAdd]⟩, 1⟩ 0x2d 3
      (.addInt 0) (by decide)).2.2.1 0 rfl⟩,
   ⟨by decide,
    (parseNumber_leading_zero_rejected plainEnv
      ⟨[0x7b, 0x22, 0x61, 0x22, 0x3a, 0x30, 0x31, 0x7d], 1, ⟨[], [.addObject]⟩, 1⟩
      ⟨[0x7b, 0x22, 0x61, 0x22, 0x3a, 0x30, 0x31, 0x7d], 5,
        ⟨[0x41, 0x61], [.addObject, .reportAdd]⟩, 1⟩ 0x30 6
      (.addUInt 0) (by decide)).2.2.2 0
      ⟨[0x7b, 0x22, 0x61, 0x22, 0x3a, 0x30, 0x31, 0x7d], 4,
        ⟨[0x41, 0x61], [.addObject, .reportAdd]⟩, 1⟩
      ⟨[0x7b, 0x22, 0x61, 0x22, 0x3a, 0x30, 0x31, 0x7d], 4,
        ⟨[0x41, 0x61], [.addObject, .reportAdd]⟩, 1⟩
      ⟨[0x7b, 0x22, 0x61, 0x22, 0x3a, 0x30, 0x31, 0x7d], 4,
        ⟨[0x41, 0x61], [.addObject, .reportAdd]⟩, 1⟩
      false rfl rfl rfl rfl⟩⟩

end

section
open Parser

theorem nextByte_ok (p q : Parser) (c : Nat) (h : p.skipWhiteSpace = .ok (c, q)) :
    p.nextByte = some c := by
  simp [nextByte, h]

theorem nextByte_some (p : Parser) (c : Nat) (h : p.nextByte = some c) :
    ∃ q, p.skipWhiteSpace = .ok (c, q) := by
  unfold nextByte at h
  cases hs : p.skipWhiteSpace with
  | error f => rw [hs] at h; cases h
  | ok r =>
    obtain ⟨c1, q⟩ := r
    rw [hs] at h
    simp only [Option.some.injEq] at h
    subst h
    exact ⟨q, rfl⟩

theorem nextByte_none (p : Parser) (h : p.nextByte = none) :
    ∃ st, p.skipWhiteSpace = .error ⟨.ParseError, st⟩ := by
  unfold nextByte at h
  cases hs : p.skipWhiteSpace with
  | error f =>
    have := skipWhiteSpace_error p f hs
    obtain ⟨e, st⟩ := f
    simp only at this
    subst this
    exact ⟨st, rfl⟩
  | ok r => rw [hs] at h; cases h

/-- A byte that opens no value and is no sign and no digit, where parseJson expects a value:
the comma, the closing bracket, the closing brace and the colon raise ParseError. -/
theorem parseJsonF_separator (env : ParseEnv) (fuel : Nat) (p : Parser) (c : Nat)
    (hn : p.nextByte = some c) (hc : c = 0x2c ∨ c = 0x5d ∨ c = 0x7d ∨ c = 0x3a) :
    ∃ st, parseJsonF env (fuel + 1) p = some (.error ⟨.ParseError, st⟩) := by
  obtain ⟨p1, hsk⟩ := nextByte_some p c hn
  obtain ⟨_, _, _, _, hlt⟩ := skipWhiteSpace_ok p p1 c hsk
  obtain ⟨hbyte, _⟩ := skipWhiteSpace_byte p p1 c hsk
  have hun : ({ p1 with pos := p1.pos + 1 } : Parser).unconsume = p1 := by
    simp [Parser.unconsume]
  rw [parseJsonF_succ, hsk]
  dsimp only
  rw [consume_of_lt p1 hlt, ← hbyte]
  dsimp only
  have hnum : ∃ st, parseNumber env.finite p1 = .error ⟨.ParseError, st⟩ := by
    unfold parseNumber
    rw [consume_of_lt p1 hlt, ← hbyte]
    dsimp only
    have h1 : ¬ c = 0x2d := by omega
    have h2 : c < 0x30 ∨ c > 0x39 := by omega
    rw [if_neg h1]
    dsimp only
    rw [if_pos h2]
    exact ⟨_, rfl⟩
  obtain ⟨st, hst⟩ := hnum
  refine ⟨st, ?_⟩
  rcases hc with h | h | h | h <;> subst h <;>
    simp only [Nat.reduceEqDiff, if_false, hun, hst]

theorem parseJsonF_end (env : ParseEnv) (fuel : Nat) (p : Parser) (hn : p.nextByte = none) :
    ∃ st, parseJsonF env (fuel + 1) p = some (.error ⟨.ParseError, st⟩) := by
  obtain ⟨st, hsk⟩ := nextByte_none p hn
  exact ⟨st, by rw [parseJsonF_succ, hsk]⟩

theorem skipWhiteSpaceLoop_rebuild (b : Builder) (n : Nat) : ∀ (src : List Nat) (p : Parser),
    skipWhiteSpaceLoop src ⟨p.input, p.pos, b, n⟩
      = match skipWhiteSpaceLoop src p with
        | .ok (c, q) => .ok (c, ⟨q.input, q.pos, b, n⟩)
        | .error f => .error ⟨f.error, ⟨f.state.input, f.state.pos, b, n⟩⟩ := by
  intro src
  induction src with
  | nil => intro p; rfl
  | cons c rest ih =>
    intro p
    rw [skipWhiteSpaceLoop, skipWhiteSpaceLoop]
    split_ifs
    · rfl
    · exact ih p.advance

/-- The function skipWhiteSpace reads the input and the cursor only: in a state with another
Builder and another nesting depth it finds the same byte at the same position. -/
theorem skipWhiteSpace_rebuild (b : Builder) (n : Nat) (p : Parser) :
    (⟨p.input, p.pos, b, n⟩ : Parser).skipWhiteSpace
      = match p.skipWhiteSpace with
        | .ok (c, q) => .ok (c, ⟨q.input, q.pos, b, n⟩)
        | .error f => .error ⟨f.error, ⟨f.state.input, f.state.pos, b, n⟩⟩ := by
  unfold skipWhiteSpace
  have e2 : (⟨p.input, p.pos, b, n⟩ : Parser).size = p.size := rfl
  dsimp only
  rw [e2]
  by_cases c1 : p.pos ≥ p.size
  · rw [if_pos c1, if_pos c1]; rfl
  rw [if_neg c1, if_neg c1]
  by_cases c2 : (!isWhiteSpace (byteAt p.input p.pos)) = true
  · rw [if_pos c2, if_pos c2]
  rw [if_neg c2, if_neg c2]
  by_cases c3 : byteAt p.input p.pos = 0x20
  · rw [if_pos c3, if_pos c3]
    by_cases c4 : p.pos + 1 ≥ p.size
    · rw [if_pos c4, if_pos c4]; rfl
    rw [if_neg c4, if_neg c4]
    by_cases c5 : (!isWhiteSpace (byteAt p.input (p.pos + 1))) = true
    · rw [if_pos c5, if_pos c5]
    rw [if_neg c5, if_neg c5]
    dsimp only
    split_ifs
    · generalize JSONSkipWhiteSpaceCount (List.drop p.pos p.input) (p.size - p.pos - 15) = k
      exact skipWhiteSpaceLoop_rebuild b n (List.drop (p.pos + k) p.input)
        ⟨p.input, p.pos + k, p.b, p.nesting⟩
    · exact skipWhiteSpaceLoop_rebuild b n (List.drop p.pos p.input) p
  rw [if_neg c3, if_neg c3]
  dsimp only
  split_ifs
  · generalize JSONSkipWhiteSpaceCount (List.drop p.pos p.input) (p.size - p.pos - 15) = k
    exact skipWhiteSpaceLoop_rebuild b n (List.drop (p.pos + k) p.input)
      ⟨p.input, p.pos + k, p.b, p.nesting⟩
  · exact skipWhiteSpaceLoop_rebuild b n (List.drop p.pos p.input) p

theorem nextByte_congr (p q : Parser) (hi : q.input = p.input) (hp : q.pos = p.pos) :
    q.nextByte = p.nextByte := by
  have e : q = ⟨p.input, p.pos, q.b, q.nesting⟩ := by
    cases q
    simp only at hi hp
    simp only [hi, hp]
  unfold nextByte
  rw [e, skipWhiteSpace_rebuild]
  cases p.skipWhiteSpace with
  | error f => rfl
  | ok r => rfl

end

section
open Parser

/-- C24: in an array, a comma where the first element is expected, a byte other than the
comma and the closing bracket behind an element (two elements that no comma separates), and
a comma behind an element that is followed by the closing bracket (`[v,]`), by another comma
or by the end of the input raise ParseError. In an object, a byte other than the quote and
the closing brace where the first key is expected (a leading comma, a key that is no quoted
string), a byte other than the quote at every later key position, a key that is not followed
by the colon, a byte other than the comma and the closing brace behind a member, and a comma
behind a member that is not followed by the quote of a key (`{"k":v,}`, a doubled comma)
raise ParseError. The elements v, the keys k and the whitespace between the tokens are
arbitrary. -/
theorem container_commas (env : ParseEnv) (fuel : Nat) (p q : Parser) :
    ((p.emit .addArray).nextByte = some 0x2c →
      ∃ st, parseArrayF env (fuel + 3) p = some (.error ⟨.ParseError, st⟩))
    ∧ (∀ c, specElementParsed env (fuel + 1) p q c → c ≠ 0x5d → c ≠ 0x2c →
      ∃ st, parseArrayLoopF env (fuel + 2) p = some (.error ⟨.ParseError, st⟩))
    ∧ (specElementParsed env (fuel + 2) p q 0x2c →
      (q.advance.nextByte = some 0x5d ∨ q.advance.nextByte = some 0x2c
        ∨ q.advance.nextByte = none) →
      ∃ st, parseArrayLoopF env (fuel + 3) p = some (.error ⟨.ParseError, st⟩))
    ∧ (∀ i, (p.emit .addObject).nextByte = some i → i ≠ 0x7d → i ≠ 0x22 →
      ∃ st, parseObjectF env (fuel + 2) p = some (.error ⟨.ParseError, st⟩))
    ∧ (∀ i, i ≠ 0x22 →
      ∃ st, parseObjectLoopF env (fuel + 1) i p = some (.error ⟨.ParseError, st⟩))
    ∧ (∀ excluded k, specKeyParsed env p q excluded k → k ≠ some 0x3a →
      ∃ st, parseObjectLoopF env (fuel + 1) 0x22 p = some (.error ⟨.ParseError, st⟩))
    ∧ (∀ c, specMemberParsed env fuel p q c → c ≠ 0x7d → c ≠ 0x2c →
      ∃ st, parseObjectLoopF env (fuel + 1) 0x22 p = some (.error ⟨.ParseError, st⟩))
    ∧ (specMemberParsed env (fuel + 1) p q 0x2c → q.advance.nextByte ≠ some 0x22 →
      ∃ st, parseObjectLoopF env (fuel + 2) 0x22 p = some (.error ⟨.ParseError, st⟩)) := by
  have hq22 : ¬ ((0x22 : Nat) ≠ 0x22) := fun h => h rfl
  have hq3a : ¬ ((0x3a : Nat) ≠ 0x3a) := fun h => h rfl
  refine ⟨?_, ?_, ?_, ?_, ?_, ?_, ?_, ?_⟩
  · intro hn
    obtain ⟨p1, hsk⟩ := nextByte_some _ _ hn
    obtain ⟨hin, _, _, _, hlt⟩ := skipWhiteSpace_ok _ p1 _ hsk
    obtain ⟨hbyte, hws⟩ := skipWhiteSpace_byte _ p1 _ hsk
    have hn1 : (p1.increaseNesting.emit .reportAdd).nextByte = some 0x2c := by
      rw [nextByte_congr p1 (p1.increaseNesting.emit .reportAdd) rfl rfl]
      exact nextByte_ok p1 p1 _ (by
        have := skipWhiteSpace_at p1 hlt (by rw [← hbyte]; exact hws)
        rw [← hbyte] at this
        exact this)
    obtain ⟨st, hst⟩ := parseJsonF_separator env fuel _ 0x2c hn1 (Or.inl rfl)
    refine ⟨st, ?_⟩
    rw [parseArrayF, hsk]
    dsimp only
    rw [if_neg (by decide), parseArrayLoopF, hst]
  · rintro c ⟨p1, hj, hsk⟩ h1 h2
    rw [parseArrayLoopF, hj]
    dsimp only
    rw [hsk]
    dsimp only
    rw [if_neg h1, if_pos h2]
    exact ⟨_, rfl⟩
  · rintro ⟨p1, hj, hsk⟩ hnext
    have hn1 : ∃ st, parseJsonF env (fuel + 1) (q.advance.emit .reportAdd)
        = some (.error ⟨.ParseError, st⟩) := by
      have e : (q.advance.emit .reportAdd).nextByte = q.advance.nextByte :=
        nextByte_congr q.advance _ rfl rfl
      rcases hnext with h | h | h
      · exact parseJsonF_separator env fuel _ 0x5d (by rw [e, h]) (Or.inr (Or.inl rfl))
      · exact parseJsonF_separator env fuel _ 0x2c (by rw [e, h]) (Or.inl rfl)
      · exact parseJsonF_end env fuel _ (by rw [e, h])
    obtain ⟨st, hst⟩ := hn1
    refine ⟨st, ?_⟩
    rw [parseArrayLoopF, hj]
    dsimp only
    rw [hsk]
    dsimp only
    rw [if_neg (by decide), if_neg (fun h => h rfl), parseArrayLoopF, hst]
  · intro i hn h1 h2
    obtain ⟨p1, hsk⟩ := nextByte_some _ _ hn
    rw [parseObjectF, hsk]
    dsimp only
    rw [if_neg h1, parseObjectLoopF, if_pos h2]
    exact ⟨_, rfl⟩
  · intro i hi
    rw [parseObjectLoopF, if_pos hi]
    exact ⟨_, rfl⟩
  · rintro excluded k ⟨p2, hstr, htr, hk⟩ hne
    rw [parseObjectLoopF, if_neg hq22]
    dsimp only
    rw [hstr]
    dsimp only
    rw [htr]
    dsimp only
    cases hs : q.skipWhiteSpace with
    | error f =>
      have := skipWhiteSpace_error q f hs
      obtain ⟨e, st⟩ := f
      simp only at this
      subst this
      exact ⟨st, rfl⟩
    | ok r =>
      obtain ⟨i1, p4⟩ := r
      dsimp only
      have hi1 : i1 ≠ 0x3a := by
        intro h
        apply hne
        rw [← hk, nextByte_ok q p4 i1 hs, h]
      rw [if_pos hi1]
      exact ⟨_, rfl⟩
  · rintro c ⟨excluded, p3, p4, p5, ⟨p2, hstr, htr, _⟩, hcol, hj, hsk⟩ h1 h2
    rw [parseObjectLoopF, if_neg hq22]
    dsimp only
    rw [hstr]
    dsimp only
    rw [htr]
    dsimp only
    rw [hcol]
    dsimp only
    rw [if_neg hq3a, hj]
    dsimp only
    rw [hsk]
    dsimp only
    rw [if_neg h1, if_pos h2]
    exact ⟨_, rfl⟩
  · rintro ⟨excluded, p3, p4, p5, ⟨p2, hstr, htr, _⟩, hcol, hj, hsk⟩ hnext
    rw [parseObjectLoopF, if_neg hq22]
    dsimp only
    rw [hstr]
    dsimp only
    rw [htr]
    dsimp only
    rw [hcol]
    dsimp only
    rw [if_neg hq3a, hj]
    dsimp only
    rw [hsk]
    dsimp only
    rw [if_neg (by decide), if_neg (fun h => h rfl)]
    cases hs : q.advance.skipWhiteSpace with
    | error f =>
      have := skipWhiteSpace_error _ f hs
      obtain ⟨e, st⟩ := f
      simp only at this
      subst this
      exact ⟨st, rfl⟩
    | ok r =>
      obtain ⟨i3, p10⟩ := r
      dsimp only
      have hi3 : i3 ≠ 0x22 := by
        intro h
        apply hnext
        rw [nextByte_ok _ p10 i3 hs, h]
      rw [parseObjectLoopF, if_pos hi3]
      exact ⟨_, rfl⟩

/-- The theorem of C24 on the array `[1,]` and on the object `{"k":1,}`, the parser standing
behind the opening bracket and at the quote of the key: in both the comma behind the first
member is followed by the closing byte, and ParseError is raised; so it is for the whole
inputs at the top level. Likewise for `[,1]` behind the opening bracket, for `[1 2]`, for
`{"k" 1}` and for `{"k":1 "j":2}`. -/
theorem container_commas_witness :
    (∃ st, parseArrayLoopF plainEnv (0 + 3) ⟨[0x5b, 0x31, 0x2c, 0x5d], 1, ⟨[], [.addArray]⟩, 1⟩
        = some (.error ⟨.ParseError, st⟩))
    ∧ (∃ st, parseObjectLoopF plainEnv (0 + 2) 0x22
          ⟨[0x7b, 0x22, 0x6b, 0x22, 0x3a, 0x31, 0x2c, 0x7d], 1, ⟨[], [.addObject]⟩, 1⟩
        = some (.error ⟨.ParseError, st⟩))
    ∧ (∃ st, parseInternal plainEnv false ⟨[0x5b, 0x31, 0x2c, 0x5d], 0, ⟨[], []⟩, 0⟩
        = some (.error ⟨.ParseError, st⟩))
    ∧ (∃ st, parseInternal plainEnv false
          ⟨[0x7b, 0x22, 0x6b, 0x22, 0x3a, 0x31, 0x2c, 0x7d], 0, ⟨[], []⟩, 0⟩
        = some (.error ⟨.ParseError, st⟩))
    ∧ (∃ st, parseArrayF plainEnv (0 + 3) ⟨[0x5b, 0x2c, 0x31, 0x5d], 1, ⟨[], []⟩, 0⟩
        = some (.error ⟨.ParseError, st⟩))
    ∧ (∃ st, parseArrayLoopF plainEnv (0 + 2)
          ⟨[0x5b, 0x31, 0x20, 0x32, 0x5d], 1, ⟨[], [.addArray]⟩, 1⟩
        = some (.error ⟨.ParseError, st⟩))
    ∧ (∃ st, parseObjectLoopF plainEnv (0 + 1) 0x22
          ⟨[0x7b, 0x22, 0x6b, 0x22, 0x20, 0x31, 0x7d], 1, ⟨[], [.addObject]⟩, 1⟩
        = some (.error ⟨.ParseError, st⟩))
    ∧ (∃ st, parseObjectLoopF plainEnv (1 + 1) 0x22
          ⟨[0x7b, 0x22, 0x6b, 0x22, 0x3a, 0x31, 0x20, 0x22, 0x6a, 0x22, 0x3a, 0x32, 0x7d], 1,
            ⟨[], [.addObject]⟩, 1⟩
        = some (.error ⟨.ParseError, st⟩)) :=
  ⟨(container_commas plainEnv 0 ⟨[0x5b, 0x31, 0x2c, 0x5d], 1, ⟨[], [.addArray]⟩, 1⟩
      ⟨[0x5b, 0x31, 0x2c, 0x5d], 2, ⟨[], [.addArray, .reportAdd, .addUInt 1]⟩, 1⟩).2.2.1
      ⟨⟨[0x5b, 0x31, 0x2c, 0x5d], 2, ⟨[], [.addArray, .reportAdd, .addUInt 1]⟩, 1⟩, rfl, rfl⟩
      (Or.inl rfl),
   (container_commas plainEnv 0
      ⟨[0x7b, 0x22, 0x6b, 0x22, 0x3a, 0x31, 0x2c, 0x7d], 1, ⟨[], [.addObject]⟩, 1⟩
      ⟨[0x7b, 0x22, 0x6b, 0x22, 0x3a, 0x31, 0x2c, 0x7d], 6,
        ⟨[0x41, 0x6b], [.addObject, .reportAdd, .addUInt 1]⟩, 1⟩).2.2.2.2.2.2.2
      ⟨false,
        ⟨[0x7b, 0x22, 0x6b, 0x22, 0x3a, 0x31, 0x2c, 0x7d], 4,
          ⟨[0x41, 0x6b], [.addObject, .reportAdd]⟩, 1⟩,
        ⟨[0x7b, 0x22, 0x6b, 0x22, 0x3a, 0x31, 0x2c, 0x7d], 4,
          ⟨[0x41, 0x6b], [.addObject, .reportAdd]⟩, 1⟩,
        ⟨[0x7b, 0x22, 0x6b, 0x22, 0x3a, 0x31, 0x2c, 0x7d], 6,
          ⟨[0x41, 0x6b], [.addObject, .reportAdd, .addUInt 1]⟩, 1⟩,
        ⟨⟨[0x7b, 0x22, 0x6b, 0x22, 0x3a, 0x31, 0x2c, 0x7d], 4,
          ⟨[0x41, 0x6b], [.addObject, .reportAdd]⟩, 1⟩, rfl, rfl, rfl⟩,
        rfl, rfl, rfl⟩
      (by decide),
   ⟨_, rfl⟩, ⟨_, rfl⟩,
   (container_commas plainEnv 0 ⟨[0x5b, 0x2c, 0x31, 0x5d], 1, ⟨[], []⟩, 0⟩
      ⟨[0x5b, 0x2c, 0x31, 0x5d], 1, ⟨[], []⟩, 0⟩).1 rfl,
   (container_commas plainEnv 0 ⟨[0x5b, 0x31, 0x20, 0x32, 0x5d], 1, ⟨[], [.addArray]⟩, 1⟩
      ⟨[0x5b, 0x31, 0x20, 0x32, 0x5d], 3, ⟨[], [.addArray, .reportAdd, .addUInt 1]⟩, 1⟩).2.1
      0x32
      ⟨⟨[0x5b, 0x31, 0x20, 0x32, 0x5d], 2, ⟨[], [.addArray, .reportAdd, .addUInt 1]⟩, 1⟩,
        rfl, rfl⟩
      (by decide) (by decide),
   (container_commas plainEnv 0
      ⟨[0x7b, 0x22, 0x6b, 0x22, 0x20, 0x31, 0x7d], 1, ⟨[], [.addObject]⟩, 1⟩
      ⟨[0x7b, 0x22, 0x6b, 0x22, 0x20, 0x31, 0x7d], 4,
        ⟨[0x41, 0x6b], [.addObject, .reportAdd]⟩, 1⟩).2.2.2.2.2.1
      false (some 0x31)
      ⟨⟨[0x7b, 0x22, 0x6b, 0x22, 0x20, 0x31, 0x7d], 4,
        ⟨[0x41, 0x6b], [.addObject, .reportAdd]⟩, 1⟩, rfl, rfl, rfl⟩
      (by decide),
   (container_commas plainEnv 1
      ⟨[0x7b, 0x22, 0x6b, 0x22, 0x3a, 0x31, 0x20, 0x22, 0x6a, 0x22, 0x3a, 0x32, 0x7d], 1,
        ⟨[], [.addObject]⟩, 1⟩
      ⟨[0x7b, 0x22, 0x6b, 0x22, 0x3a, 0x31, 0x20, 0x22, 0x6a, 0x22, 0x3a, 0x32, 0x7d], 7,
        ⟨[0x41, 0x6b], [.addObject, .reportAdd, .addUInt 1]⟩, 1⟩).2.2.2.2.2.2.1
      0x22
      ⟨false,
        ⟨[0x7b, 0x22, 0x6b, 0x22, 0x3a, 0x31, 0x20, 0x22, 0x6a, 0x22, 0x3a, 0x32, 0x7d], 4,
          ⟨[0x41, 0x6b], [.addObject, .reportAdd]⟩, 1⟩,
        ⟨[0x7b, 0x22, 0x6b, 0x22, 0x3a, 0x31, 0x20, 0x22, 0x6a, 0x22, 0x3a, 0x32, 0x7d], 4,
          ⟨[0x41, 0x6b], [.addObject, .reportAdd]⟩, 1⟩,
        ⟨[0x7b, 0x22, 0x6b, 0x22, 0x3a, 0x31, 0x20, 0x22, 0x6a, 0x22, 0x3a, 0x32, 0x7d], 6,
          ⟨[0x41, 0x6b], [.addObject, .reportAdd, .addUInt 1]⟩, 1⟩,
        ⟨⟨[0x7b, 0x22, 0x6b, 0x22, 0x3a, 0x31, 0x20, 0x22, 0x6a, 0x22, 0x3a, 0x32, 0x7d], 4,
          ⟨[0x41, 0x6b], [.addObject, .reportAdd]⟩, 1⟩, rfl, rfl, rfl⟩,
        rfl, rfl, rfl⟩
      (by decide) (by decide)⟩

end

section
open Parser

/-- For a value that parseInternal appends to an open Array of the Builder, a failure of
parseJson is followed by the call of cleanupAdd, made in the state of the failure. -/
theorem parseInternalLoop_cleanupAdd (env : ParseEnv) (multi : Bool) (fuel nr : Nat)
    (p p1 : Parser) (f : Failure) (hb : beginValue env p = .ok (true, p1))
    (hj : parseJson env p1 = some (.error f)) :
    parseInternalLoop env multi (fuel + 1) nr p
      = some (.error ⟨f.error, f.state.emit .cleanupAdd⟩) := by
  rw [parseInternalLoop, hb]
  dsimp only
  rw [hj]
  rfl

/-- In the loop of parseArray a failure of parseJson behind the call of reportAdd leaves the
loop as it is: no Builder operation is called on the way. -/
theorem parseArrayLoopF_failure (env : ParseEnv) (fuel : Nat) (p : Parser) (f : Failure)
    (hj : parseJsonF env fuel (p.emit .reportAdd) = some (.error f)) :
    parseArrayLoopF env (fuel + 1) p = some (.error f) := by
  rw [parseArrayLoopF, hj]

/-- In the loop of parseObject a failure of parseString behind the call of reportAdd leaves
the loop as it is: no Builder operation is called on the way. -/
theorem parseObjectLoopF_failure (env : ParseEnv) (fuel : Nat) (p : Parser) (f : Failure)
    (hj : Parser.parseString env.options (p.advance.emit .reportAdd) = .error f) :
    parseObjectLoopF env (fuel + 1) 0x22 p = some (.error f) := by
  rw [parseObjectLoopF, if_neg (fun h => h rfl)]
  dsimp only
  rw [hj]

/-- C26 on the inputs `[1,x]`, `{"a":x}` and `{"a` of a parser with an empty Builder, and on
the inputs `x` and `[x]` of a parser whose Builder has an open Array: the failure of an
element of the array `[1,x]`, of a member of the object and of the key of a member leaves
parseInternal with the calls of reportAdd made for them and no call of cleanupAdd; for the
value `x` appended to the open Array cleanupAdd is called; for the element `x` of the array
`[x]` appended to the open Array, reportAdd is called twice and cleanupAdd once. -/
theorem parseInternal_nested_no_cleanupAdd :
    parseInternal plainEnv false ⟨[0x5b, 0x31, 0x2c, 0x78, 0x5d], 0, ⟨[], []⟩, 0⟩
      = some (.error ⟨.ParseError, ⟨[0x5b, 0x31, 0x2c, 0x78, 0x5d], 4,
          ⟨[], [.addArray, .reportAdd, .addUInt 1, .reportAdd]⟩, 1⟩⟩)
    ∧ parseInternal plainEnv false
        ⟨[0x7b, 0x22, 0x61, 0x22, 0x3a, 0x78, 0x7d], 0, ⟨[], []⟩, 0⟩
      = some (.error ⟨.ParseError, ⟨[0x7b, 0x22, 0x61, 0x22, 0x3a, 0x78, 0x7d], 6,
          ⟨[0x41, 0x61], [.addObject, .reportAdd]⟩, 1⟩⟩)
    ∧ parseInternal plainEnv false ⟨[0x7b, 0x22, 0x61], 0, ⟨[], []⟩, 0⟩
      = some (.error ⟨.ParseError, ⟨[0x7b, 0x22, 0x61], 3,
          ⟨[0x40, 0x61], [.addObject, .reportAdd]⟩, 1⟩⟩)
    ∧ parseInternal openArrayEnv false ⟨[0x78], 0, ⟨[], []⟩, 0⟩
      = some (.error ⟨.ParseError, ⟨[0x78], 1, ⟨[], [.reportAdd, .cleanupAdd]⟩, 0⟩⟩)
    ∧ parseInternal openArrayEnv false ⟨[0x5b, 0x78, 0x5d], 0, ⟨[], []⟩, 0⟩
      = some (.error ⟨.ParseError, ⟨[0x5b, 0x78, 0x5d], 2,
          ⟨[], [.reportAdd, .addArray, .reportAdd, .cleanupAdd]⟩, 1⟩⟩) := by
  refine ⟨?_, ?_, ?_, ?_, ?_⟩ <;> rfl

end

section
open Parser

theorem parseArrayLoopF_closes (env : ParseEnv) : ∀ (fuel : Nat) (p q : Parser),
    parseArrayLoopF env fuel p = some (.ok q) → q.b.calls.getLast? = some .close := by
  intro fuel
  induction fuel with
  | zero => intro p q h; simp [parseArrayLoopF] at h
  | succ fuel ih =>
    intro p q h
    rw [parseArrayLoopF] at h
    cases hj : parseJsonF env fuel (p.emit .reportAdd) with
    | none => rw [hj] at h; cases h
    | some r =>
      rw [hj] at h
      cases r with
      | error f => simp at h
      | ok p1 =>
        dsimp only at h
        cases hs : p1.skipWhiteSpace with
        | error f => rw [hs] at h; simp at h
        | ok r2 =>
          obtain ⟨i, p2⟩ := r2
          rw [hs] at h
          dsimp only at h
          by_cases c1 : i = 0x5d
          · rw [if_pos c1] at h
            simp only [Option.some.injEq, Except.ok.injEq] at h
            subst h
            simp [Parser.decreaseNesting, Parser.emit, Builder.call, Parser.advance]
          · rw [if_neg c1] at h
            by_cases c2 : i ≠ 0x2c
            · rw [if_pos c2] at h
              simp [Parser.fail] at h
            · rw [if_neg c2] at h
              exact ih _ q h

/-- Every array that parseArray reads to its end is closed, whatever the option
keepTopLevelOpen and the nesting depth are: the last Builder call is close. -/
theorem parseArrayF_closes (env : ParseEnv) (fuel : Nat) (p q : Parser)
    (h : parseArrayF env fuel p = some (.ok q)) : q.b.calls.getLast? = some .close := by
  cases fuel with
  | zero => simp [parseArrayF] at h
  | succ fuel =>
    rw [parseArrayF] at h
    cases hs : (p.emit .addArray).skipWhiteSpace with
    | error f => rw [hs] at h; simp at h
    | ok r =>
      obtain ⟨i, p1⟩ := r
      rw [hs] at h
      dsimp only at h
      by_cases c1 : i = 0x5d
      · rw [if_pos c1] at h
        simp only [Option.some.injEq, Except.ok.injEq] at h
        subst h
        simp [Parser.emit, Builder.call, Parser.advance]
      · rw [if_neg c1] at h
        exact parseArrayLoopF_closes env fuel _ q h

/-- C27 on inputs of a parser with keepTopLevelOpen = true and an empty Builder: for the
top-level arrays `[]` and `[1]` close is called for the outermost container, the last call
being that close, and for `[[]]` close is called twice; for the top-level objects `{}`,
`{"a":1}` and `{"a":[]}` close is not called for the outermost container, and once for the
nested array. -/
theorem parseInternal_keepTopLevelOpen_array :
    keepOpenEnv.options.keepTopLevelOpen = true
    ∧ parseInternal keepOpenEnv false ⟨[0x5b, 0x5d], 0, ⟨[], []⟩, 0⟩
      = some (.ok (1, ⟨[0x5b, 0x5d], 2, ⟨[], [.addArray, .close]⟩, 0⟩))
    ∧ parseInternal keepOpenEnv false ⟨[0x5b, 0x31, 0x5d], 0, ⟨[], []⟩, 0⟩
      = some (.ok (1, ⟨[0x5b, 0x31, 0x5d], 3,
          ⟨[], [.addArray, .reportAdd, .addUInt 1, .close]⟩, 0⟩))
    ∧ parseInternal keepOpenEnv false ⟨[0x5b, 0x5b, 0x5d, 0x5d], 0, ⟨[], []⟩, 0⟩
      = some (.ok (1, ⟨[0x5b, 0x5b, 0x5d, 0x5d], 4,
          ⟨[], [.addArray, .reportAdd, .addArray, .close, .close]⟩, 0⟩))
    ∧ parseInternal keepOpenEnv false ⟨[0x7b, 0x7d], 0, ⟨[], []⟩, 0⟩
      = some (.ok (1, ⟨[0x7b, 0x7d], 2, ⟨[], [.addObject]⟩, 0⟩))
    ∧ parseInternal keepOpenEnv false ⟨[0x7b, 0x22, 0x61, 0x22, 0x3a, 0x31, 0x7d], 0, ⟨[], []⟩, 0⟩
      = some (.ok (1, ⟨[0x7b, 0x22, 0x61, 0x22, 0x3a, 0x31, 0x7d], 7,
          ⟨[0x41, 0x61], [.addObject, .reportAdd, .addUInt 1]⟩, 0⟩))
    ∧ parseInternal keepOpenEnv false
        ⟨[0x7b, 0x22, 0x61, 0x22, 0x3a, 0x5b, 0x5d, 0x7d], 0, ⟨[], []⟩, 0⟩
      = some (.ok (1, ⟨[0x7b, 0x22, 0x61, 0x22, 0x3a, 0x5b, 0x5d, 0x7d], 8,
          ⟨[0x41, 0x61], [.addObject, .reportAdd, .addArray, .close]⟩, 0⟩)) := by
  refine ⟨rfl, ?_, ?_, ?_, ?_, ?_, ?_⟩ <;> rfl

end

section

set_option maxRecDepth 100000 in
theorem TypeMap_eq_map :
    TypeMap = (List.range 256).map (fun h => (specHeadType h).getD ValueType.None) := by
  decide

theorem TypeMap_getElem (h : Nat) (hh : h < 256) :
    TypeMap[h]? = some ((specHeadType h).getD ValueType.None) := by
  rw [TypeMap_eq_map, List.getElem?_map, List.getElem?_range hh]
  rfl

set_option maxRecDepth 100000 in
theorem specHeadType_none_filter :
    (List.range 256).filter (fun h => specHeadType h = none)
      = (List.range 24).map (fun k => 0xd8 + k) := by
  decide

theorem specHeadType_none_iff (h : Nat) (hh : h < 256) :
    specHeadType h = none ↔ 0xd8 ≤ h ∧ h ≤ 0xef := by
  have hm : h ∈ (List.range 256).filter (fun h => specHeadType h = none)
      ↔ specHeadType h = none := by
    simp [List.mem_filter, hh]
  rw [← hm, specHeadType_none_filter, List.mem_map]
  constructor
  · rintro ⟨k, hk, rfl⟩
    have := List.mem_range.mp hk
    omega
  · intro hr
    exact ⟨h - 0xd8, List.mem_range.mpr (by omega), by omega⟩

/-- The head 0xd8 is none of the heads for which the head-byte taxonomy names a type (nor is
any head up to 0xef), so the entry `TypeMap[0xd8]` is not the type that the taxonomy names
for this head; the table holds the type None for these 24 heads, and a value with such a
head has the type None. -/
theorem TypeMap_heads_outside_taxonomy :
    TypeMap[0xd8]? ≠ specHeadType 0xd8
    ∧ specHeadType 0xd8 = none ∧ TypeMap[0xd8]? = some ValueType.None
    ∧ (⟨[0xd8], 0⟩ : Slice).type = ValueType.None
    ∧ (List.range 256).filter (fun h => specHeadType h = none)
        = [0xd8, 0xd9, 0xda, 0xdb, 0xdc, 0xdd, 0xde, 0xdf, 0xe0, 0xe1, 0xe2, 0xe3, 0xe4, 0xe5,
           0xe6, 0xe7, 0xe8, 0xe9, 0xea, 0xeb, 0xec, 0xed, 0xee, 0xef] := by
  refine ⟨?_, by decide, ?_, ?_, ?_⟩
  · rw [TypeMap_getElem _ (by decide)]
    decide
  · rw [TypeMap_getElem _ (by decide)]
    rfl
  · rw [Slice.type, List.getD_eq_getElem?_getD]
    have : (⟨[0xd8], 0⟩ : Slice).head = 0xd8 := by decide
    rw [this, TypeMap_getElem _ (by decide)]
    rfl
  · rw [specHeadType_none_filter]
    rfl

/-- C31 as amended: for every head byte h in 0x00..0xff, `TypeMap[h]` is the type that the
head-byte taxonomy names for h (None for 0x00, 0x0f..0x12, 0x15..0x16; Array for 0x01..0x09
and 0x13; Object for 0x0a..0x0e and 0x14; Illegal 0x17; Null 0x18; Bool 0x19..0x1a; Double
0x1b; UTCDate 0x1c; External 0x1d; MinKey 0x1e; MaxKey 0x1f; Int 0x20..0x27; UInt
0x28..0x2f; SmallInt 0x30..0x3f; String 0x40..0xbf; Binary 0xc0..0xc7; BCD 0xc8..0xd7;
Custom 0xf0..0xff), and it is None for the heads 0xd8..0xef, which are exactly the heads
for which the taxonomy names no type; `type()` of a value with head h is this entry; and
`WidthMap` holds the widths 1, 2, 4, 8 for the heads 0x02..0x05, for the heads 0x06..0x09
and for the heads 0x0b..0x0e, which are the values of `indexEntrySize`. -/
theorem TypeMap_taxonomy (h : Nat) (hh : h < 256) :
    (∀ t, specHeadType h = some t → TypeMap[h]? = some t)
    ∧ (specHeadType h = none ↔ 0xd8 ≤ h ∧ h ≤ 0xef)
    ∧ (0xd8 ≤ h ∧ h ≤ 0xef → TypeMap[h]? = some ValueType.None)
    ∧ (∀ s : Slice, s.head = h → TypeMap[h]? = some s.type)
    ∧ (∀ k, k < 4 → WidthMap[0x02 + k]? = some (2 ^ k) ∧ WidthMap[0x06 + k]? = some (2 ^ k)
        ∧ WidthMap[0x0b + k]? = some (2 ^ k)
        ∧ indexEntrySize (0x02 + k) = 2 ^ k ∧ indexEntrySize (0x06 + k) = 2 ^ k
        ∧ indexEntrySize (0x0b + k) = 2 ^ k) := by
  have hg := TypeMap_getElem h hh
  refine ⟨?_, specHeadType_none_iff h hh, ?_, ?_, ?_⟩
  · intro t ht
    rw [hg, ht]
    rfl
  · intro hr
    rw [hg, (specHeadType_none_iff h hh).mpr hr]
    rfl
  · intro s hs
    rw [Slice.type, hs, List.getD_eq_getElem?_getD, hg]
    rfl
  · intro k hk
    interval_cases k <;> decide

/-- The theorem of C31 at the head 0x41, a short String, and at the head 0xd8, for which the
taxonomy names no type. -/
theorem TypeMap_taxonomy_witness :
    TypeMap[0x41]? = some ValueType.String ∧ TypeMap[0xd8]? = some ValueType.None :=
  ⟨(TypeMap_taxonomy 0x41 (by decide)).1 ValueType.String (by decide),
   (TypeMap_taxonomy 0xd8 (by decide)).2.2.1 (by decide)⟩

end

section
open Slice

theorem readInteger_congr (mem mem' : Bytes) : ∀ (w off : Nat),
    (∀ i, off ≤ i → i < off + w → byteAt mem' i = byteAt mem i) →
    readInteger mem' off w = readInteger mem off w := by
  intro w
  induction w with
  | zero => intro off _; rfl
  | succ w ih =>
    intro off h
    simp only [readInteger]
    rw [h off (by omega) (by omega), ih (off + 1) (fun i h1 h2 => h i (by omega) (by omega))]

theorem get_cuckoo (tr : Option (Nat → Option Slice)) (s : Slice) (attr : Bytes)
    (hh : 0x0b ≤ s.head ∧ s.head ≤ 0x0e) :
    s.get tr attr =
      match s.probe tr attr s.cuckooHeader.htBase (indexEntrySize s.head)
          (slotPos s.cuckooHeader.nrSlots (fasthash64x3 attr attr.length
            (fun k => seedTable.getD (3 * s.cuckooHeader.seed + k) 0)).h0) with
      | .error err => .error err
      | .ok (some v) => .ok v
      | .ok none =>
        match s.probe tr attr s.cuckooHeader.htBase (indexEntrySize s.head)
            (slotPos s.cuckooHeader.nrSlots (fasthash64x3 attr attr.length
              (fun k => seedTable.getD (3 * s.cuckooHeader.seed + k) 0)).h1) with
        | .error err => .error err
        | .ok (some v) => .ok v
        | .ok none =>
          match s.probe tr attr s.cuckooHeader.htBase (indexEntrySize s.head)
              (slotPos s.cuckooHeader.nrSlots (fasthash64x3 attr attr.length
                (fun k => seedTable.getD (3 * s.cuckooHeader.seed + k) 0)).h1) with
          | .error err => .error err
          | .ok (some v) => .ok v
          | .ok none => .ok noneSlice := by
  have ho : s.isObject = true := (isObject_iff s).mpr (Or.inl (by omega))
  have a1 : s.head ≠ 0x0a := by omega
  have a2 : s.head ≠ 0x14 := by omega
  simp only [Slice.get, ho, a1, a2, Bool.not_true, Bool.false_eq_true, if_false]

/-- In `twoPairObject` (head 0x0b, W = 1) the byte immediately behind byteLen, at offset 2,
holds the number 2 of pairs, and the byte behind it, at offset 3, holds 4: `get` takes 4 as
the number of slots and probes the table of the 4 bytes in front of byteLen = 15. It finds
the key "a" through the slot 3 of this table, and it does so too when the byte at offset 2
holds another number. -/
theorem get_nrSlots_not_behind_byteLen :
    twoPairObject.cuckooHeader.nrSlots
      ≠ specLittleEndian (bytesFrom twoPairObject.mem (twoPairObject.start + 1 + 1) 1)
    ∧ bytesFrom twoPairObject.mem (1 + 1) 1 = [0x02]
    ∧ bytesFrom twoPairObject.mem (1 + 2 * 1) 1 = [0x04]
    ∧ twoPairObject.cuckooHeader = ⟨4, 11, 0⟩
    ∧ slotPos 4 (fasthash64x3 [0x61] 1 (fun k => seedTable.getD (3 * 0 + k) 0)).h0 = 3
    ∧ slotEntry twoPairObject 3 = 5
    ∧ Slice.get none twoPairObject [0x61] = .ok (twoPairObject.offset 7)
    ∧ Slice.get none ⟨[0x0b, 0x0f, 0x03, 0x04, 0x00, 0x41, 0x61, 0x31, 0x41, 0x62, 0x32, 0x00,
          0x08, 0x00, 0x05], 0⟩ [0x61]
        = .ok ⟨[0x0b, 0x0f, 0x03, 0x04, 0x00, 0x41, 0x61, 0x31, 0x41, 0x62, 0x32, 0x00, 0x08,
          0x00, 0x05], 7⟩ := by
  decide

/-- C32 as amended: for every small-header cuckoo object (head 0x0b or 0x0c, W = 1 or 2),
`Slice::get` reads nSlots from the W bytes at the offsets 1+2W .. 1+3W-1 from the start of
the object, not from the W bytes immediately behind the byteLen field (offsets 1+W ..
1+2W-1), which its header decoding does not read at all; it reads the seed byte at offset
1+3W; and the hash table that it probes is the nSlots*W bytes ending at byteLen: when these
fit in front of byteLen, the table starts at byteLen - nSlots*W, and the W bytes of every
slot below nSlots lie between this start and byteLen. The three probes of `get` read this
table at the positions computed from nSlots. -/
theorem get_small_header (s : Slice) (hh : s.head = 0x0b ∨ s.head = 0x0c) :
    indexEntrySize s.head = s.head - 0x0a
    ∧ s.cuckooHeader.nrSlots
        = specLittleEndian (bytesFrom s.mem (s.start + 1 + 2 * indexEntrySize s.head)
            (indexEntrySize s.head))
    ∧ s.cuckooHeader.seed = byteAt s.mem (s.start + 1 + 3 * indexEntrySize s.head)
    ∧ (∀ mem1 : Bytes,
        (∀ i, i < s.start + 1 + indexEntrySize s.head
            ∨ s.start + 1 + 2 * indexEntrySize s.head ≤ i → byteAt mem1 i = byteAt s.mem i) →
        Slice.cuckooHeader ⟨mem1, s.start⟩ = s.cuckooHeader)
    ∧ (s.cuckooHeader.nrSlots * indexEntrySize s.head
          ≤ readInteger s.mem (s.start + 1) (indexEntrySize s.head) →
        s.cuckooHeader.htBase + s.cuckooHeader.nrSlots * indexEntrySize s.head
          = readInteger s.mem (s.start + 1) (indexEntrySize s.head)
        ∧ ∀ pos, pos < s.cuckooHeader.nrSlots →
            s.cuckooHeader.htBase ≤ s.cuckooHeader.htBase + pos * indexEntrySize s.head
            ∧ s.cuckooHeader.htBase + pos * indexEntrySize s.head + indexEntrySize s.head
                ≤ readInteger s.mem (s.start + 1) (indexEntrySize s.head))
    ∧ (∀ tr attr, s.get tr attr =
        match s.probe tr attr s.cuckooHeader.htBase (indexEntrySize s.head)
            (slotPos s.cuckooHeader.nrSlots (fasthash64x3 attr attr.length
              (fun k => seedTable.getD (3 * s.cuckooHeader.seed + k) 0)).h0) with
        | .error err => .error err
        | .ok (some v) => .ok v
        | .ok none =>
          match s.probe tr attr s.cuckooHeader.htBase (indexEntrySize s.head)
              (slotPos s.cuckooHeader.nrSlots (fasthash64x3 attr attr.length
                (fun k => seedTable.getD (3 * s.cuckooHeader.seed + k) 0)).h1) with
          | .error err => .error err
          | .ok (some v) => .ok v
          | .ok none =>
            match s.probe tr attr s.cuckooHeader.htBase (indexEntrySize s.head)
                (slotPos s.cuckooHeader.nrSlots (fasthash64x3 attr attr.length
                  (fun k => seedTable.getD (3 * s.cuckooHeader.seed + k) 0)).h1) with
            | .error err => .error err
            | .ok (some v) => .ok v
            | .ok none => .ok noneSlice) := by
  have hW : indexEntrySize s.head = s.head - 0x0a := by
    rcases hh with h | h <;> rw [h] <;> decide
  have hW12 : indexEntrySize s.head = 1 ∨ indexEntrySize s.head = 2 := by
    rcases hh with h | h <;> rw [h] <;> decide
  have hlt4 : indexEntrySize s.head < 4 := by omega
  have hn : s.cuckooHeader.nrSlots
      = readInteger s.mem (s.start + 1 + 2 * indexEntrySize s.head) (indexEntrySize s.head) := by
    simp only [cuckooHeader, hlt4, if_true]
  have hb : s.cuckooHeader.htBase
      = sub64 (readInteger s.mem (s.start + 1) (indexEntrySize s.head))
          (mul64 s.cuckooHeader.nrSlots (indexEntrySize s.head)) := by
    simp only [cuckooHeader, hlt4, if_true]
  refine ⟨hW, ?_, ?_, ?_, ?_, ?_⟩
  · rw [hn, readInteger_eq_littleEndian]
  · simp only [cuckooHeader, hlt4, if_true, Slice.byte]
    rw [Nat.add_assoc]
  · intro mem1 hm
    have hhead : (⟨mem1, s.start⟩ : Slice).head = s.head := by
      simp only [Slice.head, Slice.byte]
      exact hm _ (Or.inl (by omega))
    simp only [cuckooHeader, hhead, hlt4, if_true, Slice.byte]
    rw [readInteger_congr s.mem mem1 (indexEntrySize s.head) (s.start + 1)
        (fun i h1 h2 => hm i (Or.inl (by omega))),
      readInteger_congr s.mem mem1 (indexEntrySize s.head)
        (s.start + 1 + 2 * indexEntrySize s.head) (fun i h1 h2 => hm i (Or.inr (by omega))),
      hm _ (Or.inr (by omega))]
  · intro hfit
    have hlen := readInteger_lt s.mem (indexEntrySize s.head) (s.start + 1)
    have hpow : 2 ^ (8 * indexEntrySize s.head) ≤ 2 ^ 64 :=
      Nat.pow_le_pow_right (by omega) (by omega)
    have hmul : mul64 s.cuckooHeader.nrSlots (indexEntrySize s.head)
        = s.cuckooHeader.nrSlots * indexEntrySize s.head := mul64_of_lt _ _ (by omega)
    have hbase : s.cuckooHeader.htBase
        = readInteger s.mem (s.start + 1) (indexEntrySize s.head)
          - s.cuckooHeader.nrSlots * indexEntrySize s.head := by
      rw [hb, hmul, sub64_of_le _ _ hfit (by omega)]
    refine ⟨by omega, ?_⟩
    intro pos hpos
    have : pos * indexEntrySize s.head + indexEntrySize s.head
        ≤ s.cuckooHeader.nrSlots * indexEntrySize s.head := by
      have := Nat.mul_le_mul_right (indexEntrySize s.head) (Nat.succ_le_of_lt hpos)
      rw [Nat.succ_mul] at this
      exact this
    omega
  · intro tr attr
    exact get_cuckoo tr s attr (by omega)

/-- The theorem of C32 at `twoPairObject`: the number of slots is the 4 at offset 3, the
seed is the byte at offset 4, and the hash table is the 4 bytes in front of byteLen = 15. -/
theorem get_small_header_witness :
    twoPairObject.cuckooHeader.nrSlots = specLittleEndian [0x04]
    ∧ twoPairObject.cuckooHeader.seed = 0
    ∧ twoPairObject.cuckooHeader.htBase + 4 * 1 = 15 :=
  ⟨(get_small_header twoPairObject (Or.inl (by decide))).2.1,
   (get_small_header twoPairObject (Or.inl (by decide))).2.2.1,
   ((get_small_header twoPairObject (Or.inl (by decide))).2.2.2.2.1 (by decide)).1⟩

end

section
open Slice

theorem fastModulo32Bit_eq (x n : Nat) (h2 : n < 2 ^ 32) :
    fastModulo32Bit x n = ((x &&& 0xFFFFFFFF) * n) >>> 32 := by
  unfold fastModulo32Bit
  have hx : x &&& 0xFFFFFFFF < 2 ^ 32 := by
    have := Nat.and_pow_two_sub_one_eq_mod x 32
    norm_num at this
    rw [this]
    omega
  have hlt : (x &&& 0xFFFFFFFF) * n < 2 ^ 64 := by
    have h3 : (x &&& 0xFFFFFFFF) * n ≤ (2 ^ 32 - 1) * (2 ^ 32 - 1) :=
      Nat.mul_le_mul (by omega) (by omega)
    have h4 : (2 ^ 32 - 1) * (2 ^ 32 - 1) < 2 ^ 64 := by norm_num
    omega
  rw [Nat.mod_eq_of_lt hlt]

theorem fastModulo32Bit_lt32 (x n : Nat) (h1 : 1 ≤ n) (h2 : n < 2 ^ 32) :
    fastModulo32Bit x n < n := by
  rw [fastModulo32Bit_eq x n h2]
  have hx : x &&& 0xFFFFFFFF < 2 ^ 32 := by
    have := Nat.and_pow_two_sub_one_eq_mod x 32
    norm_num at this
    rw [this]
    omega
  have hprod : (x &&& 0xFFFFFFFF) * n < 2 ^ 32 * n := Nat.mul_lt_mul_of_pos_right hx (by omega)
  rw [Nat.shiftRight_eq_div_pow]
  exact Nat.div_lt_of_lt_mul hprod

theorem slot_inside (base n W pos : Nat) (h : pos < n) :
    base ≤ base + pos * W ∧ base + pos * W + W ≤ base + n * W := by
  have := Nat.mul_le_mul_right W (Nat.succ_le_of_lt h)
  rw [Nat.succ_mul] at this
  omega

/-- C35: for every cuckoo object (head 0x0b..0x0e) with nSlots >= 1 and every attribute,
each of the three positions that `Slice::get` computes from the three hashes of the
attribute is strictly smaller than nSlots, the probes of `get` read the table at these
positions (the third probe at the second position again), and the W bytes of a slot at a
position below nSlots lie inside the nSlots*W bytes that start at the base of the hash table.
When nSlots <= 2^24 the position is fastMod32(hash, nSlots) = ((hash & 0xFFFFFFFF) * nSlots)
>> 32, and otherwise it is hash % nSlots; for every hash and every n with 1 <= n < 2^32,
fastMod32(hash, n) is this value, without overflow of the 64-bit product, and it is smaller
than n. -/
theorem get_probe_positions (s : Slice) (attr : Bytes) (hh : 0x0b ≤ s.head ∧ s.head ≤ 0x0e)
    (h1 : 1 ≤ s.cuckooHeader.nrSlots) :
    (slotPos s.cuckooHeader.nrSlots (fasthash64x3 attr attr.length
        (fun k => seedTable.getD (3 * s.cuckooHeader.seed + k) 0)).h0 < s.cuckooHeader.nrSlots
      ∧ slotPos s.cuckooHeader.nrSlots (fasthash64x3 attr attr.length
        (fun k => seedTable.getD (3 * s.cuckooHeader.seed + k) 0)).h1 < s.cuckooHeader.nrSlots
      ∧ slotPos s.cuckooHeader.nrSlots (fasthash64x3 attr attr.length
        (fun k => seedTable.getD (3 * s.cuckooHeader.seed + k) 0)).h2 < s.cuckooHeader.nrSlots)
    ∧ (∀ tr, s.get tr attr =
        match s.probe tr attr s.cuckooHeader.htBase (indexEntrySize s.head)
            (slotPos s.cuckooHeader.nrSlots (fasthash64x3 attr attr.length
              (fun k => seedTable.getD (3 * s.cuckooHeader.seed + k) 0)).h0) with
        | .error err => .error err
        | .ok (some v) => .ok v
        | .ok none =>
          match s.probe tr attr s.cuckooHeader.htBase (indexEntrySize s.head)
              (slotPos s.cuckooHeader.nrSlots (fasthash64x3 attr attr.length
                (fun k => seedTable.getD (3 * s.cuckooHeader.seed + k) 0)).h1) with
          | .error err => .error err
          | .ok (some v) => .ok v
          | .ok none =>
            match s.probe tr attr s.cuckooHeader.htBase (indexEntrySize s.head)
                (slotPos s.cuckooHeader.nrSlots (fasthash64x3 attr attr.length
                  (fun k => seedTable.getD (3 * s.cuckooHeader.seed + k) 0)).h1) with
            | .error err => .error err
            | .ok (some v) => .ok v
            | .ok none => .ok noneSlice)
    ∧ (∀ hash, s.cuckooHeader.htBase
          ≤ s.cuckooHeader.htBase + slotPos s.cuckooHeader.nrSlots hash * indexEntrySize s.head
        ∧ s.cuckooHeader.htBase + slotPos s.cuckooHeader.nrSlots hash * indexEntrySize s.head
            + indexEntrySize s.head
          ≤ s.cuckooHeader.htBase + s.cuckooHeader.nrSlots * indexEntrySize s.head)
    ∧ (∀ hash, s.cuckooHeader.nrSlots ≤ 2 ^ 24 →
        slotPos s.cuckooHeader.nrSlots hash
          = ((hash &&& 0xFFFFFFFF) * s.cuckooHeader.nrSlots) >>> 32)
    ∧ (∀ hash, 2 ^ 24 < s.cuckooHeader.nrSlots →
        slotPos s.cuckooHeader.nrSlots hash = hash % s.cuckooHeader.nrSlots)
    ∧ (∀ hash n, 1 ≤ n → n < 2 ^ 32 →
        fastModulo32Bit hash n = ((hash &&& 0xFFFFFFFF) * n) >>> 32
        ∧ fastModulo32Bit hash n < n) := by
  refine ⟨⟨slotPos_lt _ _ h1, slotPos_lt _ _ h1, slotPos_lt _ _ h1⟩,
    fun tr => get_cuckoo tr s attr hh,
    fun hash => slot_inside _ _ _ _ (slotPos_lt _ hash h1), ?_, ?_,
    fun hash n hn1 hn2 => ⟨fastModulo32Bit_eq hash n hn2, fastModulo32Bit_lt32 hash n hn1 hn2⟩⟩
  · intro hash hsmall
    have hs : s.cuckooHeader.nrSlots ≤ 0x1000000 := by
      norm_num at hsmall
      omega
    rw [slotPos, if_pos hs]
    exact fastModulo32Bit_eq _ _ (by omega)
  · intro hash hlarge
    have hs : ¬ s.cuckooHeader.nrSlots ≤ 0x1000000 := by
      norm_num at hlarge
      omega
    rw [slotPos, if_neg hs]

/-- The theorem of C35 at `twoPairObject` (4 slots) and the attribute "a": the three
positions are below 4. -/
theorem get_probe_positions_witness :
    slotPos twoPairObject.cuckooHeader.nrSlots (fasthash64x3 [0x61] 1
        (fun k => seedTable.getD (3 * twoPairObject.cuckooHeader.seed + k) 0)).h0 < 4
    ∧ slotPos twoPairObject.cuckooHeader.nrSlots (fasthash64x3 [0x61] 1
        (fun k => seedTable.getD (3 * twoPairObject.cuckooHeader.seed + k) 0)).h1 < 4
    ∧ slotPos twoPairObject.cuckooHeader.nrSlots (fasthash64x3 [0x61] 1
        (fun k => seedTable.getD (3 * twoPairObject.cuckooHeader.seed + k) 0)).h2 < 4 :=
  (get_probe_positions twoPairObject [0x61] (by decide) (by decide)).1

end

section
open Parser

theorem emitUnicode_low_surrogate (v hs : Nat) (p : Parser)
    (hlow : 0xdc00 ≤ v ∧ v < 0xe000) (hhs : hs ≠ 0) :
    emitUnicode v hs p
      = (0, ⟨p.input, p.pos,
          ⟨p.b.buf.take (p.b.buf.length - 3)
            ++ [(0xf0 + (((0x10000 + ((hs - 0xd800) <<< 10) + v - 0xdc00) % 2 ^ 32) >>> 18))
                  % 256,
                (0x80 + ((((0x10000 + ((hs - 0xd800) <<< 10) + v - 0xdc00) % 2 ^ 32) >>> 12)
                  &&& 0x3f)) % 256,
                (0x80 + ((((0x10000 + ((hs - 0xd800) <<< 10) + v - 0xdc00) % 2 ^ 32) >>> 6)
                  &&& 0x3f)) % 256,
                (0x80 + (((0x10000 + ((hs - 0xd800) <<< 10) + v - 0xdc00) % 2 ^ 32)
                  &&& 0x3f)) % 256], p.b.calls⟩, p.nesting⟩) := by
  have c1 : ¬ v < 0x80 := by omega
  have c2 : ¬ v < 0x800 := by omega
  have c3 : v ≥ 0xdc00 ∧ v < 0xe000 ∧ hs ≠ 0 := ⟨hlow.1, hlow.2, hhs⟩
  unfold emitUnicode
  rw [if_neg c1, if_neg c2, if_pos c3]
  simp only [Parser.put, Builder.push, Builder.rewind, List.append_assoc, List.singleton_append,
    List.nil_append, List.cons_append]

/-- The defect behind C33 in general: in a state of the loop of `parseString` in which a
high surrogate is remembered, let the bulk copy take `n` ordinary characters and stop at the
escape `\uXXXX` of a low surrogate, in a turn without promotion to the long form. The
turn removes the last 3 bytes of the buffer as it stands behind the bulk copy, which belong
to the characters just copied, appends the 4 bytes of the code point of the pair and goes
on behind the escape. -/
theorem parseStringLoop_bulk_then_low_surrogate (opts : Options) (base fuel : Nat)
    (large : Bool) (hs : Nat) (q : Parser) (n d0 d1 d2 d3 : Nat) (hhs : hs ≠ 0)
    (hbulk : bulkCopy opts q
      = ⟨q.input, q.pos + n, ⟨q.b.buf ++ bytesFrom q.input q.pos n, q.b.calls⟩, q.nesting⟩)
    (hsz : q.pos + n + 6 ≤ q.size)
    (hnp : large = true ∨ ¬ (q.b.buf.length + n - (base + 1) > 126))
    (hc0 : byteAt q.input (q.pos + n) = 0x5c) (hc1 : byteAt q.input (q.pos + n + 1) = 0x75)
    (h0 : hexDigitValue (byteAt q.input (q.pos + n + 2)) = some d0)
    (h1 : hexDigitValue (byteAt q.input (q.pos + n + 3)) = some d1)
    (h2 : hexDigitValue (byteAt q.input (q.pos + n + 4)) = some d2)
    (h3 : hexDigitValue (byteAt q.input (q.pos + n + 5)) = some d3)
    (hlow : 0xdc00 ≤ ((d0 * 16 + d1) * 16 + d2) * 16 + d3
      ∧ ((d0 * 16 + d1) * 16 + d2) * 16 + d3 < 0xe000) :
    parseStringLoop opts base (fuel + 1) large hs q
      = parseStringLoop opts base fuel large 0
          ⟨q.input, q.pos + n + 6,
            ⟨(q.b.buf ++ bytesFrom q.input q.pos n).take (q.b.buf.length + n - 3)
              ++ [(0xf0 + (((0x10000 + ((hs - 0xd800) <<< 10)
                    + (((d0 * 16 + d1) * 16 + d2) * 16 + d3) - 0xdc00) % 2 ^ 32) >>> 18))
                    % 256,
                  (0x80 + ((((0x10000 + ((hs - 0xd800) <<< 10)
                    + (((d0 * 16 + d1) * 16 + d2) * 16 + d3) - 0xdc00) % 2 ^ 32) >>> 12)
                    &&& 0x3f)) % 256,
                  (0x80 + ((((0x10000 + ((hs - 0xd800) <<< 10)
                    + (((d0 * 16 + d1) * 16 + d2) * 16 + d3) - 0xdc00) % 2 ^ 32) >>> 6)
                    &&& 0x3f)) % 256,
                  (0x80 + (((0x10000 + ((hs - 0xd800) <<< 10)
                    + (((d0 * 16 + d1) * 16 + d2) * 16 + d3) - 0xdc00) % 2 ^ 32)
                    &&& 0x3f)) % 256], q.b.calls⟩, q.nesting⟩ := by
  have hp1 : (⟨q.input, q.pos + n, ⟨q.b.buf ++ bytesFrom q.input q.pos n, q.b.calls⟩,
      q.nesting⟩ : Parser).pos < (⟨q.input, q.pos + n,
        ⟨q.b.buf ++ bytesFrom q.input q.pos n, q.b.calls⟩, q.nesting⟩ : Parser).size := by
    simp only [Parser.size] at hsz ⊢
    omega
  have hpr : (!large && decide ((⟨q.b.buf ++ bytesFrom q.input q.pos n, q.b.calls⟩
      : Builder).pos - (base + 1) > 126)) = false := by
    rcases hnp with h | h
    · simp [h]
    · simp only [Builder.pos, List.length_append, bytesFrom_length]
      simp [h]
  have hhex := parseHex_four (⟨q.input, q.pos + n + 2,
      ⟨q.b.buf ++ bytesFrom q.input q.pos n, q.b.calls⟩, q.nesting⟩ : Parser)
    d0 d1 d2 d3 (by simp only [Parser.size] at hsz ⊢; omega) h0 h1 h2 h3
  have hesc : parseEscape 0x75 hs ⟨q.input, q.pos + n + 2,
      ⟨q.b.buf ++ bytesFrom q.input q.pos n, q.b.calls⟩, q.nesting⟩
      = .ok (emitUnicode (((d0 * 16 + d1) * 16 + d2) * 16 + d3) hs
          ⟨q.input, q.pos + n + 2 + 4,
            ⟨q.b.buf ++ bytesFrom q.input q.pos n, q.b.calls⟩, q.nesting⟩) := by
    simp [parseEscape, hhex]
  have c1 : ¬ byteAt q.input (q.pos + n) = 0x22 := by omega
  rw [parseStringLoop, hbulk]
  dsimp only
  rw [getOneOrThrow_of_lt _ hp1]
  dsimp only
  rw [hpr]
  simp only [Bool.or_false, Bool.false_eq_true, if_false]
  rw [if_neg c1, if_pos hc0,
    consume_of_lt _ (by simp only [Parser.size] at hsz ⊢; omega)]
  dsimp only
  rw [hc1, hesc, emitUnicode_low_surrogate _ hs _ hlow hhs]
  simp only [List.length_append, bytesFrom_length]

/-- C33 (defect of the code): the bulk copy at the head of the loop of `parseString` does
not reset `highSurrogate`, as every branch of the byte-wise path does. In the string
`"\ud83dabc\ude00xxxxxxxx"` 18 bytes remain behind the escape of the high surrogate, so the
bulk copy (limit 18 - 15 = 3) copies `abc` and stops at the backslash; the escape of the low
surrogate then finds the high surrogate remembered, rewinds the output by 3 bytes, which are
`abc` and not the emission `ed a0 bd` of the high surrogate, and appends the 4 bytes of the
pair: the result is the String `ed a0 bd f0 9f 98 80 xxxxxxxx`. The same escapes around `abc`
in the shorter string `"\ud83dabc\ude00"` go through the byte-wise path and give
`ed a0 bd abc ed b8 80`. With one character in between, as in `"\ud83da\ude00"` followed
by ten blanks, the rewind removes `a` and two bytes of the emission of the high surrogate,
and the result is the String `ed f0 9f 98 80`. -/
theorem parseString_bulk_copy_keeps_highSurrogate :
    bulkCopy {} ⟨[0x22, 0x5c, 0x75, 0x64, 0x38, 0x33, 0x64, 0x61, 0x62, 0x63, 0x5c, 0x75, 0x64,
          0x65, 0x30, 0x30, 0x78, 0x78, 0x78, 0x78, 0x78, 0x78, 0x78, 0x78, 0x22], 7,
        ⟨[0x40, 0xed, 0xa0, 0xbd], []⟩, 0⟩
      = ⟨[0x22, 0x5c, 0x75, 0x64, 0x38, 0x33, 0x64, 0x61, 0x62, 0x63, 0x5c, 0x75, 0x64,
          0x65, 0x30, 0x30, 0x78, 0x78, 0x78, 0x78, 0x78, 0x78, 0x78, 0x78, 0x22], 10,
        ⟨[0x40, 0xed, 0xa0, 0xbd, 0x61, 0x62, 0x63], []⟩, 0⟩
    ∧ parseInternal plainEnv false
        ⟨[0x22, 0x5c, 0x75, 0x64, 0x38, 0x33, 0x64, 0x61, 0x62, 0x63, 0x5c, 0x75, 0x64,
          0x65, 0x30, 0x30, 0x78, 0x78, 0x78, 0x78, 0x78, 0x78, 0x78, 0x78, 0x22], 0,
          ⟨[], []⟩, 0⟩
      = some (.ok (1,
        ⟨[0x22, 0x5c, 0x75, 0x64, 0x38, 0x33, 0x64, 0x61, 0x62, 0x63, 0x5c, 0x75, 0x64,
          0x65, 0x30, 0x30, 0x78, 0x78, 0x78, 0x78, 0x78, 0x78, 0x78, 0x78, 0x22], 25,
          ⟨[0x4f, 0xed, 0xa0, 0xbd, 0xf0, 0x9f, 0x98, 0x80, 0x78, 0x78, 0x78, 0x78, 0x78, 0x78,
            0x78, 0x78], []⟩, 0⟩))
    ∧ parseInternal plainEnv false
        ⟨[0x22, 0x5c, 0x75, 0x64, 0x38, 0x33, 0x64, 0x61, 0x62, 0x63, 0x5c, 0x75, 0x64,
          0x65, 0x30, 0x30, 0x22], 0, ⟨[], []⟩, 0⟩
      = some (.ok (1,
        ⟨[0x22, 0x5c, 0x75, 0x64, 0x38, 0x33, 0x64, 0x61, 0x62, 0x63, 0x5c, 0x75, 0x64,
          0x65, 0x30, 0x30, 0x22], 17,
          ⟨[0x49, 0xed, 0xa0, 0xbd, 0x61, 0x62, 0x63, 0xed, 0xb8, 0x80], []⟩, 0⟩))
    ∧ parseInternal plainEnv false
        ⟨[0x22, 0x5c, 0x75, 0x64, 0x38, 0x33, 0x64, 0x61, 0x5c, 0x75, 0x64, 0x65, 0x30, 0x30,
          0x22, 0x20, 0x20, 0x20, 0x20, 0x20, 0x20, 0x20, 0x20, 0x20, 0x20], 0, ⟨[], []⟩, 0⟩
      = some (.ok (1,
        ⟨[0x22, 0x5c, 0x75, 0x64, 0x38, 0x33, 0x64, 0x61, 0x5c, 0x75, 0x64, 0x65, 0x30, 0x30,
          0x22, 0x20, 0x20, 0x20, 0x20, 0x20, 0x20, 0x20, 0x20, 0x20, 0x20], 25,
          ⟨[0x45, 0xed, 0xf0, 0x9f, 0x98, 0x80], []⟩, 0⟩)) := by
  refine ⟨by decide, by decide, by decide, by decide⟩

end

section
open Parser

/-- A turn of the loop of `parseString` that starts at a backslash followed by another byte:
both bytes are consumed, and the escape switch runs on the second byte in the state behind
them, whose buffer `buf` is the buffer of the Builder, with the payload moved when the
promotion to the long form is due in this turn. -/
theorem parseStringLoop_escape_turn (opts : Options) (base fuel : Nat) (large : Bool)
    (hs : Nat) (q : Parser) (hlt : q.pos + 1 < q.size) (hc0 : byteAt q.input q.pos = 0x5c) :
    ∃ (large1 : Bool) (buf : Bytes), (buf = q.b.buf ∨ buf = (q.promote base).b.buf)
      ∧ parseStringLoop opts base (fuel + 1) large hs q
        = match parseEscape (byteAt q.input (q.pos + 1)) hs
            ⟨q.input, q.pos + 2, ⟨buf, q.b.calls⟩, q.nesting⟩ with
          | .error f => .error f
          | .ok (hs1, p5) => parseStringLoop opts base fuel large1 hs1 p5 := by
  have hq : q.pos < q.size := by omega
  obtain ⟨large1, p3, h3in, h3pos, h3calls, h3n, h3buf, hturn⟩ :=
    parseStringLoop_turn opts base fuel large hs q hq
      (bulkCopy_stop opts q hq (Or.inr hc0))
  have c1 : ¬ byteAt q.input q.pos = 0x22 := by omega
  have hp3 : p3.pos < p3.size := by
    simp only [Parser.size, h3in, h3pos] at hlt ⊢
    omega
  rw [if_neg c1, if_pos hc0, consume_of_lt p3 hp3] at hturn
  dsimp only at hturn
  have hb : byteAt p3.input p3.pos = byteAt q.input (q.pos + 1) := by rw [h3in, h3pos]
  have hp4 : ({ p3 with pos := p3.pos + 1 } : Parser)
      = ⟨q.input, q.pos + 2, ⟨p3.b.buf, q.b.calls⟩, q.nesting⟩ := by
    apply parser_eq_of_fields
    · exact h3in
    · simp only [h3pos]
    · rfl
    · exact h3calls
    · exact h3n
  rw [hb, hp4] at hturn
  exact ⟨large1, p3.b.buf, h3buf, hturn⟩

theorem put_byte (p : Parser) (x : Nat) (hx : x < 256) :
    p.put x = ⟨p.input, p.pos, ⟨p.b.buf ++ [x], p.b.calls⟩, p.nesting⟩ := by
  simp only [Parser.put, Builder.push, Nat.mod_eq_of_lt hx]

theorem parseEscape_simple (c b hs : Nat) (p : Parser) (h : specSimpleEscape c = some b) :
    parseEscape c hs p = .ok (0, ⟨p.input, p.pos, ⟨p.b.buf ++ [b], p.b.calls⟩, p.nesting⟩) := by
  unfold specSimpleEscape at h
  unfold parseEscape
  split_ifs at h with c1 c2 c3 c4 c5 c6 c7 c8 <;> simp only [Option.some.injEq] at h <;>
    subst h <;> subst c <;> simp [put_byte]

theorem parseEscape_other (c hs : Nat) (p : Parser) (h : specSimpleEscape c = none)
    (hu : c ≠ 0x75) : parseEscape c hs p = .error ⟨.ParseError, p⟩ := by
  unfold specSimpleEscape at h
  unfold parseEscape
  split_ifs at h with c1 c2 c3 c4 c5 c6 c7 c8
  have d1 : ¬ (c = 0x22 ∨ c = 0x2f ∨ c = 0x5c) := by
    rintro (h | h | h) <;> omega
  rw [if_neg d1, if_neg c4, if_neg c5, if_neg c6, if_neg c7, if_neg c8, if_neg hu]
  rfl

theorem emitUnicode_bmp (v hs : Nat) (q : Parser) (hv : v < 0x10000)
    (hns : ¬ (0xd800 ≤ v ∧ v < 0xe000)) :
    emitUnicode v hs q
      = (0, ⟨q.input, q.pos, ⟨q.b.buf ++ specUtf8 v, q.b.calls⟩, q.nesting⟩) := by
  unfold emitUnicode specUtf8
  by_cases c1 : v < 0x80
  · rw [if_pos c1, if_pos c1, put_byte _ _ (by omega)]
  · rw [if_neg c1, if_neg c1]
    by_cases c2 : v < 0x800
    · rw [if_pos c2, if_pos c2]
      have e6 : v >>> 6 = v / 0x40 := by rw [Nat.shiftRight_eq_div_pow]
      rw [e6, and_63, put_byte _ _ (by omega), put_byte _ _ (by omega)]
      simp
    · rw [if_neg c2, if_neg c2, if_pos hv]
      have c3 : ¬ (v ≥ 0xdc00 ∧ v < 0xe000 ∧ hs ≠ 0) := by
        rintro ⟨h1, h2, _⟩
        exact hns ⟨by omega, h2⟩
      have c4 : ¬ (v ≥ 0xd800 ∧ v < 0xdc00) := by
        rintro ⟨h1, h2⟩
        exact hns ⟨h1, by omega⟩
      rw [if_neg c3]
      have e6 : v >>> 6 = v / 0x40 := by rw [Nat.shiftRight_eq_div_pow]
      have e12 : v >>> 12 = v / 0x1000 := by rw [Nat.shiftRight_eq_div_pow]
      simp only [if_neg c4]
      rw [e6, e12, and_63, and_63, put_byte _ _ (by omega), put_byte _ _ (by omega),
        put_byte _ _ (by omega)]
      simp

theorem parseHex_digits : ∀ (k v : Nat) (q : Parser) (r : Nat × Parser),
    parseHex k v q = .ok r →
    ∀ j, j < k → q.pos + j < q.size ∧ hexDigitValue (byteAt q.input (q.pos + j)) ≠ none := by
  intro k
  induction k with
  | zero => intro v q r _ j hj; omega
  | succ k ih =>
    intro v q r h j hj
    by_cases hlt : q.pos < q.size
    · rw [parseHex, consume_of_lt q hlt] at h
      dsimp only at h
      have hd : hexDigitValue (byteAt q.input q.pos) ≠ none := by
        unfold hexDigitValue
        split_ifs at h with c1 c2 c3
        · rw [if_pos c1]; simp
        · rw [if_neg c1, if_pos c2]; simp
        · rw [if_neg c1, if_neg c2, if_pos c3]; simp
        · simp [Parser.fail] at h
      have hrec : ∃ v1, parseHex k v1 { q with pos := q.pos + 1 } = .ok r := by
        split_ifs at h with c1 c2 c3
        · exact ⟨_, h⟩
        · exact ⟨_, h⟩
        · exact ⟨_, h⟩
        · simp [Parser.fail] at h
      obtain ⟨v1, hrec⟩ := hrec
      cases j with
      | zero => exact ⟨hlt, hd⟩
      | succ j =>
        have := ih v1 _ r hrec j (by omega)
        simp only [Parser.size] at this ⊢
        rw [show q.pos + (j + 1) = q.pos + 1 + j by omega]
        exact this
    · have hc : q.consume = (none, q) := by
        unfold Parser.consume
        rw [if_pos (by omega)]
      rw [parseHex, hc] at h
      simp [Parser.fail] at h

theorem parseEscape_bad_hex (hs : Nat) (p : Parser) (j : Nat) (hj : j < 4)
    (hbad : p.pos + j < p.size → hexDigitValue (byteAt p.input (p.pos + j)) = none) :
    ∃ st, parseEscape 0x75 hs p = .error ⟨.ParseError, st⟩ := by
  cases hx : parseHex 4 0 p with
  | error f =>
    have := parseHex_error 4 0 p f hx
    refine ⟨f.state, ?_⟩
    obtain ⟨e, st⟩ := f
    simp only at this
    subst this
    simp [parseEscape, hx]
  | ok r =>
    obtain ⟨h1, h2⟩ := parseHex_digits 4 0 p r hx j hj
    exact absurd (hbad h1) h2

theorem specUtf8_length (v : Nat) (hv : v < 0x10000) :
    (specUtf8 v).length = if v < 0x80 then 1 else if v < 0x800 then 2 else 3 := by
  unfold specUtf8
  split_ifs <;> rfl

end

section
open Parser

set_option maxRecDepth 100000 in
theorem Base64DecodeTable_entries :
    Base64DecodeTable.length = 128
    ∧ (List.range 128).filter (fun c => Base64DecodeTable[c]? ≠ some (specBase64Value c))
        = [0x3c]
    ∧ Base64DecodeTable[0x3b]? = some 255
    ∧ Base64DecodeTable[0x3c]? = some 0
    ∧ Base64DecodeTable[0x3d]? = some 255
    ∧ Base64DecodeTable[0x3e]? = some 255 := by
  refine ⟨by decide, by decide, by decide, by decide, by decide, by decide⟩

/-- C36 (defect of the code): `Base64DecodeTable` holds the value of the two alphabets for
every index in 0..127 but one: the entry of the index 60, the character `<`, is 0, the value
of `A`, and not the invalid marker 255. The padding character `=` (61) and the neighbours
`;` (59) and `>` (62) have the marker 255. So the VJSON parser decodes the string `"b:<<<<"`
like `"b:AAAA"` to the Binary `c0 03 00 00 00`, where it rejects `"b:A;AA"`. -/
theorem Base64DecodeTable_accepts_less_than_sign :
    Base64DecodeTable.length = 128
    ∧ Base64DecodeTable[0x3c]? = some 0
    ∧ specBase64Value 0x3c = 255
    ∧ (List.range 128).filter (fun c => Base64DecodeTable[c]? ≠ some (specBase64Value c))
        = [0x3c]
    ∧ Base64DecodeTable[0x3b]? = some 255
    ∧ Base64DecodeTable[0x3d]? = some 255
    ∧ Base64DecodeTable[0x3e]? = some 255
    ∧ parseInternal vjsonEnv false
        ⟨[0x22, 0x62, 0x3a, 0x3c, 0x3c, 0x3c, 0x3c, 0x22], 0, ⟨[], []⟩, 0⟩
      = some (.ok (1, ⟨[0x22, 0x62, 0x3a, 0x3c, 0x3c, 0x3c, 0x3c, 0x22], 8,
          ⟨[0xc0, 0x03, 0x00, 0x00, 0x00], []⟩, 0⟩))
    ∧ parseInternal vjsonEnv false
        ⟨[0x22, 0x62, 0x3a, 0x41, 0x41, 0x41, 0x41, 0x22], 0, ⟨[], []⟩, 0⟩
      = some (.ok (1, ⟨[0x22, 0x62, 0x3a, 0x41, 0x41, 0x41, 0x41, 0x22], 8,
          ⟨[0xc0, 0x03, 0x00, 0x00, 0x00], []⟩, 0⟩))
    ∧ parseInternal vjsonEnv false
        ⟨[0x22, 0x62, 0x3a, 0x41, 0x3b, 0x41, 0x41, 0x22], 0, ⟨[], []⟩, 0⟩
      = some (.error ⟨.ParseError, ⟨[0x22, 0x62, 0x3a, 0x41, 0x3b, 0x41, 0x41, 0x22], 3,
          ⟨[0xc0, 0x03], []⟩, 0⟩⟩) := by
  obtain ⟨h1, h2, h3, h4, h5, h6⟩ := Base64DecodeTable_entries
  exact ⟨h1, h4, by decide, h2, h3, h5, h6, by decide, by decide, by decide⟩

end

section
open Parser VJsonParser

theorem memchr_at (c : Nat) : ∀ (n : Nat) (src : List Nat) (pos : Nat),
    n < src.length → src.getD n 0 % 256 = c → (∀ k, k < n → src.getD k 0 % 256 ≠ c) →
    memchr c src pos = some (pos + n) := by
  intro n
  induction n with
  | zero =>
    intro src pos hlen hc _
    cases src with
    | nil => simp at hlen
    | cons x rest =>
      simp only [List.getD_cons_zero] at hc
      simp [memchr, hc]
  | succ n ih =>
    intro src pos hlen hc hbefore
    cases src with
    | nil => simp at hlen
    | cons x rest =>
      have hx : x % 256 ≠ c := by
        have := hbefore 0 (by omega)
        simpa using this
      simp only [memchr, hx, if_false]
      rw [ih rest (pos + 1) (by simpa using hlen) (by simpa using hc)
        (fun k hk => by have := hbefore (k + 1) (by omega); simpa using this)]
      congr 1
      omega

theorem memchr_payload (p : Parser) (e : Nat) (h1 : p.pos ≤ e) (h2 : e < p.size)
    (h3 : byteAt p.input e = 0x22) (h4 : ∀ k, p.pos ≤ k → k < e → byteAt p.input k ≠ 0x22) :
    memchr 0x22 (p.input.drop p.pos) p.pos = some e := by
  have := memchr_at 0x22 (e - p.pos) (p.input.drop p.pos) p.pos
    (by simp only [List.length_drop, Parser.size] at h2 ⊢; omega)
    (by rw [byteAt_drop, show p.pos + (e - p.pos) = e by omega]; exact h3)
    (fun k hk => by rw [byteAt_drop]; exact h4 _ (by omega) (by omega))
  rw [this]
  congr 1
  omega

theorem skipPadding_eq (input : Bytes) (pos r : Nat) : ∀ (n : Nat), r ≤ n →
    (∀ k, r ≤ k → k < n → byteAt input (pos + k) = 0x3d) →
    (0 < r → byteAt input (pos + r - 1) ≠ 0x3d) →
    skipPadding input pos n = r := by
  intro n
  induction n with
  | zero => intro h _ _; simp only [skipPadding]; omega
  | succ n ih =>
    intro hr hpad hlast
    by_cases hrn : r = n + 1
    · have : byteAt input (pos + n) ≠ 0x3d := by
        have := hlast (by omega)
        rwa [show pos + r - 1 = pos + n by omega] at this
      simp only [skipPadding, this, if_false]
      omega
    · have : byteAt input (pos + n) = 0x3d := hpad n (by omega) (by omega)
      simp only [skipPadding, this, if_true]
      exact ih (by omega) (fun k h1 h2 => hpad k h1 (by omega)) hlast

/-- A turn of the loop of `parseBase64` with fewer than 2 characters left fails. -/
theorem base64Loop_short (fuel : Nat) (p : Parser) (off r : Nat) (hr : r ≤ 1) :
    base64Loop (fuel + 1) p off r = .error ⟨.ParseError, p⟩ := by
  have h1 : ¬ r > 1 := by omega
  simp [base64Loop, h1, Parser.fail]

/-- A turn of the loop of `parseBase64` with 2 characters left. -/
theorem base64Loop_two (fuel : Nat) (p : Parser) (off : Nat) :
    base64Loop (fuel + 1) p off 2
      = if decodeChar (byteAt p.input (off + 1)) ≠ 0xff then
          .ok (p.put (((decodeChar (byteAt p.input off) &&& 0x3f) <<< 2)
            + ((decodeChar (byteAt p.input (off + 1)) &&& 0x30) >>> 4)))
        else .error ⟨.ParseError, p⟩ := by
  by_cases h : decodeChar (byteAt p.input (off + 1)) = 0xff
  · simp [base64Loop, h, Parser.fail]
  · simp [base64Loop, h, Parser.fail]

/-- A turn of the loop of `parseBase64` with 3 characters left. -/
theorem base64Loop_three (fuel : Nat) (p : Parser) (off : Nat) :
    base64Loop (fuel + 1) p off 3
      = if decodeChar (byteAt p.input (off + 1)) ≠ 0xff then
          if decodeChar (byteAt p.input (off + 2)) ≠ 0xff then
            .ok ((p.put (((decodeChar (byteAt p.input off) &&& 0x3f) <<< 2)
              + ((decodeChar (byteAt p.input (off + 1)) &&& 0x30) >>> 4))).put
              (((decodeChar (byteAt p.input (off + 1)) &&& 0x0f) <<< 4)
              + ((decodeChar (byteAt p.input (off + 2)) &&& 0x3c) >>> 2)))
          else .error ⟨.ParseError,
            p.put (((decodeChar (byteAt p.input off) &&& 0x3f) <<< 2)
              + ((decodeChar (byteAt p.input (off + 1)) &&& 0x30) >>> 4))⟩
        else .error ⟨.ParseError, p⟩ := by
  by_cases h : decodeChar (byteAt p.input (off + 1)) = 0xff
  · simp [base64Loop, h, Parser.fail]
  · by_cases h2 : decodeChar (byteAt p.input (off + 2)) = 0xff
    · simp [base64Loop, h, h2, Parser.fail]
    · simp [base64Loop, h, h2, Parser.fail]

/-- A turn of the loop of `parseBase64` with at least 4 characters left. -/
theorem base64Loop_four (fuel : Nat) (p : Parser) (off r : Nat) (hr : 4 ≤ r) :
    base64Loop (fuel + 1) p off r
      = if decodeChar (byteAt p.input (off + 1)) ≠ 0xff then
          if decodeChar (byteAt p.input (off + 2)) ≠ 0xff then
            if decodeChar (byteAt p.input (off + 3)) ≠ 0xff then
              if r ≤ 4 then
                .ok (((p.put (((decodeChar (byteAt p.input off) &&& 0x3f) <<< 2)
                  + ((decodeChar (byteAt p.input (off + 1)) &&& 0x30) >>> 4))).put
                  (((decodeChar (byteAt p.input (off + 1)) &&& 0x0f) <<< 4)
                  + ((decodeChar (byteAt p.input (off + 2)) &&& 0x3c) >>> 2))).put
                  (((decodeChar (byteAt p.input (off + 2)) &&& 0x03) <<< 6)
                  + ((decodeChar (byteAt p.input (off + 3)) &&& 0x3f) >>> 0)))
              else
                base64Loop fuel (((p.put (((decodeChar (byteAt p.input off) &&& 0x3f) <<< 2)
                  + ((decodeChar (byteAt p.input (off + 1)) &&& 0x30) >>> 4))).put
                  (((decodeChar (byteAt p.input (off + 1)) &&& 0x0f) <<< 4)
                  + ((decodeChar (byteAt p.input (off + 2)) &&& 0x3c) >>> 2))).put
                  (((decodeChar (byteAt p.input (off + 2)) &&& 0x03) <<< 6)
                  + ((decodeChar (byteAt p.input (off + 3)) &&& 0x3f) >>> 0))) (off + 4) (r - 4)
            else .error ⟨.ParseError,
              (p.put (((decodeChar (byteAt p.input off) &&& 0x3f) <<< 2)
                + ((decodeChar (byteAt p.input (off + 1)) &&& 0x30) >>> 4))).put
                (((decodeChar (byteAt p.input (off + 1)) &&& 0x0f) <<< 4)
                + ((decodeChar (byteAt p.input (off + 2)) &&& 0x3c) >>> 2))⟩
          else .error ⟨.ParseError,
            p.put (((decodeChar (byteAt p.input off) &&& 0x3f) <<< 2)
              + ((decodeChar (byteAt p.input (off + 1)) &&& 0x30) >>> 4))⟩
        else .error ⟨.ParseError, p⟩ := by
  have r1 : r > 1 := by omega
  have r2 : r > 2 := by omega
  have r3 : r > 3 := by omega
  by_cases h : decodeChar (byteAt p.input (off + 1)) = 0xff
  · simp [base64Loop, h, r1, Parser.fail]
  · by_cases h2 : decodeChar (byteAt p.input (off + 2)) = 0xff
    · simp [base64Loop, h, h2, r1, r2, Parser.fail]
    · by_cases h3 : decodeChar (byteAt p.input (off + 3)) = 0xff
      · simp [base64Loop, h, h2, h3, r1, r2, r3, Parser.fail]
      · by_cases h4 : r ≤ 4
        · simp [base64Loop, h, h2, h3, r1, r2, r3, h4, Parser.fail]
        · simp [base64Loop, h, h2, h3, r1, r2, r3, h4, Parser.fail]

theorem take_of_append (l a b : List Nat) (h : l.take (a ++ b).length = a ++ b) :
    l.take a.length = a := by
  have := congrArg (List.take a.length) h
  rw [List.take_take] at this
  simpa using this

/-- The loop of `parseBase64`, when it succeeds on `r` characters, has appended
floor(3*r/4) bytes and nothing else has changed. -/
theorem base64Loop_ok : ∀ (fuel : Nat) (p : Parser) (off r : Nat) (q : Parser),
    base64Loop fuel p off r = .ok q →
    q.b.buf.take p.b.buf.length = p.b.buf ∧ q.b.buf.length = p.b.buf.length + 3 * r / 4
      ∧ q.input = p.input ∧ q.pos = p.pos ∧ q.b.calls = p.b.calls
      ∧ q.nesting = p.nesting := by
  intro fuel
  induction fuel with
  | zero => intro p off r q h; simp [base64Loop, Parser.fail] at h
  | succ fuel ih =>
    intro p off r q h
    rcases Nat.lt_or_ge r 2 with hr | hr
    · rw [base64Loop_short fuel p off r (by omega)] at h
      simp at h
    · rcases Nat.lt_or_ge r 4 with hr4 | hr4
      · obtain rfl | rfl : r = 2 ∨ r = 3 := by omega
        · rw [base64Loop_two] at h
          split_ifs at h with c1
          simp only [Except.ok.injEq] at h
          subst h
          exact ⟨by simp [Parser.put, Builder.push], by simp [Parser.put, Builder.push],
            rfl, rfl, rfl, rfl⟩
        · rw [base64Loop_three] at h
          split_ifs at h with c1 c2
          simp only [Except.ok.injEq] at h
          subst h
          exact ⟨by simp [Parser.put, Builder.push], by simp [Parser.put, Builder.push],
            rfl, rfl, rfl, rfl⟩
      · rw [base64Loop_four fuel p off r hr4] at h
        split_ifs at h with c1 c2 c3 c4
        · simp only [Except.ok.injEq] at h
          subst h
          refine ⟨by simp [Parser.put, Builder.push], ?_, rfl, rfl, rfl, rfl⟩
          simp only [Parser.put, Builder.push, List.length_append, List.length_cons,
            List.length_nil]
          omega
        · obtain ⟨h1, h2, h3, h4, h5, h6⟩ := ih _ _ _ _ h
          have hb : ∀ x y z : Nat, (((p.put x).put y).put z).b.buf
              = p.b.buf ++ [x % 256, y % 256, z % 256] := by
            intro x y z
            simp [Parser.put, Builder.push]
          rw [hb] at h1 h2
          refine ⟨take_of_append _ _ _ h1, ?_, h3, h4, h5, h6⟩
          rw [h2]
          simp only [List.length_append, List.length_cons, List.length_nil]
          omega

/-- The loop of `parseBase64` on a number of characters that leaves the remainder 1 modulo 4
fails with ParseError. -/
theorem base64Loop_mod_one : ∀ (fuel : Nat) (p : Parser) (off r : Nat),
    r % 4 = 1 → r / 4 < fuel → ∃ st, base64Loop fuel p off r = .error ⟨.ParseError, st⟩ := by
  intro fuel
  induction fuel with
  | zero => intro p off r _ h; omega
  | succ fuel ih =>
    intro p off r hm hf
    rcases Nat.lt_or_ge r 4 with hr4 | hr4
    · exact ⟨p, base64Loop_short fuel p off r (by omega)⟩
    · rw [base64Loop_four fuel p off r hr4]
      split_ifs with c1 c2 c3 c4
      · omega
      · exact ih _ _ _ (by omega) (by omega)
      · exact ⟨_, rfl⟩
      · exact ⟨_, rfl⟩
      · exact ⟨_, rfl⟩

/-- Every failure of the loop of `parseBase64` is a ParseError when the bound on its turns
is the one that `parseBase64` gives. -/
theorem base64Loop_error : ∀ (fuel : Nat) (p : Parser) (off r : Nat) (f : Failure),
    r / 4 < fuel → base64Loop fuel p off r = .error f → f.error = .ParseError := by
  intro fuel
  induction fuel with
  | zero => intro p off r f h _; omega
  | succ fuel ih =>
    intro p off r f hf h
    rcases Nat.lt_or_ge r 2 with hr | hr
    · rw [base64Loop_short fuel p off r (by omega)] at h
      simp only [Except.error.injEq] at h
      rw [← h]
    · rcases Nat.lt_or_ge r 4 with hr4 | hr4
      · obtain rfl | rfl : r = 2 ∨ r = 3 := by omega
        · rw [base64Loop_two] at h
          split_ifs at h with c1
          simp only [Except.error.injEq] at h
          rw [← h]
        · rw [base64Loop_three] at h
          split_ifs at h with c1 c2
          · simp only [Except.error.injEq] at h
            rw [← h]
          · simp only [Except.error.injEq] at h
            rw [← h]
      · rw [base64Loop_four fuel p off r hr4] at h
        split_ifs at h with c1 c2 c3 c4
        · exact ih _ _ _ f (by omega) h
        · simp only [Except.error.injEq] at h
          rw [← h]
        · simp only [Except.error.injEq] at h
          rw [← h]
        · simp only [Except.error.injEq] at h
          rw [← h]

/-- The function `parseBase64` on a payload that ends at the quote at `e` and has `r`
characters before the padding. -/
theorem parseBase64_payload (p : Parser) (e r : Nat) (hp : specBase64Payload p e r) :
    parseBase64 p
      = if e - p.pos = 0 then .ok { p with b := p.b.appendUInt (3 * r / 4) 0xbf }
        else
          match base64Loop (r / 4 + 1) { p with b := p.b.appendUInt (3 * r / 4) 0xbf }
              p.pos r with
          | .error f => .error f
          | .ok p2 => .ok { p2 with pos := p2.pos + (e - p.pos) } := by
  obtain ⟨h1, h2, h3, h4, h5, h6, h7⟩ := hp
  rw [parseBase64, memchr_payload p e h1 h2 h3 h4]
  dsimp only
  rw [skipPadding_eq p.input p.pos r (e - p.pos) h5 h6 h7]

theorem memchr_some (c : Nat) : ∀ (src : List Nat) (pos e : Nat),
    memchr c src pos = some e →
    pos ≤ e ∧ e - pos < src.length ∧ src.getD (e - pos) 0 % 256 = c
      ∧ ∀ k, k < e - pos → src.getD k 0 % 256 ≠ c := by
  intro src
  induction src with
  | nil => intro pos e h; simp [memchr] at h
  | cons x rest ih =>
    intro pos e h
    rw [memchr] at h
    by_cases hx : x % 256 = c
    · rw [if_pos hx] at h
      simp only [Option.some.injEq] at h
      subst h
      refine ⟨Nat.le_refl _, by simp, by simpa using hx, ?_⟩
      intro k hk
      omega
    · rw [if_neg hx] at h
      obtain ⟨h1, h2, h3, h4⟩ := ih (pos + 1) e h
      obtain ⟨d, hd⟩ : ∃ d, e - pos = d + 1 := ⟨e - pos - 1, by omega⟩
      have hd1 : e - (pos + 1) = d := by omega
      rw [hd1] at h2 h3 h4
      rw [hd]
      refine ⟨by omega, by simpa using h2, by simpa using h3, ?_⟩
      intro k hk
      cases k with
      | zero => simpa using hx
      | succ k => simpa using h4 k (by omega)

theorem memchr_none (c : Nat) : ∀ (src : List Nat) (pos : Nat),
    memchr c src pos = none → ∀ k, k < src.length → src.getD k 0 % 256 ≠ c := by
  intro src
  induction src with
  | nil => intro pos _ k hk; simp at hk
  | cons x rest ih =>
    intro pos h k hk
    rw [memchr] at h
    by_cases hx : x % 256 = c
    · rw [if_pos hx] at h
      cases h
    · rw [if_neg hx] at h
      cases k with
      | zero => simpa using hx
      | succ k => simpa using ih (pos + 1) h k (by simpa using hk)

theorem skipPadding_spec (input : Bytes) (pos : Nat) : ∀ (n : Nat),
    skipPadding input pos n ≤ n
    ∧ (∀ k, skipPadding input pos n ≤ k → k < n → byteAt input (pos + k) = 0x3d)
    ∧ (0 < skipPadding input pos n →
        byteAt input (pos + skipPadding input pos n - 1) ≠ 0x3d) := by
  intro n
  induction n with
  | zero => exact ⟨Nat.le_refl _, fun k _ h => absurd h (Nat.not_lt_zero k), fun h => absurd h (by simp [skipPadding])⟩
  | succ n ih =>
    obtain ⟨i1, i2, i3⟩ := ih
    by_cases hc : byteAt input (pos + n) = 0x3d
    · have e : skipPadding input pos (n + 1) = skipPadding input pos n := by
        rw [skipPadding, if_pos hc]
      rw [e]
      refine ⟨by omega, ?_, i3⟩
      intro k h1 h2
      by_cases hk : k = n
      · rw [hk]; exact hc
      · exact i2 k h1 (by omega)
    · have e : skipPadding input pos (n + 1) = n + 1 := by
        rw [skipPadding, if_neg hc]
      rw [e]
      refine ⟨Nat.le_refl _, fun k h1 h2 => by omega, fun _ => ?_⟩
      rw [show pos + (n + 1) - 1 = pos + n by omega]
      exact hc

/-- The closing quote that `memchr` finds and the count that the padding loop leaves are
the payload of the base64 string at the cursor. -/
theorem payload_of_memchr (p : Parser) (e : Nat)
    (h : memchr 0x22 (p.input.drop p.pos) p.pos = some e) :
    specBase64Payload p e (skipPadding p.input p.pos (e - p.pos)) := by
  obtain ⟨h1, h2, h3, h4⟩ := memchr_some _ _ _ _ h
  obtain ⟨s1, s2, s3⟩ := skipPadding_spec p.input p.pos (e - p.pos)
  refine ⟨h1, ?_, ?_, ?_, s1, s2, s3⟩
  · simp only [List.length_drop] at h2
    simp only [Parser.size]
    omega
  · rw [byteAt_drop, show p.pos + (e - p.pos) = e by omega] at h3
    exact h3
  · intro k hk1 hk2
    have := h4 (k - p.pos) (by omega)
    rw [byteAt_drop, show p.pos + (k - p.pos) = k by omega] at this
    exact this

/-- Without a closing quote `parseBase64` fails with ParseError. -/
theorem parseBase64_unterminated (p : Parser)
    (h : memchr 0x22 (p.input.drop p.pos) p.pos = none) :
    parseBase64 p = .error ⟨.ParseError, p⟩ := by
  rw [parseBase64, h]
  rfl

end

section
open Parser VJsonParser

theorem decodeChar_index (c : Nat) :
    (c ≤ 0x7a → c < Base64DecodeTable.length ∧ Base64DecodeTable[c]? = some (decodeChar c))
    ∧ (0x7a < c → decodeChar c = 0xff) := by
  have hlen := Base64DecodeTable_entries.1
  constructor
  · intro hc
    have hlt : c < Base64DecodeTable.length := by omega
    refine ⟨hlt, ?_⟩
    rw [decodeChar, if_pos hc, List.getD_eq_getElem?_getD, List.getElem?_eq_getElem hlt]
    rfl
  · intro hc
    rw [decodeChar, if_neg (by omega)]

theorem appendUInt_header (b : Builder) (v : Nat) (hv : v < 2 ^ 64) :
    ∃ w, 1 ≤ w ∧ w ≤ 8
      ∧ (b.appendUInt v 0xbf).buf = b.buf ++ ((0xbf + w) :: littleEndianBytes w v)
      ∧ (b.appendUInt v 0xbf).calls = b.calls
      ∧ specLittleEndian (littleEndianBytes w v) = v := by
  obtain ⟨w, hw1, hw2, hw3, hw4⟩ := appendUIntLoop_eq 8 (v % 2 ^ 64) [] (by decide)
    (by rw [Nat.mod_eq_of_lt hv]; exact hv)
  rw [Nat.mod_eq_of_lt hv] at hw3 hw4
  refine ⟨w, hw1, hw2, ?_, rfl, specLittleEndian_bytes w _ hw4⟩
  simp only [Builder.appendUInt, Nat.mod_eq_of_lt hv, hw3, List.nil_append,
    littleEndianBytes_length]
  congr 2
  omega

/-- C37: for every input on which `parseBase64` succeeds, the payload of the base64 string
starts at the cursor, ends at the closing quote at `e` and has `r` characters before the
trailing `=` padding; the function has written the Binary header `0xbf + w` followed by the
length floor(3*r/4) in w little-endian bytes and has appended exactly floor(3*r/4) payload
bytes behind this header, the cursor standing at the closing quote. For every payload,
`parseBase64` fails with ParseError whenever r mod 4 = 1 and when a payload that is not
empty consists of `=` characters only; it raises no other error on any input. The table
`Base64DecodeTable` of 128 entries is consulted for characters up to `z` = 0x7a only, so
every index into it is below 128. -/
theorem parseBase64_declared_length (p : Parser) (hsize : p.size < 2 ^ 64) :
    (∀ q, parseBase64 p = .ok q →
      ∃ (e r w : Nat) (payload : Bytes), specBase64Payload p e r ∧ 1 ≤ w ∧ w ≤ 8
        ∧ specLittleEndian (littleEndianBytes w (3 * r / 4)) = 3 * r / 4
        ∧ q.b.buf = p.b.buf ++ ((0xbf + w) :: littleEndianBytes w (3 * r / 4)) ++ payload
        ∧ payload.length = 3 * r / 4
        ∧ q.input = p.input ∧ q.pos = e ∧ q.b.calls = p.b.calls ∧ q.nesting = p.nesting)
    ∧ (∀ e r, specBase64Payload p e r →
        (r % 4 = 1 → ∃ st, parseBase64 p = .error ⟨.ParseError, st⟩)
        ∧ (r = 0 → p.pos < e → ∃ st, parseBase64 p = .error ⟨.ParseError, st⟩))
    ∧ (∀ f, parseBase64 p = .error f → f.error = .ParseError)
    ∧ Base64DecodeTable.length = 128
    ∧ (∀ c, (c ≤ 0x7a → c < 128 ∧ Base64DecodeTable[c]? = some (decodeChar c))
        ∧ (0x7a < c → decodeChar c = 0xff)) := by
  refine ⟨?_, ?_, ?_, Base64DecodeTable_entries.1, ?_⟩
  · intro q hq
    cases hm : memchr 0x22 (p.input.drop p.pos) p.pos with
    | none => rw [parseBase64_unterminated p hm] at hq; simp at hq
    | some e =>
      have hp := payload_of_memchr p e hm
      generalize skipPadding p.input p.pos (e - p.pos) = r at hp
      have heq := parseBase64_payload p e r hp
      obtain ⟨h1, h2, h3, h4, h5, h6, h7⟩ := hp
      have hv : 3 * r / 4 < 2 ^ 64 := by
        simp only [Parser.size] at h2 hsize
        omega
      obtain ⟨w, hw1, hw2, hw3, hw4, hw5⟩ := appendUInt_header p.b (3 * r / 4) hv
      rw [heq] at hq
      split_ifs at hq with hz
      · simp only [Except.ok.injEq] at hq
        subst hq
        have hr0 : r = 0 := by omega
        refine ⟨e, r, w, [], ⟨h1, h2, h3, h4, h5, h6, h7⟩, hw1, hw2, hw5, ?_, ?_, rfl, ?_,
          hw4, rfl⟩
        · simp only [hw3, List.append_nil]
        · rw [hr0]
          rfl
        · show p.pos = e
          omega
      · cases hl : base64Loop (r / 4 + 1) { p with b := p.b.appendUInt (3 * r / 4) 0xbf }
            p.pos r with
        | error f => rw [hl] at hq; simp at hq
        | ok p2 =>
          rw [hl] at hq
          simp only [Except.ok.injEq] at hq
          subst hq
          obtain ⟨a1, a2, a3, a4, a5, a6⟩ := base64Loop_ok _ _ _ _ _ hl
          simp only at a1 a2 a3 a4 a5 a6
          refine ⟨e, r, w, p2.b.buf.drop (p.b.appendUInt (3 * r / 4) 0xbf).buf.length,
            ⟨h1, h2, h3, h4, h5, h6, h7⟩, hw1, hw2, hw5, ?_, ?_, a3, ?_, a5.trans hw4, a6⟩
          · show p2.b.buf = _
            rw [← hw3]
            conv_lhs => rw [← List.take_append_drop
              (p.b.appendUInt (3 * r / 4) 0xbf).buf.length p2.b.buf]
            rw [a1]
          · rw [List.length_drop, a2]
            omega
          · show p2.pos + (e - p.pos) = e
            rw [a4]
            omega
  · intro e r hp
    have heq := parseBase64_payload p e r hp
    obtain ⟨h1, h2, h3, h4, h5, h6, h7⟩ := hp
    constructor
    · intro hm
      rw [heq]
      have hz : ¬ e - p.pos = 0 := by omega
      rw [if_neg hz]
      obtain ⟨st, hst⟩ := base64Loop_mod_one (r / 4 + 1)
        { p with b := p.b.appendUInt (3 * r / 4) 0xbf } p.pos r hm (by omega)
      rw [hst]
      exact ⟨st, rfl⟩
    · intro hr0 hne
      rw [heq]
      have hz : ¬ e - p.pos = 0 := by omega
      rw [if_neg hz, hr0]
      exact ⟨_, by rw [base64Loop_short 0 _ p.pos 0 (by omega)]⟩
  · intro f hf
    cases hm : memchr 0x22 (p.input.drop p.pos) p.pos with
    | none =>
      rw [parseBase64_unterminated p hm] at hf
      simp only [Except.error.injEq] at hf
      rw [← hf]
    | some e =>
      have hp := payload_of_memchr p e hm
      generalize skipPadding p.input p.pos (e - p.pos) = r at hp
      rw [parseBase64_payload p e r hp] at hf
      split_ifs at hf with hz
      cases hl : base64Loop (r / 4 + 1) { p with b := p.b.appendUInt (3 * r / 4) 0xbf }
          p.pos r with
      | error f1 =>
        rw [hl] at hf
        simp only [Except.error.injEq] at hf
        rw [← hf]
        exact base64Loop_error _ _ _ _ _ (by omega) hl
      | ok p2 => rw [hl] at hf; simp at hf
  · intro c
    obtain ⟨d1, d2⟩ := decodeChar_index c
    refine ⟨fun hc => ⟨by omega, (d1 hc).2⟩, d2⟩

/-- The theorem of C37 on the payloads `SGVsbG8=` (7 characters before the padding, 5 bytes
declared and appended: `c0 05 48 65 6c 6c 6f`), `QUJDR` (5 characters, ParseError) and `==`
(padding only, ParseError), each followed by the closing quote. -/
theorem parseBase64_declared_length_witness :
    (∃ (e r w : Nat) (payload : Bytes),
      specBase64Payload ⟨[0x53, 0x47, 0x56, 0x73, 0x62, 0x47, 0x38, 0x3d, 0x22], 0,
        ⟨[], []⟩, 0⟩ e r ∧ 1 ≤ w ∧ w ≤ 8
      ∧ specLittleEndian (littleEndianBytes w (3 * r / 4)) = 3 * r / 4
      ∧ [0xc0, 0x05, 0x48, 0x65, 0x6c, 0x6c, 0x6f]
          = [] ++ ((0xbf + w) :: littleEndianBytes w (3 * r / 4)) ++ payload
      ∧ payload.length = 3 * r / 4
      ∧ [0x53, 0x47, 0x56, 0x73, 0x62, 0x47, 0x38, 0x3d, 0x22]
          = [0x53, 0x47, 0x56, 0x73, 0x62, 0x47, 0x38, 0x3d, 0x22]
      ∧ 8 = e ∧ ([] : List BuilderCall) = [] ∧ 0 = 0)
    ∧ specBase64Payload ⟨[0x53, 0x47, 0x56, 0x73, 0x62, 0x47, 0x38, 0x3d, 0x22], 0,
        ⟨[], []⟩, 0⟩ 8 7
    ∧ (∃ st, parseBase64 ⟨[0x51, 0x55, 0x4a, 0x44, 0x52, 0x22], 0, ⟨[], []⟩, 0⟩
        = .error ⟨.ParseError, st⟩)
    ∧ (∃ st, parseBase64 ⟨[0x3d, 0x3d, 0x22], 0, ⟨[], []⟩, 0⟩ = .error ⟨.ParseError, st⟩) :=
  ⟨(parseBase64_declared_length
      ⟨[0x53, 0x47, 0x56, 0x73, 0x62, 0x47, 0x38, 0x3d, 0x22], 0, ⟨[], []⟩, 0⟩
      (by decide)).1
      ⟨[0x53, 0x47, 0x56, 0x73, 0x62, 0x47, 0x38, 0x3d, 0x22], 8,
        ⟨[0xc0, 0x05, 0x48, 0x65, 0x6c, 0x6c, 0x6f], []⟩, 0⟩ (by decide),
   by decide,
   ((parseBase64_declared_length ⟨[0x51, 0x55, 0x4a, 0x44, 0x52, 0x22], 0, ⟨[], []⟩, 0⟩
      (by decide)).2.1 5 5 (by decide)).1 (by decide),
   ((parseBase64_declared_length ⟨[0x3d, 0x3d, 0x22], 0, ⟨[], []⟩, 0⟩
      (by decide)).2.1 2 0 (by decide)).2 rfl (by decide)⟩

end

section
open Parser VJsonParser

/-- A turn of the loop of `parseBase64` on a group of 4 characters succeeds whenever the
second, third and fourth character are valid, whatever the first character is: its value
`b0` is used for the first byte and never compared with the invalid marker. -/
theorem base64Loop_first_unchecked (fuel : Nat) (p : Parser) (off : Nat)
    (h1 : decodeChar (byteAt p.input (off + 1)) ≠ 0xff)
    (h2 : decodeChar (byteAt p.input (off + 2)) ≠ 0xff)
    (h3 : decodeChar (byteAt p.input (off + 3)) ≠ 0xff) :
    base64Loop (fuel + 1) p off 4
      = .ok (((p.put (((decodeChar (byteAt p.input off) &&& 0x3f) <<< 2)
          + ((decodeChar (byteAt p.input (off + 1)) &&& 0x30) >>> 4))).put
          (((decodeChar (byteAt p.input (off + 1)) &&& 0x0f) <<< 4)
          + ((decodeChar (byteAt p.input (off + 2)) &&& 0x3c) >>> 2))).put
          (((decodeChar (byteAt p.input (off + 2)) &&& 0x03) <<< 6)
          + ((decodeChar (byteAt p.input (off + 3)) &&& 0x3f) >>> 0))) := by
  rw [base64Loop_four fuel p off 4 (by omega), if_pos h1, if_pos h2, if_pos h3,
    if_pos (by omega)]

/-- A turn of the loop of `parseBase64` on a group of 4 characters fails with ParseError when
the second, third or fourth character is not valid. -/
theorem base64Loop_later_checked (fuel : Nat) (p : Parser) (off r : Nat) (hr : 4 ≤ r)
    (h : decodeChar (byteAt p.input (off + 1)) = 0xff
      ∨ decodeChar (byteAt p.input (off + 2)) = 0xff
      ∨ decodeChar (byteAt p.input (off + 3)) = 0xff) :
    ∃ st, base64Loop (fuel + 1) p off r = .error ⟨.ParseError, st⟩ := by
  rw [base64Loop_four fuel p off r hr]
  split_ifs with c1 c2 c3 c4
  · rcases h with h | h | h <;> contradiction
  · rcases h with h | h | h <;> contradiction
  · exact ⟨_, rfl⟩
  · exact ⟨_, rfl⟩
  · exact ⟨_, rfl⟩

/-- C38 (defect of the code): `parseBase64` compares the values `b1`, `b2`, `b3` of the
second, third and fourth character of a group with the invalid marker, and never the value
`b0` of the first. The character `!` has the table entry 255: the VJSON parser rejects
`"b:A!AA"`, `"b:AA!A"` and `"b:AAA!"` with ParseError, and it accepts `"b:!AAA"`, which it
decodes to the Binary `c0 03 fc 00 00`; so it does a `!` at the head of the second group, in
`"b:AAAA!AAA"`, a `=` that is followed by other characters, in `"b:=AAA"`, and the character
0x7b above `z`, in `"b:{AAA"`. -/
theorem parseBase64_first_character_unchecked :
    decodeChar 0x21 = 0xff ∧ decodeChar 0x7b = 0xff ∧ decodeChar 0x3d = 0xff
    ∧ parseInternal vjsonEnv false
        ⟨[0x22, 0x62, 0x3a, 0x21, 0x41, 0x41, 0x41, 0x22], 0, ⟨[], []⟩, 0⟩
      = some (.ok (1, ⟨[0x22, 0x62, 0x3a, 0x21, 0x41, 0x41, 0x41, 0x22], 8,
          ⟨[0xc0, 0x03, 0xfc, 0x00, 0x00], []⟩, 0⟩))
    ∧ parseInternal vjsonEnv false
        ⟨[0x22, 0x62, 0x3a, 0x41, 0x21, 0x41, 0x41, 0x22], 0, ⟨[], []⟩, 0⟩
      = some (.error ⟨.ParseError, ⟨[0x22, 0x62, 0x3a, 0x41, 0x21, 0x41, 0x41, 0x22], 3,
          ⟨[0xc0, 0x03], []⟩, 0⟩⟩)
    ∧ parseInternal vjsonEnv false
        ⟨[0x22, 0x62, 0x3a, 0x41, 0x41, 0x21, 0x41, 0x22], 0, ⟨[], []⟩, 0⟩
      = some (.error ⟨.ParseError, ⟨[0x22, 0x62, 0x3a, 0x41, 0x41, 0x21, 0x41, 0x22], 3,
          ⟨[0xc0, 0x03, 0x00], []⟩, 0⟩⟩)
    ∧ parseInternal vjsonEnv false
        ⟨[0x22, 0x62, 0x3a, 0x41, 0x41, 0x41, 0x21, 0x22], 0, ⟨[], []⟩, 0⟩
      = some (.error ⟨.ParseError, ⟨[0x22, 0x62, 0x3a, 0x41, 0x41, 0x41, 0x21, 0x22], 3,
          ⟨[0xc0, 0x03, 0x00, 0x00], []⟩, 0⟩⟩)
    ∧ parseInternal vjsonEnv false
        ⟨[0x22, 0x62, 0x3a, 0x41, 0x41, 0x41, 0x41, 0x21, 0x41, 0x41, 0x41, 0x22], 0,
          ⟨[], []⟩, 0⟩
      = some (.ok (1,
        ⟨[0x22, 0x62, 0x3a, 0x41, 0x41, 0x41, 0x41, 0x21, 0x41, 0x41, 0x41, 0x22], 12,
          ⟨[0xc0, 0x06, 0x00, 0x00, 0x00, 0xfc, 0x00, 0x00], []⟩, 0⟩))
    ∧ parseInternal vjsonEnv false
        ⟨[0x22, 0x62, 0x3a, 0x3d, 0x41, 0x41, 0x41, 0x22], 0, ⟨[], []⟩, 0⟩
      = some (.ok (1, ⟨[0x22, 0x62, 0x3a, 0x3d, 0x41, 0x41, 0x41, 0x22], 8,
          ⟨[0xc0, 0x03, 0xfc, 0x00, 0x00], []⟩, 0⟩))
    ∧ parseInternal vjsonEnv false
        ⟨[0x22, 0x62, 0x3a, 0x7b, 0x41, 0x41, 0x41, 0x22], 0, ⟨[], []⟩, 0⟩
      = some (.ok (1, ⟨[0x22, 0x62, 0x3a, 0x7b, 0x41, 0x41, 0x41, 0x22], 8,
          ⟨[0xc0, 0x03, 0xfc, 0x00, 0x00], []⟩, 0⟩)) := by
  have d1 : decodeChar 0x21 = 0xff := by
    have := (decodeChar_index 0x21).1 (by decide)
    have h2 : Base64DecodeTable[0x21]? = some 255 := by
      rw [List.getElem?_eq_getElem this.1]
      rfl
    rw [this.2] at h2
    exact Option.some.inj h2
  refine ⟨d1, by decide, ?_, by decide, by decide, by decide, by decide, by decide, by decide,
    by decide⟩
  have := (decodeChar_index 0x3d).1 (by decide)
  have h2 := Base64DecodeTable_entries.2.2.2.2.1
  rw [this.2] at h2
  exact Option.some.inj h2

end

section
open Parser

/-- In value position, at a quote behind optional whitespace, `parseJson` calls the virtual
method `parseString()` of the parser object behind the quote. -/
theorem parseJsonF_string (env : ParseEnv) (fuel : Nat) (q q1 : Parser)
    (h : q.skipWhiteSpace = .ok (0x22, q1)) :
    parseJsonF env (fuel + 1) q = some (env.parseString q1.advance) := by
  obtain ⟨_, _, _, _, hlt⟩ := skipWhiteSpace_ok q q1 _ h
  obtain ⟨hbyte, _⟩ := skipWhiteSpace_byte q q1 _ h
  rw [parseJsonF_succ, h]
  dsimp only
  rw [consume_of_lt q1 hlt, ← hbyte]
  rfl

/-- A member of an object that is followed by the closing brace ends the loop of
`parseObject`. -/
theorem parseObjectLoopF_last_member (env : ParseEnv) (fuel : Nat) (q q7 : Parser)
    (h : specMemberParsed env fuel q q7 0x7d) :
    parseObjectLoopF env (fuel + 1) 0x22 q
      = some (.ok (if q7.advance.nesting ≠ 1 ∨ !env.options.keepTopLevelOpen
          then q7.advance.emit .close else q7.advance).decreaseNesting) := by
  obtain ⟨excluded, p3, p4, p5, ⟨p2, hk1, hk2, _⟩, hcolon, hval, hend⟩ := h
  rw [parseObjectLoopF, if_neg (fun h => h rfl)]
  dsimp only
  rw [hk1]
  dsimp only
  rw [hk2]
  dsimp only
  rw [hcolon]
  dsimp only
  rw [if_neg (fun h => h rfl), hval]
  dsimp only
  rw [hend]
  dsimp only
  rw [if_pos rfl]

/-- C39: the method `parseString` of the VJSON parser, called behind the opening quote of a
string, fails with ParseError in the state in which it was called when fewer than 2 input
bytes remain, when the second byte is not `:`, and when the first byte is none of `s`, `b`,
`d`; so the plain string `hello` and the empty string, whose closing quote stands at the
cursor, are rejected whatever follows them. `parseJson` calls this method for a string in
value position. The key of a member of an object is parsed with the plain
`Parser::parseString` whatever the method of the parser object is: its failure is the
failure of the loop of `parseObject`, and a member whose key the plain function accepts,
followed by the closing brace, ends the object. -/
theorem vjson_string_needs_type (opts : Options) (parseDate : Bytes → Option Int)
    (p : Parser) :
    (p.size - p.pos < 2 →
      VJsonParser.parseString opts parseDate p = .error ⟨.ParseError, p⟩)
    ∧ (byteAt p.input (p.pos + 1) ≠ 0x3a →
      VJsonParser.parseString opts parseDate p = .error ⟨.ParseError, p⟩)
    ∧ (byteAt p.input p.pos ≠ 0x73 → byteAt p.input p.pos ≠ 0x62 →
      byteAt p.input p.pos ≠ 0x64 →
      VJsonParser.parseString opts parseDate p = .error ⟨.ParseError, p⟩)
    ∧ (∀ rest, p.input.drop p.pos = 0x68 :: 0x65 :: 0x6c :: 0x6c :: 0x6f :: 0x22 :: rest →
      VJsonParser.parseString opts parseDate p = .error ⟨.ParseError, p⟩)
    ∧ (∀ rest, p.input.drop p.pos = 0x22 :: rest →
      VJsonParser.parseString opts parseDate p = .error ⟨.ParseError, p⟩)
    ∧ (∀ (env : ParseEnv) (fuel : Nat) (q1 : Parser), p.skipWhiteSpace = .ok (0x22, q1) →
      parseJsonF env (fuel + 1) p = some (env.parseString q1.advance))
    ∧ (∀ (env : ParseEnv) (fuel : Nat) (f : Failure),
      Parser.parseString env.options (p.advance.emit .reportAdd) = .error f →
      parseObjectLoopF env (fuel + 1) 0x22 p = some (.error f))
    ∧ (∀ (env : ParseEnv) (fuel : Nat) (q7 : Parser), specMemberParsed env fuel p q7 0x7d →
      parseObjectLoopF env (fuel + 1) 0x22 p
        = some (.ok (if q7.advance.nesting ≠ 1 ∨ !env.options.keepTopLevelOpen
            then q7.advance.emit .close else q7.advance).decreaseNesting)) := by
  have hA : p.size - p.pos < 2 →
      VJsonParser.parseString opts parseDate p = .error ⟨.ParseError, p⟩ := by
    intro h
    rw [VJsonParser.parseString, if_pos h]
    rfl
  have hB : byteAt p.input (p.pos + 1) ≠ 0x3a →
      VJsonParser.parseString opts parseDate p = .error ⟨.ParseError, p⟩ := by
    intro h
    by_cases hs : p.size - p.pos < 2
    · exact hA hs
    · rw [VJsonParser.parseString, if_neg hs]
      dsimp only
      rw [if_pos h]
      rfl
  have hC : byteAt p.input p.pos ≠ 0x73 → byteAt p.input p.pos ≠ 0x62 →
      byteAt p.input p.pos ≠ 0x64 →
      VJsonParser.parseString opts parseDate p = .error ⟨.ParseError, p⟩ := by
    intro h1 h2 h3
    by_cases hs : p.size - p.pos < 2
    · exact hA hs
    · by_cases hc : byteAt p.input (p.pos + 1) ≠ 0x3a
      · exact hB hc
      · rw [VJsonParser.parseString, if_neg hs]
        dsimp only
        rw [if_neg hc, if_neg h1, if_neg h2, if_neg h3]
        rfl
  refine ⟨hA, hB, hC, ?_, ?_, ?_, ?_, ?_⟩
  · intro rest h
    obtain ⟨_, _, h1⟩ := byteAt_of_drop _ _ _ _ h
    obtain ⟨_, h2, _⟩ := byteAt_of_drop _ _ _ _ h1
    exact hB (by rw [h2]; decide)
  · intro rest h
    obtain ⟨_, h0, _⟩ := byteAt_of_drop _ _ _ _ h
    exact hC (by rw [h0]; decide) (by rw [h0]; decide) (by rw [h0]; decide)
  · intro env fuel q1 h
    exact parseJsonF_string env fuel p q1 h
  · intro env fuel f h
    exact parseObjectLoopF_failure env fuel p f h
  · intro env fuel q7 h
    exact parseObjectLoopF_last_member env fuel p q7 h

/-- The theorem of C39 under the VJSON parser: the strings `"hello"` and `""` behind their
opening quote, the array `["hello"]` and the text `""` as a whole, which fail with
ParseError, and the loop of `parseObject` on the object `{"hello":"s:x"}`, whose key is
accepted without a type, so that the object is read as the pair of the Strings `hello` and
`x`. -/
theorem vjson_string_needs_type_witness :
    VJsonParser.parseString {} (fun _ => none)
        ⟨[0x22, 0x68, 0x65, 0x6c, 0x6c, 0x6f, 0x22], 1, ⟨[], []⟩, 0⟩
      = .error ⟨.ParseError, ⟨[0x22, 0x68, 0x65, 0x6c, 0x6c, 0x6f, 0x22], 1, ⟨[], []⟩, 0⟩⟩
    ∧ VJsonParser.parseString {} (fun _ => none) ⟨[0x22, 0x22], 1, ⟨[], []⟩, 0⟩
      = .error ⟨.ParseError, ⟨[0x22, 0x22], 1, ⟨[], []⟩, 0⟩⟩
    ∧ parseObjectLoopF vjsonEnv (2 + 1) 0x22
        ⟨[0x7b, 0x22, 0x68, 0x65, 0x6c, 0x6c, 0x6f, 0x22, 0x3a, 0x22, 0x73, 0x3a, 0x78, 0x22,
          0x7d], 1, ⟨[], [.addObject]⟩, 1⟩
      = some (.ok ⟨[0x7b, 0x22, 0x68, 0x65, 0x6c, 0x6c, 0x6f, 0x22, 0x3a, 0x22, 0x73, 0x3a,
          0x78, 0x22, 0x7d], 15,
          ⟨[0x45, 0x68, 0x65, 0x6c, 0x6c, 0x6f, 0x41, 0x78],
            [.addObject, .reportAdd, .close]⟩, 0⟩)
    ∧ parseInternal vjsonEnv false
        ⟨[0x5b, 0x22, 0x68, 0x65, 0x6c, 0x6c, 0x6f, 0x22, 0x5d], 0, ⟨[], []⟩, 0⟩
      = some (.error ⟨.ParseError,
          ⟨[0x5b, 0x22, 0x68, 0x65, 0x6c, 0x6c, 0x6f, 0x22, 0x5d], 2,
            ⟨[], [.addArray, .reportAdd]⟩, 1⟩⟩)
    ∧ parseInternal vjsonEnv false ⟨[0x22, 0x22], 0, ⟨[], []⟩, 0⟩
      = some (.error ⟨.ParseError, ⟨[0x22, 0x22], 1, ⟨[], []⟩, 0⟩⟩) :=
  ⟨(vjson_string_needs_type {} (fun _ => none)
      ⟨[0x22, 0x68, 0x65, 0x6c, 0x6c, 0x6f, 0x22], 1, ⟨[], []⟩, 0⟩).2.2.2.1 [] rfl,
   (vjson_string_needs_type {} (fun _ => none)
      ⟨[0x22, 0x22], 1, ⟨[], []⟩, 0⟩).2.2.2.2.1 [] rfl,
   (vjson_string_needs_type {} (fun _ => none)
      ⟨[0x7b, 0x22, 0x68, 0x65, 0x6c, 0x6c, 0x6f, 0x22, 0x3a, 0x22, 0x73, 0x3a, 0x78, 0x22,
        0x7d], 1, ⟨[], [.addObject]⟩, 1⟩).2.2.2.2.2.2.2 vjsonEnv 2
      ⟨[0x7b, 0x22, 0x68, 0x65, 0x6c, 0x6c, 0x6f, 0x22, 0x3a, 0x22, 0x73, 0x3a, 0x78, 0x22,
        0x7d], 14, ⟨[0x45, 0x68, 0x65, 0x6c, 0x6c, 0x6f, 0x41, 0x78],
          [.addObject, .reportAdd]⟩, 1⟩
      ⟨false,
       ⟨[0x7b, 0x22, 0x68, 0x65, 0x6c, 0x6c, 0x6f, 0x22, 0x3a, 0x22, 0x73, 0x3a, 0x78, 0x22,
        0x7d], 8, ⟨[0x45, 0x68, 0x65, 0x6c, 0x6c, 0x6f], [.addObject, .reportAdd]⟩, 1⟩,
       ⟨[0x7b, 0x22, 0x68, 0x65, 0x6c, 0x6c, 0x6f, 0x22, 0x3a, 0x22, 0x73, 0x3a, 0x78, 0x22,
        0x7d], 8, ⟨[0x45, 0x68, 0x65, 0x6c, 0x6c, 0x6f], [.addObject, .reportAdd]⟩, 1⟩,
       ⟨[0x7b, 0x22, 0x68, 0x65, 0x6c, 0x6c, 0x6f, 0x22, 0x3a, 0x22, 0x73, 0x3a, 0x78, 0x22,
        0x7d], 14, ⟨[0x45, 0x68, 0x65, 0x6c, 0x6c, 0x6f, 0x41, 0x78],
          [.addObject, .reportAdd]⟩, 1⟩,
       ⟨⟨[0x7b, 0x22, 0x68, 0x65, 0x6c, 0x6c, 0x6f, 0x22, 0x3a, 0x22, 0x73, 0x3a, 0x78, 0x22,
        0x7d], 8, ⟨[0x45, 0x68, 0x65, 0x6c, 0x6c, 0x6f], [.addObject, .reportAdd]⟩, 1⟩,
        by decide, by decide, by decide⟩,
       by decide, by decide, by decide⟩,
   by decide, by decide⟩

end

section
open Slice

theorem specXorAll_cancel : ∀ (hs : List (Nat × Nat)), (∀ h ∈ hs, h.1 = h.2) →
    specXorAll (hs.map (fun h => h.1 ^^^ h.2)) = 0 := by
  intro hs
  induction hs with
  | nil => intro _; rfl
  | cons h rest ih =>
    intro hall
    have h1 : h.1 = h.2 := hall h (by simp)
    simp only [List.map_cons, specXorAll, h1, Nat.xor_self, ih (fun x hx => hall x (by simp [hx]))]

theorem forall2_of_same_hash {α : Type} (f g : α → Option Nat) : ∀ (l : List α),
    (∀ it ∈ l, ∃ h, f it = some h ∧ g it = some h) →
    ∃ hs : List (Nat × Nat), List.Forall₂ (fun p h => f p = some h.1 ∧ g p = some h.2) l hs
      ∧ ∀ h ∈ hs, h.1 = h.2 := by
  intro l
  induction l with
  | nil => intro _; exact ⟨[], List.Forall₂.nil, by simp⟩
  | cons it rest ih =>
    intro hall
    obtain ⟨h, hf, hg⟩ := hall it (by simp)
    obtain ⟨hs, h1, h2⟩ := ih (fun x hx => hall x (by simp [hx]))
    refine ⟨(h, h) :: hs, List.Forall₂.cons ⟨hf, hg⟩ h1, ?_⟩
    intro x hx
    simp only [List.mem_cons] at hx
    rcases hx with rfl | hx
    · rfl
    · exact h2 x hx

/-- C40: for every seed and every Object with n pairs (n is the value of its `length()`) in
which each value that its iterator yields has the same normalizedHash as its key under the
derived sub-seed, normalizedHash(seed) is the fasthash64 of the 8 bytes of
(n XOR 0xf00ba44ba5) under the seed, which is the sub-seed itself: the hashes of the keys
and of the values cancel pairwise. So two such Objects with the same number of pairs have
the same normalizedHash, whatever their keys and values are. -/
theorem normalizedHash_object_cancel (api : SliceApi) (fuel : Nat) (s : Slice)
    (seed n : Nat) (hobj : s.isObject = true) (hlen : api.length s = n)
    (hpairs : ∀ it ∈ api.objectPairs s, ∃ h,
      normalizedHashF api fuel it.1 (fasthash64 (wordBytes (n ^^^ 0xf00ba44ba5)) 8 seed)
        = some h
      ∧ normalizedHashF api fuel it.2 (fasthash64 (wordBytes (n ^^^ 0xf00ba44ba5)) 8 seed)
        = some h) :
    normalizedHashF api (fuel + 1) s seed
      = some (fasthash64 (wordBytes (n ^^^ 0xf00ba44ba5)) 8 seed)
    ∧ ∀ (t : Slice), t.isObject = true → api.length t = n →
        (∀ it ∈ api.objectPairs t, ∃ h,
          normalizedHashF api fuel it.1 (fasthash64 (wordBytes (n ^^^ 0xf00ba44ba5)) 8 seed)
            = some h
          ∧ normalizedHashF api fuel it.2
              (fasthash64 (wordBytes (n ^^^ 0xf00ba44ba5)) 8 seed) = some h) →
        normalizedHashF api (fuel + 1) t seed = normalizedHashF api (fuel + 1) s seed := by
  have key : ∀ (t : Slice), t.isObject = true → api.length t = n →
      (∀ it ∈ api.objectPairs t, ∃ h,
        normalizedHashF api fuel it.1 (fasthash64 (wordBytes (n ^^^ 0xf00ba44ba5)) 8 seed)
          = some h
        ∧ normalizedHashF api fuel it.2
            (fasthash64 (wordBytes (n ^^^ 0xf00ba44ba5)) 8 seed) = some h) →
      normalizedHashF api (fuel + 1) t seed
        = some (fasthash64 (wordBytes (n ^^^ 0xf00ba44ba5)) 8 seed) := by
    intro t ht hl hp
    obtain ⟨a1, a2⟩ := isObject_not_number t ht
    obtain ⟨hs, hf, hsame⟩ := forall2_of_same_hash _ _ _ hp
    simp only [normalizedHashF, a1, a2, ht, Bool.false_eq_true, if_false, if_true, hl]
    rw [pairFold_closed _ _ _ hs _ hf, specXorAll_cancel hs hsame, Nat.xor_zero]
  refine ⟨key s hobj hlen hpairs, ?_⟩
  intro t ht hl hp
  rw [key t ht hl hp, key s hobj hlen hpairs]

/-- The theorem of C40 at the compact Object `compactObjectSame` with the pairs "a" : "a"
and "b" : "b", whose values are byte-identical to their keys, and the seed 0: its
normalizedHash is the fasthash64 of the 8 bytes of 2 XOR 0xf00ba44ba5. -/
theorem normalizedHash_object_cancel_witness :
    normalizedHashF samePairsApi (1 + 1) compactObjectSame 0
      = some (fasthash64 (wordBytes (2 ^^^ 0xf00ba44ba5)) 8 0) :=
  (normalizedHash_object_cancel samePairsApi 1 compactObjectSame 0 2 (by decide) (by decide)
    (by decide)).1

end

section
open Parser

/-! ### The parser against the decoding of the specification -/

theorem bytesFrom_succ_last (buf : Bytes) : ∀ (n off : Nat),
    bytesFrom buf off (n + 1) = bytesFrom buf off n ++ [byteAt buf (off + n)] := by
  intro n
  induction n with
  | zero => intro off; simp [bytesFrom]
  | succ n ih =>
    intro off
    rw [bytesFrom, ih (off + 1), bytesFrom]
    simp [Nat.add_assoc, Nat.add_comm 1]

theorem specStringToken_plain (validate : Bool) (input : Bytes) (pos : Nat)
    (hlt : pos < input.length) (hc : isCopyable validate (byteAt input pos) = true) :
    specStringToken validate input pos = (.raw [byteAt input pos], 1) := by
  obtain ⟨h1, h2, h3, h4⟩ := isCopyable_ge validate _ hc
  have h5 : byteAt input pos < 0x80 ∨ validate = false := by
    cases validate with
    | false => exact Or.inr rfl
    | true => exact Or.inl (h4 rfl)
  unfold specStringToken
  rw [if_neg (by omega), if_neg h2, if_neg h3, if_neg (by omega), if_pos h5]

/-- The decoding of the specification over a run of `n` single bytes that are copied as they
stand. -/
theorem specDecodeLoop_run (validate : Bool) (input : Bytes) :
    ∀ (n fuel pos hs : Nat) (acc : List Nat),
    (∀ j, j < n → pos + j < input.length
      ∧ isCopyable validate (byteAt input (pos + j)) = true) →
    specDecodeLoop validate input (fuel + n) pos hs acc
      = specDecodeLoop validate input fuel (pos + n) (if n = 0 then hs else 0)
          (acc ++ bytesFrom input pos n) := by
  intro n
  induction n with
  | zero => intro fuel pos hs acc _; simp [bytesFrom]
  | succ n ih =>
    intro fuel pos hs acc h
    have h0 := h 0 (by omega)
    simp only [Nat.add_zero] at h0
    rw [show fuel + (n + 1) = (fuel + n) + 1 by omega, specDecodeLoop,
      specStringToken_plain validate input pos h0.1 h0.2]
    simp only
    rw [ih fuel (pos + 1) 0 _ (fun j hj => by
      have := h (j + 1) (by omega)
      rw [show pos + 1 + j = pos + (j + 1) by omega]
      exact this)]
    simp only [bytesFrom, List.append_assoc, List.singleton_append, Nat.add_assoc,
      Nat.add_comm 1, Nat.succ_ne_zero, if_false, ite_self]
    try rfl

theorem specStalePairLoop_run (validate : Bool) (input : Bytes) :
    ∀ (n fuel pos : Nat) (fresh stale : Bool),
    (∀ j, j < n → pos + j < input.length
      ∧ isCopyable validate (byteAt input (pos + j)) = true) →
    specStalePairLoop validate input (fuel + n) pos fresh stale
      = specStalePairLoop validate input fuel (pos + n) (if n = 0 then fresh else false)
          (if n = 0 then stale else (fresh || stale)) := by
  intro n
  induction n with
  | zero => intro fuel pos fresh stale _; simp
  | succ n ih =>
    intro fuel pos fresh stale h
    have h0 := h 0 (by omega)
    simp only [Nat.add_zero] at h0
    rw [show fuel + (n + 1) = (fuel + n) + 1 by omega, specStalePairLoop,
      specStringToken_plain validate input pos h0.1 h0.2]
    simp only [List.length_singleton, if_true]
    rw [ih fuel (pos + 1) false _ (fun j hj => by
      have := h (j + 1) (by omega)
      rw [show pos + 1 + j = pos + (j + 1) by omega]
      exact this)]
    simp only [Nat.add_assoc, Nat.add_comm 1, Nat.succ_ne_zero, if_false, ite_self,
      Bool.false_or]

/-- The high surrogate that a `\uXXXX` escape leaves to the next unit depends on its value
only. -/
theorem specUnicode_fst (v hs : Nat) (acc : List Nat) :
    (specUnicode v hs acc).1 = if 0xd800 ≤ v ∧ v < 0xdc00 then v else 0 := by
  unfold specUnicode
  by_cases c : 0xdc00 ≤ v ∧ v < 0xe000 ∧ hs ≠ 0
  · rw [if_pos c, if_neg (by omega)]
  · rw [if_neg c]

theorem specUnicode_length (v hs : Nat) (acc : List Nat) (hv : v < 0x10000)
    (hhs : hs ≠ 0 → 3 ≤ acc.length) :
    acc.length + 1 ≤ (specUnicode v hs acc).2.length
      ∧ (0xd800 ≤ v ∧ v < 0xdc00 → 3 ≤ (specUnicode v hs acc).2.length) := by
  unfold specUnicode
  by_cases c : 0xdc00 ≤ v ∧ v < 0xe000 ∧ hs ≠ 0
  · rw [if_pos c]
    have h3 := hhs c.2.2
    have hcplo : 0x10000 ≤ specSurrogatePair hs v := by unfold specSurrogatePair; omega
    have hl : (specUtf8 (specSurrogatePair hs v)).length = 4 := by
      unfold specUtf8
      rw [if_neg (by omega), if_neg (by omega), if_neg (by omega)]
      rfl
    simp only [List.length_append, List.length_take, hl]
    omega
  · rw [if_neg c]
    have := specUtf8_length v hv
    simp only [List.length_append]
    constructor
    · split_ifs at this <;> omega
    · intro hh
      rw [if_neg (by omega), if_neg (by omega)] at this
      omega

/-- The bulk copy takes `n` bytes that are copied as they stand, and nothing else. -/
theorem bulkCopy_eq (opts : Options) (q : Parser) :
    ∃ n, bulkCopy opts q
        = ⟨q.input, q.pos + n, ⟨q.b.buf ++ bytesFrom q.input q.pos n, q.b.calls⟩, q.nesting⟩
      ∧ (∀ j, j < n → q.pos + j < q.input.length
          ∧ isCopyable opts.validateUtf8Strings (byteAt q.input (q.pos + j)) = true) := by
  unfold bulkCopy
  simp only
  split_ifs with hr
  · obtain ⟨a, b, c⟩ := JSONStringCopyCount_spec opts.validateUtf8Strings
      (q.input.drop q.pos) (q.size - q.pos - 15)
    refine ⟨_, rfl, fun j hj => ⟨?_, ?_⟩⟩
    · simp only [List.length_drop] at b
      omega
    · have := c j hj
      rw [byteAt_drop] at this
      exact this
  · refine ⟨0, ?_, fun j hj => absurd hj (Nat.not_lt_zero j)⟩
    obtain ⟨qi, qp, ⟨qb, qc⟩, qn⟩ := q
    simp [bytesFrom]

/-- The promotion to the long form keeps the shape of the buffer: the bytes before the
string, the header byte, the reserved bytes `gap` (eight once the string is large) and the
payload; the string is large behind it exactly when the payload has 127 bytes or more. -/
theorem promote_shape (old : Bytes) (large : Bool) (q : Parser) (h0 : Nat) (gap acc : Bytes)
    (hbuf : q.b.buf = old ++ h0 :: (gap ++ acc))
    (hgap : gap.length = if large then 8 else 0)
    (hl : large = true → 127 ≤ acc.length) (promoted : Bool)
    (hp : promoted = (!large && decide (q.b.pos - (old.length + 1) > 126))) :
    ∃ gap1 : Bytes,
      (if promoted = true then q.promote old.length else q)
        = ⟨q.input, q.pos, ⟨old ++ h0 :: (gap1 ++ acc), q.b.calls⟩, q.nesting⟩
      ∧ gap1.length = (if (large || promoted) then 8 else 0)
      ∧ ((large || promoted) = true ↔ 127 ≤ acc.length) := by
  obtain ⟨qi, qp, ⟨qb, qc⟩, qn⟩ := q
  simp only at hbuf
  subst hbuf
  cases large with
  | true =>
    simp only [Bool.not_true, Bool.false_and] at hp
    subst hp
    exact ⟨gap, by simp, by simpa using hgap, by simpa using hl rfl⟩
  | false =>
    simp only [Bool.false_eq_true, if_false, List.length_eq_zero] at hgap
    subst hgap
    have hlen : (⟨old ++ h0 :: ([] ++ acc), qc⟩ : Builder).pos - (old.length + 1) = acc.length := by
      simp only [Builder.pos, List.length_append, List.length_cons, List.nil_append]
      omega
    rw [hlen] at hp
    by_cases h126 : 126 < acc.length
    · have : promoted = true := by rw [hp]; simp [h126]
      subst this
      refine ⟨acc.take 8, ?_, ?_, ?_⟩
      · simp only [if_true, Parser.promote, List.nil_append]
        have e1 : (old ++ h0 :: acc).take (old.length + 9) = old ++ h0 :: acc.take 8 := by
          rw [List.take_append_eq_append_take]
          simp [List.take_of_length_le]
        have e2 : (old ++ h0 :: acc).drop (old.length + 1) = acc := by
          rw [List.drop_append_eq_append_drop]
          simp [List.drop_of_length_le]
        rw [e1, e2]
        simp
      · simp only [Bool.or_true, if_true, List.length_take]
        omega
      · simp only [Bool.or_true, true_iff]
        omega
    · have : promoted = false := by rw [hp]; simp [h126]
      subst this
      refine ⟨[], by simp, by simp, ?_⟩
      simp only [Bool.or_false, Bool.false_eq_true, false_iff]
      omega

/-- The header written at the closing quote: the bytes of the String are those the
head-byte taxonomy gives for the payload. -/
theorem finishString_shape (old : Bytes) (large1 : Bool) (q : Parser) (h0 : Nat)
    (gap acc : Bytes) (hbuf : q.b.buf = old ++ h0 :: (gap ++ acc))
    (hgap : gap.length = if large1 then 8 else 0)
    (hl : large1 = true ↔ 127 ≤ acc.length) :
    finishString large1 old.length q
      = ⟨q.input, q.pos, ⟨old ++ specStringBytes acc, q.b.calls⟩, q.nesting⟩ := by
  obtain ⟨qi, qp, ⟨qb, qc⟩, qn⟩ := q
  simp only at hbuf
  subst hbuf
  cases large1 with
  | false =>
    simp only [Bool.false_eq_true, if_false, List.length_eq_zero] at hgap
    subst hgap
    have hacc : acc.length ≤ 126 := by
      by_contra hc
      have := hl.mpr (by omega)
      cases this
    have hpos : (⟨old ++ h0 :: acc, qc⟩ : Builder).pos - (old.length + 1) = acc.length := by
      simp only [Builder.pos, List.length_append, List.length_cons]
      omega
    simp only [List.nil_append]
    simp only [finishString, Bool.not_false, if_true, hpos, Builder.store, specStringBytes, hacc]
    have := set_append_old old (h0 :: acc) 0 ((0x40 + acc.length % 256) % 256)
    simp only [Nat.add_zero, List.set_cons_zero] at this
    rw [this]
    have hm : (0x40 + acc.length % 256) % 256 = 0x40 + acc.length := by omega
    rw [hm]
  | true =>
    simp only [if_true] at hgap
    have hacc : 127 ≤ acc.length := hl.mp rfl
    obtain ⟨x1, x2, x3, x4, x5, x6, x7, x8, rfl⟩ :
        ∃ x1 x2 x3 x4 x5 x6 x7 x8, gap = [x1, x2, x3, x4, x5, x6, x7, x8] := by
      match gap, hgap with
      | [x1, x2, x3, x4, x5, x6, x7, x8], _ => exact ⟨x1, x2, x3, x4, x5, x6, x7, x8, rfl⟩
    have hpos : (⟨old ++ h0 :: ([x1, x2, x3, x4, x5, x6, x7, x8] ++ acc), qc⟩ : Builder).pos
        - (old.length + 9) = acc.length := by
      simp only [Builder.pos, List.length_append, List.length_cons, List.length_nil]
      omega
    have hstore0 : ((⟨old ++ h0 :: ([x1, x2, x3, x4, x5, x6, x7, x8] ++ acc), qc⟩ : Builder).store
        old.length 0xbf).buf = old ++ [0xbf] ++ ([x1, x2, x3, x4, x5, x6, x7, x8] ++ acc) := by
      have := set_middle old [] ([x1, x2, x3, x4, x5, x6, x7, x8] ++ acc) h0 (0xbf % 256)
      simp only [List.append_nil, List.length_nil, Nat.add_zero] at this
      simp only [Builder.store, this]
      simp
    have hsl := storeLength_buf old 8 1 acc.length [0xbf] [x1, x2, x3, x4, x5, x6, x7, x8] acc
      ((⟨old ++ h0 :: ([x1, x2, x3, x4, x5, x6, x7, x8] ++ acc), qc⟩ : Builder).store
        old.length 0xbf) rfl rfl hstore0
    have hnot : ¬ acc.length ≤ 126 := by omega
    have hcalls : ∀ (k i len : Nat) (b : Builder),
        (storeLength old.length k i len b).calls = b.calls := by
      intro k
      induction k with
      | zero => intro i len b; rfl
      | succ k ih => intro i len b; rw [storeLength, ih]; rfl
    simp only [finishString, Bool.not_true, Bool.false_eq_true, if_false, hpos, specStringBytes,
      hnot]
    apply parser_eq_of_fields
    · rfl
    · rfl
    · simp only [hsl]
      simp
    · simp only [hcalls]
      rfl
    · rfl

end

section
open Parser

theorem byteAt_beyond (mem : Bytes) (i : Nat) (h : mem.length ≤ i) : byteAt mem i = 0 := by
  unfold byteAt
  rw [List.getD_eq_getElem?_getD, List.getElem?_eq_none h]
  rfl

theorem hexDigit_in_range (mem : Bytes) (i d : Nat)
    (h : hexDigitValue (byteAt mem i) = some d) : i < mem.length := by
  by_contra hc
  rw [byteAt_beyond mem i (by omega)] at h
  simp [hexDigitValue] at h

theorem bytesFrom_four (buf : Bytes) (off : Nat) :
    bytesFrom buf off 4
      = [byteAt buf off, byteAt buf (off + 1), byteAt buf (off + 2), byteAt buf (off + 3)] := by
  simp [bytesFrom, Nat.add_assoc]

theorem getOneOrThrow_end (q : Parser) (h : q.size ≤ q.pos) :
    q.getOneOrThrow = .error ⟨.ParseError, q⟩ := by
  have : q.pos ≥ q.size := h
  simp [getOneOrThrow, consume, this, Parser.fail]

theorem consume_end_of (q : Parser) (h : q.size ≤ q.pos) : q.consume = (none, q) := by
  have : q.pos ≥ q.size := h
  simp [consume, this]

/-- The four hex digits of a `\uXXXX` escape: `parseHex` returns the value that the
specification reads from them, and fails with ParseError when one of them is no hex digit or
lies behind the end of the input. -/
theorem parseHex_spec (q : Parser) :
    (∀ v, specHex4 (bytesFrom q.input q.pos 4) = some v →
        parseHex 4 0 q = .ok (v, { q with pos := q.pos + 4 }) ∧ v < 0x10000
          ∧ q.pos + 4 ≤ q.input.length)
    ∧ (specHex4 (bytesFrom q.input q.pos 4) = none →
        ∃ st, parseHex 4 0 q = .error ⟨.ParseError, st⟩) := by
  constructor
  · intro v hv
    obtain ⟨a, b, c, d, va, vb, vc, vd, hlist, ha, hb, hc, hd, hval, _⟩ :=
      specHex4_digits _ v hv
    rw [bytesFrom_four] at hlist
    simp only [List.cons.injEq, and_true] at hlist
    obtain ⟨e0, e1, e2, e3⟩ := hlist
    rw [← e0] at ha
    rw [← e1] at hb
    rw [← e2] at hc
    rw [← e3] at hd
    have r3 := hexDigit_in_range q.input (q.pos + 3) vd hd
    have b0 := hexDigitValue_lt _ _ ha
    have b1 := hexDigitValue_lt _ _ hb
    have b2 := hexDigitValue_lt _ _ hc
    have b3 := hexDigitValue_lt _ _ hd
    refine ⟨?_, by omega, by omega⟩
    rw [hval]
    exact parseHex_four q va vb vc vd (by simp only [Parser.size]; omega) ha hb hc hd
  · intro hnone
    cases hx : parseHex 4 0 q with
    | error f =>
      have := parseHex_error 4 0 q f hx
      obtain ⟨e, st⟩ := f
      simp only at this
      subst this
      exact ⟨st, rfl⟩
    | ok r =>
      exfalso
      have h0 := (parseHex_digits 4 0 q r hx 0 (by omega)).2
      have h1 := (parseHex_digits 4 0 q r hx 1 (by omega)).2
      have h2 := (parseHex_digits 4 0 q r hx 2 (by omega)).2
      have h3 := (parseHex_digits 4 0 q r hx 3 (by omega)).2
      simp only [Nat.add_zero] at h0
      obtain ⟨d0, e0⟩ := Option.ne_none_iff_exists'.mp h0
      obtain ⟨d1, e1⟩ := Option.ne_none_iff_exists'.mp h1
      obtain ⟨d2, e2⟩ := Option.ne_none_iff_exists'.mp h2
      obtain ⟨d3, e3⟩ := Option.ne_none_iff_exists'.mp h3
      rw [bytesFrom_four] at hnone
      simp [specHex4, e0, e1, e2, e3] at hnone

/-- The continuation bytes of a multi-byte sequence: `parseFollow` copies them when the check
of the specification passes, and fails with the error of that check otherwise. -/
theorem parseFollow_spec : ∀ (k : Nat) (q : Parser),
    (specFollowers q.input q.pos k = none →
        parseFollow k q = .ok ⟨q.input, q.pos + k,
          ⟨q.b.buf ++ bytesFrom q.input q.pos k, q.b.calls⟩, q.nesting⟩
        ∧ q.pos + k ≤ max q.pos q.input.length)
    ∧ (∀ e, specFollowers q.input q.pos k = some e →
        ∃ st, parseFollow k q = .error ⟨e, st⟩) := by
  intro k
  induction k with
  | zero =>
    intro q
    constructor
    · intro _
      obtain ⟨qi, qp, ⟨qb, qc⟩, qn⟩ := q
      simp [parseFollow, bytesFrom]
    · intro e h
      simp [specFollowers] at h
  | succ k ih =>
    intro q
    by_cases hend : q.input.length ≤ q.pos
    · have hs : specFollowers q.input q.pos (k + 1) = some .ParseError := by
        rw [specFollowers, if_pos hend]
      rw [hs]
      constructor
      · intro h; cases h
      · intro e he
        simp only [Option.some.injEq] at he
        subst he
        rw [parseFollow, getOneOrThrow_end q hend]
        exact ⟨_, rfl⟩
    · have hlt : q.pos < q.size := by simp only [Parser.size]; omega
      by_cases hc : specContinuation (byteAt q.input q.pos)
      · have hs : specFollowers q.input q.pos (k + 1) = specFollowers q.input (q.pos + 1) k := by
          rw [specFollowers, if_neg hend, if_pos hc]
        have hbit := (continuation_iff _ (byteAt_lt q.input q.pos)).mpr hc
        have hstep : parseFollow (k + 1) q
            = parseFollow k ⟨q.input, q.pos + 1,
                ⟨q.b.buf ++ [byteAt q.input q.pos], q.b.calls⟩, q.nesting⟩ := by
          rw [parseFollow, getOneOrThrow_of_lt q hlt]
          simp only [hbit, ne_eq, not_true_eq_false, if_false]
          rw [put_byte _ _ (byteAt_lt _ _)]
        rw [hs, hstep]
        obtain ⟨a, b⟩ := ih ⟨q.input, q.pos + 1,
          ⟨q.b.buf ++ [byteAt q.input q.pos], q.b.calls⟩, q.nesting⟩
        simp only at a b
        constructor
        · intro hn
          obtain ⟨a1, a2⟩ := a hn
          rw [a1]
          refine ⟨?_, by omega⟩
          simp only [bytesFrom, List.append_assoc, List.singleton_append, Nat.add_assoc,
            Nat.add_comm 1]
        · exact b
      · have hs : specFollowers q.input q.pos (k + 1) = some .InvalidUtf8Sequence := by
          rw [specFollowers, if_neg hend, if_neg hc]
        rw [hs]
        have hbit : ¬ byteAt q.input q.pos &&& 0xc0 = 0x80 :=
          fun h => hc ((continuation_iff _ (byteAt_lt q.input q.pos)).mp h)
        constructor
        · intro h; cases h
        · intro e he
          simp only [Option.some.injEq] at he
          subst he
          rw [parseFollow, getOneOrThrow_of_lt q hlt]
          simp only [hbit, ne_eq, not_false_eq_true, if_true, Parser.fail]
          exact ⟨_, rfl⟩

/-- A byte with the high bit set under validation: rejected when it cannot lead a sequence,
followed by the check of its continuation bytes otherwise. -/
theorem parseRawByte_lead (opts : Options) (i : Nat) (q : Parser)
    (hv : opts.validateUtf8Strings = true) (h1 : 0x80 ≤ i) (h2 : i < 256) :
    (specUtf8Follow i = none → parseRawByte opts i q = .error ⟨.InvalidUtf8Sequence, q⟩)
    ∧ (∀ k, specUtf8Follow i = some k → parseRawByte opts i q = parseFollow k (q.put i)) := by
  have hhigh : ¬ i &&& 0x80 = 0 := fun h => by
    have := low_bit_lt i h2 h
    omega
  unfold parseRawByte
  rw [if_neg hhigh]
  simp only [hv, Bool.not_true, Bool.false_eq_true, if_false]
  rcases lead_class i h1 h2 with ⟨e, c⟩ | ⟨e, c1, c2⟩ | ⟨e, c1, c2, c3⟩ | ⟨e, c1, c2, c3, c4⟩
  · rw [e]
    refine ⟨fun _ => ?_, fun k hk => (by cases hk)⟩
    rcases c with c | ⟨c2, c3, c4⟩
    · rw [if_pos c]; rfl
    · by_cases c1 : i &&& 0xe0 = 0x80
      · rw [if_pos c1]; rfl
      · rw [if_neg c1, if_neg c2, if_neg c3, if_neg c4]; rfl
  · rw [e]
    refine ⟨fun h => (by cases h), fun k hk => ?_⟩
    simp only [Option.some.injEq] at hk
    subst hk
    rw [if_neg c1, if_pos c2]
  · rw [e]
    refine ⟨fun h => (by cases h), fun k hk => ?_⟩
    simp only [Option.some.injEq] at hk
    subst hk
    rw [if_neg c1, if_neg c2, if_pos c3]
  · rw [e]
    refine ⟨fun h => (by cases h), fun k hk => ?_⟩
    simp only [Option.some.injEq] at hk
    subst hk
    rw [if_neg c1, if_neg c2, if_neg c3, if_pos c4]

/-- The emission of a `\uXXXX` escape: `emitUnicode` does to the payload at the end of the
buffer what the specification says, for a remembered high surrogate whose three bytes are
part of the payload. -/
theorem emitUnicode_spec (v hs : Nat) (q : Parser) (pre acc : Bytes)
    (hbuf : q.b.buf = pre ++ acc) (hv : v < 0x10000)
    (hhs : hs ≠ 0 → 0xd800 ≤ hs ∧ hs < 0xdc00 ∧ 3 ≤ acc.length) :
    emitUnicode v hs q
      = ((specUnicode v hs acc).1,
          ⟨q.input, q.pos, ⟨pre ++ (specUnicode v hs acc).2, q.b.calls⟩, q.nesting⟩) := by
  by_cases c : 0xdc00 ≤ v ∧ v < 0xe000 ∧ hs ≠ 0
  · obtain ⟨g1, g2, g3⟩ := hhs c.2.2
    rw [emitUnicode_low_surrogate v hs q ⟨c.1, c.2.1⟩ c.2.2]
    have hcp : (0x10000 + ((hs - 0xd800) <<< 10) + v - 0xdc00) % 2 ^ 32
        = specSurrogatePair hs v := by
      unfold specSurrogatePair
      rw [Nat.shiftLeft_eq]
      omega
    have hcplo : 0x10000 ≤ specSurrogatePair hs v := by unfold specSurrogatePair; omega
    have hcphi : specSurrogatePair hs v < 0x110000 := by unfold specSurrogatePair; omega
    have hutf : specUtf8 (specSurrogatePair hs v)
        = [0xf0 + specSurrogatePair hs v / 0x40000, 0x80 + specSurrogatePair hs v / 0x1000 % 0x40,
           0x80 + specSurrogatePair hs v / 0x40 % 0x40, 0x80 + specSurrogatePair hs v % 0x40] := by
      unfold specUtf8
      rw [if_neg (by omega), if_neg (by omega), if_neg (by omega)]
    have m1 : specSurrogatePair hs v >>> 18 = specSurrogatePair hs v / 0x40000 := by
      rw [Nat.shiftRight_eq_div_pow]
    have m2 : specSurrogatePair hs v >>> 12 = specSurrogatePair hs v / 0x1000 := by
      rw [Nat.shiftRight_eq_div_pow]
    have m3 : specSurrogatePair hs v >>> 6 = specSurrogatePair hs v / 0x40 := by
      rw [Nat.shiftRight_eq_div_pow]
    have n1 : (0xf0 + specSurrogatePair hs v / 0x40000) % 256
        = 0xf0 + specSurrogatePair hs v / 0x40000 := by
      omega
    have n2 : ∀ x, (0x80 + x % 64) % 256 = 0x80 + x % 64 := by intro x; omega
    have htake : (pre ++ acc).take ((pre ++ acc).length - 3)
        = pre ++ acc.take (acc.length - 3) := by
      have hd : (pre ++ acc).length - 3 - pre.length = acc.length - 3 := by
        simp only [List.length_append]
        omega
      rw [List.take_append_eq_append_take, List.take_of_length_le (by
        simp only [List.length_append]; omega), hd]
    have hspec : specUnicode v hs acc
        = (0, acc.take (acc.length - 3) ++ specUtf8 (specSurrogatePair hs v)) := by
      unfold specUnicode
      rw [if_pos c]
    rw [hspec, hcp, hbuf, htake, hutf, m1, m2, m3, and_63, and_63, and_63, n1, n2, n2, n2]
    simp
  · by_cases hsur : 0xd800 ≤ v ∧ v < 0xe000
    · have hlone : v < 0xdc00 ∨ hs = 0 := by
        by_contra hc
        push_neg at hc
        exact c ⟨by omega, hsur.2, hc.2⟩
      rw [emitUnicode_lone_surrogate v hs q hsur hlone]
      have e6 : v >>> 6 = v / 0x40 := by rw [Nat.shiftRight_eq_div_pow]
      have hutf : specUtf8 v = [0xed, 0x80 + v / 0x40 % 0x40, 0x80 + v % 0x40] := by
        unfold specUtf8
        rw [if_neg (by omega), if_neg (by omega), if_pos hv]
        have : v / 0x1000 = 13 := by omega
        rw [this]
      have hspec : specUnicode v hs acc
          = (if 0xd800 ≤ v ∧ v < 0xdc00 then v else 0, acc ++ specUtf8 v) := by
        unfold specUnicode
        rw [if_neg c]
      rw [hspec, hutf, e6, and_63, and_63, hbuf]
      by_cases hlow : v < 0xdc00
      · rw [if_pos hlow, if_pos ⟨hsur.1, hlow⟩]
        simp
      · rw [if_neg hlow, if_neg (fun h => hlow h.2)]
        simp
    · rw [emitUnicode_bmp v hs q hv hsur]
      have hspec : specUnicode v hs acc = (0, acc ++ specUtf8 v) := by
        unfold specUnicode
        rw [if_neg c, if_neg (fun h => hsur ⟨h.1, by omega⟩)]
      rw [hspec, hbuf]
      simp

end

section
open Parser

theorem StringRefines_mono (input old : Bytes) (calls : List BuilderCall) (nesting : Nat)
    (D : Except Error (List Nat × Nat)) (S S1 : Bool) (same same1 : Prop)
    (R : Except Failure Parser) (h1 : same → S = false → same1 ∧ S1 = false)
    (h : StringRefines input old calls nesting D S1 same1 R) :
    StringRefines input old calls nesting D S same R := by
  obtain ⟨a, b⟩ := h
  refine ⟨fun P e hD => ?_, b⟩
  obtain ⟨P', c, d⟩ := a P e hD
  exact ⟨P', c, fun hs hS => d (h1 hs hS).1 (h1 hs hS).2⟩

theorem StringRefines_error (input old : Bytes) (calls : List BuilderCall) (nesting : Nat)
    (S : Bool) (same : Prop) (e : Error) (st : Parser) :
    StringRefines input old calls nesting (.error e) S same (.error ⟨e, st⟩) := by
  constructor
  · intro P e1 h; cases h
  · intro err h
    simp only [Except.error.injEq] at h
    subst h
    exact ⟨st, rfl⟩

theorem StringRefines_ok (input old : Bytes) (calls : List BuilderCall) (nesting : Nat)
    (S : Bool) (same : Prop) (P P' : List Nat) (e : Nat) (h : same → P' = P) :
    StringRefines input old calls nesting (.ok (P, e)) S same
      (.ok ⟨input, e, ⟨old ++ specStringBytes P', calls⟩, nesting⟩) := by
  constructor
  · intro P1 e1 h1
    simp only [Except.ok.injEq, Prod.mk.injEq] at h1
    obtain ⟨rfl, rfl⟩ := h1
    exact ⟨P', rfl, fun hs _ => h hs⟩
  · intro err h; cases h

/-! The unit of the specification at a position, by the bytes that stand there. -/

theorem specStringToken_end (validate : Bool) (input : Bytes) (pos : Nat)
    (h : input.length ≤ pos) : specStringToken validate input pos = (.bad .ParseError, 0) := by
  unfold specStringToken
  rw [if_pos h]

theorem specStringToken_quote (validate : Bool) (input : Bytes) (pos : Nat)
    (h : ¬ input.length ≤ pos) (hc : byteAt input pos = 0x22) :
    specStringToken validate input pos = (.quote, 1) := by
  unfold specStringToken
  rw [if_neg h, if_pos hc]

theorem specStringToken_backslash_end (validate : Bool) (input : Bytes) (pos : Nat)
    (h : ¬ input.length ≤ pos) (hc : byteAt input pos = 0x5c) (h1 : input.length ≤ pos + 1) :
    specStringToken validate input pos = (.bad .ParseError, 1) := by
  unfold specStringToken
  rw [if_neg h, if_neg (by omega), if_pos hc, if_pos h1]

theorem specStringToken_escape (validate : Bool) (input : Bytes) (pos b : Nat)
    (h : ¬ input.length ≤ pos) (hc : byteAt input pos = 0x5c) (h1 : ¬ input.length ≤ pos + 1)
    (he : specSimpleEscape (byteAt input (pos + 1)) = some b) :
    specStringToken validate input pos = (.escape b, 2) := by
  unfold specStringToken
  rw [if_neg h, if_neg (by omega), if_pos hc, if_neg h1, he]

theorem specStringToken_unicode (validate : Bool) (input : Bytes) (pos v : Nat)
    (h : ¬ input.length ≤ pos) (hc : byteAt input pos = 0x5c) (h1 : ¬ input.length ≤ pos + 1)
    (he : specSimpleEscape (byteAt input (pos + 1)) = none)
    (hu : byteAt input (pos + 1) = 0x75)
    (hx : specHex4 (bytesFrom input (pos + 2) 4) = some v) :
    specStringToken validate input pos = (.unicode v, 6) := by
  unfold specStringToken
  rw [if_neg h, if_neg (by omega), if_pos hc, if_neg h1, he]
  simp only
  rw [if_pos hu, hx]

theorem specStringToken_bad_hex (validate : Bool) (input : Bytes) (pos : Nat)
    (h : ¬ input.length ≤ pos) (hc : byteAt input pos = 0x5c) (h1 : ¬ input.length ≤ pos + 1)
    (he : specSimpleEscape (byteAt input (pos + 1)) = none)
    (hu : byteAt input (pos + 1) = 0x75)
    (hx : specHex4 (bytesFrom input (pos + 2) 4) = none) :
    specStringToken validate input pos = (.bad .ParseError, 2) := by
  unfold specStringToken
  rw [if_neg h, if_neg (by omega), if_pos hc, if_neg h1, he]
  simp only
  rw [if_pos hu, hx]

theorem specStringToken_bad_escape (validate : Bool) (input : Bytes) (pos : Nat)
    (h : ¬ input.length ≤ pos) (hc : byteAt input pos = 0x5c) (h1 : ¬ input.length ≤ pos + 1)
    (he : specSimpleEscape (byteAt input (pos + 1)) = none)
    (hu : ¬ byteAt input (pos + 1) = 0x75) :
    specStringToken validate input pos = (.bad .ParseError, 2) := by
  unfold specStringToken
  rw [if_neg h, if_neg (by omega), if_pos hc, if_neg h1, he]
  simp only
  rw [if_neg hu]

theorem specStringToken_control (validate : Bool) (input : Bytes) (pos : Nat)
    (h : ¬ input.length ≤ pos) (hc : byteAt input pos < 0x20) :
    specStringToken validate input pos = (.bad .UnexpectedControlCharacter, 1) := by
  unfold specStringToken
  rw [if_neg h, if_neg (by omega), if_neg (by omega), if_pos hc]

theorem specStringToken_bad_lead (input : Bytes) (pos : Nat)
    (h : ¬ input.length ≤ pos) (hc : 0x80 ≤ byteAt input pos)
    (hf : specUtf8Follow (byteAt input pos) = none) :
    specStringToken true input pos = (.bad .InvalidUtf8Sequence, 1) := by
  unfold specStringToken
  rw [if_neg h, if_neg (by omega), if_neg (by omega), if_neg (by omega),
    if_neg (by simp; omega), hf]

theorem specStringToken_bad_follow (input : Bytes) (pos k : Nat) (e : Error)
    (h : ¬ input.length ≤ pos) (hc : 0x80 ≤ byteAt input pos)
    (hf : specUtf8Follow (byteAt input pos) = some k)
    (hfo : specFollowers input (pos + 1) k = some e) :
    specStringToken true input pos = (.bad e, 1) := by
  unfold specStringToken
  rw [if_neg h, if_neg (by omega), if_neg (by omega), if_neg (by omega),
    if_neg (by simp; omega), hf]
  simp only
  rw [hfo]

theorem specStringToken_sequence (input : Bytes) (pos k : Nat)
    (h : ¬ input.length ≤ pos) (hc : 0x80 ≤ byteAt input pos)
    (hf : specUtf8Follow (byteAt input pos) = some k)
    (hfo : specFollowers input (pos + 1) k = none) :
    specStringToken true input pos = (.raw (bytesFrom input pos (k + 1)), k + 1) := by
  unfold specStringToken
  rw [if_neg h, if_neg (by omega), if_neg (by omega), if_neg (by omega),
    if_neg (by simp; omega), hf]
  simp only
  rw [hfo]

theorem specUtf8Follow_pos (i k : Nat) (h : specUtf8Follow i = some k) : 1 ≤ k ∧ k ≤ 3 := by
  unfold specUtf8Follow at h
  split_ifs at h <;> simp only [Option.some.injEq] at h <;> omega

theorem specUnicode_not_low (v hs : Nat) (acc : List Nat) (h : ¬ (0xdc00 ≤ v ∧ v < 0xe000)) :
    specUnicode v hs acc = specUnicode v 0 acc := by
  unfold specUnicode
  rw [if_neg (show ¬ (0xdc00 ≤ v ∧ v < 0xe000 ∧ hs ≠ 0) from fun c => h ⟨c.1, c.2.1⟩),
    if_neg (show ¬ (0xdc00 ≤ v ∧ v < 0xe000 ∧ (0 : Nat) ≠ 0) from fun c => c.2.2 rfl)]

theorem parseEscape_unicode_ok (hs v : Nat) (p p1 : Parser)
    (h : parseHex 4 0 p = .ok (v, p1)) :
    parseEscape 0x75 hs p = .ok (emitUnicode v hs p1) := by
  simp [parseEscape, h]

theorem parseEscape_unicode_error (hs : Nat) (p : Parser) (f : Failure)
    (h : parseHex 4 0 p = .error f) : parseEscape 0x75 hs p = .error f := by
  simp [parseEscape, h]

end

section
open Parser

/-- The loop of `parseString` against the decoding of the specification, in every state of
the loop: the buffer holds the bytes `old` before the string, the header byte, the reserved
bytes `gap` (eight once the string is large) and the payload `acc`. -/
theorem parseStringLoop_refines (opts : Options) (old input : Bytes) (calls : List BuilderCall)
    (nesting : Nat) :
    ∀ (fuel sf : Nat) (large : Bool) (hs pos h0 : Nat) (gap acc accS : Bytes) (stale : Bool),
      input.length - pos < fuel → input.length - pos < sf →
      gap.length = (if large then 8 else 0) →
      (large = true → 127 ≤ acc.length) →
      (hs ≠ 0 → 0xd800 ≤ hs ∧ hs < 0xdc00 ∧ 3 ≤ acc.length) →
      StringRefines input old calls nesting
        (specDecodeLoop opts.validateUtf8Strings input sf pos hs accS)
        (specStalePairLoop opts.validateUtf8Strings input sf pos (decide (hs ≠ 0)) stale)
        (acc = accS)
        (parseStringLoop opts old.length fuel large hs
          ⟨input, pos, ⟨old ++ h0 :: (gap ++ acc), calls⟩, nesting⟩) := by
  intro fuel
  induction fuel with
  | zero => intro sf large hs pos h0 gap acc accS stale h; omega
  | succ fuel ih =>
    intro sf large hs pos h0 gap acc accS stale hfuel hsf hgap hl hhs
    obtain ⟨n, hbulk, hcopy⟩ := bulkCopy_eq opts
      ⟨input, pos, ⟨old ++ h0 :: (gap ++ acc), calls⟩, nesting⟩
    simp only at hbulk hcopy
    have hn : n ≤ input.length - pos := by
      by_contra hc
      have := (hcopy (n - 1) (by omega)).1
      omega
    obtain ⟨sf', rfl⟩ : ∃ sf', sf = sf' + 1 + n := ⟨sf - 1 - n, by omega⟩
    rw [specDecodeLoop_run opts.validateUtf8Strings input n (sf' + 1) pos hs accS hcopy,
      specStalePairLoop_run opts.validateUtf8Strings input n (sf' + 1) pos _ stale hcopy]
    have hbuf1 : (old ++ h0 :: (gap ++ acc)) ++ bytesFrom input pos n
        = old ++ h0 :: (gap ++ (acc ++ bytesFrom input pos n)) := by simp
    rw [hbuf1] at hbulk
    rw [parseStringLoop, hbulk]
    dsimp only
    -- the state of the decoding behind the bytes of the bulk copy
    have hfresh : ∀ (hs1 : Nat),
        (if n = 0 then decide (hs ≠ 0) else false) = true → n = 0 ∧ hs ≠ 0 := by
      intro _ h
      by_cases hn0 : n = 0
      · rw [if_pos hn0] at h
        exact ⟨hn0, by simpa using h⟩
      · rw [if_neg hn0] at h
        cases h
    have hstale : (if n = 0 then stale else (decide (hs ≠ 0) || stale)) = false →
        (if n = 0 then hs else 0) = hs := by
      intro h
      by_cases hn0 : n = 0
      · rw [if_pos hn0]
      · rw [if_neg hn0] at h ⊢
        simp only [Bool.or_eq_false_iff, decide_eq_false_iff_not, ne_eq, not_not] at h
        exact h.1.symm
    have hhs' : (if n = 0 then hs else 0) = hs ∨ (if n = 0 then hs else 0) = 0 := by
      by_cases hn0 : n = 0
      · exact Or.inl (if_pos hn0)
      · exact Or.inr (if_neg hn0)
    generalize hgS : (if n = 0 then stale else (decide (hs ≠ 0) || stale)) = stale1 at hstale ⊢
    generalize hgF : (if n = 0 then decide (hs ≠ 0) else false) = fresh1 at hfresh ⊢
    generalize hgH : (if n = 0 then hs else 0) = hsS at hstale hhs' ⊢
    have hsame : acc = accS →
        acc ++ bytesFrom input pos n = accS ++ bytesFrom input pos n := fun h => by rw [h]
    have hl1 : large = true → 127 ≤ (acc ++ bytesFrom input pos n).length := by
      intro h
      have := hl h
      simp only [List.length_append]
      omega
    have hhs1 : hs ≠ 0 → 0xd800 ≤ hs ∧ hs < 0xdc00
        ∧ 3 ≤ (acc ++ bytesFrom input pos n).length := by
      intro h
      obtain ⟨a, b, c⟩ := hhs h
      refine ⟨a, b, ?_⟩
      simp only [List.length_append]
      omega
    generalize acc ++ bytesFrom input pos n = acc1 at hsame hl1 hhs1 ⊢
    generalize accS ++ bytesFrom input pos n = accS1 at hsame ⊢
    have hq : pos ≤ pos + n := Nat.le_add_right _ _
    have hsfq : input.length - (pos + n) < sf' + 1 := by omega
    generalize pos + n = q at hq hsfq ⊢
    clear hbulk hcopy hbuf1 hn
    by_cases hend : input.length ≤ q
    · -- the end of the input
      rw [getOneOrThrow_end _ (by simpa [Parser.size] using hend), specDecodeLoop,
        specStringToken_end _ _ _ hend]
      exact StringRefines_error _ _ _ _ _ _ _ _
    have hlt : (⟨input, q, ⟨old ++ h0 :: (gap ++ acc1), calls⟩, nesting⟩ : Parser).pos
        < (⟨input, q, ⟨old ++ h0 :: (gap ++ acc1), calls⟩, nesting⟩ : Parser).size := by
      simp only [Parser.size]
      omega
    rw [getOneOrThrow_of_lt _ hlt]
    dsimp only
    -- the promotion to the long form
    generalize hprom : (!large && decide ((⟨old ++ h0 :: (gap ++ acc1), calls⟩ : Builder).pos
      - (old.length + 1) > 126)) = promoted
    obtain ⟨gap1, hp3, hg1, hlp⟩ := promote_shape old large
      ⟨input, q + 1, ⟨old ++ h0 :: (gap ++ acc1), calls⟩, nesting⟩ h0 gap acc1 rfl hgap hl1
      promoted hprom.symm
    simp only at hp3
    rw [hp3]
    generalize (large || promoted) = large1 at hg1 hlp ⊢
    clear hprom hp3 hgap hl hl1 promoted
    have hfuel1 : ∀ m, 1 ≤ m → input.length - (q + m) < fuel := by
      intro m hm
      omega
    have hsf1 : ∀ m, 1 ≤ m → input.length - (q + m) < sf' := by
      intro m hm
      omega
    have hlg : ∀ (acc2 : Bytes), acc1.length ≤ acc2.length →
        large1 = true → 127 ≤ acc2.length := by
      intro acc2 h2 h
      have := hlp.mp h
      omega
    by_cases c22 : byteAt input q = 0x22
    · -- the closing quote
      rw [if_pos c22, specDecodeLoop, specStringToken_quote _ _ _ hend c22,
        finishString_shape old large1 _ h0 gap1 acc1 rfl hg1 hlp]
      exact StringRefines_ok _ _ _ _ _ _ _ _ _ hsame
    rw [if_neg c22]
    by_cases c5c : byteAt input q = 0x5c
    · -- an escape
      rw [if_pos c5c]
      by_cases hend1 : input.length ≤ q + 1
      · rw [consume_end_of _ (by simpa [Parser.size] using hend1), specDecodeLoop,
          specStringToken_backslash_end _ _ _ hend c5c hend1]
        exact StringRefines_error _ _ _ _ _ _ _ _
      have hlt1 : (⟨input, q + 1, ⟨old ++ h0 :: (gap1 ++ acc1), calls⟩, nesting⟩ : Parser).pos
          < (⟨input, q + 1, ⟨old ++ h0 :: (gap1 ++ acc1), calls⟩, nesting⟩ : Parser).size := by
        simp only [Parser.size]
        omega
      rw [consume_of_lt _ hlt1]
      dsimp only
      cases hse : specSimpleEscape (byteAt input (q + 1)) with
      | some b =>
        rw [parseEscape_simple _ b hs _ hse]
        dsimp only
        rw [specDecodeLoop, specStalePairLoop, specStringToken_escape _ _ _ b hend c5c hend1 hse]
        dsimp only
        have hst : (⟨input, q + 1 + 1, ⟨old ++ h0 :: (gap1 ++ acc1) ++ [b], calls⟩, nesting⟩ : Parser)
            = ⟨input, q + 2, ⟨old ++ h0 :: (gap1 ++ (acc1 ++ [b])), calls⟩, nesting⟩ := by
          simp
        rw [hst]
        refine StringRefines_mono _ _ _ _ _ _ _ _ _ _ ?_
          (ih sf' large1 0 (q + 2) h0 gap1 (acc1 ++ [b]) (accS1 ++ [b]) false
            (hfuel1 2 (by omega)) (hsf1 2 (by omega)) hg1
            (hlg _ (by simp)) (fun h => absurd rfl h))
        intro h1 h2
        exact ⟨by rw [hsame h1], by simpa using h2⟩
      | none =>
        by_cases hu : byteAt input (q + 1) = 0x75
        · obtain ⟨hx1, hx2⟩ := parseHex_spec
            ⟨input, q + 1 + 1, ⟨old ++ h0 :: (gap1 ++ acc1), calls⟩, nesting⟩
          simp only at hx1 hx2
          cases hx : specHex4 (bytesFrom input (q + 1 + 1) 4) with
          | some v =>
            obtain ⟨e1, e2, e3⟩ := hx1 v hx
            rw [hu, parseEscape_unicode_ok hs v _ _ e1,
              emitUnicode_spec v hs _ (old ++ h0 :: gap1) acc1 (by simp) e2 hhs1]
            dsimp only
            rw [specDecodeLoop, specStalePairLoop,
              specStringToken_unicode _ _ _ v hend c5c hend1 hse hu hx]
            dsimp only
            rw [specUnicode_fst v hs acc1, specUnicode_fst v hsS accS1]
            have hst : (⟨input, q + 1 + 1 + 4,
                ⟨old ++ h0 :: gap1 ++ (specUnicode v hs acc1).2, calls⟩, nesting⟩ : Parser)
                = ⟨input, q + 6, ⟨old ++ h0 :: (gap1 ++ (specUnicode v hs acc1).2), calls⟩,
                    nesting⟩ := by
              simp
            rw [hst]
            obtain ⟨l1, l2⟩ := specUnicode_length v hs acc1 e2 (fun h => (hhs1 h).2.2)
            refine StringRefines_mono _ _ _ _ _ _ _ _ _ _ ?_
              (ih sf' large1 (if 0xd800 ≤ v ∧ v < 0xdc00 then v else 0) (q + 6) h0 gap1
                (specUnicode v hs acc1).2 (specUnicode v hsS accS1).2 false
                (hfuel1 6 (by omega)) (hsf1 6 (by omega)) hg1
                (hlg _ (by omega)) (fun h => by
                  by_cases hh : 0xd800 ≤ v ∧ v < 0xdc00
                  · rw [if_pos hh]
                    exact ⟨hh.1, hh.2, l2 hh⟩
                  · rw [if_neg hh] at h
                    exact absurd rfl h))
            intro h1 h2
            have hacc := hsame h1
            by_cases hlow : 0xdc00 ≤ v ∧ v < 0xe000
            · rw [if_pos hlow] at h2
              have hnh : ¬ (0xd800 ≤ v ∧ v < 0xdc00) := by omega
              rw [if_neg hnh]
              cases hs1 : stale1 with
              | true => rw [hs1] at h2; simp at h2
              | false =>
                rw [hs1] at h2
                simp only [Bool.false_eq_true, if_false] at h2
                rw [← hstale hs1, hacc]
                exact ⟨rfl, by simpa using h2⟩
            · rw [if_neg hlow] at h2
              rw [specUnicode_not_low v hs acc1 hlow, specUnicode_not_low v hsS accS1 hlow, hacc]
              refine ⟨rfl, ?_⟩
              by_cases hh : 0xd800 ≤ v ∧ v < 0xdc00
              · rw [if_pos hh]
                have : decide ((v : Nat) ≠ 0) = true := by
                  simp only [decide_eq_true_eq]
                  omega
                rw [this]
                have hd : decide (0xd800 ≤ v ∧ v < 0xdc00) = true := by simpa using hh
                rw [hd] at h2
                exact h2
              · rw [if_neg hh]
                have hd : decide (0xd800 ≤ v ∧ v < 0xdc00) = false := by simpa using hh
                rw [hd] at h2
                simpa using h2
          | none =>
            obtain ⟨st, e1⟩ := hx2 hx
            rw [hu, parseEscape_unicode_error hs _ _ e1, specDecodeLoop,
              specStringToken_bad_hex _ _ _ hend c5c hend1 hse hu hx]
            exact StringRefines_error _ _ _ _ _ _ _ _
        · rw [parseEscape_other _ hs _ hse hu, specDecodeLoop,
            specStringToken_bad_escape _ _ _ hend c5c hend1 hse hu]
          exact StringRefines_error _ _ _ _ _ _ _ _
    rw [if_neg c5c]
    -- a byte that is neither the closing quote nor a backslash
    by_cases hctl : byteAt input q < 0x20
    · have hraw : parseRawByte opts (byteAt input q)
          ⟨input, q + 1, ⟨old ++ h0 :: (gap1 ++ acc1), calls⟩, nesting⟩
          = .error ⟨.UnexpectedControlCharacter,
              ⟨input, q + 1, ⟨old ++ h0 :: (gap1 ++ acc1), calls⟩, nesting⟩⟩ := by
        simp only [parseRawByte, control_low_bits _ hctl, hctl, if_true, Parser.fail]
      rw [hraw, specDecodeLoop, specStringToken_control _ _ _ hend hctl]
      exact StringRefines_error _ _ _ _ _ _ _ _
    by_cases hplain : byteAt input q < 0x80 ∨ opts.validateUtf8Strings = false
    · have hcp : isCopyable opts.validateUtf8Strings (byteAt input q) = true := by
        unfold isCopyable
        rcases hplain with h | h
        · simp [c22, c5c, h]
          omega
        · simp [c22, c5c, h]
          omega
      rw [parseRawByte_copyable opts _ _ (byteAt_lt _ _) hcp, put_byte _ _ (byteAt_lt _ _)]
      dsimp only
      rw [specDecodeLoop, specStalePairLoop,
        specStringToken_plain _ _ _ (by omega) hcp]
      dsimp only
      have hst : (⟨input, q + 1, ⟨old ++ h0 :: (gap1 ++ acc1) ++ [byteAt input q], calls⟩,
          nesting⟩ : Parser)
          = ⟨input, q + 1, ⟨old ++ h0 :: (gap1 ++ (acc1 ++ [byteAt input q])), calls⟩,
              nesting⟩ := by
        simp
      rw [hst]
      refine StringRefines_mono _ _ _ _ _ _ _ _ _ _ ?_
        (ih sf' large1 0 (q + 1) h0 gap1 (acc1 ++ [byteAt input q])
          (accS1 ++ [byteAt input q]) (fresh1 || stale1)
          (hfuel1 1 (by omega)) (hsf1 1 (by omega)) hg1
          (hlg _ (by simp)) (fun h => absurd rfl h))
      intro h1 h2
      refine ⟨by rw [hsame h1], ?_⟩
      simpa using h2
    -- a byte with the high bit set under validation
    have hv : opts.validateUtf8Strings = true := by
      cases h : opts.validateUtf8Strings with
      | true => rfl
      | false => exact absurd (Or.inr h) hplain
    have hge : 0x80 ≤ byteAt input q := by
      by_contra hc
      exact hplain (Or.inl (by omega))
    obtain ⟨hr1, hr2⟩ := parseRawByte_lead opts (byteAt input q)
      ⟨input, q + 1, ⟨old ++ h0 :: (gap1 ++ acc1), calls⟩, nesting⟩ hv hge (byteAt_lt _ _)
    rw [hv] at ih ⊢
    cases hf : specUtf8Follow (byteAt input q) with
    | none =>
      rw [hr1 hf, specDecodeLoop, specStringToken_bad_lead _ _ hend hge hf]
      exact StringRefines_error _ _ _ _ _ _ _ _
    | some k =>
      rw [hr2 k hf, put_byte _ _ (byteAt_lt _ _)]
      obtain ⟨hk1, hk2⟩ := specUtf8Follow_pos _ _ hf
      obtain ⟨f1, f2⟩ := parseFollow_spec k
        ⟨input, q + 1, ⟨old ++ h0 :: (gap1 ++ acc1) ++ [byteAt input q], calls⟩, nesting⟩
      simp only at f1 f2
      cases hfo : specFollowers input (q + 1) k with
      | some e =>
        obtain ⟨st, e1⟩ := f2 e hfo
        rw [e1, specDecodeLoop, specStringToken_bad_follow _ _ k e hend hge hf hfo]
        exact StringRefines_error _ _ _ _ _ _ _ _
      | none =>
        obtain ⟨e1, _⟩ := f1 hfo
        rw [e1]
        dsimp only
        rw [specDecodeLoop, specStalePairLoop,
          specStringToken_sequence _ _ k hend hge hf hfo]
        dsimp only
        have hlen : ¬ (bytesFrom input q (k + 1)).length = 1 := by
          rw [bytesFrom_length]
          omega
        rw [if_neg hlen]
        have hst : (⟨input, q + 1 + k,
            ⟨old ++ h0 :: (gap1 ++ acc1) ++ [byteAt input q] ++ bytesFrom input (q + 1) k, calls⟩,
            nesting⟩ : Parser)
            = ⟨input, q + (k + 1),
                ⟨old ++ h0 :: (gap1 ++ (acc1 ++ bytesFrom input q (k + 1))), calls⟩,
                nesting⟩ := by
          simp [bytesFrom, Nat.add_assoc, Nat.add_comm 1]
        rw [hst]
        refine StringRefines_mono _ _ _ _ _ _ _ _ _ _ ?_
          (ih sf' large1 0 (q + (k + 1)) h0 gap1 (acc1 ++ bytesFrom input q (k + 1))
            (accS1 ++ bytesFrom input q (k + 1)) false
            (hfuel1 _ (by omega)) (hsf1 _ (by omega)) hg1
            (hlg _ (by simp)) (fun h => absurd rfl h))
        intro h1 h2
        exact ⟨by rw [hsame h1], by simpa using h2⟩

end

section
open Parser

/-- The function `parseString` against the decoding of the specification: it accepts exactly
the strings that the decoding accepts, stops behind the closing quote and appends the bytes
of a String; it is rejected with the error of the decoding otherwise. -/
theorem parseString_refines (opts : Options) (p : Parser) :
    StringRefines p.input p.b.buf p.b.calls p.nesting
      (specDecode opts.validateUtf8Strings p.input p.pos)
      (specStalePair opts.validateUtf8Strings p.input p.pos) True
      (Parser.parseString opts p) := by
  obtain ⟨pi, pp, ⟨pb, pc⟩, pn⟩ := p
  have h := parseStringLoop_refines opts pb pi pc pn (pi.length - pp + 1) (pi.length - pp + 1)
    false 0 pp 0x40 [] [] [] false (by omega) (by omega) rfl (fun h => by cases h)
    (fun h => absurd rfl h)
  have hst : (⟨pi, pp, ⟨pb ++ 0x40 :: ([] ++ []), pc⟩, pn⟩ : Parser)
      = (⟨pi, pp, ⟨pb, pc⟩, pn⟩ : Parser).put 0x40 := by
    simp [Parser.put, Builder.push]
  rw [hst] at h
  refine StringRefines_mono _ _ _ _ _ _ _ _ _ _ (fun _ h2 => ⟨rfl, ?_⟩) h
  simpa [specStalePair] using h2

/-- C6: for every JSON string that parseString accepts, the bytes appended to the Builder
buffer are the bytes of a String with a payload P of L bytes: the head 0x40 + L followed by
P when L <= 126, and the head 0xbf, L as an 8-byte little-endian integer and P when
L >= 127, so that the long form is used exactly from 127 payload bytes on, wherever escapes
and surrogate rewinds occur. The accepted strings are those that the decoding of the
specification accepts, the cursor ends behind the closing quote, and P is the payload that
this decoding gives for the bytes of the input: the characters copied as they stand, the
bytes of the escapes and the 4-byte encodings of the surrogate pairs. (The one exception
is a string in which the escape of a low surrogate follows the escape of a high surrogate
with ordinary characters in between, see C33: its payload has the same form, but is not
stated here.) The loop never stops for lack of turns. -/
theorem parseString_header (opts : Options) (p : Parser) :
    (∀ p', Parser.parseString opts p = .ok p' →
        ∃ P e, specDecode opts.validateUtf8Strings p.input p.pos = .ok (P, e)
          ∧ ∃ P', p' = ⟨p.input, e, ⟨p.b.buf ++ specStringBytes P', p.b.calls⟩, p.nesting⟩
            ∧ (specStalePair opts.validateUtf8Strings p.input p.pos = false → P' = P))
    ∧ (∀ P e, specDecode opts.validateUtf8Strings p.input p.pos = .ok (P, e) →
        specStalePair opts.validateUtf8Strings p.input p.pos = false →
        Parser.parseString opts p
          = .ok ⟨p.input, e, ⟨p.b.buf ++ specStringBytes P, p.b.calls⟩, p.nesting⟩)
    ∧ (∀ P : List Nat, (P.length ≤ 126 → specStringBytes P = (0x40 + P.length) :: P)
        ∧ (127 ≤ P.length → specStringBytes P = 0xbf :: (littleEndianBytes 8 P.length ++ P)))
    ∧ (∀ f, Parser.parseString opts p = .error f → f.error ≠ .InternalError) := by
  obtain ⟨r1, r2⟩ := parseString_refines opts p
  refine ⟨?_, ?_, ?_, ?_⟩
  · intro p' h
    cases hd : specDecode opts.validateUtf8Strings p.input p.pos with
    | error err =>
      obtain ⟨st, hst⟩ := r2 err hd
      rw [hst] at h
      cases h
    | ok r =>
      obtain ⟨P, e⟩ := r
      obtain ⟨P', a, b⟩ := r1 P e hd
      rw [a] at h
      simp only [Except.ok.injEq] at h
      exact ⟨P, e, rfl, P', h.symm, fun hs => b trivial hs⟩
  · intro P e hd hs
    obtain ⟨P', a, b⟩ := r1 P e hd
    rw [a, b trivial hs]
  · intro P
    constructor
    · intro h
      unfold specStringBytes
      rw [if_pos h]
    · intro h
      unfold specStringBytes
      rw [if_neg (by omega)]
  · intro f h
    unfold Parser.parseString at h
    refine parseStringLoop_fuel opts _ _ false 0 (p.put 0x40) f ?_ h
    simp only [Parser.size, Parser.put]
    omega

end

section
open Parser

set_option maxRecDepth 100000 in
/-- The decoding of the string of 124 letters `a`, the escape `\n` and the escapes
`\ud83d\ude00` of a surrogate pair, closed by a quote and followed by a comma: the payload
has 129 bytes. -/
theorem specDecode_long_string :
    specDecode false
        (List.replicate 124 0x61 ++ [0x5c, 0x6e, 0x5c, 0x75, 0x64, 0x38, 0x33, 0x64, 0x5c, 0x75,
          0x64, 0x65, 0x30, 0x30, 0x22, 0x2c]) 0
      = .ok (List.replicate 124 0x61 ++ [0x0a, 0xf0, 0x9f, 0x98, 0x80], 139)
    ∧ specStalePair false
        (List.replicate 124 0x61 ++ [0x5c, 0x6e, 0x5c, 0x75, 0x64, 0x38, 0x33, 0x64, 0x5c, 0x75,
          0x64, 0x65, 0x30, 0x30, 0x22, 0x2c]) 0 = false
    ∧ specStringBytes (List.replicate 124 0x61 ++ [0x0a, 0xf0, 0x9f, 0x98, 0x80])
      = 0xbf :: 129 :: 0 :: 0 :: 0 :: 0 :: 0 :: 0 :: 0
          :: (List.replicate 124 0x61 ++ [0x0a, 0xf0, 0x9f, 0x98, 0x80]) := by
  refine ⟨by decide, by decide, by decide⟩

/-- The theorem of C6 on the string `a\n"` (`61 5c 6e 22`), whose payload of 2 bytes gets the
short form, and on a string of 124 letters `a`, the escape `\n` and a surrogate pair, whose
payload of 129 bytes gets the long form, the promotion taking place before the rewind of
the surrogate pair. -/
theorem parseString_header_witness :
    Parser.parseString {} ⟨[0x61, 0x5c, 0x6e, 0x22], 0, ⟨[0x18], []⟩, 0⟩
      = .ok ⟨[0x61, 0x5c, 0x6e, 0x22], 4, ⟨[0x18] ++ specStringBytes [0x61, 0x0a], []⟩, 0⟩
    ∧ Parser.parseString {}
        ⟨List.replicate 124 0x61 ++ [0x5c, 0x6e, 0x5c, 0x75, 0x64, 0x38, 0x33, 0x64, 0x5c, 0x75,
          0x64, 0x65, 0x30, 0x30, 0x22, 0x2c], 0, ⟨[0x18], []⟩, 0⟩
      = .ok ⟨List.replicate 124 0x61 ++ [0x5c, 0x6e, 0x5c, 0x75, 0x64, 0x38, 0x33, 0x64, 0x5c,
            0x75, 0x64, 0x65, 0x30, 0x30, 0x22, 0x2c], 139,
          ⟨[0x18] ++ specStringBytes
            (List.replicate 124 0x61 ++ [0x0a, 0xf0, 0x9f, 0x98, 0x80]), []⟩, 0⟩
    ∧ specStringBytes [0x61, 0x0a] = [0x42, 0x61, 0x0a]
    ∧ specStringBytes (List.replicate 124 0x61 ++ [0x0a, 0xf0, 0x9f, 0x98, 0x80])
      = 0xbf :: 129 :: 0 :: 0 :: 0 :: 0 :: 0 :: 0 :: 0
          :: (List.replicate 124 0x61 ++ [0x0a, 0xf0, 0x9f, 0x98, 0x80]) :=
  ⟨(parseString_header {} ⟨[0x61, 0x5c, 0x6e, 0x22], 0, ⟨[0x18], []⟩, 0⟩).2.1
      [0x61, 0x0a] 4 (by decide) (by decide),
   (parseString_header {}
      ⟨List.replicate 124 0x61 ++ [0x5c, 0x6e, 0x5c, 0x75, 0x64, 0x38, 0x33, 0x64, 0x5c, 0x75,
        0x64, 0x65, 0x30, 0x30, 0x22, 0x2c], 0, ⟨[0x18], []⟩, 0⟩).2.1
      (List.replicate 124 0x61 ++ [0x0a, 0xf0, 0x9f, 0x98, 0x80]) 139
      specDecode_long_string.1 specDecode_long_string.2.1,
   by decide, specDecode_long_string.2.2⟩

end

section
open Parser

/-! ### Properties of the decoding of the specification -/

theorem specStringToken_length (validate : Bool) (input : Bytes) (pos : Nat)
    (h : ¬ input.length ≤ pos) : 1 ≤ (specStringToken validate input pos).2 := by
  unfold specStringToken
  rw [if_neg h]
  repeat' split
  all_goals (dsimp only; omega)

theorem specStringToken_emits (validate : Bool) (input : Bytes) (pos n : Nat) (t : StringToken)
    (h : specStringToken validate input pos = (t, n))
    (ht : ∀ e, t ≠ .bad e) : ¬ input.length ≤ pos ∧ 1 ≤ n := by
  have hne : ¬ input.length ≤ pos := by
    intro hc
    rw [specStringToken_end validate input pos hc] at h
    simp only [Prod.mk.injEq] at h
    exact ht _ h.1.symm
  have := specStringToken_length validate input pos hne
  rw [h] at this
  exact ⟨hne, this⟩

/-- The bound on the number of units does not matter once it exceeds the number of bytes
left. -/
theorem specDecodeLoop_fuel (validate : Bool) (input : Bytes) :
    ∀ (f1 f2 pos hs : Nat) (acc : List Nat), input.length - pos < f1 →
      input.length - pos < f2 →
      specDecodeLoop validate input f1 pos hs acc = specDecodeLoop validate input f2 pos hs acc := by
  intro f1
  induction f1 with
  | zero => intro f2 pos hs acc h; omega
  | succ f1 ih =>
    intro f2 pos hs acc h1 h2
    obtain ⟨f2, rfl⟩ : ∃ k, f2 = k + 1 := ⟨f2 - 1, by omega⟩
    rw [specDecodeLoop, specDecodeLoop]
    rcases htok : specStringToken validate input pos with ⟨t, n⟩
    cases t with
    | quote => rfl
    | bad e => rfl
    | raw bytes =>
      obtain ⟨a, b⟩ := specStringToken_emits validate input pos n _ htok (fun e h => by cases h)
      exact ih f2 (pos + n) 0 _ (by omega) (by omega)
    | escape c =>
      obtain ⟨a, b⟩ := specStringToken_emits validate input pos n _ htok (fun e h => by cases h)
      exact ih f2 (pos + n) 0 _ (by omega) (by omega)
    | unicode v =>
      obtain ⟨a, b⟩ := specStringToken_emits validate input pos n _ htok (fun e h => by cases h)
      exact ih f2 (pos + n) _ _ (by omega) (by omega)

theorem specUnicode_frame (v hs : Nat) (A B : List Nat) (h : hs ≠ 0 → 3 ≤ B.length) :
    specUnicode v hs (A ++ B) = ((specUnicode v hs B).1, A ++ (specUnicode v hs B).2) := by
  unfold specUnicode
  by_cases c : 0xdc00 ≤ v ∧ v < 0xe000 ∧ hs ≠ 0
  · rw [if_pos c, if_pos c]
    have h3 := h c.2.2
    have hd : (A ++ B).length - 3 - A.length = B.length - 3 := by
      simp only [List.length_append]
      omega
    rw [List.take_append_eq_append_take, List.take_of_length_le (by
      simp only [List.length_append]; omega), hd]
    simp
  · rw [if_neg c, if_neg c]
    simp

/-- The payload decoded before a position stays in front of what is decoded behind it. -/
theorem specDecodeLoop_frame (validate : Bool) (input : Bytes) :
    ∀ (f pos hs : Nat) (A B : List Nat), (hs ≠ 0 → 3 ≤ B.length) →
      specDecodeLoop validate input f pos hs (A ++ B)
        = (specDecodeLoop validate input f pos hs B).map (fun r => (A ++ r.1, r.2)) := by
  intro f
  induction f with
  | zero => intro pos hs A B _; rfl
  | succ f ih =>
    intro pos hs A B h
    rw [specDecodeLoop, specDecodeLoop]
    rcases htok : specStringToken validate input pos with ⟨t, n⟩
    cases t with
    | quote => rfl
    | bad e => rfl
    | raw bytes =>
      dsimp only
      rw [List.append_assoc]
      exact ih (pos + n) 0 A _ (fun h => absurd rfl h)
    | escape c =>
      dsimp only
      rw [List.append_assoc]
      exact ih (pos + n) 0 A _ (fun h => absurd rfl h)
    | unicode v =>
      dsimp only
      rw [specUnicode_frame v hs A B h]
      dsimp only
      apply ih
      intro hne
      rw [specUnicode_fst] at hne
      by_cases hh : 0xd800 ≤ v ∧ v < 0xdc00
      · have c : ¬ (0xdc00 ≤ v ∧ v < 0xe000 ∧ hs ≠ 0) := by omega
        unfold specUnicode
        rw [if_neg c]
        have := specUtf8_length v (by omega)
        rw [if_neg (by omega), if_neg (by omega)] at this
        simp only [List.length_append]
        omega
      · rw [if_neg hh] at hne
        exact absurd rfl hne

/-- The decoding of a string passes through the state that the decoding of its units up to
a position `k` gives. -/
theorem specDecodeLoop_prefix (validate : Bool) (input : Bytes) (F : Nat) :
    ∀ (f pos k hs : Nat) (acc : List Nat) (hs1 : Nat) (acc1 : List Nat),
      specPrefixLoop validate input f pos k hs acc = some (hs1, acc1) →
      input.length - pos < F →
      pos ≤ k ∧ specDecodeLoop validate input F pos hs acc
        = specDecodeLoop validate input F k hs1 acc1 := by
  intro f
  induction f with
  | zero =>
    intro pos k hs acc hs1 acc1 h _
    simp only [specPrefixLoop] at h
    split_ifs at h with c
    simp only [Option.some.injEq, Prod.mk.injEq] at h
    obtain ⟨rfl, rfl⟩ := h
    subst c
    exact ⟨Nat.le_refl _, rfl⟩
  | succ f ih =>
    intro pos k hs acc hs1 acc1 h hF
    rw [specPrefixLoop] at h
    by_cases c : pos = k
    · rw [if_pos c] at h
      simp only [Option.some.injEq, Prod.mk.injEq] at h
      obtain ⟨rfl, rfl⟩ := h
      subst c
      exact ⟨Nat.le_refl _, rfl⟩
    · rw [if_neg c] at h
      by_cases c2 : k < pos
      · rw [if_pos c2] at h
        cases h
      · rw [if_neg c2] at h
        obtain ⟨F, rfl⟩ : ∃ m, F = m + 1 := ⟨F - 1, by omega⟩
        rcases htok : specStringToken validate input pos with ⟨t, n⟩
        rw [htok] at h
        have hstep : ∀ (hs2 : Nat) (acc2 : List Nat),
            (∀ e, t ≠ .bad e) →
            specPrefixLoop validate input f (pos + n) k hs2 acc2 = some (hs1, acc1) →
            specDecodeLoop validate input F (pos + n) hs2 acc2
              = specDecodeLoop validate input (F + 1) k hs1 acc1 ∧ pos ≤ k := by
          intro hs2 acc2 ht hp
          obtain ⟨a, b⟩ := specStringToken_emits validate input pos n _ htok ht
          obtain ⟨i1, i2⟩ := ih (pos + n) k hs2 acc2 hs1 acc1 hp (by omega : _ < F + 1)
          rw [← i2]
          exact ⟨specDecodeLoop_fuel validate input _ _ _ _ _ (by omega) (by omega), by omega⟩
        cases t with
        | quote => cases h
        | bad e => cases h
        | raw bytes =>
          obtain ⟨a, b⟩ := hstep _ _ (fun e h => by cases h) h
          refine ⟨b, ?_⟩
          rw [specDecodeLoop, htok]
          exact a
        | escape x =>
          obtain ⟨a, b⟩ := hstep _ _ (fun e h => by cases h) h
          refine ⟨b, ?_⟩
          rw [specDecodeLoop, htok]
          exact a
        | unicode v =>
          obtain ⟨a, b⟩ := hstep _ _ (fun e h => by cases h) h
          refine ⟨b, ?_⟩
          rw [specDecodeLoop, htok]
          exact a

/-- The decoding of a string in which a unit starts at `k`: it goes on at `k` with the
state that the units before `k` give. -/
theorem specDecode_prefix (validate : Bool) (input : Bytes) (pos k hs : Nat) (A : List Nat)
    (h : specPrefix validate input pos k = some (hs, A)) :
    pos ≤ k ∧ specDecode validate input pos
      = specDecodeLoop validate input (input.length - pos + 1) k hs A :=
  specDecodeLoop_prefix validate input _ _ pos k 0 [] hs A h (by omega)

/-- The decoding behind a unit that forgets the high surrogate: the payload so far, followed
by the payload of the rest of the string. -/
theorem specDecodeLoop_rest (validate : Bool) (input : Bytes) (F k : Nat) (A : List Nat)
    (hF : input.length - k < F) :
    (∀ X e, specDecode validate input k = .ok (X, e) →
      specDecodeLoop validate input F k 0 A = .ok (A ++ X, e))
    ∧ (∀ err, specDecode validate input k = .error err →
      specDecodeLoop validate input F k 0 A = .error err) := by
  have h1 := specDecodeLoop_frame validate input F k 0 A [] (fun h => absurd rfl h)
  rw [List.append_nil] at h1
  have h2 : specDecodeLoop validate input F k 0 []
      = specDecode validate input k :=
    specDecodeLoop_fuel validate input _ _ _ _ _ hF (by omega)
  rw [h1, h2]
  constructor
  · intro X e h
    rw [h]
    rfl
  · intro err h
    rw [h]
    rfl

theorem specUnicode_bmp (v hs : Nat) (acc : List Nat) (h : ¬ (0xd800 ≤ v ∧ v < 0xe000)) :
    specUnicode v hs acc = (0, acc ++ specUtf8 v) := by
  unfold specUnicode
  rw [if_neg (show ¬ (0xdc00 ≤ v ∧ v < 0xe000 ∧ hs ≠ 0) from fun c => h ⟨by omega, c.2.1⟩),
    if_neg (show ¬ (0xd800 ≤ v ∧ v < 0xdc00) from fun c => h ⟨c.1, by omega⟩)]

end

section
open Parser

end

section
open Parser

end

section
open Parser

theorem specSimpleEscape_ge (c b : Nat) (h : specSimpleEscape c = some b) : 0x22 ≤ c := by
  unfold specSimpleEscape at h
  split_ifs at h <;> omega

theorem hexDigitValue_control (c : Nat) (h : c < 0x20) : hexDigitValue c = none := by
  unfold hexDigitValue
  rw [if_neg (by omega), if_neg (by omega), if_neg (by omega)]

/-- The check of the continuation bytes meets a byte of another form at the position `k`. -/
theorem specFollowers_bad (input : Bytes) (k : Nat) (hk : k < input.length)
    (hbad : ¬ specContinuation (byteAt input k)) :
    ∀ (m pos : Nat), pos ≤ k → k < pos + m →
      (∀ i, pos ≤ i → i < k → specContinuation (byteAt input i)) →
      specFollowers input pos m = some .InvalidUtf8Sequence := by
  intro m
  induction m with
  | zero => intro pos h1 h2; omega
  | succ m ih =>
    intro pos h1 h2 hgood
    rw [specFollowers, if_neg (by omega)]
    by_cases c : pos = k
    · subst c
      rw [if_neg hbad]
    · rw [if_pos (hgood pos (Nat.le_refl _) (by omega))]
      exact ih (pos + 1) (by omega) (by omega) (fun i a b => hgood i (by omega) b)

/-- C23, as the code has it: let k be the position of a control byte (below 0x20) of the
input, at or behind the cursor of parseString. For both settings of validateUtf8Strings a
String is returned only if the closing quote stands before k, so that no string with a raw
control byte before its closing quote is accepted, and a failure is raised at the byte k at
the latest. When k is where a unit of the string starts, behind whatever characters,
escapes and multi-byte sequences, the failure is UnexpectedControlCharacter; behind ordinary
characters it is raised with the cursor behind k. When the control byte stands behind a
backslash or in the place of one of the four hex digits of a `\u` escape, the failure is
ParseError; when it stands, with validateUtf8Strings = true, in the place of a continuation
byte of a multi-byte sequence, the failure is InvalidUtf8Sequence. -/
theorem parseString_control_character (opts : Options) (p : Parser) (k : Nat)
    (hk : p.pos ≤ k) (hlt : k < p.size) (hctl : byteAt p.input k < 0x20) :
    (∀ q, Parser.parseString opts p = .ok q →
      q.pos ≤ k ∧ specNoControl p.input p.pos q.pos)
    ∧ (∀ f, Parser.parseString opts p = .error f → f.state.pos ≤ k + 1)
    ∧ (∀ hs A, specPrefix opts.validateUtf8Strings p.input p.pos k = some (hs, A) →
        ∃ st, Parser.parseString opts p = .error ⟨.UnexpectedControlCharacter, st⟩)
    ∧ ((∀ j, p.pos ≤ j → j < k →
          isCopyable opts.validateUtf8Strings (byteAt p.input j) = true) →
        ∃ st, Parser.parseString opts p = .error ⟨.UnexpectedControlCharacter, st⟩
          ∧ st.pos = k + 1)
    ∧ (∀ j hs A, specPrefix opts.validateUtf8Strings p.input p.pos j = some (hs, A) →
        byteAt p.input j = 0x5c →
        (k = j + 1 ∨ (byteAt p.input (j + 1) = 0x75 ∧ j + 2 ≤ k ∧ k ≤ j + 5)) →
        ∃ st, Parser.parseString opts p = .error ⟨.ParseError, st⟩)
    ∧ (∀ j hs A m, opts.validateUtf8Strings = true →
        specPrefix opts.validateUtf8Strings p.input p.pos j = some (hs, A) →
        0x80 ≤ byteAt p.input j → specUtf8Follow (byteAt p.input j) = some m →
        j < k → k ≤ j + m → (∀ i, j < i → i < k → specContinuation (byteAt p.input i)) →
        ∃ st, Parser.parseString opts p = .error ⟨.InvalidUtf8Sequence, st⟩) := by
  obtain ⟨s1, s2⟩ := parseStringLoop_scan opts p.b.pos (p.size - p.pos + 1) false 0 (p.put 0x40)
  obtain ⟨r1, r2⟩ := parseString_refines opts p
  have hF : p.input.length - p.pos + 1 = (p.input.length - p.pos) + 1 := rfl
  have hsz : k < p.input.length := hlt
  refine ⟨fun q h => ?_, fun f h => ?_, fun hs A hpre => ?_, fun hcopy => ?_,
    fun j hs A hpre hc0 hpos => ?_, fun j hs A m hv hpre hge hf hjk hkm hcont => ?_⟩
  · obtain ⟨_, b, c⟩ := s1 q h
    refine ⟨?_, c⟩
    by_contra hc
    have := c k hk (by omega)
    simp only [Parser.put] at this
    omega
  · obtain ⟨_, b, c⟩ := s2 f h
    by_contra hc
    have := c k hk (by omega)
    simp only [Parser.put] at this
    omega
  · obtain ⟨_, hdec⟩ := specDecode_prefix opts.validateUtf8Strings p.input p.pos k hs A hpre
    rw [hF, specDecodeLoop, specStringToken_control _ _ _ (by omega) hctl] at hdec
    exact r2 _ hdec
  · obtain ⟨st, e1, e2, _⟩ := parseStringLoop_control opts p.b.pos (p.size - p.pos + 1) false 0
      (p.put 0x40) k hk hlt (by simp only [Parser.put]; omega) hcopy hctl
    exact ⟨st, e1, e2⟩
  · obtain ⟨_, hdec⟩ := specDecode_prefix opts.validateUtf8Strings p.input p.pos j hs A hpre
    rw [hF, specDecodeLoop] at hdec
    have hend : ¬ p.input.length ≤ j := by
      rcases hpos with h | ⟨_, h, _⟩ <;> omega
    have hend1 : ¬ p.input.length ≤ j + 1 := by
      rcases hpos with h | ⟨_, h, _⟩ <;> omega
    rcases hpos with h | ⟨hu, h1, h2⟩
    · subst h
      have hse : specSimpleEscape (byteAt p.input (j + 1)) = none := by
        cases hx : specSimpleEscape (byteAt p.input (j + 1)) with
        | none => rfl
        | some b =>
          have := specSimpleEscape_ge _ _ hx
          omega
      rw [specStringToken_bad_escape _ _ _ hend hc0 hend1 hse (by omega)] at hdec
      exact r2 _ hdec
    · have hse : specSimpleEscape (byteAt p.input (j + 1)) = none := by rw [hu]; rfl
      have hx : specHex4 (bytesFrom p.input (j + 2) 4) = none := by
        rw [bytesFrom_four]
        have hn := hexDigitValue_control _ hctl
        obtain ⟨i, hi, rfl⟩ : ∃ i, i < 4 ∧ k = j + 2 + i := ⟨k - (j + 2), by omega, by omega⟩
        interval_cases i
        · simp only [Nat.add_zero] at hn
          simp [specHex4, hn]
        · simp only [specHex4, hn]
          split <;> simp_all
        · simp only [specHex4, hn]
          split <;> simp_all
        · simp only [specHex4, hn]
          split <;> simp_all
      rw [specStringToken_bad_hex _ _ _ hend hc0 hend1 hse hu hx] at hdec
      exact r2 _ hdec
  · obtain ⟨_, hdec⟩ := specDecode_prefix opts.validateUtf8Strings p.input p.pos j hs A hpre
    rw [hF, specDecodeLoop] at hdec
    have hbad : ¬ specContinuation (byteAt p.input k) := by
      unfold specContinuation
      omega
    have hfo := specFollowers_bad p.input k hsz hbad m (j + 1) (by omega) (by omega)
      (fun i a b => hcont i (by omega) b)
    rw [hv] at hdec r2
    rw [specStringToken_bad_follow _ _ m _ (by omega) hge hf hfo] at hdec
    exact r2 _ hdec

/-- The theorem of C23 on the string `"a\n\x01b"` (`22 61 5c 6e 01 62 22`), with the cursor
behind the opening quote and the control byte at the position 4, where a unit starts behind
a character and an escape: parseString fails with UnexpectedControlCharacter; on the string
`22 61 5c 75 30 01 30 30 22`, where the control byte stands in the place of the second hex
digit of a `\u` escape: ParseError; and, with validateUtf8Strings = true, on the string
`22 61 e2 82 01 22`, where it stands in the place of the second continuation byte of a
3-byte sequence: InvalidUtf8Sequence. -/
theorem parseString_control_character_witness :
    (∃ st, Parser.parseString {} ⟨[0x22, 0x61, 0x5c, 0x6e, 0x01, 0x62, 0x22], 1, ⟨[], []⟩, 0⟩
        = .error ⟨.UnexpectedControlCharacter, st⟩)
    ∧ (∃ st, Parser.parseString {}
          ⟨[0x22, 0x61, 0x5c, 0x75, 0x30, 0x01, 0x30, 0x30, 0x22], 1, ⟨[], []⟩, 0⟩
        = .error ⟨.ParseError, st⟩)
    ∧ (∃ st, Parser.parseString { validateUtf8Strings := true }
          ⟨[0x22, 0x61, 0xe2, 0x82, 0x01, 0x22], 1, ⟨[], []⟩, 0⟩
        = .error ⟨.InvalidUtf8Sequence, st⟩) :=
  ⟨(parseString_control_character {}
      ⟨[0x22, 0x61, 0x5c, 0x6e, 0x01, 0x62, 0x22], 1, ⟨[], []⟩, 0⟩
      4 (by decide) (by decide) (by decide)).2.2.1 0 [0x61, 0x0a] (by decide),
   (parseString_control_character {}
      ⟨[0x22, 0x61, 0x5c, 0x75, 0x30, 0x01, 0x30, 0x30, 0x22], 1, ⟨[], []⟩, 0⟩
      5 (by decide) (by decide) (by decide)).2.2.2.2.1 2 0 [0x61] (by decide) (by decide)
      (Or.inr (by decide)),
   (parseString_control_character { validateUtf8Strings := true }
      ⟨[0x22, 0x61, 0xe2, 0x82, 0x01, 0x22], 1, ⟨[], []⟩, 0⟩
      4 (by decide) (by decide) (by decide)).2.2.2.2.2 2 0 [0x61] 2 rfl (by decide) (by decide)
      (by decide) (by decide) (by decide) (fun i h1 h2 => by interval_cases i; decide)⟩

/-- C23 as stated fails at the string `"\xC3\x01"` (`22 c3 01 22`) with validateUtf8Strings =
true: the control byte 0x01 stands unescaped before the closing quote, no byte before it is
rejected, and parseString fails at it with InvalidUtf8Sequence, not with
UnexpectedControlCharacter. (Without validation the same string fails with
UnexpectedControlCharacter.) -/
theorem parseString_control_byte_as_continuation :
    byteAt [0x22, 0xc3, 0x01, 0x22] 2 < 0x20
    ∧ Parser.parseString { validateUtf8Strings := true }
        ⟨[0x22, 0xc3, 0x01, 0x22], 1, ⟨[], []⟩, 0⟩
      = .error ⟨.InvalidUtf8Sequence, ⟨[0x22, 0xc3, 0x01, 0x22], 3, ⟨[0x40, 0xc3], []⟩, 0⟩⟩
    ∧ (¬ ∃ st, Parser.parseString { validateUtf8Strings := true }
        ⟨[0x22, 0xc3, 0x01, 0x22], 1, ⟨[], []⟩, 0⟩
      = .error ⟨.UnexpectedControlCharacter, st⟩)
    ∧ parseInternal validatingEnv false ⟨[0x22, 0xc3, 0x01, 0x22], 0, ⟨[], []⟩, 0⟩
      = some (.error ⟨.InvalidUtf8Sequence,
          ⟨[0x22, 0xc3, 0x01, 0x22], 3, ⟨[0x40, 0xc3], []⟩, 0⟩⟩)
    ∧ Parser.parseString {} ⟨[0x22, 0xc3, 0x01, 0x22], 1, ⟨[], []⟩, 0⟩
      = .error ⟨.UnexpectedControlCharacter,
          ⟨[0x22, 0xc3, 0x01, 0x22], 3, ⟨[0x40, 0xc3], []⟩, 0⟩⟩ := by
  have h : Parser.parseString { validateUtf8Strings := true }
        ⟨[0x22, 0xc3, 0x01, 0x22], 1, ⟨[], []⟩, 0⟩
      = .error ⟨.InvalidUtf8Sequence, ⟨[0x22, 0xc3, 0x01, 0x22], 3, ⟨[0x40, 0xc3], []⟩, 0⟩⟩ := by
    decide
  refine ⟨by decide, h, ?_, by decide, by decide⟩
  rintro ⟨st, hst⟩
  rw [h] at hst
  cases hst

end

end Velocypack
